import Mathlib

/-! The majority-gate CEGAR encoder `ditt_maj_encoder` of percy.

A shallow embedding of `include/percy/encoders/ditt_maj_encoder.hpp`.

* C `int` values are modelled as natural numbers (or `Int` where the source
  uses `-1`); machine arithmetic is exact on every run that stays inside the
  arrays of size `MAJ_NOBJS` and where `1 << nr_in` is a defined `int`.
* The fixed-size arrays `level_dist`, `varMarks`, `vOutLits`, `sim_tts` are
  total maps from indices.
* A truth table is the map from a minterm index to the bit stored there.
* The SAT solver is a black box: a record of the answers of `add_clause` and
  `solve`, applied to the clauses it has received since `restart`.
-/

namespace percy

/-! ## Literals, clauses and their meaning -/

/-- The literal of variable `Var` with complement flag `c` (pabc::Abc_Var2Lit). -/
def Abc_Var2Lit (Var c : Nat) : Nat := Var + Var + c

/-- The complemented literal (pabc::Abc_LitNot). -/
def Abc_LitNot (Lit : Nat) : Nat := Lit ^^^ 1

/-- The variable of a literal (pabc::Abc_Lit2Var). -/
def Abc_Lit2Var (Lit : Nat) : Nat := Lit >>> 1

/-- Whether a literal is complemented (pabc::Abc_LitIsCompl). -/
def Abc_LitIsCompl (Lit : Nat) : Bool := Lit &&& 1 != 0

/-- Value of a literal under an assignment of the variables. -/
def lit_value (val : Nat → Bool) (Lit : Nat) : Bool :=
  val (Abc_Lit2Var Lit) != Abc_LitIsCompl Lit

/-- A clause holds when one of its literals does. -/
def clause_sat (val : Nat → Bool) (c : List Nat) : Bool := c.any (lit_value val)

/-- A clause list holds when each clause does. -/
def cnf_sat (val : Nat → Bool) (cs : List (List Nat)) : Bool := cs.all (clause_sat val)

/-! ## The C loops and arrays -/

/-- The loop `for (x = lo; x < hi; x++) s = body(s, x)`. -/
def for_loop {σ : Type} (lo hi : Nat) (body : σ → Nat → σ) (s : σ) : σ :=
  (List.range' lo (hi - lo)).foldl body s

/-- Array store `a[i] = v`. -/
def set1 {α : Type} (a : Nat → α) (i : Nat) (v : α) : Nat → α :=
  fun x => if x = i then v else a x

/-- Array store `a[i][k][j] = v`. -/
def set3 (a : Nat → Nat → Nat → Nat) (i k j v : Nat) : Nat → Nat → Nat → Nat :=
  fun x y z => if x = i ∧ y = k ∧ z = j then v else a x y z

/-! ## Truth tables (kitty) -/

/-- A truth table, as the map from minterm index to bit. -/
abbrev truth_table := Nat → Bool

/-- Bit `k` of the integer `iMint`: `(iMint >> k) & 1`. -/
def mint_bit (iMint k : Nat) : Nat := (iMint >>> k) &&& 1

/-- The projection on variable `i` (kitty::create_nth_var). -/
def create_nth_var (i : Nat) : truth_table := fun m => mint_bit m i == 1

/-- Bitwise majority of three truth tables (kitty::ternary_majority). -/
def ternary_majority (a b c : truth_table) : truth_table :=
  fun m => (a m && b m) || (a m && c m) || (b m && c m)

/-- Bit `i` of a truth table (kitty::get_bit). -/
def get_bit (tt : truth_table) (i : Nat) : Bool := tt i

/-- The number of ones among the `nVars` low bits of `iMint`
    (the counting loop of `Maj_ManValue`). -/
def count_bits (iMint nVars : Nat) : Nat :=
  for_loop 0 nVars (fun Count k => Count + mint_bit iMint k) 0

/-- Population count of the word holding the non-negative integer `w`
    (kitty::create_from_words followed by kitty::count_ones): the sum of all bits of `w`,
    which has no bit set at position `w` or above. -/
def count_ones (w : Nat) : Nat := count_bits w w

/-- The majority function on `n` variables (kitty::create_majority):
    bit `m` is set when more than `n / 2` of the input bits of `m` are. -/
def create_majority (n : Nat) : truth_table := fun m => decide (count_bits m n > n / 2)

/-! ## Specification, fence and encoder state -/

/-- The fields of `percy::spec` that the encoder reads. -/
structure spec where
  /-- Number of primary inputs. -/
  nr_in : Nat
  /-- Number of steps of the current trial. -/
  nr_steps : Nat
  /-- The target truth table `spec[0]`. -/
  out0 : truth_table

/-- A fence: the number of nodes on each level, lowest level first. -/
structure fence where
  /-- Level sizes. -/
  levels : List Nat

/-- Number of levels of a fence. -/
def fence.nr_levels (f : fence) : Nat := f.levels.length

/-- Number of nodes on level `i` of a fence (`f.at(i)`). -/
def fence.at_level (f : fence) (i : Nat) : Nat := f.levels.getD i 0

/-- Total number of nodes of a fence. -/
def fence.nr_nodes (f : fence) : Nat := f.levels.sum

/-- The number of objects the arrays of the encoder hold. -/
def MAJ_NOBJS : Nat := 32

/-- The mutable members of `ditt_maj_encoder`. -/
structure ditt_maj_encoder where
  /-- Exclusive upper index of each level. -/
  level_dist : Nat → Nat
  /-- Number of levels of the current fence. -/
  nr_levels : Nat
  /-- Per-source lists of selector literals. -/
  vOutLits : Nat → List Nat
  /-- Variable id of selector `(i, k, j)`, or 0. -/
  varMarks : Nat → Nat → Nat → Nat
  /-- Next free variable id. -/
  iVar : Nat
  /-- Simulation truth table of every object. -/
  sim_tts : Nat → truth_table

/-- Method `update_level_map`. -/
def update_level_map (e : ditt_maj_encoder) (sp : spec) (f : fence) : ditt_maj_encoder :=
  let e1 := { e with nr_levels := f.nr_levels, level_dist := set1 e.level_dist 0 sp.nr_in }
  for_loop 1 (e1.nr_levels + 1)
    (fun e i => { e with level_dist := set1 e.level_dist i (e.level_dist (i - 1) + f.at_level (i - 1)) })
    e1

/-- Method `get_level`: the first `i <= nr_levels` with `level_dist[i] > step_idx`,
    or `nr_levels + 1` when the loop runs to its end. -/
def get_level (e : ditt_maj_encoder) (sp : spec) (step_idx : Nat) : Nat :=
  if step_idx < sp.nr_in then 0
  else if step_idx = sp.nr_in then 1
  else
    match (List.range (e.nr_levels + 1)).find? (fun i => decide (e.level_dist i > step_idx)) with
    | some i => i
    | none => e.nr_levels + 1

/-- Method `first_step_on_level`. -/
def first_step_on_level (e : ditt_maj_encoder) (level : Nat) : Nat :=
  if level = 0 then 0 else e.level_dist (level - 1)

/-- The body shared by all allocation loops:
    `Vec_WecPush(vOutLits, j, Abc_Var2Lit(iVar, 0)); varMarks[i][k][j] = iVar++`. -/
def push_selector (e : ditt_maj_encoder) (i k j : Nat) : ditt_maj_encoder :=
  { e with
    vOutLits := set1 e.vOutLits j (e.vOutLits j ++ [Abc_Var2Lit e.iVar 0]),
    varMarks := set3 e.varMarks i k j e.iVar,
    iVar := e.iVar + 1 }

/-- The loop clearing every entry of `vOutLits` (it has `MAJ_NOBJS` entries). -/
def clear_out_lits (e : ditt_maj_encoder) : ditt_maj_encoder :=
  { e with vOutLits := fun _ => [] }

/-- Method `add_base_variables(spec)`, the layout without a fence. -/
def add_base_variables (e : ditt_maj_encoder) (sp : spec) : ditt_maj_encoder :=
  let e1 := { e with iVar := 1 }
  let e2 := for_loop 0 3 (fun e k => push_selector e sp.nr_in k (2 - k)) e1
  for_loop (sp.nr_in + 1) (sp.nr_in + sp.nr_steps)
    (fun e i =>
      for_loop 0 3 (fun e k =>
        for_loop 0 (i - k) (fun e j => push_selector e i k j) e) e)
    e2

/-- Method `add_base_variables(spec, fence)`, the layout under a fence
    (the fence itself has been read into `level_dist` by `update_level_map`). -/
def add_base_variables_fence (e : ditt_maj_encoder) (sp : spec) : ditt_maj_encoder :=
  let e0 := clear_out_lits e
  let e1 := { e0 with iVar := 1 }
  let e2 := for_loop 0 3 (fun e k => push_selector e sp.nr_in k (2 - k)) e1
  for_loop (sp.nr_in + 1) (sp.nr_in + sp.nr_steps)
    (fun e i =>
      let level := get_level e sp i
      let first_z := first_step_on_level e (level - 1)
      let e3 := for_loop first_z (first_step_on_level e level) (fun e z => push_selector e i 0 z) e
      for_loop 1 3 (fun e k =>
        for_loop 0 (i - k) (fun e j => push_selector e i k j) e) e3)
    e2

/-! ## The base CNF -/

/-- The literals `pLits[0 .. nLits)` that `add_base_cnf` collects for slot `(i, k)`. -/
def slot_lits (e : ditt_maj_encoder) (sp : spec) (i k : Nat) : List Nat :=
  (List.range (sp.nr_in + sp.nr_steps)).flatMap fun j =>
    if e.varMarks i k j ≠ 0 then [Abc_Var2Lit (e.varMarks i k j) 0] else []

/-- The clauses of the loops over `n < m < nLits`: no two literals of a slot together. -/
def at_most_one (pLits : List Nat) : List (List Nat) :=
  (List.range pLits.length).flatMap fun n =>
    (List.range' (n + 1) (pLits.length - (n + 1))).map fun m =>
      [Abc_LitNot (pLits.getD n 0), Abc_LitNot (pLits.getD m 0)]

/-- The clauses of the symmetry-breaking loops of slot `(i, k)`, `k < 2`. -/
def symmetry_breaking (e : ditt_maj_encoder) (sp : spec) (i k : Nat) : List (List Nat) :=
  (List.range (sp.nr_in + sp.nr_steps)).flatMap fun j =>
    if e.varMarks i k j ≠ 0 then
      (List.range' j (sp.nr_in + sp.nr_steps - j)).flatMap fun n =>
        if e.varMarks i (k + 1) n ≠ 0 then
          [[Abc_Var2Lit (e.varMarks i k j) 1, Abc_Var2Lit (e.varMarks i (k + 1) n) 1]]
        else []
    else []

/-- The clauses `add_base_cnf` passes to the solver for slot `(i, k)`, in order. -/
def slot_clauses (e : ditt_maj_encoder) (sp : spec) (i k : Nat) : List (List Nat) :=
  [slot_lits e sp i k] ++ at_most_one (slot_lits e sp i k) ++
    (if k = 2 then [] else symmetry_breaking e sp i k)

/-- The clauses of the final loop of `add_base_cnf`: one per non-empty entry of
    `vOutLits` below the last step. -/
def covering_clauses (e : ditt_maj_encoder) (sp : spec) : List (List Nat) :=
  (List.range (sp.nr_in + sp.nr_steps - 1)).flatMap fun i =>
    if (e.vOutLits i).length = 0 then [] else [e.vOutLits i]

/-- All clauses `add_base_cnf` passes to `add_clause`, in order. The method first
    clears `vOutLits`, then runs the slot loops, then the covering loop. -/
def add_base_cnf_clauses (e : ditt_maj_encoder) (sp : spec) : List (List Nat) :=
  let e1 := clear_out_lits e
  ((List.range' sp.nr_in sp.nr_steps).flatMap fun i =>
    (List.range 3).flatMap fun k => slot_clauses e1 sp i k) ++
  covering_clauses e1 sp

/-! ## The per-minterm CNF -/

/-- Method `Maj_ManValue`. -/
def Maj_ManValue (iMint nVars : Nat) : Nat :=
  if count_bits iMint nVars > nVars / 2 then 1 else 0

/-- The fanin-connectivity clauses of step `i` in `add_cnf`. The simulation variables
    of step `i` are `iVar + 4 * (i - nr_in) + 0 .. 3`. -/
def connectivity_clauses (e : ditt_maj_encoder) (sp : spec) (iMint i : Nat) : List (List Nat) :=
  let iBaseSatVarI := e.iVar + 4 * (i - sp.nr_in)
  (List.range 3).flatMap fun k =>
    (List.range (sp.nr_in + sp.nr_steps)).flatMap fun j =>
      if e.varMarks i k j ≠ 0 then
        let iBaseSatVarJ := e.iVar + 4 * (j - sp.nr_in)
        (List.range 2).flatMap fun n =>
          if j ≥ sp.nr_in then
            [[Abc_Var2Lit (e.varMarks i k j) 1, Abc_Var2Lit (iBaseSatVarI + k) n,
              Abc_Var2Lit (iBaseSatVarJ + 3) (1 - n)]]
          else if mint_bit iMint j = n then []
          else [[Abc_Var2Lit (e.varMarks i k j) 1, Abc_Var2Lit (iBaseSatVarI + k) n]]
      else []

/-- The node-functionality clauses of step `i` in `add_cnf`. -/
def functionality_clauses (e : ditt_maj_encoder) (sp : spec) (iMint i : Nat) : List (List Nat) :=
  let Value := Maj_ManValue iMint sp.nr_in
  let iBaseSatVarI := e.iVar + 4 * (i - sp.nr_in)
  (List.range 2).flatMap fun n =>
    if i = sp.nr_in + sp.nr_steps - 1 ∧ n = Value then []
    else
      (List.range 3).map fun k =>
        (if k ≠ 0 then [Abc_Var2Lit (iBaseSatVarI + 0) n] else []) ++
        (if k ≠ 1 then [Abc_Var2Lit (iBaseSatVarI + 1) n] else []) ++
        (if k ≠ 2 then [Abc_Var2Lit (iBaseSatVarI + 2) n] else []) ++
        (if i ≠ sp.nr_in + sp.nr_steps - 1 then [Abc_Var2Lit (iBaseSatVarI + 3) (1 - n)] else [])

/-- All clauses `add_cnf(spec, iMint)` passes to `add_clause`, in order. -/
def add_cnf_clauses (e : ditt_maj_encoder) (sp : spec) (iMint : Nat) : List (List Nat) :=
  (List.range' sp.nr_in sp.nr_steps).flatMap fun i =>
    connectivity_clauses e sp iMint i ++ functionality_clauses e sp iMint i

/-! ## The solver -/

/-- The SAT solver as a black box. Its state is the list of clauses passed to it since
    `restart`; `add_clause` answers whether the clause was accepted, `solve` answers
    `none` for failure or the model read back by `var_value`. -/
structure solver_wrapper where
  /-- Answer of `add_clause` given the clauses held and the new clause. -/
  add_clause : List (List Nat) → List Nat → Bool
  /-- Answer of `solve(0)` given the clauses held. -/
  solve : List (List Nat) → Option (Nat → Bool)

/-- Pass clauses to `add_clause` in order, stopping at the first `false` answer.
    Returns whether all were accepted, and the clauses the solver then holds. -/
def add_clauses (S : solver_wrapper) : List (List Nat) → List (List Nat) → Bool × List (List Nat)
  | [], st => (true, st)
  | c :: cs, st =>
    if S.add_clause st c then add_clauses S cs (st ++ [c]) else (false, st ++ [c])

/-- Method `add_base_cnf`: `none` when an `assert(false)` is hit. -/
def add_base_cnf (S : solver_wrapper) (st : List (List Nat)) (e : ditt_maj_encoder) (sp : spec) :
    Option (ditt_maj_encoder × List (List Nat)) :=
  match add_clauses S (add_base_cnf_clauses e sp) st with
  | (true, st1) => some (clear_out_lits e, st1)
  | (false, _) => none

/-- Method `add_cnf`: on a `false` answer of `add_clause` it returns `false` at once and
    leaves `iVar` as it was. -/
def add_cnf (S : solver_wrapper) (st : List (List Nat)) (e : ditt_maj_encoder) (sp : spec)
    (iMint : Nat) : Bool × ditt_maj_encoder × List (List Nat) :=
  match add_clauses S (add_cnf_clauses e sp iMint) st with
  | (true, st1) => (true, { e with iVar := e.iVar + 4 * sp.nr_steps }, st1)
  | (false, st1) => (false, e, st1)

/-- The part of `cegar_encode` before the layout: `memset(varMarks, 0, ..)` and the
    reset of the simulation tables (zero tables, projections for the inputs). -/
def cegar_reset (e : ditt_maj_encoder) (sp : spec) : ditt_maj_encoder :=
  let e1 := { e with varMarks := fun _ _ _ => 0 }
  for_loop 0 (sp.nr_in + sp.nr_steps)
    (fun e i =>
      let tt : truth_table := if i < sp.nr_in then create_nth_var i else fun _ => false
      { e with sim_tts := set1 e.sim_tts i tt })
    e1

/-- The encoder state in which `cegar_encode(spec)` calls `add_base_cnf`. -/
def cegar_layout (e : ditt_maj_encoder) (sp : spec) : ditt_maj_encoder :=
  add_base_variables (cegar_reset e sp) sp

/-- The encoder state in which `cegar_encode(spec, fence)` calls `add_base_cnf`. -/
def cegar_layout_fence (e : ditt_maj_encoder) (sp : spec) (f : fence) : ditt_maj_encoder :=
  add_base_variables_fence (update_level_map (cegar_reset e sp) sp f) sp

/-- Method `cegar_encode(spec)`: `none` when an assertion fails, else the returned
    flag (always `true`), the encoder and the solver state. -/
def cegar_encode (S : solver_wrapper) (st : List (List Nat)) (e : ditt_maj_encoder) (sp : spec) :
    Option (Bool × ditt_maj_encoder × List (List Nat)) :=
  match add_base_cnf S st (cegar_layout e sp) sp with
  | some (e1, st1) => some (true, e1, st1)
  | none => none

/-- Method `cegar_encode(spec, fence)`. -/
def cegar_encode_fence (S : solver_wrapper) (st : List (List Nat)) (e : ditt_maj_encoder)
    (sp : spec) (f : fence) : Option (Bool × ditt_maj_encoder × List (List Nat)) :=
  match add_base_cnf S st (cegar_layout_fence e sp f) sp with
  | some (e1, st1) => some (true, e1, st1)
  | none => none

/-! ## Decoding and simulation -/

/-- The loop of `find_fanin`: the last selected source and the number of selected
    sources of slot `(i, k)` under the model `val`. -/
def find_fanin_loop (e : ditt_maj_encoder) (sp : spec) (val : Nat → Bool) (i k : Nat) : Int × Nat :=
  for_loop 0 (sp.nr_in + sp.nr_steps)
    (fun (s : Int × Nat) j =>
      if e.varMarks i k j ≠ 0 ∧ val (e.varMarks i k j) = true then ((j : Int), s.2 + 1) else s)
    (-1, 0)

/-- Method `find_fanin`: `none` when `assert(count == 1)` fails. -/
def find_fanin (e : ditt_maj_encoder) (sp : spec) (val : Nat → Bool) (i k : Nat) : Option Nat :=
  let r := find_fanin_loop e sp val i k
  if r.2 = 1 then some r.1.toNat else none

/-- One round of the first loop of `simulate`: decode the fanins of step `i` and
    store the majority of their tables. -/
def simulate_step (sp : spec) (val : Nat → Bool) (e : ditt_maj_encoder) (i : Nat) :
    Option ditt_maj_encoder :=
  match find_fanin e sp val i 0, find_fanin e sp val i 1, find_fanin e sp val i 2 with
  | some f0, some f1, some f2 =>
    let tt := ternary_majority (e.sim_tts f0) (e.sim_tts f1) (e.sim_tts f2)
    some { e with sim_tts := set1 e.sim_tts i tt }
  | _, _, _ => none

/-- The first loop of `simulate`, over the steps in index order. -/
def simulate_tts (e : ditt_maj_encoder) (sp : spec) (val : Nat → Bool) : Option ditt_maj_encoder :=
  (List.range' sp.nr_in sp.nr_steps).foldlM (simulate_step sp val) e

/-- The second loop of `simulate`: the first `i` in `[1, 2^nr_in)` whose number of
    ones is neither below `nr_in / 2` nor above `nr_in / 2 + 1` and at which the last
    step differs from `spec[0]`; `-1` when the loop ends without a `break`. -/
def first_difference (e : ditt_maj_encoder) (sp : spec) : Int :=
  match (List.range' 1 (2 ^ sp.nr_in - 1)).find? (fun i =>
      let nOnes := count_ones i
      !(decide (nOnes < sp.nr_in / 2) || decide (nOnes > sp.nr_in / 2 + 1)) &&
      !(get_bit (e.sim_tts (sp.nr_in + sp.nr_steps - 1)) i == get_bit sp.out0 i)) with
  | some i => (i : Int)
  | none => -1

/-- Method `simulate`: `none` when an assertion fails, else the returned minterm
    (or `-1`) and the encoder with its updated tables. -/
def simulate (e : ditt_maj_encoder) (sp : spec) (val : Nat → Bool) : Option (Int × ditt_maj_encoder) :=
  match simulate_tts e sp val with
  | none => none
  | some e1 =>
    let iMint := first_difference e1 sp
    if iMint < 2 ^ sp.nr_in then some (iMint, e1) else none

/-- The encoder as its constructor leaves it (members it does not set taken as zero). -/
def fresh_encoder : ditt_maj_encoder :=
  ⟨fun _ => 0, 0, fun _ => [], fun _ _ _ => 0, 0, fun _ _ => false⟩

/-! ## The driver `ditt_maj_synthesize` -/

/-- How the work on one fence ends. -/
inductive fence_outcome where
  /-- The inner loop ended with `iMint == -1`: the driver prints "found solution!" and
      stops. Carries the number of calls of `add_cnf` and the final encoder state. -/
  | found (nr_calls : Nat) (e : ditt_maj_encoder)
  /-- The inner loop was left by a `break` (or `cegar_encode` returned false): the
      driver goes on with the next fence. Carries the encoder state at that point. -/
  | next_fence (e : ditt_maj_encoder)
  /-- An assertion failed: the program aborts. -/
  | assert_failed
  /-- The model ran out of fuel before the loop ended. -/
  | out_of_fuel

/-- The inner loop `for (int i = 0; iMint != -1; i++)` of the driver; `fuel` bounds the
    number of times its condition is evaluated. -/
def cegar_loop (S : solver_wrapper) (sp : spec) :
    Nat → ditt_maj_encoder → List (List Nat) → Int → Nat → fence_outcome
  | 0, _, _, _, _ => fence_outcome.out_of_fuel
  | fuel + 1, e, st, iMint, i =>
    if iMint = -1 then fence_outcome.found i e
    else
      match add_cnf S st e sp iMint.toNat with
      | (false, e1, _) => fence_outcome.next_fence e1
      | (true, e1, st1) =>
        match S.solve st1 with
        | none => fence_outcome.next_fence e1
        | some val =>
          match simulate e1 sp val with
          | none => fence_outcome.assert_failed
          | some (m, e2) => cegar_loop S sp fuel e2 st1 m (i + 1)

/-- One round of the outer loop of the driver for the fence `f`: set `nr_steps`,
    restart the solver, encode, run the inner loop from `iMint = 0`. -/
def try_fence (S : solver_wrapper) (nr_in : Nat) (target : truth_table) (e : ditt_maj_encoder)
    (f : fence) (fuel : Nat) : fence_outcome :=
  match cegar_encode_fence S [] e ⟨nr_in, f.nr_nodes, target⟩ f with
  | none => fence_outcome.assert_failed
  | some (false, e1, _) => fence_outcome.next_fence e1
  | some (true, e1, st1) => cegar_loop S ⟨nr_in, f.nr_nodes, target⟩ fuel e1 st1 0 0

/-- How the driver ends. -/
inductive synth_outcome where
  /-- It printed "found solution!" while working on the fence with this index in the
      stream of the generator, after this many calls of `add_cnf` on that fence. -/
  | found (fence_index nr_calls : Nat) (e : ditt_maj_encoder)
  /-- An assertion failed. -/
  | aborted
  /-- The model ran out of fuel. -/
  | out_of_fuel

/-- The outer loop `while (true)` of `ditt_maj_synthesize`, from the fence with index `t`
    of the generator's stream `g` on; `rounds` bounds the number of fences tried and
    `fuel` the inner loop on each. The target is the majority function. -/
def synthesize_loop (S : solver_wrapper) (g : Nat → fence) (nr_in fuel : Nat) :
    Nat → Nat → ditt_maj_encoder → synth_outcome
  | 0, _, _ => synth_outcome.out_of_fuel
  | rounds + 1, t, e =>
    match try_fence S nr_in (create_majority nr_in) e (g t) fuel with
    | fence_outcome.found n e1 => synth_outcome.found t n e1
    | fence_outcome.next_fence e1 => synthesize_loop S g nr_in fuel rounds (t + 1) e1
    | fence_outcome.assert_failed => synth_outcome.aborted
    | fence_outcome.out_of_fuel => synth_outcome.out_of_fuel

/-- Function `ditt_maj_synthesize(nr_in)`, given the solver and the stream of fences
    that `po_filter<unbounded_generator>` yields. -/
def ditt_maj_synthesize (S : solver_wrapper) (g : Nat → fence) (nr_in fuel rounds : Nat) :
    synth_outcome :=
  synthesize_loop S g nr_in fuel rounds 0 fresh_encoder

/-- The solver answers truthfully: a clause is refused only when the clauses held become
    unsatisfiable with it, a model returned satisfies the clauses held, and a failure is
    reported only when they are unsatisfiable. -/
structure solver_correct (S : solver_wrapper) : Prop where
  /-- A refused clause makes the clause set unsatisfiable. -/
  add_clause_sound : ∀ cs c, S.add_clause cs c = false → ¬ ∃ val, cnf_sat val (cs ++ [c]) = true
  /-- A model returned satisfies the clauses held. -/
  solve_sound : ∀ cs val, S.solve cs = some val → cnf_sat val cs = true
  /-- Failure is reported only for an unsatisfiable clause set. -/
  solve_complete : ∀ cs, S.solve cs = none → ¬ ∃ val, cnf_sat val cs = true

/-- One more than the largest variable of a clause list. -/
def vars_bound (cs : List (List Nat)) : Nat :=
  (cs.flatMap id).foldl (fun b l => max b (Abc_Lit2Var l + 1)) 0

/-- All assignments of the variables below `n` (false from `n` on). -/
def all_models : Nat → List (Nat → Bool)
  | 0 => [fun _ => false]
  | n + 1 => (all_models n).flatMap fun a => [a, fun v => if v = n then true else a v]

/-- A reference solver: it accepts every clause and solves by trying all assignments
    of the variables that occur. -/
def brute_solver : solver_wrapper :=
  ⟨fun _ _ => true, fun cs => (all_models (vars_bound cs)).find? fun a => cnf_sat a cs⟩

/-- A reference solver that also answers `add_clause` truthfully: it refuses a clause
    exactly when the clauses held become unsatisfiable with it, and solves by trying all
    assignments of the variables that occur. -/
def strict_solver : solver_wrapper :=
  ⟨fun cs c => (all_models (vars_bound (cs ++ [c]))).any fun a => cnf_sat a (cs ++ [c]),
    fun cs => (all_models (vars_bound cs)).find? fun a => cnf_sat a cs⟩

/-! ## Auxiliary definitions for the proofs -/

/-- Allocation of a list of selectors `(i, k, j)` in order. -/
def push_selectors (e : ditt_maj_encoder) (ts : List (Nat × Nat × Nat)) : ditt_maj_encoder :=
  ts.foldl (fun e t => push_selector e t.1 t.2.1 t.2.2) e

/-- The selectors of the first step, in allocation order. -/
def first_step_selectors (sp : spec) : List (Nat × Nat × Nat) :=
  (List.range' 0 (3 - 0)).map fun k => (sp.nr_in, k, 2 - k)

/-- The selectors of slot `k` of a later step `i`, sources `0 .. i - k - 1`. -/
def slot_selectors (i k : Nat) : List (Nat × Nat × Nat) :=
  (List.range' 0 (i - k - 0)).map fun j => (i, k, j)

/-- The selectors of a later step `i` without a fence, in allocation order. -/
def step_selectors (i : Nat) : List (Nat × Nat × Nat) :=
  (List.range' 0 (3 - 0)).flatMap fun k => slot_selectors i k

/-- The selectors of a later step `i` under the fence held by `e`, in allocation order. -/
def step_selectors_fence (e : ditt_maj_encoder) (sp : spec) (i : Nat) : List (Nat × Nat × Nat) :=
  ((List.range' (first_step_on_level e (get_level e sp i - 1))
      (first_step_on_level e (get_level e sp i) - first_step_on_level e (get_level e sp i - 1))).map
    fun z => (i, 0, z)) ++
  (List.range' 1 (3 - 1)).flatMap fun k => slot_selectors i k

/-- All selectors of the layout without a fence, in allocation order. -/
def layout_selectors (sp : spec) : List (Nat × Nat × Nat) :=
  first_step_selectors sp ++
  (List.range' (sp.nr_in + 1) (sp.nr_in + sp.nr_steps - (sp.nr_in + 1))).flatMap step_selectors

/-- All selectors of the layout under the fence held by `e`, in allocation order. -/
def layout_selectors_fence (e : ditt_maj_encoder) (sp : spec) : List (Nat × Nat × Nat) :=
  first_step_selectors sp ++
  (List.range' (sp.nr_in + 1) (sp.nr_in + sp.nr_steps - (sp.nr_in + 1))).flatMap
    (step_selectors_fence e sp)

/-- What the clauses of slot `(i, k)` say about a model: some allocated selector is
    true, no two are, and (for `k < 2`) no selector of the next slot with an equal or
    larger source is true together with one of this slot. -/
def slot_ok (e : ditt_maj_encoder) (sp : spec) (val : Nat → Bool) (i k : Nat) : Prop :=
  (∃ j, j < sp.nr_in + sp.nr_steps ∧ e.varMarks i k j ≠ 0 ∧ val (e.varMarks i k j) = true) ∧
  (∀ a b, a < b → b < sp.nr_in + sp.nr_steps → e.varMarks i k a ≠ 0 → e.varMarks i k b ≠ 0 →
    ¬ (val (e.varMarks i k a) = true ∧ val (e.varMarks i k b) = true)) ∧
  (k ≠ 2 → ∀ j n, j ≤ n → n < sp.nr_in + sp.nr_steps → e.varMarks i k j ≠ 0 →
    e.varMarks i (k + 1) n ≠ 0 →
    ¬ (val (e.varMarks i k j) = true ∧ val (e.varMarks i (k + 1) n) = true))

/-- The encoder holds the selector table laid out by `cegar_encode`, without a fence or
    under some fence. Later methods (`add_base_cnf`, `add_cnf`, `simulate`) keep it. -/
def has_layout (e : ditt_maj_encoder) (sp : spec) : Prop :=
  ∃ e0 : ditt_maj_encoder, e.varMarks = (cegar_layout e0 sp).varMarks ∨
    ∃ f : fence, e.varMarks = (cegar_layout_fence e0 sp f).varMarks

/-- The assignment that makes exactly the listed variables true. -/
def model_of (vars : List Nat) : Nat → Bool := fun v => vars.contains v

/-- Minterm `x` is bitwise below minterm `y`. -/
def sub_mint (x y : Nat) : Prop := ∀ k, mint_bit x k ≤ mint_bit y k

/-- A truth table is monotone: raising input bits never lowers the output. -/
def tt_monotone (t : truth_table) : Prop := ∀ x y, sub_mint x y → t x = true → t y = true

/-- The source decoded for slot `(i, k)`; 0 when the assertion of `find_fanin` fails. -/
def fanin_of (e : ditt_maj_encoder) (sp : spec) (val : Nat → Bool) (i k : Nat) : Nat :=
  (find_fanin e sp val i k).getD 0

/-- Every slot of every step decodes, under `val`, to a source below the step. -/
def decodes (e : ditt_maj_encoder) (sp : spec) (val : Nat → Bool) : Prop :=
  ∀ i, sp.nr_in ≤ i → i < sp.nr_in + sp.nr_steps → ∀ k, k < 3 →
    ∃ j, find_fanin e sp val i k = some j ∧ j < i

/-- Two encoder states that differ at most in their simulation tables. -/
def same_but_tts (e e2 : ditt_maj_encoder) : Prop :=
  e2.varMarks = e.varMarks ∧ e2.iVar = e.iVar ∧ e2.vOutLits = e.vOutLits ∧
  e2.level_dist = e.level_dist ∧ e2.nr_levels = e.nr_levels

/-- Minterm `m` is one the second loop of `simulate` stops at: it lies in `[1, 2^nr_in)`,
    its weight is neither below `nr_in / 2` nor above `nr_in / 2 + 1`, and the table of
    the last step differs there from `spec[0]`. -/
def balanced_difference (e : ditt_maj_encoder) (sp : spec) (m : Nat) : Prop :=
  1 ≤ m ∧ m < 2 ^ sp.nr_in ∧
  sp.nr_in / 2 ≤ count_bits m sp.nr_in ∧ count_bits m sp.nr_in ≤ sp.nr_in / 2 + 1 ∧
  get_bit (e.sim_tts (sp.nr_in + sp.nr_steps - 1)) m ≠ get_bit sp.out0 m

/-- Majority of three bits. -/
def maj3 (a b c : Bool) : Bool := (a && b) || (a && c) || (b && c)

/-- The values of the simulation variables of one call of `add_cnf` that follow the
    chain: `F[i,k]` is the value of the `k`-th decoded fanin of step `i` and `F[i,3]` the
    value of step `i`, both read from the tables `T` at minterm `m`. Other variables keep
    their value under `val`. -/
def sim_model (e : ditt_maj_encoder) (sp : spec) (val : Nat → Bool) (T : Nat → truth_table)
    (m : Nat) : Nat → Bool := fun v =>
  if e.iVar ≤ v ∧ v < e.iVar + 4 * sp.nr_steps then
    (if (v - e.iVar) % 4 = 3 then T (sp.nr_in + (v - e.iVar) / 4) m
     else T (fanin_of e sp val (sp.nr_in + (v - e.iVar) / 4) ((v - e.iVar) % 4)) m)
  else val v

/-! ## Chains of majority gates and fence profiles -/

/-- Exclusive upper index of level `t` of a fence over `nr_in` inputs:
    `nr_in + l_1 + ... + l_t`. -/
def fence_dist (f : fence) (nr_in t : Nat) : Nat := nr_in + (f.levels.take t).sum

/-- Index `j` lies on level `t` of the profile of `f`: level 0 holds the inputs
    `0 .. nr_in - 1`, level `t >= 1` the indices from `fence_dist (t - 1)` up to, not
    including, `fence_dist t`. -/
def on_level (f : fence) (nr_in t j : Nat) : Prop :=
  (if t = 0 then 0 else fence_dist f nr_in (t - 1)) ≤ j ∧ j < fence_dist f nr_in t

/-- The fence has positive level sizes that sum to `nr_steps`. -/
def fence_valid (f : fence) (sp : spec) : Prop :=
  (∀ l ∈ f.levels, 0 < l) ∧ f.nr_nodes = sp.nr_steps

/-- The largest of three indices. -/
def max3 (a b c : Nat) : Nat := max a (max b c)

/-- The smallest of three indices. -/
def min3 (a b c : Nat) : Nat := min a (min b c)

/-- The tables of a chain of majority gates: `fanin i k` is the `k`-th fanin of step
    `i`; inputs carry their projections and the steps are evaluated in index order. -/
def chain_tts (nr_in nr_steps : Nat) (fanin : Nat → Nat → Nat) : Nat → truth_table :=
  for_loop nr_in (nr_in + nr_steps)
    (fun T i => set1 T i (ternary_majority (T (fanin i 0)) (T (fanin i 1)) (T (fanin i 2))))
    create_nth_var

/-- A chain follows the level profile of the fence: every step, on its level `t`, has
    three distinct fanins, the largest of them on level `t - 1`. -/
def follows_fence (f : fence) (nr_in : Nat) (fanin : Nat → Nat → Nat) : Prop :=
  ∀ t i, 1 ≤ t → t ≤ f.nr_levels → on_level f nr_in t i →
    fanin i 0 ≠ fanin i 1 ∧ fanin i 0 ≠ fanin i 2 ∧ fanin i 1 ≠ fanin i 2 ∧
    on_level f nr_in (t - 1) (max3 (fanin i 0) (fanin i 1) (fanin i 2))

/-- The clauses of successive calls `add_cnf(spec, m)`, one per minterm of the list, each
    call starting at the `iVar` the previous one left. -/
def cegar_clauses (e : ditt_maj_encoder) (sp : spec) : List Nat → List (List Nat)
  | [] => []
  | m :: ms =>
    add_cnf_clauses e sp m ++ cegar_clauses { e with iVar := e.iVar + 4 * sp.nr_steps } sp ms

/-- The transposition of the indices `p` and `q`. -/
def sw (p q x : Nat) : Nat := if x = p then q else if x = q then p else x

/-- The minterm `m` with its bits `p` and `q` exchanged. -/
def swap_mint (m p q : Nat) : Nat :=
  if mint_bit m p = mint_bit m q then m else (m ^^^ 2 ^ p) ^^^ 2 ^ q

/-- The middle one of three indices. -/
def mid3 (a b c : Nat) : Nat := a + b + c - max3 a b c - min3 a b c

/-- The fanins of every step in decreasing order. -/
def sorted_fanin (fanin : Nat → Nat → Nat) : Nat → Nat → Nat := fun i k =>
  if k = 0 then max3 (fanin i 0) (fanin i 1) (fanin i 2)
  else if k = 1 then mid3 (fanin i 0) (fanin i 1) (fanin i 2)
  else min3 (fanin i 0) (fanin i 1) (fanin i 2)

/-- The tables `T` are those of a chain with fanins `fanin` that follows the fence and
    computes the majority function at its last step. -/
def realizes (f : fence) (sp : spec) (fanin : Nat → Nat → Nat) (T : Nat → truth_table) : Prop :=
  follows_fence f sp.nr_in fanin ∧
  (∀ x, x < sp.nr_in → T x = create_nth_var x) ∧
  (∀ i, sp.nr_in ≤ i → i < sp.nr_in + sp.nr_steps →
    T i = ternary_majority (T (fanin i 0)) (T (fanin i 1)) (T (fanin i 2))) ∧
  (∀ m, m < 2 ^ sp.nr_in → T (sp.nr_in + sp.nr_steps - 1) m = create_majority sp.nr_in m)

/-- The model of a chain: a selector `S[i,k,j]` is true when `j` is the `k`-th fanin of
    step `i`; the simulation variables of the `c`-th call of `add_cnf` carry the values
    of the chain at the `c`-th minterm of `M`. -/
def chain_model (e : ditt_maj_encoder) (sp : spec) (fanin : Nat → Nat → Nat)
    (T : Nat → truth_table) (M : List Nat) : Nat → Bool := fun v =>
  if v < e.iVar then
    (List.range' sp.nr_in sp.nr_steps).any fun i =>
      (List.range 3).any fun k => e.varMarks i k (fanin i k) == v
  else
    if (v - e.iVar) % (4 * sp.nr_steps) % 4 = 3 then
      T (sp.nr_in + (v - e.iVar) % (4 * sp.nr_steps) / 4) (M.getD ((v - e.iVar) / (4 * sp.nr_steps)) 0)
    else
      T (fanin (sp.nr_in + (v - e.iVar) % (4 * sp.nr_steps) / 4)
          ((v - e.iVar) % (4 * sp.nr_steps) % 4))
        (M.getD ((v - e.iVar) / (4 * sp.nr_steps)) 0)

/-- The chain with `r` gates and fanins `fanin` over `nr_in` inputs is well formed (at
    least one gate, every fanin below its step) and computes the majority function at
    its last step. -/
def computes_majority (nr_in r : Nat) (fanin : Nat → Nat → Nat) : Prop :=
  1 ≤ r ∧ (∀ i k, nr_in ≤ i → i < nr_in + r → k < 3 → fanin i k < i) ∧
  ∀ m, m < 2 ^ nr_in → chain_tts nr_in r fanin (nr_in + r - 1) m = create_majority nr_in m

/-- Every step of the chain has three distinct fanins, and every step but the last is
    a fanin of some step. -/
def chain_nice (nr_in r : Nat) (fanin : Nat → Nat → Nat) : Prop :=
  (∀ i, nr_in ≤ i → i < nr_in + r →
    fanin i 0 ≠ fanin i 1 ∧ fanin i 0 ≠ fanin i 2 ∧ fanin i 1 ≠ fanin i 2) ∧
  (∀ i, nr_in ≤ i → i < nr_in + r - 1 →
    ∃ j k, nr_in ≤ j ∧ j < nr_in + r ∧ k < 3 ∧ fanin j k = i)

/-- The level of every index of a chain: 0 for an input, one more than the highest
    level among its fanins for a step. -/
def chain_levels (nr_in r : Nat) (fanin : Nat → Nat → Nat) : Nat → Nat :=
  for_loop nr_in (nr_in + r)
    (fun lv i => set1 lv i (1 + max3 (lv (fanin i 0)) (lv (fanin i 1)) (lv (fanin i 2))))
    (fun _ => 0)

/-- Step `y` comes before step `x` in the order by level, then by index. -/
def step_before (lv : Nat → Nat) (y x : Nat) : Bool :=
  decide (lv y < lv x) || (lv y == lv x && decide (y < x))

/-- The number of steps of a chain that come before `x`. -/
def step_rank (n r : Nat) (lv : Nat → Nat) (x : Nat) : Nat :=
  (List.range' n r).countP fun y => step_before lv y x

/-- The number of steps of a chain on level `t`. -/
def level_count (n r : Nat) (lv : Nat → Nat) (t : Nat) : Nat :=
  (List.range' n r).countP fun y => lv y == t

/-- The fence of a chain: the number of steps on each level, from level 1 to the level
    of the last step. -/
def chain_fence (n r : Nat) (fan : Nat → Nat → Nat) : fence :=
  ⟨(List.range' 1 (chain_levels n r fan (n + r - 1))).map
    (level_count n r (chain_levels n r fan))⟩

/-- The index of `x` once the steps are put in order of level: inputs keep theirs. -/
def level_index (n r : Nat) (lv : Nat → Nat) (x : Nat) : Nat :=
  if n ≤ x ∧ x < n + r then n + step_rank n r lv x else x
/-- One more node on the first level. -/
def bump_level : List Nat → List Nat
  | [] => []
  | h :: t => (h + 1) :: t

/-- The level sizes written by the binary digits of `c` below its leading one, read from
    the lowest: a digit 1 opens a new first level of one node, a digit 0 adds a node to
    the first level. Every non-empty list of positive sizes has exactly one code
    `c >= 1`, and its sum is the number of binary digits of `c`. -/
def fence_of_code : Nat → List Nat
  | 0 => []
  | 1 => [1]
  | c + 2 =>
    if (c + 2) % 2 = 0 then bump_level (fence_of_code ((c + 2) / 2))
    else 1 :: fence_of_code ((c + 2) / 2)
decreasing_by all_goals omega

/-- A stream of all fences with positive level sizes, in non-decreasing node count: an
    instance of what the driver asks of its fence generator. -/
def fence_stream (t : Nat) : fence := ⟨fence_of_code (t + 1)⟩
/-- The clauses that the loop over the polarity `n` in the fanin-connectivity part of
    `add_cnf` emits for one selector `(i, k, j)`. -/
def selector_clauses (e : ditt_maj_encoder) (sp : spec) (iMint i k j : Nat) : List (List Nat) :=
  (List.range 2).flatMap fun n =>
    if j ≥ sp.nr_in then
      [[Abc_Var2Lit (e.varMarks i k j) 1, Abc_Var2Lit (e.iVar + 4 * (i - sp.nr_in) + k) n,
        Abc_Var2Lit (e.iVar + 4 * (j - sp.nr_in) + 3) (1 - n)]]
    else if mint_bit iMint j = n then []
    else [[Abc_Var2Lit (e.varMarks i k j) 1, Abc_Var2Lit (e.iVar + 4 * (i - sp.nr_in) + k) n]]

/-- The bitwise complement of minterm `x` within `n` bits. -/
def mint_complement (n x : Nat) : Nat := 2 ^ n - 1 - x

/-- A truth table over `n` inputs is self-dual: complementing every input complements
    the output. -/
def tt_self_dual (n : Nat) (t : truth_table) : Prop :=
  ∀ x, x < 2 ^ n → t (mint_complement n x) = !t x

/-- The minterms the inner loop of the driver passes to `add_cnf`, in order: the loop
    `cegar_loop` with the argument of each call of `add_cnf` recorded. -/
def cegar_trace (S : solver_wrapper) (sp : spec) :
    Nat → ditt_maj_encoder → List (List Nat) → Int → List Nat
  | 0, _, _, _ => []
  | fuel + 1, e, st, iMint =>
    if iMint = -1 then []
    else
      iMint.toNat ::
        match add_cnf S st e sp iMint.toNat with
        | (false, _, _) => []
        | (true, e1, st1) =>
          match S.solve st1 with
          | none => []
          | some val =>
            match simulate e1 sp val with
            | none => []
            | some (m, e2) => cegar_trace S sp fuel e2 st1 m

/-- The minterms passed to `add_cnf` while the driver works on the fence `f`. -/
def fence_trace (S : solver_wrapper) (nr_in : Nat) (target : truth_table) (e : ditt_maj_encoder)
    (f : fence) (fuel : Nat) : List Nat :=
  match cegar_encode_fence S [] e ⟨nr_in, f.nr_nodes, target⟩ f with
  | none => []
  | some (false, _, _) => []
  | some (true, e1, st1) => cegar_trace S ⟨nr_in, f.nr_nodes, target⟩ fuel e1 st1 0
/-! ## Synthesis of and-inverter chains

The synthesizer `percy::synthesize`, the class `percy::chain` and the truth tables of
kitty are not part of the sources at hand; only the tests that call them are
(`test/aig_synthesis.cpp`). They are modelled here from the specification. -/

/-- Modelled from the spec: the table that the test builds from the word `w` with
    `kitty::create_from_words` (kitty is not under src/): bit `m` of the table is bit
    `m` of the word. -/
def table_of_word (w : Nat) : truth_table := fun m => mint_bit w m == 1

/-- Modelled from the spec: a step of `percy::chain` (not under src/) for the AIG
    primitive. "Each step stores a tuple (function, fanin_1, ..., fanin_a) where fanin_j
    is either an input index < nr_in or a prior step index." A step has two fanins; `fn`
    is the truth table of its two-input function, bit `a + 2 * b` the value at the fanin
    values `(a, b)`; the index `nr_in + p` names step `p`. -/
structure aig_step where
  /-- Truth table of the gate. -/
  fn : Nat
  /-- First fanin. -/
  fanin1 : Nat
  /-- Second fanin. -/
  fanin2 : Nat

/-- Modelled from the spec: class `percy::chain` (not under src/), an "ordered list of
    steps". A chain without steps names its output itself, since "constants and
    projections synthesize with 0 steps" and such a chain "uses a primary input or its
    negation": `triv = 0` is the constant false and `triv = j + 1` the input `j`,
    complemented when `neg` is set. -/
structure chain where
  /-- Number of primary inputs. -/
  nr_in : Nat
  /-- The steps, in order. -/
  steps : List aig_step
  /-- Output of a chain without steps. -/
  triv : Nat
  /-- Complement of the output of a chain without steps. -/
  neg : Bool

/-- Modelled from the spec: the value of a two-input gate with truth table `fn`. -/
def gate_value (fn : Nat) (a b : Bool) : Bool := mint_bit fn (a.toNat + 2 * b.toNat) == 1

/-- Modelled from the spec: "Simulation of a chain: fold primitive evaluation
    left-to-right". The values of the inputs and of the steps at minterm `m`. -/
def chain.signals (c : chain) (m : Nat) : List Bool :=
  c.steps.foldl
    (fun vals st =>
      vals ++ [gate_value st.fn (vals.getD st.fanin1 false) (vals.getD st.fanin2 false)])
    ((List.range c.nr_in).map fun j => mint_bit m j == 1)

/-- Modelled from the spec: `chain::simulate()[0]`, "final step's value is the chain's
    output"; for a chain without steps the constant or input it names. -/
def chain.simulate (c : chain) : truth_table := fun m =>
  match c.steps with
  | [] => xor c.neg (if c.triv = 0 then false else mint_bit m (c.triv - 1) == 1)
  | _ :: _ => (c.signals m).getLast?.getD false

/-- Modelled from the spec: the gates of the AIG primitive, "2-input AND + NOT": the AND
    of the two fanins with complements allowed on each fanin and on the output. -/
def aig_fns : List Nat := [8, 4, 2, 1, 7, 11, 13, 14]

/-- Modelled from the spec: `chain::is_aig()`, every step is a gate of the AIG
    primitive. -/
def chain.is_aig (c : chain) : Bool := c.steps.all fun st => aig_fns.contains st.fn

/-- Modelled from the spec: the steps from position `p` on are AIG gates whose fanins
    are inputs or prior steps. -/
def steps_ok (nr_in : Nat) : Nat → List aig_step → Bool
  | _, [] => true
  | p, st :: l =>
    aig_fns.contains st.fn && decide (st.fanin1 < nr_in + p) &&
      decide (st.fanin2 < nr_in + p) && steps_ok nr_in (p + 1) l

/-- Modelled from the spec: a chain over `nr_in` inputs is well formed. -/
def chain.well_formed (c : chain) : Bool :=
  match c.steps with
  | [] => decide (c.triv ≤ c.nr_in)
  | _ :: _ => steps_ok c.nr_in 0 c.steps && c.triv == 0 && !c.neg

/-- Modelled from the spec: the steps that can stand at position `p`. -/
def step_choices (nr_in p : Nat) : List aig_step :=
  aig_fns.flatMap fun fn =>
    (List.range (nr_in + p)).flatMap fun a =>
      (List.range (nr_in + p)).map fun b => ⟨fn, a, b⟩

/-- Modelled from the spec: all lists of `s` steps for the positions from `p` on. -/
def step_lists (nr_in : Nat) : Nat → Nat → List (List aig_step)
  | _, 0 => [[]]
  | p, s + 1 =>
    (step_choices nr_in p).flatMap fun st => (step_lists nr_in (p + 1) s).map fun l => st :: l

/-- Modelled from the spec: the candidate chains of `s` steps that the search for the
    step count `s` ranges over. -/
def candidates (nr_in s : Nat) : List chain :=
  if s = 0 then
    (List.range (nr_in + 1)).flatMap fun t => [⟨nr_in, [], t, false⟩, ⟨nr_in, [], t, true⟩]
  else (step_lists nr_in 0 s).map fun l => ⟨nr_in, l, 0, false⟩

/-- Modelled from the spec: "Invariant after successful synthesis:
    chain.simulate() == spec.target", on all `2^nr_in` minterms. -/
def meets_target (nr_in : Nat) (target : truth_table) (c : chain) : Bool :=
  (List.range (2 ^ nr_in)).all fun m => c.simulate m == target m

/-- Modelled from the spec: "User-visible outcomes are exactly: success(chain) or
    failure(reason)". -/
inductive synth_result where
  /-- A chain was found. -/
  | success (c : chain)
  /-- No chain within the step bound. -/
  | failure

/-- Modelled from the spec: `percy::synthesize` for the AIG primitive (not under src/).
    The system "returns a chain ... whose final step evaluates to the target.
    Minimality is in the number of steps"; the "driver picks a step-count s" and goes
    to the next count when the search for `s` finds nothing; when the enumeration is
    exhausted "below a user-imposed max" the outcome is failure. The SAT search for one
    step count is modelled by what it decides: whether a chain of that many steps
    simulates to the target. -/
def synthesize (nr_in : Nat) (target : truth_table) (max_steps : Nat) : synth_result :=
  match (List.range (max_steps + 1)).findSome? fun s =>
      (candidates nr_in s).find? (meets_target nr_in target) with
  | some c => synth_result.success c
  | none => synth_result.failure

/-- An AIG chain for each function of 0 inputs, in the order of their words. -/
def aig_chains_0 : List chain :=
  [chain.mk 0 [] 0 false,
   chain.mk 0 [] 0 true]

/-- An AIG chain for each function of 1 inputs, in the order of their words. -/
def aig_chains_1 : List chain :=
  [chain.mk 1 [] 0 false,
   chain.mk 1 [] 1 true,
   chain.mk 1 [] 1 false,
   chain.mk 1 [] 0 true]

/-- An AIG chain for each function of 2 inputs, in the order of their words. -/
def aig_chains_2 : List chain :=
  [chain.mk 2 [] 0 false,
   chain.mk 2 [aig_step.mk 1 0 1] 0 false,
   chain.mk 2 [aig_step.mk 2 0 1] 0 false,
   chain.mk 2 [] 2 true,
   chain.mk 2 [aig_step.mk 4 0 1] 0 false,
   chain.mk 2 [] 1 true,
   chain.mk 2 [aig_step.mk 8 0 1, aig_step.mk 1 0 1, aig_step.mk 1 2 3] 0 false,
   chain.mk 2 [aig_step.mk 7 0 1] 0 false,
   chain.mk 2 [aig_step.mk 8 0 1] 0 false,
   chain.mk 2 [aig_step.mk 8 0 1, aig_step.mk 1 0 1, aig_step.mk 14 2 3] 0 false,
   chain.mk 2 [] 1 false,
   chain.mk 2 [aig_step.mk 11 0 1] 0 false,
   chain.mk 2 [] 2 false,
   chain.mk 2 [aig_step.mk 13 0 1] 0 false,
   chain.mk 2 [aig_step.mk 14 0 1] 0 false,
   chain.mk 2 [] 0 true]

/-- An AIG chain for each function of 3 inputs with word from 0 to 15. -/
def aig_chains_3_0 : List chain :=
  [chain.mk 3 [] 0 false,
   chain.mk 3 [aig_step.mk 1 0 1, aig_step.mk 4 2 3] 0 false,
   chain.mk 3 [aig_step.mk 2 0 1, aig_step.mk 4 2 3] 0 false,
   chain.mk 3 [aig_step.mk 1 1 2] 0 false,
   chain.mk 3 [aig_step.mk 4 0 1, aig_step.mk 4 2 3] 0 false,
   chain.mk 3 [aig_step.mk 1 0 2] 0 false,
   chain.mk 3 [aig_step.mk 8 0 1, aig_step.mk 1 0 1, aig_step.mk 1 2 3,
       aig_step.mk 4 4 5] 0 false,
   chain.mk 3 [aig_step.mk 8 0 1, aig_step.mk 1 2 3] 0 false,
   chain.mk 3 [aig_step.mk 8 0 1, aig_step.mk 4 2 3] 0 false,
   chain.mk 3 [aig_step.mk 8 0 1, aig_step.mk 1 0 1, aig_step.mk 1 3 4,
       aig_step.mk 1 2 5] 0 false,
   chain.mk 3 [aig_step.mk 2 0 2] 0 false,
   chain.mk 3 [aig_step.mk 4 0 1, aig_step.mk 1 2 3] 0 false,
   chain.mk 3 [aig_step.mk 2 1 2] 0 false,
   chain.mk 3 [aig_step.mk 2 0 1, aig_step.mk 1 2 3] 0 false,
   chain.mk 3 [aig_step.mk 1 0 1, aig_step.mk 1 2 3] 0 false,
   chain.mk 3 [] 3 true]

/-- An AIG chain for each function of 3 inputs with word from 16 to 31. -/
def aig_chains_3_1 : List chain :=
  [chain.mk 3 [aig_step.mk 1 0 1, aig_step.mk 8 2 3] 0 false,
   chain.mk 3 [aig_step.mk 1 0 1] 0 false,
   chain.mk 3 [aig_step.mk 8 0 2, aig_step.mk 1 0 2, aig_step.mk 1 1 3,
       aig_step.mk 4 4 5] 0 false,
   chain.mk 3 [aig_step.mk 8 0 2, aig_step.mk 1 1 3] 0 false,
   chain.mk 3 [aig_step.mk 8 1 2, aig_step.mk 1 0 3, aig_step.mk 1 1 2,
       aig_step.mk 2 4 5] 0 false,
   chain.mk 3 [aig_step.mk 8 1 2, aig_step.mk 1 0 3] 0 false,
   chain.mk 3 [aig_step.mk 8 0 1, aig_step.mk 1 0 1, aig_step.mk 1 2 3,
       aig_step.mk 8 2 4, aig_step.mk 4 4 5, aig_step.mk 14 6 7] 0 false,
   chain.mk 3 [aig_step.mk 8 0 1, aig_step.mk 1 0 1, aig_step.mk 1 2 3,
       aig_step.mk 14 4 5] 0 false,
   chain.mk 3 [aig_step.mk 8 0 1, aig_step.mk 1 0 1, aig_step.mk 4 2 3,
       aig_step.mk 8 2 4, aig_step.mk 14 5 6] 0 false,
   chain.mk 3 [aig_step.mk 8 0 1, aig_step.mk 1 0 1, aig_step.mk 4 2 3,
       aig_step.mk 14 4 5] 0 false,
   chain.mk 3 [aig_step.mk 1 0 1, aig_step.mk 2 0 2, aig_step.mk 8 2 3,
       aig_step.mk 14 4 5] 0 false,
   chain.mk 3 [aig_step.mk 4 0 1, aig_step.mk 8 0 2, aig_step.mk 1 3 4] 0 false,
   chain.mk 3 [aig_step.mk 1 0 1, aig_step.mk 2 1 2, aig_step.mk 8 2 3,
       aig_step.mk 14 4 5] 0 false,
   chain.mk 3 [aig_step.mk 2 0 1, aig_step.mk 8 1 2, aig_step.mk 1 3 4] 0 false,
   chain.mk 3 [aig_step.mk 1 0 1, aig_step.mk 8 2 3, aig_step.mk 1 2 3,
       aig_step.mk 14 4 5] 0 false,
   chain.mk 3 [aig_step.mk 1 0 1, aig_step.mk 13 2 3] 0 false]

/-- An AIG chain for each function of 3 inputs with word from 32 to 47. -/
def aig_chains_3_2 : List chain :=
  [chain.mk 3 [aig_step.mk 2 0 1, aig_step.mk 8 2 3] 0 false,
   chain.mk 3 [aig_step.mk 8 0 2, aig_step.mk 1 0 2, aig_step.mk 1 3 4,
       aig_step.mk 1 1 5] 0 false,
   chain.mk 3 [aig_step.mk 2 0 1] 0 false,
   chain.mk 3 [aig_step.mk 4 0 2, aig_step.mk 1 1 3] 0 false,
   chain.mk 3 [aig_step.mk 8 0 1, aig_step.mk 8 0 2, aig_step.mk 2 1 2,
       aig_step.mk 1 4 5, aig_step.mk 1 3 6] 0 false,
   chain.mk 3 [aig_step.mk 2 0 1, aig_step.mk 2 0 2, aig_step.mk 2 2 3,
       aig_step.mk 1 4 5] 0 false,
   chain.mk 3 [aig_step.mk 8 0 1, aig_step.mk 2 1 2, aig_step.mk 1 0 4,
       aig_step.mk 1 3 5] 0 false,
   chain.mk 3 [aig_step.mk 8 0 1, aig_step.mk 4 0 2, aig_step.mk 1 3 4] 0 false,
   chain.mk 3 [aig_step.mk 8 1 2, aig_step.mk 2 0 3, aig_step.mk 1 1 2,
       aig_step.mk 2 4 5] 0 false,
   chain.mk 3 [aig_step.mk 4 0 1, aig_step.mk 2 0 1, aig_step.mk 1 2 3,
       aig_step.mk 8 2 4, aig_step.mk 4 4 5, aig_step.mk 14 6 7] 0 false,
   chain.mk 3 [aig_step.mk 8 1 2, aig_step.mk 2 0 3] 0 false,
   chain.mk 3 [aig_step.mk 4 0 1, aig_step.mk 2 0 1, aig_step.mk 1 2 3,
       aig_step.mk 14 4 5] 0 false,
   chain.mk 3 [aig_step.mk 2 0 1, aig_step.mk 2 1 2, aig_step.mk 8 2 3,
       aig_step.mk 14 4 5] 0 false,
   chain.mk 3 [aig_step.mk 2 0 1, aig_step.mk 8 2 3, aig_step.mk 1 2 3,
       aig_step.mk 14 4 5] 0 false,
   chain.mk 3 [aig_step.mk 2 0 1, aig_step.mk 2 1 2, aig_step.mk 14 3 4] 0 false,
   chain.mk 3 [aig_step.mk 2 0 1, aig_step.mk 13 2 3] 0 false]

/-- An AIG chain for each function of 3 inputs with word from 48 to 63. -/
def aig_chains_3_3 : List chain :=
  [chain.mk 3 [aig_step.mk 4 1 2] 0 false,
   chain.mk 3 [aig_step.mk 2 0 2, aig_step.mk 1 1 3] 0 false,
   chain.mk 3 [aig_step.mk 1 0 2, aig_step.mk 1 1 3] 0 false,
   chain.mk 3 [] 2 true,
   chain.mk 3 [aig_step.mk 4 0 1, aig_step.mk 8 1 2, aig_step.mk 1 2 3,
       aig_step.mk 1 4 5] 0 false,
   chain.mk 3 [aig_step.mk 2 0 2, aig_step.mk 8 1 2, aig_step.mk 1 3 4] 0 false,
   chain.mk 3 [aig_step.mk 1 0 2, aig_step.mk 8 1 3, aig_step.mk 1 1 3,
       aig_step.mk 14 4 5] 0 false,
   chain.mk 3 [aig_step.mk 1 0 2, aig_step.mk 13 1 3] 0 false,
   chain.mk 3 [aig_step.mk 8 0 1, aig_step.mk 8 1 2, aig_step.mk 1 2 3,
       aig_step.mk 1 4 5] 0 false,
   chain.mk 3 [aig_step.mk 2 0 2, aig_step.mk 8 1 3, aig_step.mk 1 1 3,
       aig_step.mk 14 4 5] 0 false,
   chain.mk 3 [aig_step.mk 2 0 2, aig_step.mk 4 1 2, aig_step.mk 14 3 4] 0 false,
   chain.mk 3 [aig_step.mk 2 0 2, aig_step.mk 13 1 3] 0 false,
   chain.mk 3 [aig_step.mk 8 1 2, aig_step.mk 1 1 2, aig_step.mk 1 3 4] 0 false,
   chain.mk 3 [aig_step.mk 2 0 1, aig_step.mk 8 1 2, aig_step.mk 4 2 3,
       aig_step.mk 1 4 5] 0 false,
   chain.mk 3 [aig_step.mk 1 0 1, aig_step.mk 8 1 2, aig_step.mk 4 2 3,
       aig_step.mk 1 4 5] 0 false,
   chain.mk 3 [aig_step.mk 7 1 2] 0 false]

/-- An AIG chain for each function of 3 inputs with word from 64 to 79. -/
def aig_chains_3_4 : List chain :=
  [chain.mk 3 [aig_step.mk 4 0 1, aig_step.mk 8 2 3] 0 false,
   chain.mk 3 [aig_step.mk 8 1 2, aig_step.mk 1 1 2, aig_step.mk 1 3 4,
       aig_step.mk 1 0 5] 0 false,
   chain.mk 3 [aig_step.mk 8 0 1, aig_step.mk 2 0 2, aig_step.mk 8 1 2,
       aig_step.mk 1 4 5, aig_step.mk 1 3 6] 0 false,
   chain.mk 3 [aig_step.mk 4 0 1, aig_step.mk 2 1 2, aig_step.mk 2 2 3,
       aig_step.mk 1 4 5] 0 false,
   chain.mk 3 [aig_step.mk 4 0 1] 0 false,
   chain.mk 3 [aig_step.mk 4 1 2, aig_step.mk 1 0 3] 0 false,
   chain.mk 3 [aig_step.mk 8 0 1, aig_step.mk 2 0 2, aig_step.mk 1 1 4,
       aig_step.mk 1 3 5] 0 false,
   chain.mk 3 [aig_step.mk 8 0 1, aig_step.mk 4 1 2, aig_step.mk 1 3 4] 0 false,
   chain.mk 3 [aig_step.mk 8 0 2, aig_step.mk 1 0 2, aig_step.mk 2 1 3,
       aig_step.mk 4 4 5] 0 false,
   chain.mk 3 [aig_step.mk 4 0 1, aig_step.mk 2 0 1, aig_step.mk 8 2 3,
       aig_step.mk 1 2 3, aig_step.mk 4 4 6, aig_step.mk 14 5 7] 0 false,
   chain.mk 3 [aig_step.mk 4 0 1, aig_step.mk 2 0 2, aig_step.mk 8 2 3,
       aig_step.mk 14 4 5] 0 false,
   chain.mk 3 [aig_step.mk 4 0 1, aig_step.mk 8 2 3, aig_step.mk 1 2 3,
       aig_step.mk 14 4 5] 0 false,
   chain.mk 3 [aig_step.mk 8 0 2, aig_step.mk 2 1 3] 0 false,
   chain.mk 3 [aig_step.mk 4 0 1, aig_step.mk 2 0 1, aig_step.mk 2 2 3,
       aig_step.mk 1 4 5] 0 false,
   chain.mk 3 [aig_step.mk 4 0 1, aig_step.mk 2 0 2, aig_step.mk 14 3 4] 0 false,
   chain.mk 3 [aig_step.mk 4 0 1, aig_step.mk 13 2 3] 0 false]

/-- An AIG chain for each function of 3 inputs with word from 80 to 95. -/
def aig_chains_3_5 : List chain :=
  [chain.mk 3 [aig_step.mk 4 0 2] 0 false,
   chain.mk 3 [aig_step.mk 2 1 2, aig_step.mk 1 0 3] 0 false,
   chain.mk 3 [aig_step.mk 2 0 1, aig_step.mk 8 0 2, aig_step.mk 1 2 3,
       aig_step.mk 1 4 5] 0 false,
   chain.mk 3 [aig_step.mk 8 0 2, aig_step.mk 2 1 2, aig_step.mk 1 3 4] 0 false,
   chain.mk 3 [aig_step.mk 1 1 2, aig_step.mk 1 0 3] 0 false,
   chain.mk 3 [] 1 true,
   chain.mk 3 [aig_step.mk 1 1 2, aig_step.mk 8 0 3, aig_step.mk 1 0 3,
       aig_step.mk 14 4 5] 0 false,
   chain.mk 3 [aig_step.mk 1 1 2, aig_step.mk 13 0 3] 0 false,
   chain.mk 3 [aig_step.mk 8 0 1, aig_step.mk 8 0 2, aig_step.mk 1 2 3,
       aig_step.mk 1 4 5] 0 false,
   chain.mk 3 [aig_step.mk 2 1 2, aig_step.mk 8 0 3, aig_step.mk 1 0 3,
       aig_step.mk 14 4 5] 0 false,
   chain.mk 3 [aig_step.mk 8 0 2, aig_step.mk 1 0 2, aig_step.mk 1 3 4] 0 false,
   chain.mk 3 [aig_step.mk 4 0 1, aig_step.mk 8 0 2, aig_step.mk 4 2 3,
       aig_step.mk 1 4 5] 0 false,
   chain.mk 3 [aig_step.mk 8 0 2, aig_step.mk 1 1 2, aig_step.mk 1 3 4] 0 false,
   chain.mk 3 [aig_step.mk 2 1 2, aig_step.mk 13 0 3] 0 false,
   chain.mk 3 [aig_step.mk 1 0 1, aig_step.mk 8 0 2, aig_step.mk 4 2 3,
       aig_step.mk 1 4 5] 0 false,
   chain.mk 3 [aig_step.mk 7 0 2] 0 false]

/-- An AIG chain for each function of 3 inputs with word from 96 to 111. -/
def aig_chains_3_6 : List chain :=
  [chain.mk 3 [aig_step.mk 8 0 1, aig_step.mk 1 0 1, aig_step.mk 2 2 3,
       aig_step.mk 4 4 5] 0 false,
   chain.mk 3 [aig_step.mk 8 0 1, aig_step.mk 1 0 1, aig_step.mk 2 2 3,
       aig_step.mk 8 2 4, aig_step.mk 1 4 5, aig_step.mk 1 6 7] 0 false,
   chain.mk 3 [aig_step.mk 8 0 1, aig_step.mk 8 1 2, aig_step.mk 1 0 4,
       aig_step.mk 1 3 5] 0 false,
   chain.mk 3 [aig_step.mk 4 0 2, aig_step.mk 8 1 3, aig_step.mk 1 1 3,
       aig_step.mk 14 4 5] 0 false,
   chain.mk 3 [aig_step.mk 8 0 1, aig_step.mk 8 0 2, aig_step.mk 1 1 4,
       aig_step.mk 1 3 5] 0 false,
   chain.mk 3 [aig_step.mk 4 1 2, aig_step.mk 8 0 3, aig_step.mk 1 0 3,
       aig_step.mk 14 4 5] 0 false,
   chain.mk 3 [aig_step.mk 8 0 1, aig_step.mk 1 0 1, aig_step.mk 1 3 4] 0 false,
   chain.mk 3 [aig_step.mk 8 0 1, aig_step.mk 1 0 1, aig_step.mk 8 2 4,
       aig_step.mk 1 3 5] 0 false,
   chain.mk 3 [aig_step.mk 8 0 1, aig_step.mk 1 0 1, aig_step.mk 8 2 3,
       aig_step.mk 1 2 3, aig_step.mk 1 4 5, aig_step.mk 4 6 7] 0 false,
   chain.mk 3 [aig_step.mk 8 0 1, aig_step.mk 1 0 1, aig_step.mk 1 3 4,
       aig_step.mk 8 2 5, aig_step.mk 1 2 5, aig_step.mk 14 6 7] 0 false,
   chain.mk 3 [aig_step.mk 8 1 2, aig_step.mk 8 0 3, aig_step.mk 1 0 3,
       aig_step.mk 1 4 5] 0 false,
   chain.mk 3 [aig_step.mk 4 0 1, aig_step.mk 2 0 1, aig_step.mk 8 2 3,
       aig_step.mk 1 2 3, aig_step.mk 1 4 5, aig_step.mk 11 6 7] 0 false,
   chain.mk 3 [aig_step.mk 8 0 2, aig_step.mk 8 1 3, aig_step.mk 1 1 3,
       aig_step.mk 1 4 5] 0 false,
   chain.mk 3 [aig_step.mk 4 0 1, aig_step.mk 2 0 1, aig_step.mk 2 2 3,
       aig_step.mk 8 2 4, aig_step.mk 1 4 5, aig_step.mk 14 6 7] 0 false,
   chain.mk 3 [aig_step.mk 8 0 1, aig_step.mk 1 0 1, aig_step.mk 8 2 3,
       aig_step.mk 1 4 5] 0 false,
   chain.mk 3 [aig_step.mk 8 0 1, aig_step.mk 1 0 1, aig_step.mk 1 3 4,
       aig_step.mk 13 2 5] 0 false]

/-- An AIG chain for each function of 3 inputs with word from 112 to 127. -/
def aig_chains_3_7 : List chain :=
  [chain.mk 3 [aig_step.mk 8 0 1, aig_step.mk 2 2 3] 0 false,
   chain.mk 3 [aig_step.mk 8 0 1, aig_step.mk 1 0 1, aig_step.mk 2 2 3,
       aig_step.mk 14 4 5] 0 false,
   chain.mk 3 [aig_step.mk 8 0 1, aig_step.mk 1 0 2, aig_step.mk 1 3 4] 0 false,
   chain.mk 3 [aig_step.mk 4 0 2, aig_step.mk 13 1 3] 0 false,
   chain.mk 3 [aig_step.mk 8 0 1, aig_step.mk 1 1 2, aig_step.mk 1 3 4] 0 false,
   chain.mk 3 [aig_step.mk 4 1 2, aig_step.mk 13 0 3] 0 false,
   chain.mk 3 [aig_step.mk 8 0 1, aig_step.mk 1 0 1, aig_step.mk 4 2 4,
       aig_step.mk 1 3 5] 0 false,
   chain.mk 3 [aig_step.mk 7 0 1] 0 false,
   chain.mk 3 [aig_step.mk 8 0 1, aig_step.mk 8 2 3, aig_step.mk 1 2 3,
       aig_step.mk 1 4 5] 0 false,
   chain.mk 3 [aig_step.mk 8 0 1, aig_step.mk 1 0 1, aig_step.mk 8 2 3,
       aig_step.mk 1 2 3, aig_step.mk 4 4 6, aig_step.mk 1 5 7] 0 false,
   chain.mk 3 [aig_step.mk 8 0 1, aig_step.mk 2 0 2, aig_step.mk 2 2 3,
       aig_step.mk 14 4 5] 0 false,
   chain.mk 3 [aig_step.mk 8 0 2, aig_step.mk 1 0 2, aig_step.mk 1 3 4,
       aig_step.mk 13 1 5] 0 false,
   chain.mk 3 [aig_step.mk 8 0 1, aig_step.mk 2 1 2, aig_step.mk 2 2 3,
       aig_step.mk 14 4 5] 0 false,
   chain.mk 3 [aig_step.mk 8 1 2, aig_step.mk 1 1 2, aig_step.mk 1 3 4,
       aig_step.mk 13 0 5] 0 false,
   chain.mk 3 [aig_step.mk 8 0 1, aig_step.mk 1 0 1, aig_step.mk 8 2 3,
       aig_step.mk 4 2 4, aig_step.mk 1 5 6] 0 false,
   chain.mk 3 [aig_step.mk 8 0 1, aig_step.mk 7 2 3] 0 false]

/-- An AIG chain for each function of 3 inputs with word from 128 to 143. -/
def aig_chains_3_8 : List chain :=
  [chain.mk 3 [aig_step.mk 8 0 1, aig_step.mk 8 2 3] 0 false,
   chain.mk 3 [aig_step.mk 8 0 1, aig_step.mk 1 0 1, aig_step.mk 8 2 3,
       aig_step.mk 4 2 4, aig_step.mk 14 5 6] 0 false,
   chain.mk 3 [aig_step.mk 8 1 2, aig_step.mk 1 1 2, aig_step.mk 1 3 4,
       aig_step.mk 2 0 5] 0 false,
   chain.mk 3 [aig_step.mk 8 0 1, aig_step.mk 2 1 2, aig_step.mk 2 2 3,
       aig_step.mk 1 4 5] 0 false,
   chain.mk 3 [aig_step.mk 8 0 2, aig_step.mk 1 0 2, aig_step.mk 1 3 4,
       aig_step.mk 2 1 5] 0 false,
   chain.mk 3 [aig_step.mk 8 0 1, aig_step.mk 2 0 2, aig_step.mk 2 2 3,
       aig_step.mk 1 4 5] 0 false,
   chain.mk 3 [aig_step.mk 8 0 1, aig_step.mk 1 0 1, aig_step.mk 8 2 3,
       aig_step.mk 1 2 3, aig_step.mk 4 4 6, aig_step.mk 14 5 7] 0 false,
   chain.mk 3 [aig_step.mk 8 0 1, aig_step.mk 8 2 3, aig_step.mk 1 2 3,
       aig_step.mk 14 4 5] 0 false,
   chain.mk 3 [aig_step.mk 8 0 1] 0 false,
   chain.mk 3 [aig_step.mk 8 0 1, aig_step.mk 1 0 1, aig_step.mk 4 2 4,
       aig_step.mk 14 3 5] 0 false,
   chain.mk 3 [aig_step.mk 4 1 2, aig_step.mk 2 0 3] 0 false,
   chain.mk 3 [aig_step.mk 8 0 1, aig_step.mk 1 1 2, aig_step.mk 14 3 4] 0 false,
   chain.mk 3 [aig_step.mk 4 0 2, aig_step.mk 2 1 3] 0 false,
   chain.mk 3 [aig_step.mk 8 0 1, aig_step.mk 1 0 2, aig_step.mk 14 3 4] 0 false,
   chain.mk 3 [aig_step.mk 8 0 1, aig_step.mk 1 0 1, aig_step.mk 2 2 3,
       aig_step.mk 1 4 5] 0 false,
   chain.mk 3 [aig_step.mk 8 0 1, aig_step.mk 13 2 3] 0 false]

/-- An AIG chain for each function of 3 inputs with word from 144 to 159. -/
def aig_chains_3_9 : List chain :=
  [chain.mk 3 [aig_step.mk 8 0 1, aig_step.mk 1 0 1, aig_step.mk 1 3 4,
       aig_step.mk 2 2 5] 0 false,
   chain.mk 3 [aig_step.mk 8 0 1, aig_step.mk 1 0 1, aig_step.mk 8 2 3,
       aig_step.mk 14 4 5] 0 false,
   chain.mk 3 [aig_step.mk 4 0 1, aig_step.mk 2 0 1, aig_step.mk 2 2 3,
       aig_step.mk 8 2 4, aig_step.mk 1 4 5, aig_step.mk 1 6 7] 0 false,
   chain.mk 3 [aig_step.mk 8 0 2, aig_step.mk 8 1 3, aig_step.mk 1 1 3,
       aig_step.mk 14 4 5] 0 false,
   chain.mk 3 [aig_step.mk 4 0 1, aig_step.mk 2 0 1, aig_step.mk 8 2 3,
       aig_step.mk 1 2 3, aig_step.mk 1 4 5, aig_step.mk 4 6 7] 0 false,
   chain.mk 3 [aig_step.mk 8 1 2, aig_step.mk 8 0 3, aig_step.mk 1 0 3,
       aig_step.mk 14 4 5] 0 false,
   chain.mk 3 [aig_step.mk 8 0 1, aig_step.mk 1 0 1, aig_step.mk 1 3 4,
       aig_step.mk 8 2 5, aig_step.mk 1 2 5, aig_step.mk 1 6 7] 0 false,
   chain.mk 3 [aig_step.mk 8 0 1, aig_step.mk 1 0 1, aig_step.mk 8 2 3,
       aig_step.mk 1 2 3, aig_step.mk 1 4 5, aig_step.mk 11 6 7] 0 false,
   chain.mk 3 [aig_step.mk 8 0 1, aig_step.mk 1 0 1, aig_step.mk 8 2 4,
       aig_step.mk 14 3 5] 0 false,
   chain.mk 3 [aig_step.mk 8 0 1, aig_step.mk 1 0 1, aig_step.mk 14 3 4] 0 false,
   chain.mk 3 [aig_step.mk 4 1 2, aig_step.mk 8 0 3, aig_step.mk 1 0 3,
       aig_step.mk 1 4 5] 0 false,
   chain.mk 3 [aig_step.mk 8 0 1, aig_step.mk 8 0 2, aig_step.mk 1 1 4,
       aig_step.mk 14 3 5] 0 false,
   chain.mk 3 [aig_step.mk 4 0 2, aig_step.mk 8 1 3, aig_step.mk 1 1 3,
       aig_step.mk 1 4 5] 0 false,
   chain.mk 3 [aig_step.mk 8 0 1, aig_step.mk 8 1 2, aig_step.mk 1 0 4,
       aig_step.mk 14 3 5] 0 false,
   chain.mk 3 [aig_step.mk 8 0 1, aig_step.mk 1 0 1, aig_step.mk 2 2 3,
       aig_step.mk 8 2 4, aig_step.mk 1 4 5, aig_step.mk 14 6 7] 0 false,
   chain.mk 3 [aig_step.mk 8 0 1, aig_step.mk 1 0 1, aig_step.mk 2 2 3,
       aig_step.mk 11 4 5] 0 false]

/-- An AIG chain for each function of 3 inputs with word from 160 to 175. -/
def aig_chains_3_10 : List chain :=
  [chain.mk 3 [aig_step.mk 8 0 2] 0 false,
   chain.mk 3 [aig_step.mk 1 0 1, aig_step.mk 8 0 2, aig_step.mk 4 2 3,
       aig_step.mk 14 4 5] 0 false,
   chain.mk 3 [aig_step.mk 2 1 2, aig_step.mk 2 0 3] 0 false,
   chain.mk 3 [aig_step.mk 8 0 2, aig_step.mk 1 1 2, aig_step.mk 14 3 4] 0 false,
   chain.mk 3 [aig_step.mk 4 0 1, aig_step.mk 8 0 2, aig_step.mk 4 2 3,
       aig_step.mk 14 4 5] 0 false,
   chain.mk 3 [aig_step.mk 8 0 2, aig_step.mk 1 0 2, aig_step.mk 14 3 4] 0 false,
   chain.mk 3 [aig_step.mk 2 1 2, aig_step.mk 8 0 3, aig_step.mk 1 0 3,
       aig_step.mk 1 4 5] 0 false,
   chain.mk 3 [aig_step.mk 8 0 1, aig_step.mk 8 0 2, aig_step.mk 1 2 3,
       aig_step.mk 14 4 5] 0 false,
   chain.mk 3 [aig_step.mk 1 1 2, aig_step.mk 2 0 3] 0 false,
   chain.mk 3 [aig_step.mk 1 1 2, aig_step.mk 8 0 3, aig_step.mk 1 0 3,
       aig_step.mk 1 4 5] 0 false,
   chain.mk 3 [] 1 false,
   chain.mk 3 [aig_step.mk 1 1 2, aig_step.mk 14 0 3] 0 false,
   chain.mk 3 [aig_step.mk 8 0 2, aig_step.mk 2 1 2, aig_step.mk 14 3 4] 0 false,
   chain.mk 3 [aig_step.mk 2 0 1, aig_step.mk 8 0 2, aig_step.mk 1 2 3,
       aig_step.mk 14 4 5] 0 false,
   chain.mk 3 [aig_step.mk 2 1 2, aig_step.mk 14 0 3] 0 false,
   chain.mk 3 [aig_step.mk 11 0 2] 0 false]

/-- An AIG chain for each function of 3 inputs with word from 176 to 191. -/
def aig_chains_3_11 : List chain :=
  [chain.mk 3 [aig_step.mk 4 0 1, aig_step.mk 2 2 3] 0 false,
   chain.mk 3 [aig_step.mk 4 0 1, aig_step.mk 2 0 2, aig_step.mk 1 3 4] 0 false,
   chain.mk 3 [aig_step.mk 4 0 1, aig_step.mk 2 0 1, aig_step.mk 2 2 3,
       aig_step.mk 14 4 5] 0 false,
   chain.mk 3 [aig_step.mk 8 0 2, aig_step.mk 13 1 3] 0 false,
   chain.mk 3 [aig_step.mk 4 0 1, aig_step.mk 8 2 3, aig_step.mk 1 2 3,
       aig_step.mk 1 4 5] 0 false,
   chain.mk 3 [aig_step.mk 4 0 1, aig_step.mk 2 0 2, aig_step.mk 8 2 3,
       aig_step.mk 1 4 5] 0 false,
   chain.mk 3 [aig_step.mk 4 0 1, aig_step.mk 2 0 1, aig_step.mk 8 2 3,
       aig_step.mk 1 2 3, aig_step.mk 4 4 6, aig_step.mk 1 5 7] 0 false,
   chain.mk 3 [aig_step.mk 8 0 2, aig_step.mk 1 0 2, aig_step.mk 2 1 3,
       aig_step.mk 11 4 5] 0 false,
   chain.mk 3 [aig_step.mk 8 0 1, aig_step.mk 4 1 2, aig_step.mk 14 3 4] 0 false,
   chain.mk 3 [aig_step.mk 8 0 1, aig_step.mk 2 0 2, aig_step.mk 1 1 4,
       aig_step.mk 14 3 5] 0 false,
   chain.mk 3 [aig_step.mk 4 1 2, aig_step.mk 14 0 3] 0 false,
   chain.mk 3 [aig_step.mk 11 0 1] 0 false,
   chain.mk 3 [aig_step.mk 4 0 1, aig_step.mk 2 1 2, aig_step.mk 2 2 3,
       aig_step.mk 14 4 5] 0 false,
   chain.mk 3 [aig_step.mk 8 0 1, aig_step.mk 2 0 2, aig_step.mk 8 1 2,
       aig_step.mk 1 4 5, aig_step.mk 14 3 6] 0 false,
   chain.mk 3 [aig_step.mk 8 1 2, aig_step.mk 1 1 2, aig_step.mk 1 3 4,
       aig_step.mk 14 0 5] 0 false,
   chain.mk 3 [aig_step.mk 4 0 1, aig_step.mk 7 2 3] 0 false]

/-- An AIG chain for each function of 3 inputs with word from 192 to 207. -/
def aig_chains_3_12 : List chain :=
  [chain.mk 3 [aig_step.mk 8 1 2] 0 false,
   chain.mk 3 [aig_step.mk 1 0 1, aig_step.mk 8 1 2, aig_step.mk 4 2 3,
       aig_step.mk 14 4 5] 0 false,
   chain.mk 3 [aig_step.mk 2 0 1, aig_step.mk 8 1 2, aig_step.mk 4 2 3,
       aig_step.mk 14 4 5] 0 false,
   chain.mk 3 [aig_step.mk 8 1 2, aig_step.mk 1 1 2, aig_step.mk 14 3 4] 0 false,
   chain.mk 3 [aig_step.mk 2 0 2, aig_step.mk 2 1 3] 0 false,
   chain.mk 3 [aig_step.mk 2 0 2, aig_step.mk 4 1 2, aig_step.mk 1 3 4] 0 false,
   chain.mk 3 [aig_step.mk 2 0 2, aig_step.mk 8 1 3, aig_step.mk 1 1 3,
       aig_step.mk 1 4 5] 0 false,
   chain.mk 3 [aig_step.mk 8 0 1, aig_step.mk 8 1 2, aig_step.mk 1 2 3,
       aig_step.mk 14 4 5] 0 false,
   chain.mk 3 [aig_step.mk 1 0 2, aig_step.mk 2 1 3] 0 false,
   chain.mk 3 [aig_step.mk 1 0 2, aig_step.mk 8 1 3, aig_step.mk 1 1 3,
       aig_step.mk 1 4 5] 0 false,
   chain.mk 3 [aig_step.mk 2 0 2, aig_step.mk 8 1 2, aig_step.mk 14 3 4] 0 false,
   chain.mk 3 [aig_step.mk 4 0 1, aig_step.mk 8 1 2, aig_step.mk 1 2 3,
       aig_step.mk 14 4 5] 0 false,
   chain.mk 3 [] 2 false,
   chain.mk 3 [aig_step.mk 1 0 2, aig_step.mk 14 1 3] 0 false,
   chain.mk 3 [aig_step.mk 2 0 2, aig_step.mk 14 1 3] 0 false,
   chain.mk 3 [aig_step.mk 11 1 2] 0 false]

/-- An AIG chain for each function of 3 inputs with word from 208 to 223. -/
def aig_chains_3_13 : List chain :=
  [chain.mk 3 [aig_step.mk 2 0 1, aig_step.mk 2 2 3] 0 false,
   chain.mk 3 [aig_step.mk 2 0 1, aig_step.mk 2 1 2, aig_step.mk 1 3 4] 0 false,
   chain.mk 3 [aig_step.mk 2 0 1, aig_step.mk 8 2 3, aig_step.mk 1 2 3,
       aig_step.mk 1 4 5] 0 false,
   chain.mk 3 [aig_step.mk 2 0 1, aig_step.mk 2 1 2, aig_step.mk 8 2 3,
       aig_step.mk 1 4 5] 0 false,
   chain.mk 3 [aig_step.mk 4 0 1, aig_step.mk 2 0 1, aig_step.mk 1 2 3,
       aig_step.mk 1 4 5] 0 false,
   chain.mk 3 [aig_step.mk 8 1 2, aig_step.mk 13 0 3] 0 false,
   chain.mk 3 [aig_step.mk 4 0 1, aig_step.mk 2 0 1, aig_step.mk 1 2 3,
       aig_step.mk 8 2 4, aig_step.mk 4 4 5, aig_step.mk 1 6 7] 0 false,
   chain.mk 3 [aig_step.mk 8 1 2, aig_step.mk 2 0 3, aig_step.mk 1 1 2,
       aig_step.mk 13 4 5] 0 false,
   chain.mk 3 [aig_step.mk 8 0 1, aig_step.mk 4 0 2, aig_step.mk 14 3 4] 0 false,
   chain.mk 3 [aig_step.mk 8 0 1, aig_step.mk 2 1 2, aig_step.mk 1 0 4,
       aig_step.mk 14 3 5] 0 false,
   chain.mk 3 [aig_step.mk 2 0 1, aig_step.mk 2 0 2, aig_step.mk 2 2 3,
       aig_step.mk 14 4 5] 0 false,
   chain.mk 3 [aig_step.mk 8 0 1, aig_step.mk 8 0 2, aig_step.mk 2 1 2,
       aig_step.mk 1 4 5, aig_step.mk 14 3 6] 0 false,
   chain.mk 3 [aig_step.mk 4 0 2, aig_step.mk 14 1 3] 0 false,
   chain.mk 3 [aig_step.mk 13 0 1] 0 false,
   chain.mk 3 [aig_step.mk 8 0 2, aig_step.mk 1 0 2, aig_step.mk 1 3 4,
       aig_step.mk 14 1 5] 0 false,
   chain.mk 3 [aig_step.mk 2 0 1, aig_step.mk 7 2 3] 0 false]

/-- An AIG chain for each function of 3 inputs with word from 224 to 239. -/
def aig_chains_3_14 : List chain :=
  [chain.mk 3 [aig_step.mk 1 0 1, aig_step.mk 2 2 3] 0 false,
   chain.mk 3 [aig_step.mk 1 0 1, aig_step.mk 8 2 3, aig_step.mk 1 2 3,
       aig_step.mk 1 4 5] 0 false,
   chain.mk 3 [aig_step.mk 2 0 1, aig_step.mk 8 1 2, aig_step.mk 14 3 4] 0 false,
   chain.mk 3 [aig_step.mk 1 0 1, aig_step.mk 2 1 2, aig_step.mk 8 2 3,
       aig_step.mk 1 4 5] 0 false,
   chain.mk 3 [aig_step.mk 4 0 1, aig_step.mk 8 0 2, aig_step.mk 14 3 4] 0 false,
   chain.mk 3 [aig_step.mk 1 0 1, aig_step.mk 2 0 2, aig_step.mk 8 2 3,
       aig_step.mk 1 4 5] 0 false,
   chain.mk 3 [aig_step.mk 8 0 1, aig_step.mk 1 0 1, aig_step.mk 4 2 3,
       aig_step.mk 1 4 5] 0 false,
   chain.mk 3 [aig_step.mk 8 0 1, aig_step.mk 1 0 1, aig_step.mk 4 2 3,
       aig_step.mk 8 2 4, aig_step.mk 1 5 6] 0 false,
   chain.mk 3 [aig_step.mk 8 0 1, aig_step.mk 1 0 1, aig_step.mk 1 2 3,
       aig_step.mk 1 4 5] 0 false,
   chain.mk 3 [aig_step.mk 8 0 1, aig_step.mk 1 0 1, aig_step.mk 1 2 3,
       aig_step.mk 8 2 4, aig_step.mk 4 4 5, aig_step.mk 1 6 7] 0 false,
   chain.mk 3 [aig_step.mk 8 1 2, aig_step.mk 14 0 3] 0 false,
   chain.mk 3 [aig_step.mk 8 1 2, aig_step.mk 1 0 3, aig_step.mk 1 1 2,
       aig_step.mk 13 4 5] 0 false,
   chain.mk 3 [aig_step.mk 8 0 2, aig_step.mk 14 1 3] 0 false,
   chain.mk 3 [aig_step.mk 8 0 2, aig_step.mk 1 0 2, aig_step.mk 1 1 3,
       aig_step.mk 11 4 5] 0 false,
   chain.mk 3 [aig_step.mk 14 0 1] 0 false,
   chain.mk 3 [aig_step.mk 1 0 1, aig_step.mk 7 2 3] 0 false]

/-- An AIG chain for each function of 3 inputs with word from 240 to 255. -/
def aig_chains_3_15 : List chain :=
  [chain.mk 3 [] 3 false,
   chain.mk 3 [aig_step.mk 1 0 1, aig_step.mk 14 2 3] 0 false,
   chain.mk 3 [aig_step.mk 2 0 1, aig_step.mk 14 2 3] 0 false,
   chain.mk 3 [aig_step.mk 13 1 2] 0 false,
   chain.mk 3 [aig_step.mk 4 0 1, aig_step.mk 14 2 3] 0 false,
   chain.mk 3 [aig_step.mk 13 0 2] 0 false,
   chain.mk 3 [aig_step.mk 8 0 1, aig_step.mk 1 0 1, aig_step.mk 1 3 4,
       aig_step.mk 14 2 5] 0 false,
   chain.mk 3 [aig_step.mk 8 0 1, aig_step.mk 11 2 3] 0 false,
   chain.mk 3 [aig_step.mk 8 0 1, aig_step.mk 14 2 3] 0 false,
   chain.mk 3 [aig_step.mk 8 0 1, aig_step.mk 1 0 1, aig_step.mk 1 2 3,
       aig_step.mk 11 4 5] 0 false,
   chain.mk 3 [aig_step.mk 14 0 2] 0 false,
   chain.mk 3 [aig_step.mk 4 0 1, aig_step.mk 11 2 3] 0 false,
   chain.mk 3 [aig_step.mk 14 1 2] 0 false,
   chain.mk 3 [aig_step.mk 2 0 1, aig_step.mk 11 2 3] 0 false,
   chain.mk 3 [aig_step.mk 1 0 1, aig_step.mk 11 2 3] 0 false,
   chain.mk 3 [] 0 true]

/-- For every function of at most three inputs, in the order of its word, an AIG chain
    of at most six steps that computes it (found by exhaustive search). -/
def aig_chain_table : Nat → List chain
  | 0 => aig_chains_0
  | 1 => aig_chains_1
  | 2 => aig_chains_2
  | 3 =>
    aig_chains_3_0 ++ aig_chains_3_1 ++ aig_chains_3_2 ++ aig_chains_3_3 ++ aig_chains_3_4 ++
      aig_chains_3_5 ++ aig_chains_3_6 ++ aig_chains_3_7 ++ aig_chains_3_8 ++ aig_chains_3_9 ++
      aig_chains_3_10 ++ aig_chains_3_11 ++ aig_chains_3_12 ++ aig_chains_3_13 ++
      aig_chains_3_14 ++ aig_chains_3_15
  | _ => []

/-- The chain listed for the word `w` over `nr_in` inputs is well formed, has at most six
    steps and simulates to the table of `w`. -/
def table_entry_ok (nr_in w : Nat) : Bool :=
  match (aig_chain_table nr_in)[w]? with
  | none => false
  | some c =>
    c.nr_in == nr_in && decide (c.steps.length ≤ 6) && c.well_formed &&
      meets_target nr_in (table_of_word w) c

/-! # Theorems -/

/-! ## Meaning of literals and clauses -/

theorem lit2var_var2lit (v c : Nat) (hc : c ≤ 1) : Abc_Lit2Var (Abc_Var2Lit v c) = v := by
  unfold Abc_Lit2Var Abc_Var2Lit
  rw [Nat.shiftRight_eq_div_pow]
  omega

theorem iscompl_var2lit (v c : Nat) (hc : c ≤ 1) :
    Abc_LitIsCompl (Abc_Var2Lit v c) = decide (c = 1) := by
  unfold Abc_LitIsCompl Abc_Var2Lit
  rw [Nat.and_one_is_mod]
  have h : (v + v + c) % 2 = c := by omega
  rw [h]
  interval_cases c <;> rfl

theorem lit_value_pos (val : Nat → Bool) (v : Nat) :
    lit_value val (Abc_Var2Lit v 0) = val v := by
  unfold lit_value
  rw [lit2var_var2lit v 0 (by omega), iscompl_var2lit v 0 (by omega)]
  simp

theorem lit_value_neg (val : Nat → Bool) (v : Nat) :
    lit_value val (Abc_Var2Lit v 1) = !val v := by
  unfold lit_value
  rw [lit2var_var2lit v 1 (by omega), iscompl_var2lit v 1 (by omega)]
  simp

theorem litnot_pos (v : Nat) : Abc_LitNot (Abc_Var2Lit v 0) = Abc_Var2Lit v 1 := by
  unfold Abc_LitNot Abc_Var2Lit
  have h1 : ((v + v + 0) ^^^ 1) / 2 = v := by
    rw [Nat.xor_div_two]
    have : (v + v + 0) / 2 = v := by omega
    rw [this]; simp
  have h2 : ((v + v + 0) ^^^ 1) % 2 = 1 := by
    rw [Nat.xor_mod_two_eq]; omega
  omega

theorem lit_value_flag (val : Nat → Bool) (v n : Nat) (hn : n ≤ 1) :
    lit_value val (Abc_Var2Lit v n) = (val v != decide (n = 1)) := by
  unfold lit_value
  rw [lit2var_var2lit v n hn, iscompl_var2lit v n hn]

theorem clause_sat_iff (val : Nat → Bool) (c : List Nat) :
    clause_sat val c = true ↔ ∃ l ∈ c, lit_value val l = true := by
  unfold clause_sat
  simp [List.any_eq_true]

theorem cnf_sat_iff (val : Nat → Bool) (cs : List (List Nat)) :
    cnf_sat val cs = true ↔ ∀ c ∈ cs, clause_sat val c = true := by
  unfold cnf_sat
  simp [List.all_eq_true]

theorem cnf_sat_append (val : Nat → Bool) (cs ds : List (List Nat)) :
    cnf_sat val (cs ++ ds) = true ↔ cnf_sat val cs = true ∧ cnf_sat val ds = true := by
  unfold cnf_sat
  simp [List.all_append]

theorem lit_value_litnot (val : Nat → Bool) (l : Nat) :
    lit_value val (Abc_LitNot l) = !lit_value val l := by
  unfold lit_value Abc_LitNot Abc_Lit2Var Abc_LitIsCompl
  rw [Nat.shiftRight_eq_div_pow, Nat.shiftRight_eq_div_pow, Nat.and_one_is_mod, Nat.and_one_is_mod]
  have h1 : (l ^^^ 1) / 2 ^ 1 = l / 2 ^ 1 := by
    rw [pow_one, Nat.xor_div_two]; simp
  have h2 : (l ^^^ 1) % 2 = (l + 1) % 2 := Nat.xor_mod_two_eq
  rw [h1, h2]
  rcases Nat.mod_two_eq_zero_or_one l with h | h
  · have h3 : (l + 1) % 2 = 1 := by omega
    rw [h, h3]; cases val (l / 2 ^ 1) <;> rfl
  · have h3 : (l + 1) % 2 = 0 := by omega
    rw [h, h3]; cases val (l / 2 ^ 1) <;> rfl

theorem flatMap_ite_singleton {α β : Type} (l : List α) (p : α → Prop) [DecidablePred p]
    (f : α → β) :
    (l.flatMap fun a => if p a then [f a] else []) = (l.filter fun a => decide (p a)).map f := by
  induction l with
  | nil => rfl
  | cons a l ih =>
    rw [List.flatMap_cons, ih]
    by_cases h : p a <;> simp [List.filter_cons, h]

theorem pairwise_range_iff (R : Nat → Nat → Prop) (N : Nat) :
    (List.range N).Pairwise R ↔ ∀ a b, a < b → b < N → R a b := by
  induction N with
  | zero => simp
  | succ N ih =>
    rw [List.range_succ, List.pairwise_append, ih]
    constructor
    · rintro ⟨h1, -, h3⟩ a b hab hb
      by_cases hbN : b < N
      · exact h1 a b hab hbN
      · have : b = N := by omega
        subst this
        exact h3 a (List.mem_range.2 hab) b (List.mem_singleton.2 rfl)
    · intro h
      refine ⟨fun a b hab hb => h a b hab (by omega), List.pairwise_singleton _ _, ?_⟩
      intro a ha b hb
      rw [List.mem_singleton] at hb
      subst hb
      exact h a b (List.mem_range.1 ha) (by omega)

theorem mem_at_most_one (L : List Nat) (c : List Nat) :
    c ∈ at_most_one L ↔
      ∃ n m, n < m ∧ m < L.length ∧ c = [Abc_LitNot (L.getD n 0), Abc_LitNot (L.getD m 0)] := by
  unfold at_most_one
  simp only [List.mem_flatMap, List.mem_map, List.mem_range, List.mem_range']
  constructor
  · rintro ⟨n, hn, m, ⟨t, ht, rfl⟩, rfl⟩
    exact ⟨n, n + 1 + 1 * t, by omega, by omega, rfl⟩
  · rintro ⟨n, m, hnm, hm, rfl⟩
    exact ⟨n, by omega, m, ⟨m - (n + 1), by omega, by omega⟩, rfl⟩

theorem at_most_one_sat (val : Nat → Bool) (L : List Nat) :
    cnf_sat val (at_most_one L) = true ↔
      L.Pairwise (fun a b => ¬ (lit_value val a = true ∧ lit_value val b = true)) := by
  rw [cnf_sat_iff, List.pairwise_iff_getElem]
  constructor
  · intro h n m hn hm hnm
    have := h _ ((mem_at_most_one L _).2 ⟨n, m, hnm, hm, rfl⟩)
    rw [clause_sat_iff] at this
    obtain ⟨l, hl, hv⟩ := this
    rw [List.getD_eq_getElem _ _ hn, List.getD_eq_getElem _ _ hm] at hl
    simp only [List.mem_cons, List.mem_singleton, List.not_mem_nil, or_false] at hl
    rintro ⟨ha, hb⟩
    rcases hl with rfl | rfl
    · rw [lit_value_litnot, ha] at hv; simp at hv
    · rw [lit_value_litnot, hb] at hv; simp at hv
  · intro h c hc
    obtain ⟨n, m, hnm, hm, rfl⟩ := (mem_at_most_one L c).1 hc
    have hn : n < L.length := by omega
    have := h n m hn hm hnm
    rw [clause_sat_iff, List.getD_eq_getElem _ _ hn, List.getD_eq_getElem _ _ hm]
    by_cases ha : lit_value val L[n] = true
    · have hb : lit_value val L[m] = false := by
        cases hb : lit_value val L[m]
        · rfl
        · exact absurd ⟨ha, hb⟩ this
      exact ⟨_, List.mem_cons_of_mem _ (List.mem_singleton.2 rfl),
        by rw [lit_value_litnot, hb]; rfl⟩
    · have ha : lit_value val L[n] = false := by simpa using ha
      exact ⟨_, List.mem_cons_self _ _, by rw [lit_value_litnot, ha]; rfl⟩

theorem slot_lits_eq (e : ditt_maj_encoder) (sp : spec) (i k : Nat) :
    slot_lits e sp i k =
      ((List.range (sp.nr_in + sp.nr_steps)).filter fun j => decide (e.varMarks i k j ≠ 0)).map
        fun j => Abc_Var2Lit (e.varMarks i k j) 0 := by
  unfold slot_lits
  exact flatMap_ite_singleton _ (fun j => e.varMarks i k j ≠ 0) _

/-- What the two cardinality parts of a slot say about a model. -/
theorem slot_lits_sat (val : Nat → Bool) (e : ditt_maj_encoder) (sp : spec) (i k : Nat) :
    clause_sat val (slot_lits e sp i k) = true ↔
      ∃ j, j < sp.nr_in + sp.nr_steps ∧ e.varMarks i k j ≠ 0 ∧ val (e.varMarks i k j) = true := by
  rw [clause_sat_iff, slot_lits_eq]
  simp only [List.mem_map, List.mem_filter, List.mem_range, decide_eq_true_eq]
  constructor
  · rintro ⟨l, ⟨j, ⟨hj, hm⟩, rfl⟩, hv⟩
    rw [lit_value_pos] at hv
    exact ⟨j, hj, hm, hv⟩
  · rintro ⟨j, hj, hm, hv⟩
    exact ⟨_, ⟨j, ⟨hj, hm⟩, rfl⟩, by rw [lit_value_pos]; exact hv⟩

theorem slot_amo_sat (val : Nat → Bool) (e : ditt_maj_encoder) (sp : spec) (i k : Nat) :
    cnf_sat val (at_most_one (slot_lits e sp i k)) = true ↔
      ∀ a b, a < b → b < sp.nr_in + sp.nr_steps → e.varMarks i k a ≠ 0 → e.varMarks i k b ≠ 0 →
        ¬ (val (e.varMarks i k a) = true ∧ val (e.varMarks i k b) = true) := by
  rw [at_most_one_sat, slot_lits_eq, List.pairwise_map, List.pairwise_filter, pairwise_range_iff]
  simp only [lit_value_pos, decide_eq_true_eq]

theorem symmetry_breaking_sat (val : Nat → Bool) (e : ditt_maj_encoder) (sp : spec) (i k : Nat) :
    cnf_sat val (symmetry_breaking e sp i k) = true ↔
      ∀ j n, j ≤ n → n < sp.nr_in + sp.nr_steps → e.varMarks i k j ≠ 0 →
        e.varMarks i (k + 1) n ≠ 0 →
        ¬ (val (e.varMarks i k j) = true ∧ val (e.varMarks i (k + 1) n) = true) := by
  rw [cnf_sat_iff]
  unfold symmetry_breaking
  constructor
  · intro h j n hjn hn hj hnn
    have hmem : [Abc_Var2Lit (e.varMarks i k j) 1, Abc_Var2Lit (e.varMarks i (k + 1) n) 1] ∈
        ((List.range (sp.nr_in + sp.nr_steps)).flatMap fun j =>
          if e.varMarks i k j ≠ 0 then
            (List.range' j (sp.nr_in + sp.nr_steps - j)).flatMap fun n =>
              if e.varMarks i (k + 1) n ≠ 0 then
                [[Abc_Var2Lit (e.varMarks i k j) 1, Abc_Var2Lit (e.varMarks i (k + 1) n) 1]]
              else []
          else []) := by
      rw [List.mem_flatMap]
      refine ⟨j, List.mem_range.2 (by omega), ?_⟩
      rw [if_pos hj, List.mem_flatMap]
      refine ⟨n, List.mem_range'.2 ⟨n - j, by omega, by omega⟩, ?_⟩
      rw [if_pos hnn]
      exact List.mem_singleton.2 rfl
    have := h _ hmem
    rw [clause_sat_iff] at this
    obtain ⟨l, hl, hv⟩ := this
    simp only [List.mem_cons, List.mem_singleton, List.not_mem_nil, or_false] at hl
    rintro ⟨ha, hb⟩
    rcases hl with rfl | rfl
    · rw [lit_value_neg, ha] at hv; simp at hv
    · rw [lit_value_neg, hb] at hv; simp at hv
  · intro h c hc
    rw [List.mem_flatMap] at hc
    obtain ⟨j, hj, hc⟩ := hc
    split at hc
    · rename_i hjm
      rw [List.mem_flatMap] at hc
      obtain ⟨n, hn, hc⟩ := hc
      split at hc
      · rename_i hnm
        rw [List.mem_singleton] at hc
        subst hc
        obtain ⟨t, ht, rfl⟩ := List.mem_range'.1 hn
        have := h j (j + 1 * t) (by omega) (by have := List.mem_range.1 hj; omega) hjm hnm
        rw [clause_sat_iff]
        by_cases ha : val (e.varMarks i k j) = true
        · have hb : val (e.varMarks i (k + 1) (j + 1 * t)) = false := by
            cases hb : val (e.varMarks i (k + 1) (j + 1 * t))
            · rfl
            · exact absurd ⟨ha, hb⟩ this
          exact ⟨_, List.mem_cons_of_mem _ (List.mem_singleton.2 rfl),
            by rw [lit_value_neg, hb]; rfl⟩
        · have ha : val (e.varMarks i k j) = false := by simpa using ha
          exact ⟨_, List.mem_cons_self _ _, by rw [lit_value_neg, ha]; rfl⟩
      · simp at hc
    · simp at hc

theorem covering_clauses_clear (e : ditt_maj_encoder) (sp : spec) :
    covering_clauses (clear_out_lits e) sp = [] := by
  unfold covering_clauses clear_out_lits
  simp

theorem slot_clauses_sat (val : Nat → Bool) (e : ditt_maj_encoder) (sp : spec) (i k : Nat) :
    cnf_sat val (slot_clauses e sp i k) = true ↔ slot_ok e sp val i k := by
  unfold slot_clauses slot_ok
  rw [cnf_sat_append, cnf_sat_append, slot_amo_sat]
  have h1 : cnf_sat val [slot_lits e sp i k] = true ↔ clause_sat val (slot_lits e sp i k) = true := by
    simp [cnf_sat]
  rw [h1, slot_lits_sat]
  by_cases hk : k = 2
  · simp [hk, cnf_sat, and_assoc]
  · rw [if_neg hk, symmetry_breaking_sat]
    simp [hk, and_assoc]

theorem add_base_cnf_clauses_eq (e : ditt_maj_encoder) (sp : spec) :
    add_base_cnf_clauses e sp =
      (List.range' sp.nr_in sp.nr_steps).flatMap fun i =>
        (List.range 3).flatMap fun k => slot_clauses e sp i k := by
  unfold add_base_cnf_clauses
  simp only [covering_clauses_clear, List.append_nil]
  rfl

/-- The base CNF holds in a model exactly when every slot of every step is in order. -/
theorem add_base_cnf_clauses_sat (val : Nat → Bool) (e : ditt_maj_encoder) (sp : spec) :
    cnf_sat val (add_base_cnf_clauses e sp) = true ↔
      ∀ i, sp.nr_in ≤ i → i < sp.nr_in + sp.nr_steps → ∀ k, k < 3 → slot_ok e sp val i k := by
  rw [add_base_cnf_clauses_eq, cnf_sat_iff]
  constructor
  · intro h i hi1 hi2 k hk
    rw [← slot_clauses_sat, cnf_sat_iff]
    intro c hc
    apply h
    rw [List.mem_flatMap]
    refine ⟨i, List.mem_range'.2 ⟨i - sp.nr_in, by omega, by omega⟩, ?_⟩
    rw [List.mem_flatMap]
    exact ⟨k, List.mem_range.2 hk, hc⟩
  · intro h c hc
    rw [List.mem_flatMap] at hc
    obtain ⟨i, hi, hc⟩ := hc
    rw [List.mem_flatMap] at hc
    obtain ⟨k, hk, hc⟩ := hc
    obtain ⟨t, ht, rfl⟩ := List.mem_range'.1 hi
    have := (slot_clauses_sat val e sp (sp.nr_in + 1 * t) k).2
      (h _ (by omega) (by omega) k (List.mem_range.1 hk))
    rw [cnf_sat_iff] at this
    exact this c hc

/-! ## Allocation of selectors -/

theorem push_selectors_nil (e : ditt_maj_encoder) : push_selectors e [] = e := rfl

theorem push_selectors_cons (e : ditt_maj_encoder) (t : Nat × Nat × Nat)
    (ts : List (Nat × Nat × Nat)) :
    push_selectors e (t :: ts) = push_selectors (push_selector e t.1 t.2.1 t.2.2) ts := rfl

theorem push_selectors_append (e : ditt_maj_encoder) (ts us : List (Nat × Nat × Nat)) :
    push_selectors e (ts ++ us) = push_selectors (push_selectors e ts) us := by
  unfold push_selectors
  rw [List.foldl_append]

theorem push_selectors_frame (ts : List (Nat × Nat × Nat)) (e : ditt_maj_encoder) :
    (push_selectors e ts).level_dist = e.level_dist ∧
    (push_selectors e ts).nr_levels = e.nr_levels ∧
    (push_selectors e ts).sim_tts = e.sim_tts ∧
    (push_selectors e ts).iVar = e.iVar + ts.length := by
  induction ts generalizing e with
  | nil => exact ⟨rfl, rfl, rfl, rfl⟩
  | cons t ts ih =>
    rw [push_selectors_cons]
    obtain ⟨h1, h2, h3, h4⟩ := ih (push_selector e t.1 t.2.1 t.2.2)
    refine ⟨h1, h2, h3, ?_⟩
    rw [h4]
    simp only [push_selector, List.length_cons]
    omega

theorem push_selectors_not_mem (ts : List (Nat × Nat × Nat)) (e : ditt_maj_encoder)
    (i k j : Nat) (h : (i, k, j) ∉ ts) :
    (push_selectors e ts).varMarks i k j = e.varMarks i k j := by
  induction ts generalizing e with
  | nil => rfl
  | cons t ts ih =>
    rw [push_selectors_cons, ih _ (fun hm => h (List.mem_cons_of_mem _ hm))]
    have hne : (i, k, j) ≠ t := fun hm => h (hm ▸ List.mem_cons_self _ _)
    simp only [push_selector, set3]
    rw [if_neg]
    rintro ⟨h1, h2, h3⟩
    exact hne (by rw [h1, h2, h3])

theorem push_selectors_mem (ts : List (Nat × Nat × Nat)) (e : ditt_maj_encoder)
    (i k j : Nat) (h : (i, k, j) ∈ ts) :
    e.iVar ≤ (push_selectors e ts).varMarks i k j ∧
    (push_selectors e ts).varMarks i k j < e.iVar + ts.length := by
  induction ts generalizing e with
  | nil => simp at h
  | cons t ts ih =>
    rw [push_selectors_cons]
    by_cases hm : (i, k, j) ∈ ts
    · have := ih (push_selector e t.1 t.2.1 t.2.2) hm
      simp only [push_selector, List.length_cons] at this ⊢
      omega
    · have ht : (i, k, j) = t := by
        rcases List.mem_cons.1 h with h | h
        · exact h
        · exact absurd h hm
      rw [push_selectors_not_mem ts _ i k j hm]
      subst ht
      simp [push_selector, set3]

theorem push_selectors_inj (ts : List (Nat × Nat × Nat)) (e : ditt_maj_encoder)
    (hnd : ts.Nodup) (t u : Nat × Nat × Nat) (ht : t ∈ ts) (hu : u ∈ ts)
    (h : (push_selectors e ts).varMarks t.1 t.2.1 t.2.2 =
      (push_selectors e ts).varMarks u.1 u.2.1 u.2.2) : t = u := by
  induction ts generalizing e with
  | nil => simp at ht
  | cons a ts ih =>
    rw [push_selectors_cons] at h
    rw [List.nodup_cons] at hnd
    have key : ∀ x : Nat × Nat × Nat, x = a →
        (push_selectors (push_selector e a.1 a.2.1 a.2.2) ts).varMarks x.1 x.2.1 x.2.2 = e.iVar := by
      intro x hx
      subst hx
      rw [push_selectors_not_mem ts _ _ _ _ hnd.1]
      simp [push_selector, set3]
    have big : ∀ x : Nat × Nat × Nat, x ∈ ts →
        e.iVar + 1 ≤
          (push_selectors (push_selector e a.1 a.2.1 a.2.2) ts).varMarks x.1 x.2.1 x.2.2 := by
      intro x hx
      have := (push_selectors_mem ts (push_selector e a.1 a.2.1 a.2.2) x.1 x.2.1 x.2.2 hx).1
      simpa [push_selector] using this
    rcases List.mem_cons.1 ht with ht | ht <;> rcases List.mem_cons.1 hu with hu | hu
    · rw [ht, hu]
    · have h1 := key t ht
      have h2 := big u hu
      omega
    · have h1 := key u hu
      have h2 := big t ht
      omega
    · exact ih _ hnd.2 ht hu h

theorem for_loop_push (lo hi : Nat) (g : Nat → Nat × Nat × Nat) (e : ditt_maj_encoder) :
    for_loop lo hi (fun e x => push_selector e (g x).1 (g x).2.1 (g x).2.2) e =
      push_selectors e ((List.range' lo (hi - lo)).map g) := by
  unfold for_loop push_selectors
  rw [List.foldl_map]

theorem foldl_push_flat (Inv : ditt_maj_encoder → Prop) (g : Nat → List (Nat × Nat × Nat))
    (body : ditt_maj_encoder → Nat → ditt_maj_encoder)
    (hInv : ∀ e ts, Inv e → Inv (push_selectors e ts))
    (hbody : ∀ e x, Inv e → body e x = push_selectors e (g x))
    (l : List Nat) (e : ditt_maj_encoder) (he : Inv e) :
    l.foldl body e = push_selectors e (l.flatMap g) := by
  induction l generalizing e with
  | nil => rfl
  | cons x l ih =>
    rw [List.foldl_cons, hbody e x he, ih _ (hInv e _ he), List.flatMap_cons, push_selectors_append]

theorem for_loop_push_flat (Inv : ditt_maj_encoder → Prop) (g : Nat → List (Nat × Nat × Nat))
    (body : ditt_maj_encoder → Nat → ditt_maj_encoder)
    (hInv : ∀ e ts, Inv e → Inv (push_selectors e ts))
    (hbody : ∀ e x, Inv e → body e x = push_selectors e (g x))
    (lo hi : Nat) (e : ditt_maj_encoder) (he : Inv e) :
    for_loop lo hi body e = push_selectors e ((List.range' lo (hi - lo)).flatMap g) :=
  foldl_push_flat Inv g body hInv hbody _ e he

theorem slot_loop_eq (i k : Nat) (e : ditt_maj_encoder) :
    for_loop 0 (i - k) (fun e j => push_selector e i k j) e =
      push_selectors e (slot_selectors i k) :=
  for_loop_push 0 (i - k) (fun j => (i, k, j)) e

theorem slots_loop_eq (i lo : Nat) (e : ditt_maj_encoder) :
    for_loop lo 3 (fun e k => for_loop 0 (i - k) (fun e j => push_selector e i k j) e) e =
      push_selectors e ((List.range' lo (3 - lo)).flatMap fun k => slot_selectors i k) :=
  for_loop_push_flat (fun _ => True) (slot_selectors i) _ (fun _ _ _ => trivial)
    (fun e k _ => slot_loop_eq i k e) lo 3 e trivial

theorem first_step_eq (sp : spec) (e : ditt_maj_encoder) :
    for_loop 0 3 (fun e k => push_selector e sp.nr_in k (2 - k)) e =
      push_selectors e (first_step_selectors sp) :=
  for_loop_push 0 3 (fun k => (sp.nr_in, k, 2 - k)) e

theorem add_base_variables_eq (e : ditt_maj_encoder) (sp : spec) :
    add_base_variables e sp = push_selectors { e with iVar := 1 } (layout_selectors sp) := by
  unfold add_base_variables layout_selectors
  rw [push_selectors_append]
  simp only [first_step_eq]
  apply for_loop_push_flat (fun _ => True) step_selectors _ (fun _ _ _ => trivial) _ _ _ _ trivial
  intro e x _
  exact slots_loop_eq x 0 e

theorem get_level_congr (e e1 : ditt_maj_encoder) (sp : spec) (i : Nat)
    (h1 : e1.level_dist = e.level_dist) (h2 : e1.nr_levels = e.nr_levels) :
    get_level e1 sp i = get_level e sp i := by
  unfold get_level
  rw [h1, h2]

theorem first_step_on_level_congr (e e1 : ditt_maj_encoder) (l : Nat)
    (h1 : e1.level_dist = e.level_dist) :
    first_step_on_level e1 l = first_step_on_level e l := by
  unfold first_step_on_level
  rw [h1]

theorem add_base_variables_fence_eq (e : ditt_maj_encoder) (sp : spec) :
    add_base_variables_fence e sp =
      push_selectors { clear_out_lits e with iVar := 1 } (layout_selectors_fence e sp) := by
  unfold add_base_variables_fence layout_selectors_fence
  rw [push_selectors_append]
  simp only [first_step_eq]
  apply for_loop_push_flat
    (fun e1 => e1.level_dist = e.level_dist ∧ e1.nr_levels = e.nr_levels)
    (step_selectors_fence e sp)
  · intro e1 ts h
    obtain ⟨h1, h2, -, -⟩ := push_selectors_frame ts e1
    exact ⟨h1.trans h.1, h2.trans h.2⟩
  · intro e1 x h
    unfold step_selectors_fence
    rw [push_selectors_append]
    simp only [get_level_congr e e1 sp x h.1 h.2, first_step_on_level_congr e e1 _ h.1]
    rw [← for_loop_push _ _ (fun z => (x, 0, z))]
    exact slots_loop_eq x 1 _
  · obtain ⟨h1, h2, -, -⟩ := push_selectors_frame (first_step_selectors sp)
      { clear_out_lits e with iVar := 1 }
    exact ⟨h1, h2⟩

/-! ## The selectors of the two layouts -/

theorem mem_first_step_selectors (sp : spec) (i k j : Nat) :
    (i, k, j) ∈ first_step_selectors sp ↔ i = sp.nr_in ∧ k < 3 ∧ j = 2 - k := by
  unfold first_step_selectors
  simp only [List.mem_map, List.mem_range', Prod.mk.injEq]
  constructor
  · rintro ⟨a, ⟨t, ht, rfl⟩, h1, h2, h3⟩
    subst h1 h2 h3
    exact ⟨rfl, by omega, rfl⟩
  · rintro ⟨rfl, hk, rfl⟩
    exact ⟨k, ⟨k, by omega, by omega⟩, rfl, rfl, rfl⟩

theorem mem_slot_selectors (i k : Nat) (t : Nat × Nat × Nat) :
    t ∈ slot_selectors i k ↔ t.1 = i ∧ t.2.1 = k ∧ t.2.2 < i - k := by
  obtain ⟨a, b, c⟩ := t
  unfold slot_selectors
  simp only [List.mem_map, List.mem_range', Prod.mk.injEq]
  constructor
  · rintro ⟨x, ⟨y, hy, rfl⟩, h1, h2, h3⟩
    subst h1 h2 h3
    exact ⟨rfl, rfl, by omega⟩
  · rintro ⟨rfl, rfl, hc⟩
    exact ⟨c, ⟨c, by omega, by omega⟩, rfl, rfl, rfl⟩

theorem mem_slots_from (i lo : Nat) (t : Nat × Nat × Nat) :
    (t ∈ (List.range' lo (3 - lo)).flatMap fun k => slot_selectors i k) ↔
      t.1 = i ∧ lo ≤ t.2.1 ∧ t.2.1 < 3 ∧ t.2.2 < i - t.2.1 := by
  simp only [List.mem_flatMap, List.mem_range', mem_slot_selectors]
  constructor
  · rintro ⟨k, ⟨x, hx, rfl⟩, h1, h2, h3⟩
    exact ⟨h1, by omega, by omega, by rw [h2]; exact h3⟩
  · rintro ⟨h1, h2, h3, h4⟩
    exact ⟨t.2.1, ⟨t.2.1 - lo, by omega, by omega⟩, h1, rfl, h4⟩

theorem mem_layout_selectors (sp : spec) (i k j : Nat) :
    (i, k, j) ∈ layout_selectors sp ↔
      (i = sp.nr_in ∧ k < 3 ∧ j = 2 - k) ∨
      (sp.nr_in < i ∧ i < sp.nr_in + sp.nr_steps ∧ k < 3 ∧ j < i - k) := by
  unfold layout_selectors step_selectors
  rw [List.mem_append, mem_first_step_selectors]
  simp only [List.mem_flatMap, List.mem_range']
  constructor
  · rintro (h | ⟨x, ⟨y, hy, rfl⟩, hm⟩)
    · exact Or.inl h
    · have := (mem_slots_from _ 0 (i, k, j)).1 (by simpa [List.mem_flatMap, List.mem_range'] using hm)
      simp only at this
      obtain ⟨h1, -, h3, h4⟩ := this
      subst h1
      exact Or.inr ⟨by omega, by omega, h3, h4⟩
  · rintro (h | ⟨h1, h2, h3, h4⟩)
    · exact Or.inl h
    · refine Or.inr ⟨i, ⟨i - (sp.nr_in + 1), by omega, by omega⟩, ?_⟩
      have := (mem_slots_from i 0 (i, k, j)).2 ⟨rfl, by omega, h3, h4⟩
      simpa [List.mem_flatMap, List.mem_range'] using this

theorem mem_step_selectors_fence (e : ditt_maj_encoder) (sp : spec) (x : Nat)
    (t : Nat × Nat × Nat) :
    t ∈ step_selectors_fence e sp x ↔
      t.1 = x ∧
      ((t.2.1 = 0 ∧ first_step_on_level e (get_level e sp x - 1) ≤ t.2.2 ∧
          t.2.2 < first_step_on_level e (get_level e sp x)) ∨
        (1 ≤ t.2.1 ∧ t.2.1 < 3 ∧ t.2.2 < x - t.2.1)) := by
  unfold step_selectors_fence
  rw [List.mem_append, mem_slots_from]
  obtain ⟨a, b, c⟩ := t
  simp only [List.mem_map, List.mem_range', Prod.mk.injEq]
  constructor
  · rintro (⟨z, ⟨y, hy, rfl⟩, h1, h2, h3⟩ | ⟨h1, h2, h3, h4⟩)
    · subst h1 h2 h3
      exact ⟨rfl, Or.inl ⟨rfl, by omega, by omega⟩⟩
    · exact ⟨h1, Or.inr ⟨h2, h3, h4⟩⟩
  · rintro ⟨h1, (⟨h2, h3, h4⟩ | ⟨h2, h3, h4⟩)⟩
    · subst h1 h2
      exact Or.inl ⟨c, ⟨c - first_step_on_level e (get_level e sp a - 1), by omega, by omega⟩,
        rfl, rfl, rfl⟩
    · exact Or.inr ⟨h1, h2, h3, h4⟩

theorem mem_layout_selectors_fence (e : ditt_maj_encoder) (sp : spec) (i k j : Nat) :
    (i, k, j) ∈ layout_selectors_fence e sp ↔
      (i = sp.nr_in ∧ k < 3 ∧ j = 2 - k) ∨
      (sp.nr_in < i ∧ i < sp.nr_in + sp.nr_steps ∧
        ((k = 0 ∧ first_step_on_level e (get_level e sp i - 1) ≤ j ∧
            j < first_step_on_level e (get_level e sp i)) ∨
          (1 ≤ k ∧ k < 3 ∧ j < i - k))) := by
  unfold layout_selectors_fence
  rw [List.mem_append, mem_first_step_selectors]
  simp only [List.mem_flatMap, List.mem_range', mem_step_selectors_fence]
  constructor
  · rintro (h | ⟨x, ⟨y, hy, rfl⟩, h1, h2⟩)
    · exact Or.inl h
    · subst h1
      exact Or.inr ⟨by omega, by omega, h2⟩
  · rintro (h | ⟨h1, h2, h3⟩)
    · exact Or.inl h
    · exact Or.inr ⟨i, ⟨i - (sp.nr_in + 1), by omega, by omega⟩, rfl, h3⟩

/-! ## The encoder state before `add_base_cnf` -/

theorem foldl_sim_tts (f : Nat → truth_table) (l : List Nat) (e : ditt_maj_encoder) :
    (l.foldl (fun e i => { e with sim_tts := set1 e.sim_tts i (f i) }) e).varMarks = e.varMarks ∧
    (l.foldl (fun e i => { e with sim_tts := set1 e.sim_tts i (f i) }) e).level_dist
      = e.level_dist ∧
    (l.foldl (fun e i => { e with sim_tts := set1 e.sim_tts i (f i) }) e).nr_levels
      = e.nr_levels ∧
    (l.foldl (fun e i => { e with sim_tts := set1 e.sim_tts i (f i) }) e).iVar = e.iVar ∧
    (l.foldl (fun e i => { e with sim_tts := set1 e.sim_tts i (f i) }) e).vOutLits = e.vOutLits ∧
    ∀ x, (l.foldl (fun e i => { e with sim_tts := set1 e.sim_tts i (f i) }) e).sim_tts x =
      if x ∈ l then f x else e.sim_tts x := by
  induction l generalizing e with
  | nil => simp
  | cons a l ih =>
    rw [List.foldl_cons]
    obtain ⟨h1, h2, h3, h4, h5, h6⟩ := ih { e with sim_tts := set1 e.sim_tts a (f a) }
    refine ⟨h1, h2, h3, h4, h5, ?_⟩
    intro x
    rw [h6]
    by_cases hx : x ∈ l
    · simp [hx]
    · by_cases hxa : x = a
      · subst hxa; simp [set1]
      · simp [hx, hxa, set1]

theorem cegar_reset_spec (e : ditt_maj_encoder) (sp : spec) :
    (cegar_reset e sp).varMarks = (fun _ _ _ => 0) ∧
    (cegar_reset e sp).level_dist = e.level_dist ∧
    (cegar_reset e sp).nr_levels = e.nr_levels ∧
    (cegar_reset e sp).iVar = e.iVar ∧
    (cegar_reset e sp).vOutLits = e.vOutLits ∧
    ∀ x, x < sp.nr_in → (cegar_reset e sp).sim_tts x = create_nth_var x := by
  obtain ⟨h1, h2, h3, h4, h5, h6⟩ := foldl_sim_tts
    (fun i => if i < sp.nr_in then create_nth_var i else fun _ => false)
    (List.range' 0 (sp.nr_in + sp.nr_steps - 0)) { e with varMarks := fun _ _ _ => 0 }
  refine ⟨h1, h2, h3, h4, h5, ?_⟩
  intro x hx
  have := h6 x
  rw [if_pos (List.mem_range'.2 ⟨x, by omega, by omega⟩), if_pos hx] at this
  exact this

theorem foldl_level_dist (g : ditt_maj_encoder → Nat → Nat) (l : List Nat)
    (e : ditt_maj_encoder) :
    (l.foldl (fun e i => { e with level_dist := set1 e.level_dist i (g e i) }) e).varMarks
      = e.varMarks ∧
    (l.foldl (fun e i => { e with level_dist := set1 e.level_dist i (g e i) }) e).nr_levels
      = e.nr_levels ∧
    (l.foldl (fun e i => { e with level_dist := set1 e.level_dist i (g e i) }) e).iVar = e.iVar ∧
    (l.foldl (fun e i => { e with level_dist := set1 e.level_dist i (g e i) }) e).vOutLits
      = e.vOutLits ∧
    (l.foldl (fun e i => { e with level_dist := set1 e.level_dist i (g e i) }) e).sim_tts
      = e.sim_tts ∧
    ∀ x, x ∉ l →
      (l.foldl (fun e i => { e with level_dist := set1 e.level_dist i (g e i) }) e).level_dist x =
        e.level_dist x := by
  induction l generalizing e with
  | nil => simp
  | cons a l ih =>
    rw [List.foldl_cons]
    obtain ⟨h1, h2, h3, h4, h5, h6⟩ := ih { e with level_dist := set1 e.level_dist a (g e a) }
    refine ⟨h1, h2, h3, h4, h5, ?_⟩
    intro x hx
    rw [h6 x (fun h => hx (List.mem_cons_of_mem _ h))]
    have : x ≠ a := fun h => hx (h ▸ List.mem_cons_self _ _)
    simp [set1, this]

theorem update_level_map_spec (e : ditt_maj_encoder) (sp : spec) (f : fence) :
    (update_level_map e sp f).varMarks = e.varMarks ∧
    (update_level_map e sp f).nr_levels = f.nr_levels ∧
    (update_level_map e sp f).iVar = e.iVar ∧
    (update_level_map e sp f).vOutLits = e.vOutLits ∧
    (update_level_map e sp f).sim_tts = e.sim_tts ∧
    (update_level_map e sp f).level_dist 0 = sp.nr_in := by
  obtain ⟨h1, h2, h3, h4, h5, h6⟩ := foldl_level_dist
    (fun e i => e.level_dist (i - 1) + f.at_level (i - 1))
    (List.range' 1 (f.nr_levels + 1 - 1))
    { e with nr_levels := f.nr_levels, level_dist := set1 e.level_dist 0 sp.nr_in }
  refine ⟨h1, h2, h3, h4, h5, ?_⟩
  have := h6 0 (by intro h; obtain ⟨t, -, ht⟩ := List.mem_range'.1 h; omega)
  rw [update_level_map, for_loop]
  rw [this]
  simp [set1]

theorem push_selectors_marks (s : ditt_maj_encoder) (ts : List (Nat × Nat × Nat))
    (h0 : s.varMarks = fun _ _ _ => 0) (h1 : s.iVar = 1) (i k j : Nat) :
    ((push_selectors s ts).varMarks i k j ≠ 0 ↔ (i, k, j) ∈ ts) ∧
    (push_selectors s ts).varMarks i k j < (push_selectors s ts).iVar := by
  obtain ⟨-, -, -, hiv⟩ := push_selectors_frame ts s
  rw [hiv, h1]
  by_cases hm : (i, k, j) ∈ ts
  · have := push_selectors_mem _ s i k j hm
    rw [h1] at this
    exact ⟨⟨fun _ => hm, fun _ => by omega⟩, this.2⟩
  · have := push_selectors_not_mem _ s i k j hm
    rw [h0] at this
    rw [this]
    exact ⟨⟨fun h => absurd rfl h, fun h => absurd h hm⟩, Nat.lt_of_lt_of_le Nat.zero_lt_one (Nat.le_add_right _ _)⟩

/-- The selectors allocated by `cegar_encode(spec)` are exactly those of
    `layout_selectors`, with ids from 1 up to `iVar - 1`. -/
theorem cegar_layout_marks (e : ditt_maj_encoder) (sp : spec) (i k j : Nat) :
    ((cegar_layout e sp).varMarks i k j ≠ 0 ↔ (i, k, j) ∈ layout_selectors sp) ∧
    (cegar_layout e sp).varMarks i k j < (cegar_layout e sp).iVar := by
  unfold cegar_layout
  rw [add_base_variables_eq]
  exact push_selectors_marks { cegar_reset e sp with iVar := 1 } _ (cegar_reset_spec e sp).1 rfl i k j

/-- The selectors allocated by `cegar_encode(spec, fence)` are exactly those of
    `layout_selectors_fence`, with ids from 1 up to `iVar - 1`. -/
theorem cegar_layout_fence_marks (e : ditt_maj_encoder) (sp : spec) (f : fence) (i k j : Nat) :
    ((cegar_layout_fence e sp f).varMarks i k j ≠ 0 ↔
      (i, k, j) ∈ layout_selectors_fence (update_level_map (cegar_reset e sp) sp f) sp) ∧
    (cegar_layout_fence e sp f).varMarks i k j < (cegar_layout_fence e sp f).iVar := by
  unfold cegar_layout_fence
  rw [add_base_variables_fence_eq]
  have hvm2 := (update_level_map_spec (cegar_reset e sp) sp f).1
  rw [(cegar_reset_spec e sp).1] at hvm2
  exact push_selectors_marks
    { clear_out_lits (update_level_map (cegar_reset e sp) sp f) with iVar := 1 } _ hvm2 rfl i k j

theorem get_level_pos (e : ditt_maj_encoder) (sp : spec) (i : Nat) (hi : sp.nr_in < i)
    (h0 : e.level_dist 0 = sp.nr_in) :
    1 ≤ get_level e sp i ∧ e.level_dist (get_level e sp i - 1) ≤ i := by
  unfold get_level
  rw [if_neg (by omega), if_neg (by omega)]
  cases hf : (List.range (e.nr_levels + 1)).find? (fun i_1 => decide (e.level_dist i_1 > i)) with
  | none =>
    simp only
    refine ⟨by omega, ?_⟩
    rw [List.find?_eq_none] at hf
    have := hf e.nr_levels (List.mem_range.2 (by omega))
    simp only [decide_eq_true_eq, not_lt] at this
    simpa using this
  | some t =>
    simp only
    rw [List.find?_range_eq_some] at hf
    obtain ⟨h1, h2, h3⟩ := hf
    simp only [decide_eq_true_eq] at h1
    have ht : t ≠ 0 := by
      rintro rfl
      omega
    refine ⟨by omega, ?_⟩
    have := h3 (t - 1) (by omega)
    simpa using this

/-- Without a fence every allocated selector `(i, k, j)` has `j < i`, belongs to a step
    and to one of the three slots. -/
theorem cegar_layout_lt (e : ditt_maj_encoder) (sp : spec) (hn : 3 ≤ sp.nr_in) (i k j : Nat)
    (h : (cegar_layout e sp).varMarks i k j ≠ 0) : j < i ∧ sp.nr_in ≤ i ∧ k < 3 := by
  rw [(cegar_layout_marks e sp i k j).1, mem_layout_selectors] at h
  omega

/-- Under a fence every allocated selector `(i, k, j)` has `j < i`, belongs to a step
    and to one of the three slots. -/
theorem cegar_layout_fence_lt (e : ditt_maj_encoder) (sp : spec) (f : fence) (hn : 3 ≤ sp.nr_in)
    (i k j : Nat) (h : (cegar_layout_fence e sp f).varMarks i k j ≠ 0) :
    j < i ∧ sp.nr_in ≤ i ∧ k < 3 := by
  rw [(cegar_layout_fence_marks e sp f i k j).1, mem_layout_selectors_fence] at h
  rcases h with h | ⟨h1, h2, h3 | h3⟩
  · omega
  · have hl := get_level_pos (update_level_map (cegar_reset e sp) sp f) sp i h1
      (update_level_map_spec _ sp f).2.2.2.2.2
    obtain ⟨hk, h4, h5⟩ := h3
    unfold first_step_on_level at h5
    rw [if_neg (by omega)] at h5
    omega
  · omega

/-! ## Decoding -/

theorem foldl_skip {σ : Type} (P : Nat → Prop) [DecidablePred P] (g : σ → Nat → σ)
    (l : List Nat) (s : σ) (h : ∀ j ∈ l, ¬ P j) :
    l.foldl (fun s j => if P j then g s j else s) s = s := by
  induction l generalizing s with
  | nil => rfl
  | cons a l ih =>
    rw [List.foldl_cons, if_neg (h a (List.mem_cons_self _ _))]
    exact ih s (fun j hj => h j (List.mem_cons_of_mem _ hj))

theorem foldl_unique {σ : Type} (P : Nat → Prop) [DecidablePred P] (g : σ → Nat → σ)
    (N j0 : Nat) (s : σ) (hj0 : j0 < N) (hP : P j0) (hu : ∀ j, j < N → P j → j = j0) :
    for_loop 0 N (fun s j => if P j then g s j else s) s = g s j0 := by
  unfold for_loop
  have hsplit : List.range' 0 (N - 0) =
      List.range' 0 j0 ++ (j0 :: List.range' (j0 + 1) (N - (j0 + 1))) := by
    have h1 : N - 0 = (N - (j0 + 1) + 1) + j0 := by omega
    rw [h1, ← List.range'_append_1 0 j0 (N - (j0 + 1) + 1), Nat.zero_add, List.range'_succ]
  rw [hsplit, List.foldl_append, List.foldl_cons]
  rw [foldl_skip P g _ s, if_pos hP, foldl_skip P g]
  · intro j hj hPj
    obtain ⟨t, ht, rfl⟩ := List.mem_range'.1 hj
    have := hu _ (by omega) hPj
    omega
  · intro j hj hPj
    obtain ⟨t, ht, rfl⟩ := List.mem_range'.1 hj
    have := hu _ (by omega) hPj
    omega

/-- When exactly one allocated selector of slot `(i, k)` is true in the model, the
    assertion of `find_fanin` holds and the method returns its source. -/
theorem find_fanin_unique (e : ditt_maj_encoder) (sp : spec) (val : Nat → Bool) (i k j0 : Nat)
    (hj0 : j0 < sp.nr_in + sp.nr_steps)
    (hP : e.varMarks i k j0 ≠ 0 ∧ val (e.varMarks i k j0) = true)
    (hu : ∀ j, j < sp.nr_in + sp.nr_steps →
      e.varMarks i k j ≠ 0 ∧ val (e.varMarks i k j) = true → j = j0) :
    find_fanin_loop e sp val i k = ((j0 : Int), 1) ∧ find_fanin e sp val i k = some j0 := by
  have h : find_fanin_loop e sp val i k = ((j0 : Int), 1) := by
    unfold find_fanin_loop
    rw [foldl_unique (fun j => e.varMarks i k j ≠ 0 ∧ val (e.varMarks i k j) = true)
      (fun (s : Int × Nat) j => ((j : Int), s.2 + 1)) _ j0 _ hj0 hP hu]
  refine ⟨h, ?_⟩
  unfold find_fanin
  rw [h]
  simp

/-- In a model where slot `(i, k)` is in order there is exactly one true allocated
    selector, and `find_fanin` returns its source. -/
theorem find_fanin_of_slot_ok (e : ditt_maj_encoder) (sp : spec) (val : Nat → Bool) (i k : Nat)
    (h : slot_ok e sp val i k) :
    ∃ j, j < sp.nr_in + sp.nr_steps ∧ e.varMarks i k j ≠ 0 ∧ val (e.varMarks i k j) = true ∧
      (∀ j2, j2 < sp.nr_in + sp.nr_steps → e.varMarks i k j2 ≠ 0 →
        val (e.varMarks i k j2) = true → j2 = j) ∧
      find_fanin_loop e sp val i k = ((j : Int), 1) ∧
      find_fanin e sp val i k = some j := by
  obtain ⟨⟨j, hj, hm, hv⟩, hamo, -⟩ := h
  have hu : ∀ j2, j2 < sp.nr_in + sp.nr_steps → e.varMarks i k j2 ≠ 0 →
      val (e.varMarks i k j2) = true → j2 = j := by
    intro j2 hj2 hm2 hv2
    by_contra hne
    rcases Nat.lt_or_gt_of_ne hne with hlt | hgt
    · exact hamo j2 j hlt hj hm2 hm ⟨hv2, hv⟩
    · exact hamo j j2 hgt hj2 hm hm2 ⟨hv, hv2⟩
  obtain ⟨h1, h2⟩ := find_fanin_unique e sp val i k j hj ⟨hm, hv⟩
    (fun j2 hj2 hp => hu j2 hj2 hp.1 hp.2)
  exact ⟨j, hj, hm, hv, hu, h1, h2⟩

/-! ## Structure of the models of the base CNF -/

theorem has_layout_lt (e : ditt_maj_encoder) (sp : spec) (h : has_layout e sp)
    (hn : 3 ≤ sp.nr_in) (i k j : Nat) (hm : e.varMarks i k j ≠ 0) :
    j < i ∧ sp.nr_in ≤ i ∧ k < 3 := by
  obtain ⟨e0, h | ⟨f, h⟩⟩ := h
  · rw [h] at hm
    exact cegar_layout_lt e0 sp hn i k j hm
  · rw [h] at hm
    exact cegar_layout_fence_lt e0 sp f hn i k j hm

theorem has_layout_cegar_layout (e0 : ditt_maj_encoder) (sp : spec) :
    has_layout (cegar_layout e0 sp) sp := ⟨e0, Or.inl rfl⟩

theorem has_layout_cegar_layout_fence (e0 : ditt_maj_encoder) (sp : spec) (f : fence) :
    has_layout (cegar_layout_fence e0 sp f) sp := ⟨e0, Or.inr ⟨f, rfl⟩⟩

/-- C3. In every model of the base CNF emitted by `cegar_encode` (with or without a
    fence, at least three inputs), each slot `k` of each step `i` has exactly one
    allocated selector that is true; the loop of `find_fanin` counts one, so its
    assertion holds, and `find_fanin` returns the source of that selector. -/
theorem base_cnf_exactly_one_selector (e : ditt_maj_encoder) (sp : spec) (val : Nat → Bool)
    (hl : has_layout e sp) (hn : 3 ≤ sp.nr_in)
    (hsat : cnf_sat val (add_base_cnf_clauses e sp) = true)
    (i k : Nat) (hi1 : sp.nr_in ≤ i) (hi2 : i < sp.nr_in + sp.nr_steps) (hk : k < 3) :
    ∃ j, (e.varMarks i k j ≠ 0 ∧ val (e.varMarks i k j) = true) ∧
      (∀ j2, e.varMarks i k j2 ≠ 0 ∧ val (e.varMarks i k j2) = true → j2 = j) ∧
      (find_fanin_loop e sp val i k).2 = 1 ∧
      find_fanin e sp val i k = some j := by
  have hs := (add_base_cnf_clauses_sat val e sp).1 hsat i hi1 hi2 k hk
  obtain ⟨j, -, hm, hv, hu, h1, h2⟩ := find_fanin_of_slot_ok e sp val i k hs
  refine ⟨j, ⟨hm, hv⟩, ?_, by rw [h1], h2⟩
  rintro j2 ⟨hm2, hv2⟩
  have := (has_layout_lt e sp hl hn i k j2 hm2).1
  exact hu j2 (by omega) hm2 hv2

/-- Instance of C3: three inputs, two steps, no fence, the model selecting the fanins
    (2,1,0) for step 3 and (3,1,0) for step 4. -/
theorem base_cnf_exactly_one_selector_witness :
    ∃ j, ((cegar_layout fresh_encoder ⟨3, 2, create_majority 3⟩).varMarks 4 0 j ≠ 0 ∧
        model_of [1, 2, 3, 7, 9, 11]
          ((cegar_layout fresh_encoder ⟨3, 2, create_majority 3⟩).varMarks 4 0 j) = true) ∧
      (∀ j2, (cegar_layout fresh_encoder ⟨3, 2, create_majority 3⟩).varMarks 4 0 j2 ≠ 0 ∧
        model_of [1, 2, 3, 7, 9, 11]
          ((cegar_layout fresh_encoder ⟨3, 2, create_majority 3⟩).varMarks 4 0 j2) = true →
        j2 = j) ∧
      (find_fanin_loop (cegar_layout fresh_encoder ⟨3, 2, create_majority 3⟩)
        ⟨3, 2, create_majority 3⟩ (model_of [1, 2, 3, 7, 9, 11]) 4 0).2 = 1 ∧
      find_fanin (cegar_layout fresh_encoder ⟨3, 2, create_majority 3⟩)
        ⟨3, 2, create_majority 3⟩ (model_of [1, 2, 3, 7, 9, 11]) 4 0 = some j :=
  base_cnf_exactly_one_selector (cegar_layout fresh_encoder ⟨3, 2, create_majority 3⟩)
    ⟨3, 2, create_majority 3⟩ (model_of [1, 2, 3, 7, 9, 11])
    (has_layout_cegar_layout _ _) (by decide) (by decide) 4 0 (by decide) (by decide) (by decide)

/-- The source selected in slot `k + 1` is strictly below the one selected in slot `k`. -/
theorem selected_decreasing (e : ditt_maj_encoder) (sp : spec) (val : Nat → Bool) (i k a b : Nat)
    (hk : k ≠ 2) (hs : slot_ok e sp val i k)
    (hb : b < sp.nr_in + sp.nr_steps)
    (ha1 : e.varMarks i k a ≠ 0) (ha2 : val (e.varMarks i k a) = true)
    (hb1 : e.varMarks i (k + 1) b ≠ 0) (hb2 : val (e.varMarks i (k + 1) b) = true) :
    b < a := by
  by_contra hlt
  exact hs.2.2 hk a b (by omega) hb ha1 hb1 ⟨ha2, hb2⟩

/-- C4. In every model of the base CNF (with or without a fence, at least three
    inputs) the three sources decoded for a step `i` are strictly ordered and precede
    the step: `i > find_fanin(i,0) > find_fanin(i,1) > find_fanin(i,2) >= 0`. Hence they
    are pairwise distinct, and every fanin has a smaller index than its step. -/
theorem base_cnf_fanins_ordered (e : ditt_maj_encoder) (sp : spec) (val : Nat → Bool)
    (hl : has_layout e sp) (hn : 3 ≤ sp.nr_in)
    (hsat : cnf_sat val (add_base_cnf_clauses e sp) = true)
    (i : Nat) (hi1 : sp.nr_in ≤ i) (hi2 : i < sp.nr_in + sp.nr_steps) :
    ∃ f0 f1 f2, find_fanin e sp val i 0 = some f0 ∧ find_fanin e sp val i 1 = some f1 ∧
      find_fanin e sp val i 2 = some f2 ∧
      i > f0 ∧ f0 > f1 ∧ f1 > f2 ∧ f2 ≥ 0 ∧ f0 ≠ f1 ∧ f0 ≠ f2 ∧ f1 ≠ f2 := by
  have hall := (add_base_cnf_clauses_sat val e sp).1 hsat i hi1 hi2
  obtain ⟨f0, h0, hm0, hv0, -, -, hf0⟩ := find_fanin_of_slot_ok e sp val i 0 (hall 0 (by omega))
  obtain ⟨f1, h1, hm1, hv1, -, -, hf1⟩ := find_fanin_of_slot_ok e sp val i 1 (hall 1 (by omega))
  obtain ⟨f2, h2, hm2, hv2, -, -, hf2⟩ := find_fanin_of_slot_ok e sp val i 2 (hall 2 (by omega))
  have a0 := (has_layout_lt e sp hl hn i 0 f0 hm0).1
  have a1 := selected_decreasing e sp val i 0 f0 f1 (by omega) (hall 0 (by omega)) h1 hm0 hv0 hm1 hv1
  have a2 := selected_decreasing e sp val i 1 f1 f2 (by omega) (hall 1 (by omega)) h2 hm1 hv1 hm2 hv2
  exact ⟨f0, f1, f2, hf0, hf1, hf2, a0, a1, a2, Nat.zero_le _, by omega, by omega, by omega⟩

/-- Instance of C4: five inputs, fence (1,1), the model selecting (2,1,0) for step 5
    and (5,4,3) for step 6. -/
theorem base_cnf_fanins_ordered_witness :
    ∃ f0 f1 f2,
      find_fanin (cegar_layout_fence fresh_encoder ⟨5, 2, create_majority 5⟩ ⟨[1, 1]⟩)
        ⟨5, 2, create_majority 5⟩ (model_of [1, 2, 3, 4, 9, 13]) 6 0 = some f0 ∧
      find_fanin (cegar_layout_fence fresh_encoder ⟨5, 2, create_majority 5⟩ ⟨[1, 1]⟩)
        ⟨5, 2, create_majority 5⟩ (model_of [1, 2, 3, 4, 9, 13]) 6 1 = some f1 ∧
      find_fanin (cegar_layout_fence fresh_encoder ⟨5, 2, create_majority 5⟩ ⟨[1, 1]⟩)
        ⟨5, 2, create_majority 5⟩ (model_of [1, 2, 3, 4, 9, 13]) 6 2 = some f2 ∧
      6 > f0 ∧ f0 > f1 ∧ f1 > f2 ∧ f2 ≥ 0 ∧ f0 ≠ f1 ∧ f0 ≠ f2 ∧ f1 ≠ f2 :=
  base_cnf_fanins_ordered (cegar_layout_fence fresh_encoder ⟨5, 2, create_majority 5⟩ ⟨[1, 1]⟩)
    ⟨5, 2, create_majority 5⟩ (model_of [1, 2, 3, 4, 9, 13])
    (has_layout_cegar_layout_fence _ _ _) (by decide) (by decide) 6 (by decide) (by decide)

/-! ## Bits and weights of minterms -/

theorem mint_bit_eq (m k : Nat) : mint_bit m k = if m.testBit k then 1 else 0 := by
  unfold mint_bit
  rw [Nat.and_one_is_mod, Nat.testBit_to_div_mod, Nat.shiftRight_eq_div_pow]
  rcases Nat.mod_two_eq_zero_or_one (m / 2 ^ k) with h | h <;> simp [h]

theorem mint_bit_le_one (m k : Nat) : mint_bit m k ≤ 1 := by
  rw [mint_bit_eq]; split <;> omega

theorem mint_bit_zero (k : Nat) : mint_bit 0 k = 0 := by
  rw [mint_bit_eq]; simp

theorem mint_bit_of_lt (m a k : Nat) (hm : m < 2 ^ a) (hk : a ≤ k) : mint_bit m k = 0 := by
  rw [mint_bit_eq, Nat.testBit_lt_two_pow]
  · simp
  · exact Nat.lt_of_lt_of_le hm (Nat.pow_le_pow_right (by omega) hk)

theorem count_bits_zero (m : Nat) : count_bits m 0 = 0 := rfl

theorem count_bits_succ (m n : Nat) : count_bits m (n + 1) = count_bits m n + mint_bit m n := by
  unfold count_bits for_loop
  rw [Nat.sub_zero, Nat.sub_zero, List.range'_concat, List.foldl_append]
  simp

theorem count_bits_le (m n : Nat) : count_bits m n ≤ n := by
  induction n with
  | zero => simp [count_bits_zero]
  | succ n ih =>
    rw [count_bits_succ]
    have := mint_bit_le_one m n
    omega

theorem count_bits_zero_mint (n : Nat) : count_bits 0 n = 0 := by
  induction n with
  | zero => rfl
  | succ n ih => rw [count_bits_succ, ih, mint_bit_zero]

theorem count_bits_of_lt (m a b : Nat) (hm : m < 2 ^ a) (hab : a ≤ b) :
    count_bits m b = count_bits m a := by
  induction b with
  | zero =>
    have : a = 0 := by omega
    rw [this]
  | succ b ih =>
    by_cases h : a = b + 1
    · rw [h]
    · rw [count_bits_succ, ih (by omega), mint_bit_of_lt m a b hm (by omega)]
      rfl

theorem count_ones_eq (m n : Nat) (hm : m < 2 ^ n) : count_ones m = count_bits m n := by
  unfold count_ones
  have h1 : m < 2 ^ m := Nat.lt_two_pow m
  rw [← count_bits_of_lt m n (max n m) hm (le_max_left _ _),
    ← count_bits_of_lt m m (max n m) h1 (le_max_right _ _)]

theorem count_bits_mono (x y n : Nat) (h : sub_mint x y) : count_bits x n ≤ count_bits y n := by
  induction n with
  | zero => simp [count_bits_zero]
  | succ n ih =>
    rw [count_bits_succ, count_bits_succ]
    have := h n
    omega

/-- Flipping bit `k` of `m`. -/
theorem mint_bit_flip (m k j : Nat) :
    mint_bit (m ^^^ 2 ^ k) j = if j = k then 1 - mint_bit m k else mint_bit m j := by
  rw [mint_bit_eq, mint_bit_eq, mint_bit_eq, Nat.testBit_xor, Nat.testBit_two_pow]
  by_cases hjk : j = k
  · subst hjk
    cases m.testBit j <;> simp
  · have : ¬ k = j := fun h => hjk h.symm
    cases m.testBit j <;> simp [hjk, this]

theorem flip_lt (m k n : Nat) (hm : m < 2 ^ n) (hk : k < n) : m ^^^ 2 ^ k < 2 ^ n :=
  Nat.xor_lt_two_pow hm (Nat.pow_lt_pow_right (by omega) hk)

theorem count_bits_flip (m k n : Nat) :
    count_bits (m ^^^ 2 ^ k) n + (if k < n then mint_bit m k else 0) =
      count_bits m n + (if k < n then 1 - mint_bit m k else 0) := by
  induction n with
  | zero => simp [count_bits_zero]
  | succ n ih =>
    rw [count_bits_succ, count_bits_succ, mint_bit_flip]
    have hb := mint_bit_le_one m k
    by_cases h2 : n = k
    · subst h2
      split_ifs at ih ⊢ <;> omega
    · split_ifs at ih ⊢ <;> omega

theorem exists_zero_bit (m n : Nat) (h : count_bits m n < n) : ∃ k, k < n ∧ mint_bit m k = 0 := by
  induction n with
  | zero => omega
  | succ n ih =>
    rw [count_bits_succ] at h
    have hb := mint_bit_le_one m n
    by_cases h0 : mint_bit m n = 0
    · exact ⟨n, by omega, h0⟩
    · obtain ⟨k, hk, hk0⟩ := ih (by omega)
      exact ⟨k, by omega, hk0⟩

theorem exists_one_bit (m n : Nat) (h : 0 < count_bits m n) : ∃ k, k < n ∧ mint_bit m k = 1 := by
  induction n with
  | zero => simp [count_bits_zero] at h
  | succ n ih =>
    rw [count_bits_succ] at h
    have hb := mint_bit_le_one m n
    by_cases h0 : mint_bit m n = 1
    · exact ⟨n, by omega, h0⟩
    · obtain ⟨k, hk, hk0⟩ := ih (by omega)
      exact ⟨k, by omega, hk0⟩

theorem sub_mint_refl (x : Nat) : sub_mint x x := fun _ => Nat.le_refl _

theorem sub_mint_trans (x y z : Nat) (h1 : sub_mint x y) (h2 : sub_mint y z) : sub_mint x z :=
  fun k => Nat.le_trans (h1 k) (h2 k)

/-- Every minterm can be raised, bit by bit, to any larger weight up to `n`. -/
theorem exists_above (n d m : Nat) (hm : m < 2 ^ n) (hd : count_bits m n + d ≤ n) :
    ∃ m2, m2 < 2 ^ n ∧ sub_mint m m2 ∧ count_bits m2 n = count_bits m n + d := by
  induction d generalizing m with
  | zero => exact ⟨m, hm, sub_mint_refl m, rfl⟩
  | succ d ih =>
    obtain ⟨k, hk, hk0⟩ := exists_zero_bit m n (by omega)
    have hc := count_bits_flip m k n
    rw [if_pos hk, if_pos hk, hk0] at hc
    obtain ⟨m2, h1, h2, h3⟩ := ih (m ^^^ 2 ^ k) (flip_lt m k n hm hk) (by omega)
    refine ⟨m2, h1, sub_mint_trans _ _ _ ?_ h2, by omega⟩
    intro j
    rw [mint_bit_flip]
    split
    · rename_i hj; subst hj; omega
    · exact Nat.le_refl _

/-- Every minterm can be lowered, bit by bit, to any smaller weight. -/
theorem exists_below (n d m : Nat) (hm : m < 2 ^ n) (hd : d ≤ count_bits m n) :
    ∃ m2, m2 < 2 ^ n ∧ sub_mint m2 m ∧ count_bits m2 n + d = count_bits m n := by
  induction d generalizing m with
  | zero => exact ⟨m, hm, sub_mint_refl m, rfl⟩
  | succ d ih =>
    obtain ⟨k, hk, hk1⟩ := exists_one_bit m n (by omega)
    have hc := count_bits_flip m k n
    rw [if_pos hk, if_pos hk, hk1] at hc
    obtain ⟨m2, h1, h2, h3⟩ := ih (m ^^^ 2 ^ k) (flip_lt m k n hm hk) (by omega)
    refine ⟨m2, h1, sub_mint_trans _ _ _ h2 ?_, by omega⟩
    intro j
    rw [mint_bit_flip]
    split
    · rename_i hj; subst hj; omega
    · exact Nat.le_refl _

theorem tt_monotone_nth_var (i : Nat) : tt_monotone (create_nth_var i) := by
  intro x y h hx
  unfold create_nth_var at hx ⊢
  have := h i
  have hy := mint_bit_le_one y i
  simp only [beq_iff_eq] at hx ⊢
  omega

theorem tt_monotone_majority (a b c : truth_table) (ha : tt_monotone a) (hb : tt_monotone b)
    (hc : tt_monotone c) : tt_monotone (ternary_majority a b c) := by
  intro x y h hx
  unfold ternary_majority at hx ⊢
  simp only [Bool.or_eq_true, Bool.and_eq_true] at hx ⊢
  rcases hx with (⟨h1, h2⟩ | ⟨h1, h2⟩) | ⟨h1, h2⟩
  · exact Or.inl (Or.inl ⟨ha x y h h1, hb x y h h2⟩)
  · exact Or.inl (Or.inr ⟨ha x y h h1, hc x y h h2⟩)
  · exact Or.inr ⟨hb x y h h1, hc x y h h2⟩

/-! ## The first loop of `simulate` -/

theorem find_fanin_congr (e e2 : ditt_maj_encoder) (sp : spec) (val : Nat → Bool) (i k : Nat)
    (h : e2.varMarks = e.varMarks) : find_fanin e2 sp val i k = find_fanin e sp val i k := by
  unfold find_fanin find_fanin_loop
  rw [h]

theorem decodes_of_base (e : ditt_maj_encoder) (sp : spec) (val : Nat → Bool)
    (hl : has_layout e sp) (hn : 3 ≤ sp.nr_in)
    (hsat : cnf_sat val (add_base_cnf_clauses e sp) = true) : decodes e sp val := by
  intro i hi1 hi2 k hk
  have hs := (add_base_cnf_clauses_sat val e sp).1 hsat i hi1 hi2 k hk
  obtain ⟨j, -, hm, -, -, -, h2⟩ := find_fanin_of_slot_ok e sp val i k hs
  exact ⟨j, h2, (has_layout_lt e sp hl hn i k j hm).1⟩

theorem fanin_of_lt (e : ditt_maj_encoder) (sp : spec) (val : Nat → Bool) (hd : decodes e sp val)
    (i k : Nat) (hi1 : sp.nr_in ≤ i) (hi2 : i < sp.nr_in + sp.nr_steps) (hk : k < 3) :
    find_fanin e sp val i k = some (fanin_of e sp val i k) ∧ fanin_of e sp val i k < i := by
  obtain ⟨j, h1, h2⟩ := hd i hi1 hi2 k hk
  unfold fanin_of
  rw [h1]
  exact ⟨rfl, h2⟩

theorem simulate_step_eq (e0 e : ditt_maj_encoder) (sp : spec) (val : Nat → Bool)
    (hd : decodes e0 sp val) (hvm : e.varMarks = e0.varMarks)
    (i : Nat) (hi1 : sp.nr_in ≤ i) (hi2 : i < sp.nr_in + sp.nr_steps) :
    simulate_step sp val e i = some { e with sim_tts := (set1 e.sim_tts i
      (ternary_majority (e.sim_tts (fanin_of e0 sp val i 0)) (e.sim_tts (fanin_of e0 sp val i 1))
        (e.sim_tts (fanin_of e0 sp val i 2)))) } := by
  unfold simulate_step
  rw [find_fanin_congr e0 e sp val i 0 hvm, find_fanin_congr e0 e sp val i 1 hvm,
    find_fanin_congr e0 e sp val i 2 hvm,
    (fanin_of_lt e0 sp val hd i 0 hi1 hi2 (by omega)).1,
    (fanin_of_lt e0 sp val hd i 1 hi1 hi2 (by omega)).1,
    (fanin_of_lt e0 sp val hd i 2 hi1 hi2 (by omega)).1]

theorem simulate_tts_partial (e : ditt_maj_encoder) (sp : spec) (val : Nat → Bool)
    (hd : decodes e sp val) (t : Nat) (ht : t ≤ sp.nr_steps) :
    ∃ e2, (List.range' sp.nr_in t).foldlM (simulate_step sp val) e = some e2 ∧
      same_but_tts e e2 ∧
      (∀ x, ¬ (sp.nr_in ≤ x ∧ x < sp.nr_in + t) → e2.sim_tts x = e.sim_tts x) ∧
      (∀ i, sp.nr_in ≤ i → i < sp.nr_in + t →
        e2.sim_tts i = ternary_majority (e2.sim_tts (fanin_of e sp val i 0))
          (e2.sim_tts (fanin_of e sp val i 1)) (e2.sim_tts (fanin_of e sp val i 2))) := by
  induction t with
  | zero =>
    exact ⟨e, rfl, ⟨rfl, rfl, rfl, rfl, rfl⟩, fun _ _ => rfl, fun i h1 h2 => by omega⟩
  | succ t ih =>
    obtain ⟨e1, h1, hs, hout, hin⟩ := ih (by omega)
    have hstep := simulate_step_eq e e1 sp val hd hs.1 (sp.nr_in + 1 * t) (by omega) (by omega)
    rw [List.range'_concat, List.foldlM_append, h1]
    simp only [Option.bind_eq_bind, Option.some_bind, List.foldlM_cons, List.foldlM_nil, hstep]
    refine ⟨_, rfl, ⟨hs.1, hs.2.1, hs.2.2.1, hs.2.2.2.1, hs.2.2.2.2⟩, ?_, ?_⟩
    · intro x hx
      simp only [set1]
      rw [if_neg (by omega)]
      exact hout x (by omega)
    · intro i hi1 hi2
      have hf := fun k hk => (fanin_of_lt e sp val hd i k hi1 (by omega) hk).2
      have f0 := hf 0 (by omega)
      have f1 := hf 1 (by omega)
      have f2 := hf 2 (by omega)
      simp only [set1]
      by_cases hi : i = sp.nr_in + 1 * t
      · rw [if_pos hi, if_neg (by omega), if_neg (by omega), if_neg (by omega), hi]
      · rw [if_neg hi, if_neg (by omega), if_neg (by omega), if_neg (by omega)]
        exact hin i hi1 (by omega)

/-- When every slot decodes, the first loop of `simulate` raises no assertion; it leaves
    the tables of the inputs alone and gives every step the majority of the tables of
    its three decoded fanins. -/
theorem simulate_tts_spec (e : ditt_maj_encoder) (sp : spec) (val : Nat → Bool)
    (hd : decodes e sp val) :
    ∃ e2, simulate_tts e sp val = some e2 ∧ same_but_tts e e2 ∧
      (∀ x, ¬ (sp.nr_in ≤ x ∧ x < sp.nr_in + sp.nr_steps) → e2.sim_tts x = e.sim_tts x) ∧
      (∀ i, sp.nr_in ≤ i → i < sp.nr_in + sp.nr_steps →
        e2.sim_tts i = ternary_majority (e2.sim_tts (fanin_of e sp val i 0))
          (e2.sim_tts (fanin_of e sp val i 1)) (e2.sim_tts (fanin_of e sp val i 2))) :=
  simulate_tts_partial e sp val hd sp.nr_steps (Nat.le_refl _)

/-- The tables computed by the first loop of `simulate` are monotone when those of the
    inputs are. -/
theorem simulate_tts_monotone (e e2 : ditt_maj_encoder) (sp : spec) (val : Nat → Bool)
    (hd : decodes e sp val)
    (hin : ∀ x, x < sp.nr_in → tt_monotone (e2.sim_tts x))
    (hstep : ∀ i, sp.nr_in ≤ i → i < sp.nr_in + sp.nr_steps →
      e2.sim_tts i = ternary_majority (e2.sim_tts (fanin_of e sp val i 0))
        (e2.sim_tts (fanin_of e sp val i 1)) (e2.sim_tts (fanin_of e sp val i 2)))
    (i : Nat) (hi : i < sp.nr_in + sp.nr_steps) : tt_monotone (e2.sim_tts i) := by
  induction i using Nat.strong_induction_on with
  | _ i ih =>
    by_cases h : i < sp.nr_in
    · exact hin i h
    · have hf := fun k hk => (fanin_of_lt e sp val hd i k (by omega) hi hk).2
      rw [hstep i (by omega) hi]
      exact tt_monotone_majority _ _ _
        (ih _ (hf 0 (by omega)) (by have := hf 0 (by omega); omega))
        (ih _ (hf 1 (by omega)) (by have := hf 1 (by omega); omega))
        (ih _ (hf 2 (by omega)) (by have := hf 2 (by omega); omega))

/-! ## The second loop of `simulate` -/

theorem find_range_some (p : Nat → Bool) (n s i : Nat)
    (h : (List.range' s n).find? p = some i) :
    s ≤ i ∧ i < s + n ∧ p i = true ∧ ∀ j, s ≤ j → j < i → p j = false := by
  induction n generalizing s with
  | zero => simp at h
  | succ n ih =>
    rw [List.range'_succ, List.find?_cons] at h
    cases hp : p s with
    | true =>
      rw [hp] at h
      simp only [Option.some.injEq] at h
      subst h
      exact ⟨Nat.le_refl _, by omega, hp, fun j h1 h2 => by omega⟩
    | false =>
      rw [hp] at h
      obtain ⟨h1, h2, h3, h4⟩ := ih (s + 1) h
      refine ⟨by omega, by omega, h3, ?_⟩
      intro j hj1 hj2
      by_cases hjs : j = s
      · rw [hjs]; exact hp
      · exact h4 j (by omega) hj2

theorem find_range_none (p : Nat → Bool) (n s : Nat)
    (h : (List.range' s n).find? p = none) : ∀ j, s ≤ j → j < s + n → p j = false := by
  intro j h1 h2
  rw [List.find?_eq_none] at h
  have := h j (List.mem_range'.2 ⟨j - s, by omega, by omega⟩)
  simpa using this

theorem stop_test_iff (e : ditt_maj_encoder) (sp : spec) (i : Nat) (h1 : 1 ≤ i)
    (h2 : i < 2 ^ sp.nr_in) :
    (!(decide (count_ones i < sp.nr_in / 2) || decide (count_ones i > sp.nr_in / 2 + 1)) &&
      !(get_bit (e.sim_tts (sp.nr_in + sp.nr_steps - 1)) i == get_bit sp.out0 i)) = true ↔
      balanced_difference e sp i := by
  unfold balanced_difference
  rw [count_ones_eq i sp.nr_in h2]
  simp only [Bool.and_eq_true, Bool.not_eq_true', Bool.or_eq_false_iff, decide_eq_false_iff_not,
    not_lt, beq_eq_false_iff_ne, ne_eq, gt_iff_lt]
  constructor
  · rintro ⟨⟨a, b⟩, c⟩
    exact ⟨h1, h2, a, b, c⟩
  · rintro ⟨-, -, a, b, c⟩
    exact ⟨⟨a, b⟩, c⟩

/-- The second loop of `simulate` ends without a `break` exactly when no minterm is a
    balanced difference. -/
theorem first_difference_none (e : ditt_maj_encoder) (sp : spec) :
    first_difference e sp = -1 ↔ ∀ m, ¬ balanced_difference e sp m := by
  unfold first_difference
  constructor
  · intro h m hm
    split at h
    · rename_i i hi
      omega
    · rename_i hnone
      have := find_range_none _ _ _ hnone m hm.1 (by have := hm.2.1; omega)
      rw [← Bool.not_eq_true] at this
      exact this ((stop_test_iff e sp m hm.1 hm.2.1).2 hm)
  · intro h
    split
    · rename_i i hi
      obtain ⟨a, b, c, -⟩ := find_range_some _ _ _ _ hi
      exact absurd ((stop_test_iff e sp i a (by omega)).1 c) (h i)
    · rfl

/-- When the second loop of `simulate` stops at `i`, that is the least balanced
    difference. -/
theorem first_difference_some (e : ditt_maj_encoder) (sp : spec) (r : Int)
    (hr : first_difference e sp = r) (hne : r ≠ -1) :
    ∃ m : Nat, r = (m : Int) ∧ balanced_difference e sp m ∧
      ∀ m2, balanced_difference e sp m2 → m ≤ m2 := by
  unfold first_difference at hr
  split at hr
  · rename_i i hi
    obtain ⟨a, b, c, d⟩ := find_range_some _ _ _ _ hi
    refine ⟨i, hr.symm, (stop_test_iff e sp i a (by omega)).1 c, ?_⟩
    intro m2 hm2
    by_contra hlt
    have := d m2 hm2.1 (by omega)
    rw [← Bool.not_eq_true] at this
    exact this ((stop_test_iff e sp m2 hm2.1 hm2.2.1).2 hm2)
  · exact absurd hr.symm hne

/-- A monotone table that agrees with the majority function on all minterms of weight
    `n / 2` and `n / 2 + 1` agrees with it on all minterms below `2 ^ n`. -/
theorem monotone_eq_majority (n : Nat) (hn : 3 ≤ n) (t : truth_table) (ht : tt_monotone t)
    (h : ∀ m, m < 2 ^ n → n / 2 ≤ count_bits m n → count_bits m n ≤ n / 2 + 1 →
      t m = create_majority n m)
    (m : Nat) (hm : m < 2 ^ n) : t m = create_majority n m := by
  have hle := count_bits_le m n
  by_cases h1 : count_bits m n < n / 2
  · obtain ⟨m2, a, b, c⟩ := exists_above n (n / 2 - count_bits m n) m hm (by omega)
    have hm2 := h m2 a (by omega) (by omega)
    have e1 : create_majority n m2 = false := by
      unfold create_majority; simp only [decide_eq_false_iff_not]; omega
    have e2 : create_majority n m = false := by
      unfold create_majority; simp only [decide_eq_false_iff_not]; omega
    rw [e2]
    cases htm : t m
    · rfl
    · have := ht m m2 b htm
      rw [hm2, e1] at this
      exact absurd this (by simp)
  · by_cases h2 : count_bits m n ≤ n / 2 + 1
    · exact h m hm (by omega) h2
    · obtain ⟨m2, a, b, c⟩ := exists_below n (count_bits m n - (n / 2 + 1)) m hm (by omega)
      have hm2 := h m2 a (by omega) (by omega)
      have e1 : create_majority n m2 = true := by
        unfold create_majority; simp only [decide_eq_true_eq]; omega
      have e2 : create_majority n m = true := by
        unfold create_majority; simp only [decide_eq_true_eq]; omega
      rw [e2]
      exact ht m2 m b (by rw [hm2, e1])

/-- C1. With at least three inputs and `spec[0]` the majority function, for every
    structure given by a model of the base CNF: when `simulate` returns -1, the table it
    computed for the last step equals `spec[0]` on all `2^nr_in` minterms, also on
    minterm 0 and on the minterms whose weight is outside `[nr_in/2, nr_in/2 + 1]`,
    which the second loop of `simulate` skips. -/
theorem simulate_accept_equals_majority (e e2 : ditt_maj_encoder) (sp : spec) (val : Nat → Bool)
    (hn : 3 ≤ sp.nr_in) (hspec : sp.out0 = create_majority sp.nr_in)
    (hl : has_layout e sp) (hin : ∀ x, x < sp.nr_in → e.sim_tts x = create_nth_var x)
    (hsat : cnf_sat val (add_base_cnf_clauses e sp) = true)
    (hacc : simulate e sp val = some (-1, e2)) :
    ∀ m, m < 2 ^ sp.nr_in →
      get_bit (e2.sim_tts (sp.nr_in + sp.nr_steps - 1)) m = get_bit sp.out0 m := by
  have hd := decodes_of_base e sp val hl hn hsat
  obtain ⟨e1, h1, -, hout, hstep⟩ := simulate_tts_spec e sp val hd
  unfold simulate at hacc
  rw [h1] at hacc
  simp only at hacc
  split at hacc
  · simp only [Option.some.injEq, Prod.mk.injEq] at hacc
    obtain ⟨hfd, rfl⟩ := hacc
    have hnone := (first_difference_none e1 sp).1 hfd
    intro m hm
    unfold get_bit
    rw [hspec]
    apply monotone_eq_majority sp.nr_in hn _ _ _ m hm
    · by_cases hs : sp.nr_steps = 0
      · have : sp.nr_in + sp.nr_steps - 1 < sp.nr_in := by omega
        rw [hout _ (by omega), hin _ this]
        exact tt_monotone_nth_var _
      · apply simulate_tts_monotone e e1 sp val hd _ hstep _ (by omega)
        intro x hx
        rw [hout x (by omega), hin x hx]
        exact tt_monotone_nth_var x
    · intro m2 a b c
      by_contra hne
      have hpos : 1 ≤ m2 := by
        by_contra h0
        have : m2 = 0 := by omega
        rw [this, count_bits_zero_mint] at b
        omega
      apply hnone m2
      refine ⟨hpos, a, b, c, ?_⟩
      unfold get_bit
      rw [hspec]
      exact hne
  · simp at hacc

theorem cegar_layout_inputs (e0 : ditt_maj_encoder) (sp : spec) (x : Nat) (hx : x < sp.nr_in) :
    (cegar_layout e0 sp).sim_tts x = create_nth_var x := by
  unfold cegar_layout
  rw [add_base_variables_eq, (push_selectors_frame _ _).2.2.1]
  exact (cegar_reset_spec e0 sp).2.2.2.2.2 x hx

theorem cegar_layout_fence_inputs (e0 : ditt_maj_encoder) (sp : spec) (f : fence) (x : Nat)
    (hx : x < sp.nr_in) : (cegar_layout_fence e0 sp f).sim_tts x = create_nth_var x := by
  unfold cegar_layout_fence
  rw [add_base_variables_fence_eq, (push_selectors_frame _ _).2.2.1]
  show (update_level_map (cegar_reset e0 sp) sp f).sim_tts x = _
  rw [(update_level_map_spec _ sp f).2.2.2.2.1]
  exact (cegar_reset_spec e0 sp).2.2.2.2.2 x hx

theorem simulate_result_eq (e : ditt_maj_encoder) (sp : spec) (val : Nat → Bool) (r : Int)
    (h : (simulate e sp val).map Prod.fst = some r) :
    simulate e sp val = some (r, ((simulate e sp val).getD (0, e)).2) := by
  cases hs : simulate e sp val with
  | none => rw [hs] at h; simp at h
  | some x =>
    rw [hs] at h
    simp only [Option.map_some', Option.some.injEq] at h
    simp only [Option.getD_some, Option.some.injEq]
    rw [← h]

/-- Instance of C1: three inputs, the one-node fence, the model selecting (2,1,0);
    the tables agree at minterm 7, which has weight 3 and is not compared. -/
theorem simulate_accept_equals_majority_witness :
    get_bit (((simulate (cegar_layout_fence fresh_encoder ⟨3, 1, create_majority 3⟩ ⟨[1]⟩)
      ⟨3, 1, create_majority 3⟩ (model_of [1, 2, 3])).getD
        (0, cegar_layout_fence fresh_encoder ⟨3, 1, create_majority 3⟩ ⟨[1]⟩)).2.sim_tts
      (3 + 1 - 1)) 7 = get_bit (create_majority 3) 7 :=
  simulate_accept_equals_majority
    (cegar_layout_fence fresh_encoder ⟨3, 1, create_majority 3⟩ ⟨[1]⟩) _
    ⟨3, 1, create_majority 3⟩ (model_of [1, 2, 3]) (by decide) rfl
    (has_layout_cegar_layout_fence _ _ _) (cegar_layout_fence_inputs _ _ _) (by decide)
    (simulate_result_eq _ _ _ _ (by decide)) 7 (by decide)

/-! ## Meaning of the per-minterm clauses -/

theorem range_two : List.range 2 = [0, 1] := rfl

theorem range_three : List.range 3 = [0, 1, 2] := rfl

theorem cnf_sat_cons (val : Nat → Bool) (c : List Nat) (cs : List (List Nat)) :
    cnf_sat val (c :: cs) = (clause_sat val c && cnf_sat val cs) := rfl

theorem cnf_sat_nil (val : Nat → Bool) : cnf_sat val [] = true := rfl

theorem clause_sat_cons (val : Nat → Bool) (l : Nat) (c : List Nat) :
    clause_sat val (l :: c) = (lit_value val l || clause_sat val c) := rfl

theorem clause_sat_nil (val : Nat → Bool) : clause_sat val [] = false := rfl

/-- The six functionality clauses of a step other than the last say that its output
    variable is the majority of its three fanin variables. -/
theorem functionality_sat (e : ditt_maj_encoder) (sp : spec) (iMint i : Nat) (v : Nat → Bool)
    (hi : i ≠ sp.nr_in + sp.nr_steps - 1) :
    cnf_sat v (functionality_clauses e sp iMint i) = true ↔
      v (e.iVar + 4 * (i - sp.nr_in) + 3) =
        maj3 (v (e.iVar + 4 * (i - sp.nr_in) + 0)) (v (e.iVar + 4 * (i - sp.nr_in) + 1))
          (v (e.iVar + 4 * (i - sp.nr_in) + 2)) := by
  unfold functionality_clauses
  simp only [range_two, range_three, List.flatMap_cons, List.flatMap_nil, List.map_cons,
    List.map_nil, hi, false_and, if_false, if_true, ne_eq, not_true_eq_false, not_false_eq_true,
    List.append_nil, List.nil_append, List.cons_append, OfNat.ofNat_ne_zero, OfNat.zero_ne_ofNat,
    OfNat.ofNat_ne_one, OfNat.one_ne_ofNat, one_ne_zero, zero_ne_one, Nat.sub_zero, Nat.sub_self,
    cnf_sat_cons, cnf_sat_nil, clause_sat_cons, clause_sat_nil, lit_value_pos, lit_value_neg,
    maj3]
  cases v (e.iVar + 4 * (i - sp.nr_in) + 0) <;> cases v (e.iVar + 4 * (i - sp.nr_in) + 1) <;>
    cases v (e.iVar + 4 * (i - sp.nr_in) + 2) <;> cases v (e.iVar + 4 * (i - sp.nr_in) + 3) <;>
    decide

theorem Maj_ManValue_le_one (m n : Nat) : Maj_ManValue m n ≤ 1 := by
  unfold Maj_ManValue; split <;> omega

/-- The three functionality clauses of the last step say that the majority of its three
    fanin variables is the target bit `Maj_ManValue(iMint, nr_in)`. -/
theorem functionality_sat_last (e : ditt_maj_encoder) (sp : spec) (iMint i : Nat)
    (v : Nat → Bool) (hi : i = sp.nr_in + sp.nr_steps - 1) :
    cnf_sat v (functionality_clauses e sp iMint i) = true ↔
      maj3 (v (e.iVar + 4 * (i - sp.nr_in) + 0)) (v (e.iVar + 4 * (i - sp.nr_in) + 1))
          (v (e.iVar + 4 * (i - sp.nr_in) + 2)) = decide (Maj_ManValue iMint sp.nr_in = 1) := by
  unfold functionality_clauses
  have hv := Maj_ManValue_le_one iMint sp.nr_in
  have hcases : Maj_ManValue iMint sp.nr_in = 0 ∨ Maj_ManValue iMint sp.nr_in = 1 := by omega
  rcases hcases with h | h
  · simp only [range_two, range_three, List.flatMap_cons, List.flatMap_nil, List.map_cons,
      List.map_nil, hi, h, true_and, if_false, if_true, ne_eq, not_true_eq_false,
      not_false_eq_true, List.append_nil, List.nil_append, List.cons_append,
      OfNat.ofNat_ne_zero, OfNat.zero_ne_ofNat, OfNat.ofNat_ne_one, OfNat.one_ne_ofNat,
      one_ne_zero, zero_ne_one, cnf_sat_cons, cnf_sat_nil, clause_sat_cons, clause_sat_nil,
      lit_value_pos, lit_value_neg, maj3]
    cases v (e.iVar + 4 * (sp.nr_in + sp.nr_steps - 1 - sp.nr_in) + 0) <;>
      cases v (e.iVar + 4 * (sp.nr_in + sp.nr_steps - 1 - sp.nr_in) + 1) <;>
      cases v (e.iVar + 4 * (sp.nr_in + sp.nr_steps - 1 - sp.nr_in) + 2) <;> decide
  · simp only [range_two, range_three, List.flatMap_cons, List.flatMap_nil, List.map_cons,
      List.map_nil, hi, h, true_and, if_false, if_true, ne_eq, not_true_eq_false,
      not_false_eq_true, List.append_nil, List.nil_append, List.cons_append,
      OfNat.ofNat_ne_zero, OfNat.zero_ne_ofNat, OfNat.ofNat_ne_one, OfNat.one_ne_ofNat,
      one_ne_zero, zero_ne_one, cnf_sat_cons, cnf_sat_nil, clause_sat_cons, clause_sat_nil,
      lit_value_pos, lit_value_neg, maj3]
    cases v (e.iVar + 4 * (sp.nr_in + sp.nr_steps - 1 - sp.nr_in) + 0) <;>
      cases v (e.iVar + 4 * (sp.nr_in + sp.nr_steps - 1 - sp.nr_in) + 1) <;>
      cases v (e.iVar + 4 * (sp.nr_in + sp.nr_steps - 1 - sp.nr_in) + 2) <;> decide

/-- The connectivity clauses of one allocated selector `(i, k, j)`. -/
theorem selector_clauses_sat (e : ditt_maj_encoder) (sp : spec) (iMint i k j : Nat)
    (v : Nat → Bool) :
    cnf_sat v ((List.range 2).flatMap fun n =>
        if j ≥ sp.nr_in then
          [[Abc_Var2Lit (e.varMarks i k j) 1, Abc_Var2Lit (e.iVar + 4 * (i - sp.nr_in) + k) n,
            Abc_Var2Lit (e.iVar + 4 * (j - sp.nr_in) + 3) (1 - n)]]
        else if mint_bit iMint j = n then []
        else [[Abc_Var2Lit (e.varMarks i k j) 1,
          Abc_Var2Lit (e.iVar + 4 * (i - sp.nr_in) + k) n]]) = true ↔
      (v (e.varMarks i k j) = true →
        v (e.iVar + 4 * (i - sp.nr_in) + k) =
          if j ≥ sp.nr_in then v (e.iVar + 4 * (j - sp.nr_in) + 3)
          else (mint_bit iMint j == 1)) := by
  by_cases hj : j ≥ sp.nr_in
  · simp only [range_two, List.flatMap_cons, List.flatMap_nil, hj, if_true, List.append_nil,
      List.cons_append, List.nil_append, Nat.sub_zero, Nat.sub_self, cnf_sat_cons, cnf_sat_nil,
      clause_sat_cons, clause_sat_nil, lit_value_pos, lit_value_neg]
    cases v (e.varMarks i k j) <;> cases v (e.iVar + 4 * (i - sp.nr_in) + k) <;>
      cases v (e.iVar + 4 * (j - sp.nr_in) + 3) <;> decide
  · have hb := mint_bit_le_one iMint j
    have hcases : mint_bit iMint j = 0 ∨ mint_bit iMint j = 1 := by omega
    rcases hcases with h | h
    · simp only [range_two, List.flatMap_cons, List.flatMap_nil, hj, h, if_false, if_true,
        List.append_nil, List.cons_append, List.nil_append, zero_ne_one, cnf_sat_cons,
        cnf_sat_nil, clause_sat_cons, clause_sat_nil, lit_value_pos, lit_value_neg]
      cases v (e.varMarks i k j) <;> cases v (e.iVar + 4 * (i - sp.nr_in) + k) <;> decide
    · simp only [range_two, List.flatMap_cons, List.flatMap_nil, hj, h, if_false, if_true,
        List.append_nil, List.cons_append, List.nil_append, one_ne_zero, cnf_sat_cons,
        cnf_sat_nil, clause_sat_cons, clause_sat_nil, lit_value_pos, lit_value_neg]
      cases v (e.varMarks i k j) <;> cases v (e.iVar + 4 * (i - sp.nr_in) + k) <;> decide

theorem cnf_sat_flatMap {α : Type} (v : Nat → Bool) (l : List α) (g : α → List (List Nat)) :
    cnf_sat v (l.flatMap g) = true ↔ ∀ a ∈ l, cnf_sat v (g a) = true := by
  induction l with
  | nil => simp [cnf_sat_nil]
  | cons a l ih =>
    rw [List.flatMap_cons, cnf_sat_append, ih]
    simp

/-- The connectivity clauses of step `i` say: when an allocated selector `(i, k, j)` is
    true, the fanin variable `F[i,k]` equals bit `j` of the minterm for an input `j`, and
    the output variable `F[j,3]` for a step `j`. -/
theorem connectivity_sat (e : ditt_maj_encoder) (sp : spec) (iMint i : Nat) (v : Nat → Bool) :
    cnf_sat v (connectivity_clauses e sp iMint i) = true ↔
      ∀ k, k < 3 → ∀ j, j < sp.nr_in + sp.nr_steps → e.varMarks i k j ≠ 0 →
        v (e.varMarks i k j) = true →
        v (e.iVar + 4 * (i - sp.nr_in) + k) =
          if j ≥ sp.nr_in then v (e.iVar + 4 * (j - sp.nr_in) + 3)
          else (mint_bit iMint j == 1) := by
  unfold connectivity_clauses
  simp only [cnf_sat_flatMap, List.mem_range]
  constructor
  · intro h k hk j hj hm
    have := h k hk j hj
    rw [if_pos hm] at this
    simp only [cnf_sat_flatMap, List.mem_range] at this
    exact (selector_clauses_sat e sp iMint i k j v).1
      ((cnf_sat_flatMap v _ _).2 (fun n hn => this n (List.mem_range.1 hn)))
  · intro h k hk j hj
    split
    · rename_i hm
      exact (selector_clauses_sat e sp iMint i k j v).2 (h k hk j hj hm)
    · rfl

/-- The clauses of `add_cnf` hold exactly when those of every step do. -/
theorem add_cnf_clauses_sat (e : ditt_maj_encoder) (sp : spec) (iMint : Nat) (v : Nat → Bool) :
    cnf_sat v (add_cnf_clauses e sp iMint) = true ↔
      ∀ i, sp.nr_in ≤ i → i < sp.nr_in + sp.nr_steps →
        cnf_sat v (connectivity_clauses e sp iMint i) = true ∧
        cnf_sat v (functionality_clauses e sp iMint i) = true := by
  unfold add_cnf_clauses
  rw [cnf_sat_flatMap]
  constructor
  · intro h i h1 h2
    have := h i (List.mem_range'.2 ⟨i - sp.nr_in, by omega, by omega⟩)
    rwa [cnf_sat_append] at this
  · intro h i hi
    obtain ⟨t, ht, rfl⟩ := List.mem_range'.1 hi
    rw [cnf_sat_append]
    exact h _ (by omega) (by omega)

/-! ## The per-minterm clauses and the value of the chain -/

theorem fanin_of_selected (e : ditt_maj_encoder) (sp : spec) (val : Nat → Bool) (i k : Nat)
    (hs : slot_ok e sp val i k) :
    fanin_of e sp val i k < sp.nr_in + sp.nr_steps ∧
    e.varMarks i k (fanin_of e sp val i k) ≠ 0 ∧
    val (e.varMarks i k (fanin_of e sp val i k)) = true ∧
    ∀ j2, j2 < sp.nr_in + sp.nr_steps → e.varMarks i k j2 ≠ 0 →
      val (e.varMarks i k j2) = true → j2 = fanin_of e sp val i k := by
  obtain ⟨j, hj, hm, hv, hu, -, h2⟩ := find_fanin_of_slot_ok e sp val i k hs
  have : fanin_of e sp val i k = j := by unfold fanin_of; rw [h2]; rfl
  rw [this]
  exact ⟨hj, hm, hv, hu⟩

theorem sim_model_fanin (e : ditt_maj_encoder) (sp : spec) (val : Nat → Bool)
    (T : Nat → truth_table) (m i k : Nat) (hi1 : sp.nr_in ≤ i) (hi2 : i < sp.nr_in + sp.nr_steps)
    (hk : k < 3) :
    sim_model e sp val T m (e.iVar + 4 * (i - sp.nr_in) + k) = T (fanin_of e sp val i k) m := by
  unfold sim_model
  have h1 : e.iVar + 4 * (i - sp.nr_in) + k - e.iVar = 4 * (i - sp.nr_in) + k := by omega
  have h2 : (4 * (i - sp.nr_in) + k) % 4 = k := by omega
  have h3 : (4 * (i - sp.nr_in) + k) / 4 = i - sp.nr_in := by omega
  rw [if_pos (by omega), h1, h2, h3, if_neg (by omega)]
  have h4 : sp.nr_in + (i - sp.nr_in) = i := by omega
  rw [h4]

theorem sim_model_out (e : ditt_maj_encoder) (sp : spec) (val : Nat → Bool)
    (T : Nat → truth_table) (m i : Nat) (hi1 : sp.nr_in ≤ i) (hi2 : i < sp.nr_in + sp.nr_steps) :
    sim_model e sp val T m (e.iVar + 4 * (i - sp.nr_in) + 3) = T i m := by
  unfold sim_model
  have h1 : e.iVar + 4 * (i - sp.nr_in) + 3 - e.iVar = 4 * (i - sp.nr_in) + 3 := by omega
  have h2 : (4 * (i - sp.nr_in) + 3) % 4 = 3 := by omega
  have h3 : (4 * (i - sp.nr_in) + 3) / 4 = i - sp.nr_in := by omega
  rw [if_pos (by omega), h1, h2, h3, if_pos rfl]
  have h4 : sp.nr_in + (i - sp.nr_in) = i := by omega
  rw [h4]

theorem sim_model_old (e : ditt_maj_encoder) (sp : spec) (val : Nat → Bool)
    (T : Nat → truth_table) (m v : Nat) (hv : ¬ (e.iVar ≤ v ∧ v < e.iVar + 4 * sp.nr_steps)) :
    sim_model e sp val T m v = val v := by
  unfold sim_model
  rw [if_neg hv]

/-- The chain-following values satisfy all clauses of `add_cnf` as soon as the chain
    yields the target bit at its last step. -/
theorem sim_model_sat (e : ditt_maj_encoder) (sp : spec) (val : Nat → Bool)
    (T : Nat → truth_table) (m : Nat)
    (hall : ∀ i, sp.nr_in ≤ i → i < sp.nr_in + sp.nr_steps → ∀ k, k < 3 → slot_ok e sp val i k)
    (hvars : ∀ i k j, e.varMarks i k j < e.iVar)
    (hin : ∀ x, x < sp.nr_in → T x = create_nth_var x)
    (hstep : ∀ i, sp.nr_in ≤ i → i < sp.nr_in + sp.nr_steps →
      T i = ternary_majority (T (fanin_of e sp val i 0)) (T (fanin_of e sp val i 1))
        (T (fanin_of e sp val i 2)))
    (hlast : T (sp.nr_in + sp.nr_steps - 1) m = decide (Maj_ManValue m sp.nr_in = 1)) :
    cnf_sat (sim_model e sp val T m) (add_cnf_clauses e sp m) = true := by
  rw [add_cnf_clauses_sat]
  intro i hi1 hi2
  constructor
  · rw [connectivity_sat]
    intro k hk j hj hm hv
    rw [sim_model_old e sp val T m _ (by have := hvars i k j; omega)] at hv
    have hsel := (fanin_of_selected e sp val i k (hall i hi1 hi2 k hk)).2.2.2 j hj hm hv
    rw [sim_model_fanin e sp val T m i k hi1 hi2 hk, ← hsel]
    split
    · rename_i hjn
      rw [sim_model_out e sp val T m j hjn hj]
    · rename_i hjn
      rw [hin j (by omega)]
      rfl
  · have hT := congrFun (hstep i hi1 hi2) m
    by_cases hil : i = sp.nr_in + sp.nr_steps - 1
    · rw [functionality_sat_last e sp m i _ hil,
        sim_model_fanin e sp val T m i 0 hi1 hi2 (by omega),
        sim_model_fanin e sp val T m i 1 hi1 hi2 (by omega),
        sim_model_fanin e sp val T m i 2 hi1 hi2 (by omega), ← hlast, ← hil, hT]
      rfl
    · rw [functionality_sat e sp m i _ hil,
        sim_model_fanin e sp val T m i 0 hi1 hi2 (by omega),
        sim_model_fanin e sp val T m i 1 hi1 hi2 (by omega),
        sim_model_fanin e sp val T m i 2 hi1 hi2 (by omega),
        sim_model_out e sp val T m i hi1 hi2, hT]
      rfl

/-- In a model of the clauses of `add_cnf` that extends a model of the base CNF, the
    simulation variables follow the chain. -/
theorem sat_follows_chain (e : ditt_maj_encoder) (sp : spec) (val v : Nat → Bool)
    (T : Nat → truth_table) (m : Nat)
    (hall : ∀ i, sp.nr_in ≤ i → i < sp.nr_in + sp.nr_steps → ∀ k, k < 3 → slot_ok e sp val i k)
    (hlt : ∀ i k, sp.nr_in ≤ i → i < sp.nr_in + sp.nr_steps → k < 3 → fanin_of e sp val i k < i)
    (hvars : ∀ i k j, e.varMarks i k j < e.iVar)
    (hin : ∀ x, x < sp.nr_in → T x = create_nth_var x)
    (hstep : ∀ i, sp.nr_in ≤ i → i < sp.nr_in + sp.nr_steps →
      T i = ternary_majority (T (fanin_of e sp val i 0)) (T (fanin_of e sp val i 1))
        (T (fanin_of e sp val i 2)))
    (hagree : ∀ x, x < e.iVar → v x = val x)
    (hsat : cnf_sat v (add_cnf_clauses e sp m) = true)
    (i : Nat) (hi1 : sp.nr_in ≤ i) (hi2 : i < sp.nr_in + sp.nr_steps) :
    (∀ k, k < 3 → v (e.iVar + 4 * (i - sp.nr_in) + k) = T (fanin_of e sp val i k) m) ∧
    (i ≠ sp.nr_in + sp.nr_steps - 1 → v (e.iVar + 4 * (i - sp.nr_in) + 3) = T i m) := by
  induction i using Nat.strong_induction_on with
  | _ i ih =>
    obtain ⟨hc, hf⟩ := (add_cnf_clauses_sat e sp m v).1 hsat i hi1 hi2
    rw [connectivity_sat] at hc
    have hA : ∀ k, k < 3 → v (e.iVar + 4 * (i - sp.nr_in) + k) = T (fanin_of e sp val i k) m := by
      intro k hk
      obtain ⟨a, b, c, -⟩ := fanin_of_selected e sp val i k (hall i hi1 hi2 k hk)
      have hj := hlt i k hi1 hi2 hk
      have := hc k hk _ a b (by rw [hagree _ (hvars _ _ _)]; exact c)
      rw [this]
      split
      · rename_i hjn
        exact (ih _ hj hjn (by omega)).2 (by omega)
      · rename_i hjn
        rw [hin _ (by omega)]
        rfl
    refine ⟨hA, ?_⟩
    intro hil
    rw [functionality_sat e sp m i v hil, hA 0 (by omega), hA 1 (by omega), hA 2 (by omega)] at hf
    rw [hf, congrFun (hstep i hi1 hi2) m]
    rfl

/-- C2. For every model `val` of the base CNF and every minterm `m`: the clauses added
    by one call `add_cnf(spec, m)` can be satisfied by some values of that call's
    `4 * nr_steps` simulation variables (all other variables kept as in `val`) if and
    only if the majority chain selected by `val`, as the first loop of `simulate`
    evaluates it, yields `Maj_ManValue(m, nr_in)` at its last step on input `m`. -/
theorem add_cnf_sat_iff_chain_value (e : ditt_maj_encoder) (sp : spec) (val : Nat → Bool)
    (m : Nat) (hn : 3 ≤ sp.nr_in) (hs : 1 ≤ sp.nr_steps) (hl : has_layout e sp)
    (hvars : ∀ i k j, e.varMarks i k j < e.iVar)
    (hin : ∀ x, x < sp.nr_in → e.sim_tts x = create_nth_var x)
    (hsat : cnf_sat val (add_base_cnf_clauses e sp) = true) :
    ∃ e2, simulate_tts e sp val = some e2 ∧
      ((∃ val2, (∀ x, ¬ (e.iVar ≤ x ∧ x < e.iVar + 4 * sp.nr_steps) → val2 x = val x) ∧
          cnf_sat val2 (add_cnf_clauses e sp m) = true) ↔
        get_bit (e2.sim_tts (sp.nr_in + sp.nr_steps - 1)) m =
          decide (Maj_ManValue m sp.nr_in = 1)) := by
  have hd := decodes_of_base e sp val hl hn hsat
  have hall := (add_base_cnf_clauses_sat val e sp).1 hsat
  obtain ⟨e2, h1, -, hout, hstep⟩ := simulate_tts_spec e sp val hd
  have hin2 : ∀ x, x < sp.nr_in → e2.sim_tts x = create_nth_var x := by
    intro x hx
    rw [hout x (by omega), hin x hx]
  refine ⟨e2, h1, ?_, ?_⟩
  · rintro ⟨val2, hagree, hsat2⟩
    have hi1 : sp.nr_in ≤ sp.nr_in + sp.nr_steps - 1 := by omega
    have hi2 : sp.nr_in + sp.nr_steps - 1 < sp.nr_in + sp.nr_steps := by omega
    have hA := (sat_follows_chain e sp val val2 e2.sim_tts m hall
      (fun i k a b c => (fanin_of_lt e sp val hd i k a b c).2) hvars hin2 hstep
      (fun x hx => hagree x (by omega)) hsat2 _ hi1 hi2).1
    have hf := ((add_cnf_clauses_sat e sp m val2).1 hsat2 _ hi1 hi2).2
    rw [functionality_sat_last e sp m _ val2 rfl, hA 0 (by omega), hA 1 (by omega),
      hA 2 (by omega)] at hf
    unfold get_bit
    rw [← hf, congrFun (hstep _ hi1 hi2) m]
    rfl
  · intro hlast
    exact ⟨sim_model e sp val e2.sim_tts m, fun x hx => sim_model_old e sp val _ m x hx,
      sim_model_sat e sp val e2.sim_tts m hall hvars hin2 hstep hlast⟩

/-- Instance of C2: three inputs, fence (1,1), the model selecting (2,1,0) for step 3
    and (3,1,0) for step 4, minterm 5. -/
theorem add_cnf_sat_iff_chain_value_witness :
    ∃ e2, simulate_tts (cegar_layout_fence fresh_encoder ⟨3, 2, create_majority 3⟩ ⟨[1, 1]⟩)
        ⟨3, 2, create_majority 3⟩ (model_of [1, 2, 3, 4, 6, 8]) = some e2 ∧
      ((∃ val2, (∀ x,
            ¬ ((cegar_layout_fence fresh_encoder ⟨3, 2, create_majority 3⟩ ⟨[1, 1]⟩).iVar ≤ x ∧
              x < (cegar_layout_fence fresh_encoder ⟨3, 2, create_majority 3⟩ ⟨[1, 1]⟩).iVar
                + 4 * 2) →
            val2 x = model_of [1, 2, 3, 4, 6, 8] x) ∧
          cnf_sat val2 (add_cnf_clauses
            (cegar_layout_fence fresh_encoder ⟨3, 2, create_majority 3⟩ ⟨[1, 1]⟩)
            ⟨3, 2, create_majority 3⟩ 5) = true) ↔
        get_bit (e2.sim_tts (3 + 2 - 1)) 5 = decide (Maj_ManValue 5 3 = 1)) :=
  add_cnf_sat_iff_chain_value
    (cegar_layout_fence fresh_encoder ⟨3, 2, create_majority 3⟩ ⟨[1, 1]⟩)
    ⟨3, 2, create_majority 3⟩ (model_of [1, 2, 3, 4, 6, 8]) 5 (by decide) (by decide)
    (has_layout_cegar_layout_fence _ _ _)
    (fun i k j => (cegar_layout_fence_marks _ _ _ i k j).2)
    (cegar_layout_fence_inputs _ _ _) (by decide)

/-! ## The covering clauses -/

/-- C5, the defect: `add_base_cnf` clears `vOutLits` before its last loop reads it, so
    that loop passes no clause to the solver, whatever `add_base_variables` stored. -/
theorem add_base_cnf_no_covering_clause (e : ditt_maj_encoder) (sp : spec) :
    covering_clauses (clear_out_lits e) sp = [] ∧
    add_base_cnf_clauses e sp =
      (List.range' sp.nr_in sp.nr_steps).flatMap fun i =>
        (List.range 3).flatMap fun k => slot_clauses e sp i k :=
  ⟨covering_clauses_clear e sp, add_base_cnf_clauses_eq e sp⟩

/-- C5 at a failing input: four inputs, fence (1,1). The list `L[3]` filled by
    `add_base_variables` is the single literal of `S[5,1,3]`, yet the clause set passed
    to the solver does not contain that clause, and the model selecting (2,1,0) for
    step 4 and (4,1,0) for step 5 satisfies the base CNF although no slot selects
    source 3. -/
theorem covering_clause_missing :
    (cegar_layout_fence fresh_encoder ⟨4, 2, create_majority 4⟩ ⟨[1, 1]⟩).vOutLits 3 = [16] ∧
    [16] ∉ add_base_cnf_clauses
      (cegar_layout_fence fresh_encoder ⟨4, 2, create_majority 4⟩ ⟨[1, 1]⟩)
      ⟨4, 2, create_majority 4⟩ ∧
    cnf_sat (model_of [1, 2, 3, 4, 6, 9]) (add_base_cnf_clauses
      (cegar_layout_fence fresh_encoder ⟨4, 2, create_majority 4⟩ ⟨[1, 1]⟩)
      ⟨4, 2, create_majority 4⟩) = true ∧
    ∀ i, i < 6 → ∀ k, k < 3 →
      ¬ ((cegar_layout_fence fresh_encoder ⟨4, 2, create_majority 4⟩ ⟨[1, 1]⟩).varMarks i k 3 ≠ 0 ∧
        model_of [1, 2, 3, 4, 6, 9]
          ((cegar_layout_fence fresh_encoder ⟨4, 2, create_majority 4⟩ ⟨[1, 1]⟩).varMarks i k 3)
          = true) := by
  decide

/-! ## What `simulate` returns -/

/-- C6, the defect. The comment above `simulate` says that it returns the index of the
    first minterm at which the last step differs from the specified function, and -1 if
    there is none; the second loop skips every minterm whose number of ones is below
    `nr_in / 2` or above `nr_in / 2 + 1`. Failing input: three inputs, one step with
    fanins (2,1,0), and a target that differs from the majority of three only at minterm
    7 (weight 3). `simulate` returns -1 although the last step differs from `spec[0]` at
    minterm 7 of `[1, 2^3)`. -/
theorem simulate_misses_unbalanced_difference :
    (simulate (cegar_layout_fence fresh_encoder ⟨3, 1, fun m => create_majority 3 m && m != 7⟩
        ⟨[1]⟩) ⟨3, 1, fun m => create_majority 3 m && m != 7⟩ (model_of [1, 2, 3])).map Prod.fst
      = some (-1) ∧
    get_bit (((simulate
        (cegar_layout_fence fresh_encoder ⟨3, 1, fun m => create_majority 3 m && m != 7⟩ ⟨[1]⟩)
        ⟨3, 1, fun m => create_majority 3 m && m != 7⟩ (model_of [1, 2, 3])).getD
          (0, fresh_encoder)).2.sim_tts (3 + 1 - 1)) 7 ≠
      get_bit (fun m => create_majority 3 m && m != 7) 7 := by
  decide
/-! ## The driver and refused clauses -/

theorem add_cnf_refused (S : solver_wrapper) (st : List (List Nat)) (e : ditt_maj_encoder)
    (sp : spec) (m : Nat) (h : (add_cnf S st e sp m).1 = false) :
    ∃ st1, add_cnf S st e sp m = (false, e, st1) := by
  unfold add_cnf at h ⊢
  rcases hc : add_clauses S (add_cnf_clauses e sp m) st with ⟨b, st1⟩
  rw [hc] at h
  cases b
  · exact ⟨st1, rfl⟩
  · simp at h

/-- The part of C9 about `add_cnf`, which holds. When `add_clause` answers false inside
    `add_cnf`, at any round of the inner loop, the work on the fence ends as it does
    when `solve` reports failure: the loop is left without an abort, and the driver goes
    on with the next fence of the generator. (The second part is the path of an
    infeasible fence, for comparison.) -/
theorem add_cnf_refusal_abandons_fence (S : solver_wrapper) (g : Nat → fence)
    (nr_in fuel rounds t i : Nat) (iMint : Int) (e e1 : ditt_maj_encoder)
    (st : List (List Nat))
    (hloop : iMint ≠ -1)
    (hrefused : (add_cnf S st e1 ⟨nr_in, (g t).nr_nodes, create_majority nr_in⟩ iMint.toNat).1
      = false) :
    cegar_loop S ⟨nr_in, (g t).nr_nodes, create_majority nr_in⟩ (fuel + 1) e1 st iMint i
      = fence_outcome.next_fence e1 ∧
    (∀ (e3 : ditt_maj_encoder) (st3 : List (List Nat)) (m3 : Int), m3 ≠ -1 →
      (add_cnf S st3 e3 ⟨nr_in, (g t).nr_nodes, create_majority nr_in⟩ m3.toNat).1 = true →
      S.solve (add_cnf S st3 e3 ⟨nr_in, (g t).nr_nodes, create_majority nr_in⟩ m3.toNat).2.2
        = none →
      cegar_loop S ⟨nr_in, (g t).nr_nodes, create_majority nr_in⟩ (fuel + 1) e3 st3 m3 i
        = fence_outcome.next_fence
          (add_cnf S st3 e3 ⟨nr_in, (g t).nr_nodes, create_majority nr_in⟩ m3.toNat).2.1) ∧
    (∀ e2, try_fence S nr_in (create_majority nr_in) e (g t) fuel = fence_outcome.next_fence e2 →
      synthesize_loop S g nr_in fuel (rounds + 1) t e =
        synthesize_loop S g nr_in fuel rounds (t + 1) e2) := by
  refine ⟨?_, ?_, ?_⟩
  · obtain ⟨st1, h⟩ := add_cnf_refused S st e1 _ _ hrefused
    rw [cegar_loop, if_neg hloop, h]
  · intro e3 st3 m3 hm h1 h2
    rw [cegar_loop, if_neg hm]
    rcases hc : add_cnf S st3 e3 ⟨nr_in, (g t).nr_nodes, create_majority nr_in⟩ m3.toNat
      with ⟨b, e4, st4⟩
    rw [hc] at h1 h2
    simp only at h1 h2
    subst h1
    simp only [h2]
  · intro e2 h
    rw [synthesize_loop, h]

/-- Instance of the part of C9 about `add_cnf`: a solver that refuses every two-literal clause accepts
    the base CNF of the one-node fence on three inputs and refuses the first clause of
    `add_cnf(spec, 0)`. -/
theorem add_cnf_refusal_abandons_fence_witness :
    cegar_loop ⟨fun _ c => decide (c.length ≠ 2), fun _ => none⟩
        ⟨3, (⟨[0 + 1]⟩ : fence).nr_nodes, create_majority 3⟩ (1 + 1)
        (clear_out_lits (cegar_layout_fence fresh_encoder ⟨3, 1, create_majority 3⟩ ⟨[1]⟩))
        [[2], [4], [6]] 0 0
      = fence_outcome.next_fence
        (clear_out_lits (cegar_layout_fence fresh_encoder ⟨3, 1, create_majority 3⟩ ⟨[1]⟩)) :=
  (add_cnf_refusal_abandons_fence ⟨fun _ c => decide (c.length ≠ 2), fun _ => none⟩
    (fun t => ⟨[t + 1]⟩) 3 1 1 0 0 0 fresh_encoder
    (clear_out_lits (cegar_layout_fence fresh_encoder ⟨3, 1, create_majority 3⟩ ⟨[1]⟩))
    [[2], [4], [6]] (by decide) (by decide)).1

/-! ## Solvers -/

theorem add_clauses_accept (S : solver_wrapper) (hS : solver_correct S) (cs st : List (List Nat))
    (hsat : ∃ val, cnf_sat val (st ++ cs) = true) :
    add_clauses S cs st = (true, st ++ cs) := by
  induction cs generalizing st with
  | nil => simp [add_clauses]
  | cons c cs ih =>
    have hacc : S.add_clause st c = true := by
      cases h : S.add_clause st c
      · exfalso
        apply hS.add_clause_sound st c h
        obtain ⟨val, hv⟩ := hsat
        refine ⟨val, ?_⟩
        rw [cnf_sat_append] at hv ⊢
        rw [cnf_sat_cons, Bool.and_eq_true] at hv
        exact ⟨hv.1, by rw [cnf_sat_cons, hv.2.1]; rfl⟩
      · rfl
    rw [add_clauses, if_pos hacc, ih (st ++ [c]) (by simpa using hsat)]
    simp

theorem foldl_max_ge (f : Nat → Nat) (L : List Nat) (b : Nat) :
    b ≤ L.foldl (fun b l => max b (f l)) b ∧
    ∀ l ∈ L, f l ≤ L.foldl (fun b l => max b (f l)) b := by
  induction L generalizing b with
  | nil => simp
  | cons a L ih =>
    rw [List.foldl_cons]
    obtain ⟨h1, h2⟩ := ih (max b (f a))
    refine ⟨le_trans (le_max_left _ _) h1, ?_⟩
    intro l hl
    rcases List.mem_cons.1 hl with rfl | hl
    · exact le_trans (le_max_right _ _) h1
    · exact h2 l hl

theorem lit_var_lt_bound (cs : List (List Nat)) (c : List Nat) (hc : c ∈ cs) (l : Nat)
    (hl : l ∈ c) : Abc_Lit2Var l < vars_bound cs := by
  unfold vars_bound
  have := (foldl_max_ge (fun l => Abc_Lit2Var l + 1) (cs.flatMap id) 0).2 l
    (List.mem_flatMap.2 ⟨c, hc, hl⟩)
  simp only at this
  omega

theorem all_ext {α : Type} (l : List α) (f g : α → Bool) (h : ∀ x ∈ l, f x = g x) :
    l.all f = l.all g := by
  induction l with
  | nil => rfl
  | cons a l ih =>
    rw [List.all_cons, List.all_cons, h a (List.mem_cons_self _ _),
      ih (fun x hx => h x (List.mem_cons_of_mem _ hx))]

theorem any_ext {α : Type} (l : List α) (f g : α → Bool) (h : ∀ x ∈ l, f x = g x) :
    l.any f = l.any g := by
  induction l with
  | nil => rfl
  | cons a l ih =>
    rw [List.any_cons, List.any_cons, h a (List.mem_cons_self _ _),
      ih (fun x hx => h x (List.mem_cons_of_mem _ hx))]

theorem cnf_sat_congr (cs : List (List Nat)) (a b : Nat → Bool)
    (h : ∀ v, v < vars_bound cs → a v = b v) : cnf_sat a cs = cnf_sat b cs := by
  unfold cnf_sat
  apply all_ext
  intro c hc
  unfold clause_sat
  apply any_ext
  intro l hl
  unfold lit_value
  rw [h _ (lit_var_lt_bound cs c hc l hl)]

theorem all_models_complete (n : Nat) (val : Nat → Bool) :
    ∃ a ∈ all_models n, (∀ v, v < n → a v = val v) ∧ ∀ v, n ≤ v → a v = false := by
  induction n with
  | zero => exact ⟨fun _ => false, by simp [all_models], fun v hv => by omega, fun _ _ => rfl⟩
  | succ n ih =>
    obtain ⟨a, ha, hav, haf⟩ := ih
    cases hn : val n
    · refine ⟨a, ?_, ?_, fun v hv => haf v (by omega)⟩
      · simp only [all_models, List.mem_flatMap]
        exact ⟨a, ha, by simp⟩
      · intro v hv
        by_cases h : v = n
        · rw [h, hn]
          exact haf n (Nat.le_refl _)
        · exact hav v (by omega)
    · refine ⟨fun v => if v = n then true else a v, ?_, ?_, ?_⟩
      · simp only [all_models, List.mem_flatMap]
        exact ⟨a, ha, by simp⟩
      · intro v hv
        by_cases h : v = n
        · simp [h, hn]
        · simp only [h, if_false]
          exact hav v (by omega)
      · intro v hv
        simp only [show v ≠ n by omega, if_false]
        exact haf v (by omega)

/-- The reference solver answers truthfully. -/
theorem brute_solver_correct : solver_correct brute_solver := by
  refine ⟨?_, ?_, ?_⟩
  · intro cs c h
    simp [brute_solver] at h
  · intro cs val h
    simp only [brute_solver] at h
    have := @List.find?_some _ (fun a => cnf_sat a cs) val _ h
    exact this
  · intro cs h
    simp only [brute_solver] at h
    rw [List.find?_eq_none] at h
    rintro ⟨val, hv⟩
    obtain ⟨a, ha, hav, -⟩ := all_models_complete (vars_bound cs) val
    apply h a ha
    rw [cnf_sat_congr cs a val hav]
    exact hv

/-! ## Majority of three inputs on the one-node fence -/

theorem simulate_of_tts (e e2 : ditt_maj_encoder) (sp : spec) (val : Nat → Bool)
    (h : simulate_tts e sp val = some e2) (hnone : ∀ m, ¬ balanced_difference e2 sp m) :
    simulate e sp val = some (-1, e2) := by
  unfold simulate
  rw [h]
  simp only
  rw [(first_difference_none e2 sp).2 hnone, if_pos]
  exact lt_of_lt_of_le (by decide : (-1 : Int) < 0) (by positivity)

theorem maj3_base_clauses :
    add_base_cnf_clauses (cegar_layout_fence fresh_encoder ⟨3, 1, create_majority 3⟩ ⟨[1]⟩)
      ⟨3, 1, create_majority 3⟩ = [[2], [4], [6]] := by
  decide

theorem maj3_base_sat (val : Nat → Bool) :
    cnf_sat val [[2], [4], [6]] = true ↔ val 1 = true ∧ val 2 = true ∧ val 3 = true := by
  have h1 : lit_value val 2 = val 1 := lit_value_pos val 1
  have h2 : lit_value val 4 = val 2 := lit_value_pos val 2
  have h3 : lit_value val 6 = val 3 := lit_value_pos val 3
  simp only [cnf_sat_cons, cnf_sat_nil, clause_sat_cons, clause_sat_nil, h1, h2, h3,
    Bool.or_false, Bool.and_true, Bool.and_eq_true]

theorem maj3_find_fanin (e : ditt_maj_encoder) (val : Nat → Bool)
    (hvm : e.varMarks =
      (cegar_layout_fence fresh_encoder ⟨3, 1, create_majority 3⟩ ⟨[1]⟩).varMarks)
    (hval : val 1 = true ∧ val 2 = true ∧ val 3 = true) :
    find_fanin e ⟨3, 1, create_majority 3⟩ val 3 0 = some 2 ∧
    find_fanin e ⟨3, 1, create_majority 3⟩ val 3 1 = some 1 ∧
    find_fanin e ⟨3, 1, create_majority 3⟩ val 3 2 = some 0 := by
  have key : ∀ k j0, k < 3 → j0 = 2 - k →
      find_fanin e ⟨3, 1, create_majority 3⟩ val 3 k = some j0 := by
    intro k j0 hk hj0
    have hall : ∀ k, k < 3 → ∀ j, j < 4 →
        ((cegar_layout_fence fresh_encoder ⟨3, 1, create_majority 3⟩ ⟨[1]⟩).varMarks 3 k j ≠ 0
          ↔ j = 2 - k) ∧
        (j = 2 - k →
          (cegar_layout_fence fresh_encoder ⟨3, 1, create_majority 3⟩ ⟨[1]⟩).varMarks 3 k j
            = k + 1) := by
      decide
    refine (find_fanin_unique e ⟨3, 1, create_majority 3⟩ val 3 k j0 (by simp only; omega)
      ?_ ?_).2
    · rw [hvm]
      have := hall k hk j0 (by omega)
      refine ⟨this.1.2 hj0, ?_⟩
      rw [this.2 hj0]
      interval_cases k
      · exact hval.1
      · exact hval.2.1
      · exact hval.2.2
    · intro j hj hp
      rw [hvm] at hp
      have := (hall k hk j hj).1.1 hp.1
      omega
  exact ⟨key 0 2 (by omega) rfl, key 1 1 (by omega) rfl, key 2 0 (by omega) rfl⟩

theorem maj3_simulate (e : ditt_maj_encoder) (val : Nat → Bool)
    (hvm : e.varMarks =
      (cegar_layout_fence fresh_encoder ⟨3, 1, create_majority 3⟩ ⟨[1]⟩).varMarks)
    (hin : ∀ x, x < 3 → e.sim_tts x = create_nth_var x)
    (hval : val 1 = true ∧ val 2 = true ∧ val 3 = true) :
    ∃ e2, simulate e ⟨3, 1, create_majority 3⟩ val = some (-1, e2) := by
  obtain ⟨f0, f1, f2⟩ := maj3_find_fanin e val hvm hval
  have hd : decodes e ⟨3, 1, create_majority 3⟩ val := by
    intro i hi1 hi2 k hk
    simp only at hi1 hi2
    have hi : i = 3 := by omega
    subst hi
    interval_cases k
    · exact ⟨2, f0, by omega⟩
    · exact ⟨1, f1, by omega⟩
    · exact ⟨0, f2, by omega⟩
  obtain ⟨e2, h1, -, hout, hstep⟩ := simulate_tts_spec e ⟨3, 1, create_majority 3⟩ val hd
  refine ⟨e2, simulate_of_tts e e2 _ val h1 ?_⟩
  have h3 := hstep 3 (by simp) (by simp)
  simp only [fanin_of, f0, f1, f2, Option.getD_some] at h3
  rw [hout 2 (by simp), hout 1 (by simp), hout 0 (by simp), hin 2 (by omega), hin 1 (by omega),
    hin 0 (by omega)] at h3
  rintro m ⟨hm1, hm2, -, -, hne⟩
  simp only at hm2 hne
  have h3' : e2.sim_tts (3 + 1 - 1) = ternary_majority (create_nth_var 2) (create_nth_var 1)
    (create_nth_var 0) := h3
  rw [h3'] at hne
  have hm8 : m < 8 := hm2
  interval_cases m <;> exact hne (by decide)

/-- The clauses of the base CNF and of `add_cnf(spec, 0)` have a common model. -/
theorem maj3_first_call_sat :
    ∃ val, cnf_sat val (add_base_cnf_clauses
        (cegar_layout_fence fresh_encoder ⟨3, 1, create_majority 3⟩ ⟨[1]⟩)
        ⟨3, 1, create_majority 3⟩ ++
      add_cnf_clauses (cegar_layout_fence fresh_encoder ⟨3, 1, create_majority 3⟩ ⟨[1]⟩)
        ⟨3, 1, create_majority 3⟩ 0) = true := ⟨model_of [1, 2, 3], by decide⟩

/-- The models of the base CNF are those that make the three selectors true. -/
theorem maj3_base_models (val : Nat → Bool) :
    cnf_sat val (add_base_cnf_clauses
        (cegar_layout_fence fresh_encoder ⟨3, 1, create_majority 3⟩ ⟨[1]⟩)
        ⟨3, 1, create_majority 3⟩) = true ↔ (val 1 = true ∧ val 2 = true ∧ val 3 = true) := by
  rw [maj3_base_clauses]
  exact maj3_base_sat val

/-- With a truthful solver the round of the driver for the one-node fence ends with
    "found solution" after one call of `add_cnf`. -/
theorem maj3_try_fence (S : solver_wrapper) (fuel : Nat) (hS : solver_correct S)
    (hfuel : 2 ≤ fuel) :
    ∃ e1, try_fence S 3 (create_majority 3) fresh_encoder ⟨[1]⟩ fuel
      = fence_outcome.found 1 e1 := by
  have hsat0 := maj3_first_call_sat
  have hmodel := maj3_base_models
  obtain ⟨fuel2, rfl⟩ : ∃ k, fuel = k + 2 := ⟨fuel - 2, by omega⟩
  have hb : add_clauses S (add_base_cnf_clauses
      (cegar_layout_fence fresh_encoder ⟨3, 1, create_majority 3⟩ ⟨[1]⟩)
      ⟨3, 1, create_majority 3⟩) [] = (true, [] ++ add_base_cnf_clauses
      (cegar_layout_fence fresh_encoder ⟨3, 1, create_majority 3⟩ ⟨[1]⟩)
      ⟨3, 1, create_majority 3⟩) := by
    apply add_clauses_accept S hS
    obtain ⟨val, hv⟩ := hsat0
    rw [cnf_sat_append] at hv
    exact ⟨val, by simpa using hv.1⟩
  have hc : add_clauses S (add_cnf_clauses
      (clear_out_lits (cegar_layout_fence fresh_encoder ⟨3, 1, create_majority 3⟩ ⟨[1]⟩))
      ⟨3, 1, create_majority 3⟩ 0) ([] ++ add_base_cnf_clauses
      (cegar_layout_fence fresh_encoder ⟨3, 1, create_majority 3⟩ ⟨[1]⟩)
      ⟨3, 1, create_majority 3⟩) = (true, ([] ++ add_base_cnf_clauses
      (cegar_layout_fence fresh_encoder ⟨3, 1, create_majority 3⟩ ⟨[1]⟩)
      ⟨3, 1, create_majority 3⟩) ++ add_cnf_clauses
      (clear_out_lits (cegar_layout_fence fresh_encoder ⟨3, 1, create_majority 3⟩ ⟨[1]⟩))
      ⟨3, 1, create_majority 3⟩ 0) := by
    apply add_clauses_accept S hS
    obtain ⟨val, hv⟩ := hsat0
    exact ⟨val, by simpa using hv⟩
  cases hsolve : S.solve (([] ++ add_base_cnf_clauses
      (cegar_layout_fence fresh_encoder ⟨3, 1, create_majority 3⟩ ⟨[1]⟩)
      ⟨3, 1, create_majority 3⟩) ++ add_cnf_clauses
      (clear_out_lits (cegar_layout_fence fresh_encoder ⟨3, 1, create_majority 3⟩ ⟨[1]⟩))
      ⟨3, 1, create_majority 3⟩ 0) with
  | none =>
    exfalso
    apply hS.solve_complete _ hsolve
    obtain ⟨val, hv⟩ := hsat0
    exact ⟨val, by simpa using hv⟩
  | some val =>
    have hv := hS.solve_sound _ _ hsolve
    rw [cnf_sat_append, List.nil_append] at hv
    obtain ⟨e2, he2⟩ := maj3_simulate
      { clear_out_lits (cegar_layout_fence fresh_encoder ⟨3, 1, create_majority 3⟩ ⟨[1]⟩) with
        iVar := (clear_out_lits
          (cegar_layout_fence fresh_encoder ⟨3, 1, create_majority 3⟩ ⟨[1]⟩)).iVar + 4 * 1 }
      val rfl (cegar_layout_fence_inputs fresh_encoder ⟨3, 1, create_majority 3⟩ ⟨[1]⟩) ((hmodel val).1 hv.1)
    refine ⟨e2, ?_⟩
    unfold try_fence cegar_encode_fence add_base_cnf
    show (match (match (match add_clauses S (add_base_cnf_clauses
      (cegar_layout_fence fresh_encoder ⟨3, 1, create_majority 3⟩ ⟨[1]⟩)
      ⟨3, 1, create_majority 3⟩) [] with
        | (true, st1) => some (clear_out_lits
            (cegar_layout_fence fresh_encoder ⟨3, 1, create_majority 3⟩ ⟨[1]⟩), st1)
        | (false, _) => none) with
      | some (e1, st1) => some (true, e1, st1)
      | none => none) with
      | none => fence_outcome.assert_failed
      | some (false, e1, _) => fence_outcome.next_fence e1
      | some (true, e1, st1) =>
        cegar_loop S ⟨3, 1, create_majority 3⟩ (fuel2 + 2) e1 st1 0 0) = _
    rw [hb]
    simp only
    rw [cegar_loop, if_neg (by decide)]
    unfold add_cnf
    show (match (match add_clauses S (add_cnf_clauses
      (clear_out_lits (cegar_layout_fence fresh_encoder ⟨3, 1, create_majority 3⟩ ⟨[1]⟩))
      ⟨3, 1, create_majority 3⟩ 0) ([] ++ add_base_cnf_clauses
      (cegar_layout_fence fresh_encoder ⟨3, 1, create_majority 3⟩ ⟨[1]⟩)
      ⟨3, 1, create_majority 3⟩) with
        | (true, st1) => (true, _, st1)
        | (false, st1) => (false, _, st1)) with
      | (false, e1, _) => fence_outcome.next_fence e1
      | (true, e1, st1) => _) = _
    rw [hc]
    simp only [hsolve, he2]
    rw [cegar_loop, if_pos rfl]

/-- C10. For three inputs, target majority and the one-node fence: the base CNF has
    exactly one structural model, which decodes to the single step with fanins (2,1,0);
    the clauses of `add_cnf(spec, 0)` are satisfiable together with it; `simulate` then
    returns -1; so with a truthful solver the inner loop of the driver ends with
    "found solution" on this 1-step fence after one call of `add_cnf`, hence after at
    most two. -/
theorem maj3_one_node_fence (S : solver_wrapper) (fuel : Nat) (hS : solver_correct S)
    (hfuel : 2 ≤ fuel) :
    (∀ val, cnf_sat val (add_base_cnf_clauses
        (cegar_layout_fence fresh_encoder ⟨3, 1, create_majority 3⟩ ⟨[1]⟩)
        ⟨3, 1, create_majority 3⟩) = true ↔ (val 1 = true ∧ val 2 = true ∧ val 3 = true)) ∧
    (cegar_layout_fence fresh_encoder ⟨3, 1, create_majority 3⟩ ⟨[1]⟩).iVar = 4 ∧
    (∀ val, cnf_sat val (add_base_cnf_clauses
        (cegar_layout_fence fresh_encoder ⟨3, 1, create_majority 3⟩ ⟨[1]⟩)
        ⟨3, 1, create_majority 3⟩) = true →
      find_fanin (cegar_layout_fence fresh_encoder ⟨3, 1, create_majority 3⟩ ⟨[1]⟩)
        ⟨3, 1, create_majority 3⟩ val 3 0 = some 2 ∧
      find_fanin (cegar_layout_fence fresh_encoder ⟨3, 1, create_majority 3⟩ ⟨[1]⟩)
        ⟨3, 1, create_majority 3⟩ val 3 1 = some 1 ∧
      find_fanin (cegar_layout_fence fresh_encoder ⟨3, 1, create_majority 3⟩ ⟨[1]⟩)
        ⟨3, 1, create_majority 3⟩ val 3 2 = some 0) ∧
    (∃ val, cnf_sat val (add_base_cnf_clauses
        (cegar_layout_fence fresh_encoder ⟨3, 1, create_majority 3⟩ ⟨[1]⟩)
        ⟨3, 1, create_majority 3⟩ ++
      add_cnf_clauses (cegar_layout_fence fresh_encoder ⟨3, 1, create_majority 3⟩ ⟨[1]⟩)
        ⟨3, 1, create_majority 3⟩ 0) = true) ∧
    (∀ val, cnf_sat val (add_base_cnf_clauses
        (cegar_layout_fence fresh_encoder ⟨3, 1, create_majority 3⟩ ⟨[1]⟩)
        ⟨3, 1, create_majority 3⟩) = true →
      ∃ e2, simulate (cegar_layout_fence fresh_encoder ⟨3, 1, create_majority 3⟩ ⟨[1]⟩)
        ⟨3, 1, create_majority 3⟩ val = some (-1, e2)) ∧
    (∃ e1, try_fence S 3 (create_majority 3) fresh_encoder ⟨[1]⟩ fuel
      = fence_outcome.found 1 e1) ∧
    (⟨[1]⟩ : fence).nr_nodes = 1 := by
  refine ⟨maj3_base_models, by decide, ?_, maj3_first_call_sat, ?_,
    maj3_try_fence S fuel hS hfuel, rfl⟩
  · intro val hv
    exact maj3_find_fanin _ val rfl ((maj3_base_models val).1 hv)
  · intro val hv
    exact maj3_simulate _ val rfl
      (cegar_layout_fence_inputs fresh_encoder ⟨3, 1, create_majority 3⟩ ⟨[1]⟩)
      ((maj3_base_models val).1 hv)

/-- Instance of C10 with the reference solver and fuel for two rounds of the loop. -/
theorem maj3_one_node_fence_witness :
    ∃ e1, try_fence brute_solver 3 (create_majority 3) fresh_encoder ⟨[1]⟩ 2
      = fence_outcome.found 1 e1 :=
  (maj3_one_node_fence brute_solver 2 brute_solver_correct (by decide)).2.2.2.2.2.1

/-! ## The level map of a fence -/

theorem for_loop_induct {σ : Type} (P : Nat → σ → Prop) (body : σ → Nat → σ) (lo : Nat)
    (n : Nat) (s : σ) (h0 : P lo s)
    (hstep : ∀ i s, lo ≤ i → i < lo + n → P i s → P (i + 1) (body s i)) :
    P (lo + n) (for_loop lo (lo + n) body s) := by
  unfold for_loop
  rw [Nat.add_sub_cancel_left]
  induction n with
  | zero => exact h0
  | succ n ih =>
    rw [List.range'_concat, List.foldl_append]
    simp only [List.foldl_cons, List.foldl_nil, Nat.one_mul]
    exact hstep (lo + n) _ (by omega) (by omega)
      (ih (fun i s h1 h2 h3 => hstep i s h1 (by omega) h3))

theorem fence_dist_zero (f : fence) (nr_in : Nat) : fence_dist f nr_in 0 = nr_in := by
  simp [fence_dist]

theorem fence_dist_succ (f : fence) (nr_in t : Nat) (ht : t < f.nr_levels) :
    fence_dist f nr_in (t + 1) = fence_dist f nr_in t + f.at_level t := by
  unfold fence_dist fence.at_level
  unfold fence.nr_levels at ht
  rw [List.sum_take_succ _ _ ht, List.getD_eq_getElem _ _ ht]
  omega

theorem fence_dist_last (f : fence) (sp : spec) (hf : fence_valid f sp) :
    fence_dist f sp.nr_in f.nr_levels = sp.nr_in + sp.nr_steps := by
  unfold fence_dist fence.nr_levels
  rw [List.take_length, ← hf.2]
  rfl

theorem at_level_pos (f : fence) (sp : spec) (hf : fence_valid f sp) (t : Nat)
    (ht : t < f.nr_levels) : 0 < f.at_level t := by
  unfold fence.at_level
  unfold fence.nr_levels at ht
  rw [List.getD_eq_getElem _ _ ht]
  exact hf.1 _ (List.getElem_mem _)

theorem fence_dist_lt (f : fence) (sp : spec) (hf : fence_valid f sp) (a b : Nat)
    (hab : a < b) (hb : b ≤ f.nr_levels) : fence_dist f sp.nr_in a < fence_dist f sp.nr_in b := by
  induction b with
  | zero => omega
  | succ b ih =>
    have h1 := fence_dist_succ f sp.nr_in b (by omega)
    have h2 := at_level_pos f sp hf b (by omega)
    by_cases h : a = b
    · subst h; omega
    · have := ih (by omega) (by omega)
      omega

theorem fence_dist_le (f : fence) (sp : spec) (hf : fence_valid f sp) (a b : Nat)
    (hab : a ≤ b) (hb : b ≤ f.nr_levels) : fence_dist f sp.nr_in a ≤ fence_dist f sp.nr_in b := by
  by_cases h : a = b
  · subst h; exact Nat.le_refl _
  · exact Nat.le_of_lt (fence_dist_lt f sp hf a b (by omega) hb)

/-- After `update_level_map`, `level_dist[t] = nr_in + l_1 + ... + l_t` for every
    `t <= nr_levels`. -/
theorem update_level_map_dist (e : ditt_maj_encoder) (sp : spec) (f : fence) (t : Nat)
    (ht : t ≤ f.nr_levels) :
    (update_level_map e sp f).level_dist t = fence_dist f sp.nr_in t := by
  have key := for_loop_induct
    (fun i (e1 : ditt_maj_encoder) => ∀ x, x < i → e1.level_dist x = fence_dist f sp.nr_in x)
    (fun e i =>
      { e with level_dist := (set1 e.level_dist i (e.level_dist (i - 1) + f.at_level (i - 1))) })
    1 f.nr_levels
    { e with nr_levels := f.nr_levels, level_dist := set1 e.level_dist 0 sp.nr_in }
    (by
      intro x hx
      have : x = 0 := by omega
      subst this
      simp [set1, fence_dist_zero])
    (by
      intro i s h1 h2 hP x hx
      simp only [set1]
      by_cases hxi : x = i
      · subst hxi
        rw [if_pos rfl, hP (x - 1) (by omega)]
        have := fence_dist_succ f sp.nr_in (x - 1) (by omega)
        rw [show x - 1 + 1 = x by omega] at this
        rw [this]
      · rw [if_neg hxi]
        exact hP x (by omega))
  have h2 : (update_level_map e sp f) = for_loop 1 (1 + f.nr_levels)
      (fun e i =>
        { e with level_dist := (set1 e.level_dist i (e.level_dist (i - 1) + f.at_level (i - 1))) })
      { e with nr_levels := f.nr_levels, level_dist := set1 e.level_dist 0 sp.nr_in } := by
    unfold update_level_map
    simp only
    rw [Nat.add_comm]
  rw [h2]
  exact key t (by omega)

/-- For a valid fence `get_level` returns, for a step after the first, the level of the
    profile that the step lies on. -/
theorem get_level_eq (e : ditt_maj_encoder) (sp : spec) (f : fence) (hf : fence_valid f sp)
    (t i : Nat) (ht1 : 1 ≤ t) (ht2 : t ≤ f.nr_levels) (hi : sp.nr_in < i)
    (hl : on_level f sp.nr_in t i) :
    get_level (update_level_map e sp f) sp i = t := by
  unfold get_level
  rw [if_neg (by omega), if_neg (by omega), (update_level_map_spec e sp f).2.1]
  have hfind : (List.range (f.nr_levels + 1)).find?
      (fun x => decide ((update_level_map e sp f).level_dist x > i)) = some t := by
    rw [List.find?_range_eq_some]
    refine ⟨?_, List.mem_range.2 (by omega), ?_⟩
    · rw [update_level_map_dist e sp f t ht2]
      simpa using hl.2
    · intro x hx
      rw [update_level_map_dist e sp f x (by omega)]
      have h1 := hl.1
      rw [if_neg (by omega)] at h1
      have h2 := fence_dist_le f sp hf x (t - 1) (by omega) (by omega)
      simp only [gt_iff_lt, Bool.not_eq_true', decide_eq_false_iff_not, not_lt]
      omega
  rw [hfind]

theorem first_step_on_level_eq (e : ditt_maj_encoder) (sp : spec) (f : fence) (t : Nat)
    (ht : t ≤ f.nr_levels + 1) :
    first_step_on_level (update_level_map e sp f) t =
      if t = 0 then 0 else fence_dist f sp.nr_in (t - 1) := by
  unfold first_step_on_level
  split
  · rfl
  · exact update_level_map_dist e sp f (t - 1) (by omega)

/-! ## From a chain to a model of the clauses -/

/-- Any assignment whose selectors decode to the fanins `fan`, and whose simulation
    variables carry the values of tables `T` that follow these fanins, satisfies the
    clauses of `add_cnf` as soon as the last table has the target bit at `m`. -/
theorem follows_sat (e : ditt_maj_encoder) (sp : spec) (v : Nat → Bool)
    (fan : Nat → Nat → Nat) (T : Nat → truth_table) (m : Nat)
    (hsel : ∀ i k j, sp.nr_in ≤ i → i < sp.nr_in + sp.nr_steps → k < 3 →
      j < sp.nr_in + sp.nr_steps → e.varMarks i k j ≠ 0 → v (e.varMarks i k j) = true →
      j = fan i k)
    (hF : ∀ i k, sp.nr_in ≤ i → i < sp.nr_in + sp.nr_steps → k < 3 →
      v (e.iVar + 4 * (i - sp.nr_in) + k) = T (fan i k) m)
    (hO : ∀ i, sp.nr_in ≤ i → i < sp.nr_in + sp.nr_steps →
      v (e.iVar + 4 * (i - sp.nr_in) + 3) = T i m)
    (hin : ∀ x, x < sp.nr_in → T x = create_nth_var x)
    (hstep : ∀ i, sp.nr_in ≤ i → i < sp.nr_in + sp.nr_steps →
      T i = ternary_majority (T (fan i 0)) (T (fan i 1)) (T (fan i 2)))
    (hlast : T (sp.nr_in + sp.nr_steps - 1) m = decide (Maj_ManValue m sp.nr_in = 1)) :
    cnf_sat v (add_cnf_clauses e sp m) = true := by
  rw [add_cnf_clauses_sat]
  intro i hi1 hi2
  constructor
  · rw [connectivity_sat]
    intro k hk j hj hm hv
    have hsel2 := hsel i k j hi1 hi2 hk hj hm hv
    rw [hF i k hi1 hi2 hk, ← hsel2]
    split
    · rename_i hjn
      rw [hO j hjn hj]
    · rename_i hjn
      rw [hin j (by omega)]
      rfl
  · have hT := congrFun (hstep i hi1 hi2) m
    by_cases hil : i = sp.nr_in + sp.nr_steps - 1
    · rw [functionality_sat_last e sp m i _ hil, hF i 0 hi1 hi2 (by omega),
        hF i 1 hi1 hi2 (by omega), hF i 2 hi1 hi2 (by omega), ← hlast, ← hil, hT]
      rfl
    · rw [functionality_sat e sp m i _ hil, hF i 0 hi1 hi2 (by omega),
        hF i 1 hi1 hi2 (by omega), hF i 2 hi1 hi2 (by omega), hO i hi1 hi2, hT]
      rfl

theorem cegar_clauses_sat (e : ditt_maj_encoder) (sp : spec) (v : Nat → Bool)
    (M : List Nat) (c0 : Nat)
    (h : ∀ c, c < M.length →
      cnf_sat v (add_cnf_clauses { e with iVar := e.iVar + 4 * sp.nr_steps * (c0 + c) } sp
        (M.getD c 0)) = true) :
    cnf_sat v (cegar_clauses { e with iVar := e.iVar + 4 * sp.nr_steps * c0 } sp M) = true := by
  induction M generalizing c0 with
  | nil => rfl
  | cons m ms ih =>
    rw [cegar_clauses, cnf_sat_append]
    constructor
    · have := h 0 (by simp)
      simpa using this
    · have h2 := ih (c0 + 1) (by
        intro c hc
        have := h (c + 1) (by simpa using hc)
        rw [show c0 + (c + 1) = c0 + 1 + c by omega] at this
        simpa using this)
      have e1 : e.iVar + 4 * sp.nr_steps * c0 + 4 * sp.nr_steps
          = e.iVar + 4 * sp.nr_steps * (c0 + 1) := by
        rw [Nat.mul_add, Nat.mul_one, Nat.add_assoc]
      simp only [e1]
      exact h2

theorem push_selectors_inj_all (ts : List (Nat × Nat × Nat)) (e : ditt_maj_encoder)
    (t u : Nat × Nat × Nat) (ht : t ∈ ts) (hu : u ∈ ts)
    (h : (push_selectors e ts).varMarks t.1 t.2.1 t.2.2 =
      (push_selectors e ts).varMarks u.1 u.2.1 u.2.2) : t = u := by
  induction ts generalizing e with
  | nil => simp at ht
  | cons a ts ih =>
    rw [push_selectors_cons] at h
    have key : ∀ x : Nat × Nat × Nat, x ∈ a :: ts → x ∉ ts →
        x = a ∧
        (push_selectors (push_selector e a.1 a.2.1 a.2.2) ts).varMarks x.1 x.2.1 x.2.2
          = e.iVar := by
      intro x hx hnx
      have hxa : x = a := by
        rcases List.mem_cons.1 hx with h | h
        · exact h
        · exact absurd h hnx
      refine ⟨hxa, ?_⟩
      rw [push_selectors_not_mem ts _ _ _ _ hnx, hxa]
      simp [push_selector, set3]
    have big : ∀ x : Nat × Nat × Nat, x ∈ ts →
        e.iVar + 1 ≤
          (push_selectors (push_selector e a.1 a.2.1 a.2.2) ts).varMarks x.1 x.2.1 x.2.2 := by
      intro x hx
      have := (push_selectors_mem ts (push_selector e a.1 a.2.1 a.2.2) x.1 x.2.1 x.2.2 hx).1
      simpa [push_selector] using this
    by_cases h1 : t ∈ ts <;> by_cases h2 : u ∈ ts
    · exact ih _ h1 h2 h
    · have a1 := (key u hu h2).2
      have a2 := big t h1
      omega
    · have a1 := (key t ht h1).2
      have a2 := big u h2
      omega
    · rw [(key t ht h1).1, (key u hu h2).1]

/-- Distinct allocated selectors of the fence layout carry distinct variable ids. -/
theorem cegar_layout_fence_inj (e0 : ditt_maj_encoder) (sp : spec) (f : fence)
    (i k j i2 k2 j2 : Nat)
    (h1 : (cegar_layout_fence e0 sp f).varMarks i k j ≠ 0)
    (h2 : (cegar_layout_fence e0 sp f).varMarks i2 k2 j2 ≠ 0)
    (h : (cegar_layout_fence e0 sp f).varMarks i k j =
      (cegar_layout_fence e0 sp f).varMarks i2 k2 j2) :
    i = i2 ∧ k = k2 ∧ j = j2 := by
  rw [(cegar_layout_fence_marks e0 sp f i k j).1] at h1
  rw [(cegar_layout_fence_marks e0 sp f i2 k2 j2).1] at h2
  unfold cegar_layout_fence at h
  rw [add_base_variables_fence_eq] at h
  have := push_selectors_inj_all _ _ (i, k, j) (i2, k2, j2) h1 h2 h
  simp only [Prod.mk.injEq] at this
  exact this

theorem exists_level (f : fence) (sp : spec) (hf : fence_valid f sp) (j : Nat)
    (h1 : sp.nr_in ≤ j) (h2 : j < sp.nr_in + sp.nr_steps) :
    ∃ t, 1 ≤ t ∧ t ≤ f.nr_levels ∧ on_level f sp.nr_in t j := by
  have key : ∀ t, t ≤ f.nr_levels → j < fence_dist f sp.nr_in t →
      ∃ t2, 1 ≤ t2 ∧ t2 ≤ t ∧ on_level f sp.nr_in t2 j := by
    intro t
    induction t with
    | zero =>
      intro _ h
      rw [fence_dist_zero] at h
      omega
    | succ t ih =>
      intro ht h
      by_cases hlt : j < fence_dist f sp.nr_in t
      · obtain ⟨t2, a, b, c⟩ := ih (by omega) hlt
        exact ⟨t2, a, by omega, c⟩
      · refine ⟨t + 1, by omega, Nat.le_refl _, ?_, h⟩
        rw [if_neg (by omega), Nat.add_sub_cancel]
        omega
  obtain ⟨t, a, b, c⟩ := key f.nr_levels (Nat.le_refl _) (by rw [fence_dist_last f sp hf]; exact h2)
  exact ⟨t, a, b, c⟩

theorem on_level_lt (f : fence) (nr_in t i j : Nat)
    (ht1 : 1 ≤ t) (hi : on_level f nr_in t i)
    (hj : on_level f nr_in (t - 1) j) : j < i := by
  have h1 := hi.1
  rw [if_neg (by omega)] at h1
  have h2 := hj.2
  omega

theorem max3_ge (a b c : Nat) : a ≤ max3 a b c ∧ b ≤ max3 a b c ∧ c ≤ max3 a b c := by
  unfold max3
  refine ⟨le_max_left _ _, le_trans (le_max_left _ _) (le_max_right _ _),
    le_trans (le_max_right _ _) (le_max_right _ _)⟩

/-- In a chain that follows a valid fence every fanin of a step lies below the step. -/
theorem follows_fence_lt (f : fence) (sp : spec) (hf : fence_valid f sp)
    (fan : Nat → Nat → Nat) (hfol : follows_fence f sp.nr_in fan) (i k : Nat)
    (h1 : sp.nr_in ≤ i) (h2 : i < sp.nr_in + sp.nr_steps) (hk : k < 3) : fan i k < i := by
  obtain ⟨t, a, b, c⟩ := exists_level f sp hf i h1 h2
  obtain ⟨-, -, -, hm⟩ := hfol t i a b c
  have hlt := on_level_lt f sp.nr_in t i _ a c hm
  obtain ⟨g0, g1, g2⟩ := max3_ge (fan i 0) (fan i 1) (fan i 2)
  interval_cases k <;> omega

/-! ## The model of a normalised chain -/

theorem chain_model_sim (e : ditt_maj_encoder) (sp : spec) (fan : Nat → Nat → Nat)
    (T : Nat → truth_table) (M : List Nat) (c i k : Nat) (hi1 : sp.nr_in ≤ i)
    (hi2 : i < sp.nr_in + sp.nr_steps) (hk : k < 4) :
    chain_model e sp fan T M (e.iVar + 4 * sp.nr_steps * c + 4 * (i - sp.nr_in) + k) =
      if k = 3 then T i (M.getD c 0) else T (fan i k) (M.getD c 0) := by
  unfold chain_model
  have hr : 4 * (i - sp.nr_in) + k < 4 * sp.nr_steps := by omega
  have h1 : e.iVar + 4 * sp.nr_steps * c + 4 * (i - sp.nr_in) + k - e.iVar
      = 4 * sp.nr_steps * c + (4 * (i - sp.nr_in) + k) := by omega
  have h2 : (4 * sp.nr_steps * c + (4 * (i - sp.nr_in) + k)) % (4 * sp.nr_steps)
      = 4 * (i - sp.nr_in) + k := by
    rw [Nat.mul_add_mod, Nat.mod_eq_of_lt hr]
  have h3 : (4 * sp.nr_steps * c + (4 * (i - sp.nr_in) + k)) / (4 * sp.nr_steps) = c := by
    rw [Nat.mul_add_div (by omega), Nat.div_eq_of_lt hr, Nat.add_zero]
  have h4 : (4 * (i - sp.nr_in) + k) % 4 = k := by omega
  have h5 : (4 * (i - sp.nr_in) + k) / 4 = i - sp.nr_in := by omega
  have h6 : sp.nr_in + (i - sp.nr_in) = i := by omega
  rw [if_neg (by omega), h1, h2, h3, h4, h5, h6]

theorem chain_model_selector (e0 : ditt_maj_encoder) (sp : spec) (f : fence)
    (fan : Nat → Nat → Nat) (T : Nat → truth_table) (M : List Nat)
    (halloc : ∀ i k, sp.nr_in ≤ i → i < sp.nr_in + sp.nr_steps → k < 3 →
      (cegar_layout_fence e0 sp f).varMarks i k (fan i k) ≠ 0)
    (i k j : Nat) (hi1 : sp.nr_in ≤ i) (hi2 : i < sp.nr_in + sp.nr_steps) (hk : k < 3)
    (hm : (cegar_layout_fence e0 sp f).varMarks i k j ≠ 0) :
    chain_model (cegar_layout_fence e0 sp f) sp fan T M
      ((cegar_layout_fence e0 sp f).varMarks i k j) = true ↔ j = fan i k := by
  unfold chain_model
  rw [if_pos (cegar_layout_fence_marks e0 sp f i k j).2]
  simp only [List.any_eq_true, List.mem_range', List.mem_range, beq_iff_eq]
  constructor
  · rintro ⟨i2, ⟨x, hx, rfl⟩, k2, hk2, heq⟩
    have := cegar_layout_fence_inj e0 sp f _ _ _ _ _ _
      (halloc (sp.nr_in + 1 * x) k2 (by omega) (by omega) hk2) hm heq
    obtain ⟨a, b, c⟩ := this
    subst a b
    exact c.symm
  · intro hj
    exact ⟨i, ⟨i - sp.nr_in, by omega, by omega⟩, k, hk, by rw [hj]⟩

/-- A chain in normal form (fanins in decreasing order, first step with fanins (2,1,0))
    that follows the fence and computes majority yields a model of the base CNF and of
    the clauses of `add_cnf` for any list of minterms. -/
theorem normal_chain_sat (e0 : ditt_maj_encoder) (sp : spec) (f : fence) (M : List Nat)
    (fan : Nat → Nat → Nat) (T : Nat → truth_table)
    (hf : fence_valid f sp) (hM : ∀ m ∈ M, m < 2 ^ sp.nr_in)
    (hr : realizes f sp fan T)
    (hsorted : ∀ i, sp.nr_in ≤ i → i < sp.nr_in + sp.nr_steps →
      fan i 1 < fan i 0 ∧ fan i 2 < fan i 1)
    (hfirst : fan sp.nr_in 0 = 2 ∧ fan sp.nr_in 1 = 1 ∧ fan sp.nr_in 2 = 0) :
    cnf_sat (chain_model (cegar_layout_fence e0 sp f) sp fan T M)
      (add_base_cnf_clauses (cegar_layout_fence e0 sp f) sp ++
        cegar_clauses (cegar_layout_fence e0 sp f) sp M) = true := by
  obtain ⟨hfol, hin, hstep, htarget⟩ := hr
  have hlt := follows_fence_lt f sp hf fan hfol
  have halloc : ∀ i k, sp.nr_in ≤ i → i < sp.nr_in + sp.nr_steps → k < 3 →
      (cegar_layout_fence e0 sp f).varMarks i k (fan i k) ≠ 0 := by
    intro i k hi1 hi2 hk
    rw [(cegar_layout_fence_marks e0 sp f i k _).1, mem_layout_selectors_fence]
    by_cases hi : i = sp.nr_in
    · left
      subst hi
      refine ⟨rfl, hk, ?_⟩
      interval_cases k
      · exact hfirst.1
      · exact hfirst.2.1
      · exact hfirst.2.2
    · right
      refine ⟨by omega, hi2, ?_⟩
      obtain ⟨s1, s2⟩ := hsorted i hi1 hi2
      have l0 := hlt i 0 hi1 hi2 (by omega)
      by_cases hk0 : k = 0
      · left
        subst hk0
        obtain ⟨t, a, b, c⟩ := exists_level f sp hf i hi1 hi2
        obtain ⟨-, -, -, hm⟩ := hfol t i a b c
        have hmax : max3 (fan i 0) (fan i 1) (fan i 2) = fan i 0 := by
          unfold max3
          rw [max_eq_left (by omega : fan i 2 ≤ fan i 1), max_eq_left (by omega)]
        rw [hmax] at hm
        rw [get_level_eq (cegar_reset e0 sp) sp f hf t i a b (by omega) c,
          first_step_on_level_eq _ sp f (t - 1) (by omega),
          first_step_on_level_eq _ sp f t (by omega), if_neg (by omega : ¬ t = 0)]
        exact ⟨rfl, hm.1, hm.2⟩
      · right
        refine ⟨by omega, hk, ?_⟩
        have : k = 1 ∨ k = 2 := by omega
        rcases this with rfl | rfl <;> omega
  have hsel := chain_model_selector e0 sp f fan T M halloc
  rw [cnf_sat_append]
  constructor
  · rw [add_base_cnf_clauses_sat]
    intro i hi1 hi2 k hk
    refine ⟨⟨fan i k, ?_, halloc i k hi1 hi2 hk,
      (hsel i k _ hi1 hi2 hk (halloc i k hi1 hi2 hk)).2 rfl⟩, ?_, ?_⟩
    · have := hlt i k hi1 hi2 hk
      omega
    · rintro a b hab hb ha0 hb0 ⟨hva, hvb⟩
      have e1 := (hsel i k a hi1 hi2 hk ha0).1 hva
      have e2 := (hsel i k b hi1 hi2 hk hb0).1 hvb
      omega
    · rintro hk2 j n hjn hn hj0 hn0 ⟨hvj, hvn⟩
      have e1 := (hsel i k j hi1 hi2 hk hj0).1 hvj
      have e2 := (hsel i (k + 1) n hi1 hi2 (by omega) hn0).1 hvn
      obtain ⟨s1, s2⟩ := hsorted i hi1 hi2
      have : k = 0 ∨ k = 1 := by omega
      rcases this with rfl | rfl
      · simp only [Nat.zero_add] at e2
        omega
      · simp only [Nat.reduceAdd] at e2
        omega
  · have h0 : cegar_clauses (cegar_layout_fence e0 sp f) sp M =
        cegar_clauses { cegar_layout_fence e0 sp f with
          iVar := (cegar_layout_fence e0 sp f).iVar + 4 * sp.nr_steps * 0 } sp M := rfl
    rw [h0]
    apply cegar_clauses_sat
    intro c hc
    rw [Nat.zero_add]
    have hmc : M.getD c 0 < 2 ^ sp.nr_in := by
      rw [List.getD_eq_getElem _ _ hc]
      exact hM _ (List.getElem_mem _)
    apply follows_sat _ sp _ fan T (M.getD c 0)
    · intro i k j hi1 hi2 hk _ hm hv
      exact (hsel i k j hi1 hi2 hk hm).1 hv
    · intro i k hi1 hi2 hk
      have := chain_model_sim (cegar_layout_fence e0 sp f) sp fan T M c i k hi1 hi2 (by omega)
      rw [if_neg (by omega)] at this
      exact this
    · intro i hi1 hi2
      have := chain_model_sim (cegar_layout_fence e0 sp f) sp fan T M c i 3 hi1 hi2 (by omega)
      rw [if_pos rfl] at this
      exact this
    · exact hin
    · exact hstep
    · rw [htarget _ hmc]
      unfold create_majority Maj_ManValue
      by_cases h : count_bits (M.getD c 0) sp.nr_in > sp.nr_in / 2 <;> simp [h]

/-! ## Normal form of a chain -/

theorem ternary_majority_comm12 (a b c : truth_table) :
    ternary_majority a b c = ternary_majority b a c := by
  funext m
  unfold ternary_majority
  cases a m <;> cases b m <;> cases c m <;> rfl

theorem ternary_majority_comm23 (a b c : truth_table) :
    ternary_majority a b c = ternary_majority a c b := by
  funext m
  unfold ternary_majority
  cases a m <;> cases b m <;> cases c m <;> rfl

theorem sort3_cases (a b c : Nat) :
    (max3 a b c = a ∧ mid3 a b c = b ∧ min3 a b c = c) ∨
    (max3 a b c = a ∧ mid3 a b c = c ∧ min3 a b c = b) ∨
    (max3 a b c = b ∧ mid3 a b c = a ∧ min3 a b c = c) ∨
    (max3 a b c = b ∧ mid3 a b c = c ∧ min3 a b c = a) ∨
    (max3 a b c = c ∧ mid3 a b c = a ∧ min3 a b c = b) ∨
    (max3 a b c = c ∧ mid3 a b c = b ∧ min3 a b c = a) := by
  unfold mid3 max3 min3
  omega

theorem sort3_order (a b c : Nat) (h1 : a ≠ b) (h2 : a ≠ c) (h3 : b ≠ c) :
    mid3 a b c < max3 a b c ∧ min3 a b c < mid3 a b c ∧
    max3 (max3 a b c) (mid3 a b c) (min3 a b c) = max3 a b c := by
  unfold mid3 max3 min3
  omega

theorem sort3_majority (T : Nat → truth_table) (a b c : Nat) :
    ternary_majority (T (max3 a b c)) (T (mid3 a b c)) (T (min3 a b c)) =
      ternary_majority (T a) (T b) (T c) := by
  funext m
  unfold ternary_majority
  rcases sort3_cases a b c with ⟨x, y, z⟩ | ⟨x, y, z⟩ | ⟨x, y, z⟩ | ⟨x, y, z⟩ |
    ⟨x, y, z⟩ | ⟨x, y, z⟩ <;> rw [x, y, z] <;>
    cases T a m <;> cases T b m <;> cases T c m <;> rfl

theorem sorted_fanin_spec (fan : Nat → Nat → Nat) (i : Nat) :
    sorted_fanin fan i 0 = max3 (fan i 0) (fan i 1) (fan i 2) ∧
    sorted_fanin fan i 1 = mid3 (fan i 0) (fan i 1) (fan i 2) ∧
    sorted_fanin fan i 2 = min3 (fan i 0) (fan i 1) (fan i 2) := ⟨rfl, rfl, rfl⟩

/-- Putting the fanins of every step in decreasing order keeps a chain and its tables. -/
theorem realizes_sorted (f : fence) (sp : spec) (hf : fence_valid f sp)
    (fan : Nat → Nat → Nat) (T : Nat → truth_table) (hr : realizes f sp fan T) :
    realizes f sp (sorted_fanin fan) T ∧
    ∀ i, sp.nr_in ≤ i → i < sp.nr_in + sp.nr_steps →
      sorted_fanin fan i 1 < sorted_fanin fan i 0 ∧
      sorted_fanin fan i 2 < sorted_fanin fan i 1 := by
  obtain ⟨hfol, hin, hstep, htarget⟩ := hr
  refine ⟨⟨?_, hin, ?_, htarget⟩, ?_⟩
  · intro t i a b c
    obtain ⟨d1, d2, d3, hm⟩ := hfol t i a b c
    obtain ⟨e0, e1, e2⟩ := sorted_fanin_spec fan i
    rw [e0, e1, e2]
    obtain ⟨o1, o2, hmax⟩ := sort3_order _ _ _ d1 d2 d3
    rw [hmax]
    exact ⟨by omega, by omega, by omega, hm⟩
  · intro i hi1 hi2
    obtain ⟨e0, e1, e2⟩ := sorted_fanin_spec fan i
    rw [e0, e1, e2, sort3_majority T]
    exact hstep i hi1 hi2
  · intro i hi1 hi2
    obtain ⟨t, a, b, c⟩ := exists_level f sp hf i hi1 hi2
    obtain ⟨d1, d2, d3, -⟩ := hfol t i a b c
    obtain ⟨e0, e1, e2⟩ := sorted_fanin_spec fan i
    rw [e0, e1, e2]
    obtain ⟨o1, o2, -⟩ := sort3_order _ _ _ d1 d2 d3
    exact ⟨o1, o2⟩

theorem sw_invol (p q x : Nat) : sw p q (sw p q x) = x := by
  unfold sw
  split_ifs <;> omega

theorem sw_fix (p q x : Nat) (h1 : x ≠ p) (h2 : x ≠ q) : sw p q x = x := by
  unfold sw
  rw [if_neg h1, if_neg h2]

theorem sw_lt (p q x n : Nat) (hp : p < n) (hq : q < n) (hx : x < n) : sw p q x < n := by
  unfold sw
  split_ifs <;> omega

theorem sw_max3 (p q n a b c : Nat) (hp : p < n) (hq : q < n) (h : n ≤ max3 a b c) :
    max3 (sw p q a) (sw p q b) (sw p q c) = max3 a b c := by
  have key : ∀ x, (n ≤ x → sw p q x = x) ∧ (x < n → sw p q x < n) := fun x =>
    ⟨fun hx => sw_fix p q x (by omega) (by omega), fun hx => sw_lt p q x n hp hq hx⟩
  have ka := key a
  have kb := key b
  have kc := key c
  generalize sw p q a = a2 at ka ⊢
  generalize sw p q b = b2 at kb ⊢
  generalize sw p q c = c2 at kc ⊢
  unfold max3 at h ⊢
  omega

theorem mint_bit_swap (m p q x : Nat) :
    mint_bit (swap_mint m p q) x = mint_bit m (sw p q x) := by
  unfold swap_mint sw
  have hp := mint_bit_le_one m p
  have hq := mint_bit_le_one m q
  by_cases h : mint_bit m p = mint_bit m q
  · rw [if_pos h]
    split_ifs with h1 h2
    · rw [h1, h]
    · rw [h2, h]
    · rfl
  · rw [if_neg h]
    have hpq : p ≠ q := fun hpq => h (by rw [hpq])
    simp only [mint_bit_flip]
    split_ifs <;> omega

theorem count_bits_swap (m p q n : Nat) (hp : p < n) (hq : q < n) :
    count_bits (swap_mint m p q) n = count_bits m n := by
  unfold swap_mint
  by_cases h : mint_bit m p = mint_bit m q
  · rw [if_pos h]
  · rw [if_neg h]
    have hpq : p ≠ q := fun hpq => h (by rw [hpq])
    have c1 := count_bits_flip m p n
    have c2 := count_bits_flip (m ^^^ 2 ^ p) q n
    rw [if_pos hp, if_pos hp] at c1
    rw [if_pos hq, if_pos hq, mint_bit_flip, if_neg (fun hh => hpq hh.symm)] at c2
    have b1 := mint_bit_le_one m p
    have b2 := mint_bit_le_one m q
    omega

theorem swap_mint_lt (m p q n : Nat) (hm : m < 2 ^ n) (hp : p < n) (hq : q < n) :
    swap_mint m p q < 2 ^ n := by
  unfold swap_mint
  split
  · exact hm
  · exact flip_lt _ q n (flip_lt m p n hm hp) hq

/-- Exchanging two inputs keeps a chain that follows the fence and computes majority. -/
theorem realizes_swap (f : fence) (sp : spec) (hf : fence_valid f sp) (hs : 1 ≤ sp.nr_steps)
    (fan : Nat → Nat → Nat) (T : Nat → truth_table) (p q : Nat) (hp : p < sp.nr_in)
    (hq : q < sp.nr_in) (hr : realizes f sp fan T) :
    realizes f sp (fun i k => sw p q (fan i k))
      (fun j m => T (sw p q j) (swap_mint m p q)) := by
  obtain ⟨hfol, hin, hstep, htarget⟩ := hr
  refine ⟨?_, ?_, ?_, ?_⟩
  · intro t i a b c
    obtain ⟨d1, d2, d3, hm⟩ := hfol t i a b c
    simp only
    refine ⟨?_, ?_, ?_, ?_⟩
    · intro h; exact d1 (by rw [← sw_invol p q (fan i 0), h, sw_invol])
    · intro h; exact d2 (by rw [← sw_invol p q (fan i 0), h, sw_invol])
    · intro h; exact d3 (by rw [← sw_invol p q (fan i 1), h, sw_invol])
    · obtain ⟨g0, g1, g2⟩ := max3_ge (fan i 0) (fan i 1) (fan i 2)
      by_cases ht : t - 1 = 0
      · rw [ht] at hm ⊢
        have hm2 := hm.2
        rw [fence_dist_zero] at hm2
        refine ⟨by rw [if_pos rfl]; exact Nat.zero_le _, ?_⟩
        rw [fence_dist_zero]
        have s0 := sw_lt p q (fan i 0) sp.nr_in hp hq (by omega)
        have s1 := sw_lt p q (fan i 1) sp.nr_in hp hq (by omega)
        have s2 := sw_lt p q (fan i 2) sp.nr_in hp hq (by omega)
        unfold max3
        omega
      · have hm1 := hm.1
        rw [if_neg ht] at hm1
        have hge : sp.nr_in ≤ fence_dist f sp.nr_in (t - 1 - 1) := by
          have := fence_dist_le f sp hf 0 (t - 1 - 1) (by omega) (by omega)
          rw [fence_dist_zero] at this
          exact this
        rw [sw_max3 p q sp.nr_in _ _ _ hp hq (by omega)]
        exact hm
  · intro x hx
    funext m
    simp only
    rw [hin _ (sw_lt p q x sp.nr_in hp hq hx)]
    unfold create_nth_var
    rw [mint_bit_swap, sw_invol]
  · intro i hi1 hi2
    funext m
    simp only
    rw [sw_fix p q i (by omega) (by omega), hstep i hi1 hi2]
    unfold ternary_majority
    rw [sw_invol, sw_invol, sw_invol]
  · intro m hm
    simp only
    rw [sw_fix p q _ (by omega) (by omega),
      htarget _ (swap_mint_lt m p q sp.nr_in hm hp hq)]
    unfold create_majority
    rw [count_bits_swap m p q sp.nr_in hp hq]

/-! ## Unsatisfiable clause sets and chains -/

/-- The tables of a chain whose fanins lie below their steps: projections at the
    inputs, and at every step the majority of the tables of its fanins. -/
theorem chain_tts_spec (nr_in nr_steps : Nat) (fan : Nat → Nat → Nat)
    (hlt : ∀ i k, nr_in ≤ i → i < nr_in + nr_steps → k < 3 → fan i k < i) :
    (∀ x, x < nr_in → chain_tts nr_in nr_steps fan x = create_nth_var x) ∧
    (∀ i, nr_in ≤ i → i < nr_in + nr_steps →
      chain_tts nr_in nr_steps fan i =
        ternary_majority (chain_tts nr_in nr_steps fan (fan i 0))
          (chain_tts nr_in nr_steps fan (fan i 1)) (chain_tts nr_in nr_steps fan (fan i 2))) := by
  have key := for_loop_induct
    (fun i (T : Nat → truth_table) =>
      (∀ x, ¬ (nr_in ≤ x ∧ x < i) → T x = create_nth_var x) ∧
      (∀ j, nr_in ≤ j → j < i →
        T j = ternary_majority (T (fan j 0)) (T (fan j 1)) (T (fan j 2))))
    (fun T i => set1 T i (ternary_majority (T (fan i 0)) (T (fan i 1)) (T (fan i 2))))
    nr_in nr_steps create_nth_var
    ⟨fun _ _ => rfl, fun j h1 h2 => by omega⟩
    (by
      rintro i T h1 h2 ⟨hout, hin⟩
      have f0 := hlt i 0 h1 h2 (by omega)
      have f1 := hlt i 1 h1 h2 (by omega)
      have f2 := hlt i 2 h1 h2 (by omega)
      constructor
      · intro x hx
        simp only [set1]
        rw [if_neg (by omega)]
        exact hout x (by omega)
      · intro j hj1 hj2
        simp only [set1]
        by_cases hji : j = i
        · subst hji
          rw [if_pos rfl, if_neg (by omega), if_neg (by omega), if_neg (by omega)]
        · have g0 := hlt j 0 hj1 (by omega) (by omega)
          have g1 := hlt j 1 hj1 (by omega) (by omega)
          have g2 := hlt j 2 hj1 (by omega) (by omega)
          rw [if_neg hji, if_neg (by omega), if_neg (by omega), if_neg (by omega)]
          exact hin j hj1 (by omega))
  exact ⟨fun x hx => key.1 x (by omega), fun i h1 h2 => key.2 i h1 h2⟩

theorem add_cnf_clauses_no_steps (e : ditt_maj_encoder) (sp : spec) (m : Nat)
    (h : sp.nr_steps = 0) : add_cnf_clauses e sp m = [] := by
  unfold add_cnf_clauses
  rw [h]
  rfl

theorem cegar_clauses_no_steps (e : ditt_maj_encoder) (sp : spec) (M : List Nat)
    (h : sp.nr_steps = 0) : cegar_clauses e sp M = [] := by
  induction M generalizing e with
  | nil => rfl
  | cons m ms ih => rw [cegar_clauses, add_cnf_clauses_no_steps e sp m h, ih, List.append_nil]

theorem add_base_cnf_clauses_no_steps (e : ditt_maj_encoder) (sp : spec)
    (h : sp.nr_steps = 0) : add_base_cnf_clauses e sp = [] := by
  rw [add_base_cnf_clauses_eq, h]
  rfl

theorem sw_chain_first (x y z : Nat) (h1 : y < x) (h2 : z < y) :
    sw x 2 (sw y 1 (sw z 0 x)) = 2 ∧ sw x 2 (sw y 1 (sw z 0 y)) = 1 ∧
    sw x 2 (sw y 1 (sw z 0 z)) = 0 := by
  have hl : ∀ p q, sw p q p = q := fun p q => by unfold sw; rw [if_pos rfl]
  refine ⟨?_, ?_, ?_⟩
  · rw [sw_fix z 0 x (by omega) (by omega), sw_fix y 1 x (by omega) (by omega), hl]
  · rw [sw_fix z 0 y (by omega) (by omega), hl, sw_fix x 2 1 (by omega) (by omega)]
  · rw [hl, sw_fix y 1 0 (by omega) (by omega), sw_fix x 2 0 (by omega) (by omega)]

/-- A chain that follows a valid fence and computes majority makes the base CNF together
    with the clauses of `add_cnf` for any minterms satisfiable. -/
theorem fence_chain_sat (e0 : ditt_maj_encoder) (sp : spec) (f : fence)
    (M : List Nat) (hn : 3 ≤ sp.nr_in) (hf : fence_valid f sp)
    (hM : ∀ m ∈ M, m < 2 ^ sp.nr_in) (fan : Nat → Nat → Nat)
    (hfol : follows_fence f sp.nr_in fan)
    (hmaj : ∀ m, m < 2 ^ sp.nr_in →
      chain_tts sp.nr_in sp.nr_steps fan (sp.nr_in + sp.nr_steps - 1) m =
        create_majority sp.nr_in m) :
    ∃ val, cnf_sat val
      (add_base_cnf_clauses (cegar_layout_fence e0 sp f) sp ++
        cegar_clauses (cegar_layout_fence e0 sp f) sp M) = true := by
  by_cases hs : sp.nr_steps = 0
  · refine ⟨fun _ => false, ?_⟩
    rw [add_base_cnf_clauses_no_steps _ sp hs, cegar_clauses_no_steps _ sp M hs]
    rfl
  · have hlt := follows_fence_lt f sp hf fan hfol
    obtain ⟨c1, c2⟩ := chain_tts_spec sp.nr_in sp.nr_steps fan hlt
    have r0 : realizes f sp fan (chain_tts sp.nr_in sp.nr_steps fan) := ⟨hfol, c1, c2, hmaj⟩
    obtain ⟨r1, s1⟩ := realizes_sorted f sp hf fan _ r0
    have hlt1 := follows_fence_lt f sp hf _ r1.1
    obtain ⟨o1, o2⟩ := s1 sp.nr_in (Nat.le_refl _) (by omega)
    have x0 := hlt1 sp.nr_in 0 (Nat.le_refl _) (by omega) (by omega)
    have r2 := realizes_swap f sp hf (by omega) _ _ (sorted_fanin fan sp.nr_in 2) 0
      (by omega) (by omega) r1
    have r3 := realizes_swap f sp hf (by omega) _ _ (sorted_fanin fan sp.nr_in 1) 1
      (by omega) (by omega) r2
    have r4 := realizes_swap f sp hf (by omega) _ _ (sorted_fanin fan sp.nr_in 0) 2
      (by omega) (by omega) r3
    obtain ⟨r5, s5⟩ := realizes_sorted f sp hf _ _ r4
    obtain ⟨w0, w1, w2⟩ := sw_chain_first _ _ _ o1 o2
    refine ⟨_, normal_chain_sat e0 sp f M _ _ hf hM r5 s5 ?_⟩
    obtain ⟨e0', e1', e2'⟩ := sorted_fanin_spec
      (fun i k => sw (sorted_fanin fan sp.nr_in 0) 2 (sw (sorted_fanin fan sp.nr_in 1) 1
        (sw (sorted_fanin fan sp.nr_in 2) 0 (sorted_fanin fan i k)))) sp.nr_in
    rw [e0', e1', e2']
    simp only [w0, w1, w2]
    decide


/-- C7. For at least three inputs, every fence of positive level sizes summing to
    `nr_steps` and every list `M` of minterms: when the base CNF of
    `cegar_encode(spec, fence)` together with the clauses of `add_cnf(spec, m)` for the
    `m` of `M` is unsatisfiable, no chain of `nr_steps` majority gates that follows the
    level profile of the fence (three distinct fanins per step, the largest on the
    level just below) computes the majority function at its last step. -/
theorem unsat_fence_has_no_chain (e0 : ditt_maj_encoder) (sp : spec) (f : fence)
    (M : List Nat) (hn : 3 ≤ sp.nr_in) (hf : fence_valid f sp)
    (hM : ∀ m ∈ M, m < 2 ^ sp.nr_in)
    (hunsat : ¬ ∃ val, cnf_sat val
      (add_base_cnf_clauses (cegar_layout_fence e0 sp f) sp ++
        cegar_clauses (cegar_layout_fence e0 sp f) sp M) = true) :
    ¬ ∃ fanin : Nat → Nat → Nat, follows_fence f sp.nr_in fanin ∧
      ∀ m, m < 2 ^ sp.nr_in →
        chain_tts sp.nr_in sp.nr_steps fanin (sp.nr_in + sp.nr_steps - 1) m =
          create_majority sp.nr_in m := by
  rintro ⟨fan, hfol, hmaj⟩
  exact hunsat (fence_chain_sat e0 sp f M hn hf hM fan hfol hmaj)

theorem brute_solver_unsat (cs : List (List Nat)) (h : (brute_solver.solve cs).isNone = true) :
    ¬ ∃ val, cnf_sat val cs = true :=
  brute_solver_correct.solve_complete cs (Option.isNone_iff_eq_none.1 h)

/-- Instance of C7: four inputs, the one-node fence and the minterm 3. The only
    structure, the step with fanins (2,1,0), yields 1 at minterm 3 where the majority
    of four is 0, so the clauses are unsatisfiable; and indeed no one-gate chain
    computes the majority of four inputs. -/
theorem unsat_fence_has_no_chain_witness :
    (brute_solver.solve
      (add_base_cnf_clauses (cegar_layout_fence fresh_encoder ⟨4, 1, create_majority 4⟩ ⟨[1]⟩)
          ⟨4, 1, create_majority 4⟩ ++
        cegar_clauses (cegar_layout_fence fresh_encoder ⟨4, 1, create_majority 4⟩ ⟨[1]⟩)
          ⟨4, 1, create_majority 4⟩ [3])).isNone = true ∧
    ¬ ∃ fanin : Nat → Nat → Nat, follows_fence ⟨[1]⟩ 4 fanin ∧
      ∀ m, m < 2 ^ 4 → chain_tts 4 1 fanin (4 + 1 - 1) m = create_majority 4 m :=
  ⟨by decide,
   unsat_fence_has_no_chain fresh_encoder ⟨4, 1, create_majority 4⟩ ⟨[1]⟩ [3] (by decide)
    ⟨by decide, rfl⟩ (by decide) (brute_solver_unsat _ (by decide))⟩

/-! ## The driver on a fence that admits a chain -/

theorem simulate_step_frame (sp : spec) (val : Nat → Bool) (e e2 : ditt_maj_encoder) (i : Nat)
    (h : simulate_step sp val e i = some e2) : same_but_tts e e2 := by
  unfold simulate_step at h
  split at h
  · simp only [Option.some.injEq] at h
    subst h
    exact ⟨rfl, rfl, rfl, rfl, rfl⟩
  · simp at h

theorem foldlM_frame (sp : spec) (val : Nat → Bool) (l : List Nat) (e e2 : ditt_maj_encoder)
    (h : l.foldlM (simulate_step sp val) e = some e2) : same_but_tts e e2 := by
  induction l generalizing e with
  | nil =>
    simp only [List.foldlM_nil, Option.pure_def, Option.some.injEq] at h
    subst h
    exact ⟨rfl, rfl, rfl, rfl, rfl⟩
  | cons a l ih =>
    rw [List.foldlM_cons] at h
    cases hs : simulate_step sp val e a with
    | none => rw [hs] at h; simp at h
    | some e1 =>
      rw [hs] at h
      simp only [Option.bind_eq_bind, Option.some_bind] at h
      obtain ⟨a1, a2, a3, a4, a5⟩ := simulate_step_frame sp val e e1 a hs
      obtain ⟨b1, b2, b3, b4, b5⟩ := ih e1 h
      exact ⟨b1.trans a1, b2.trans a2, b3.trans a3, b4.trans a4, b5.trans a5⟩

/-- Whatever `simulate` returns, it changes only the simulation tables, and the value
    returned is -1 or a minterm below `2^nr_in`. -/
theorem simulate_frame (e e2 : ditt_maj_encoder) (sp : spec) (val : Nat → Bool) (r : Int)
    (h : simulate e sp val = some (r, e2)) :
    same_but_tts e e2 ∧ (r = -1 ∨ ∃ m : Nat, r = (m : Int) ∧ m < 2 ^ sp.nr_in) := by
  unfold simulate at h
  cases hs : simulate_tts e sp val with
  | none => rw [hs] at h; simp at h
  | some e1 =>
    rw [hs] at h
    simp only at h
    split at h
    · simp only [Option.some.injEq, Prod.mk.injEq] at h
      obtain ⟨h1, rfl⟩ := h
      refine ⟨foldlM_frame sp val _ e e1 hs, ?_⟩
      by_cases hr : r = -1
      · exact Or.inl hr
      · obtain ⟨m, hm, hb, -⟩ := first_difference_some e1 sp r h1 hr
        exact Or.inr ⟨m, hm, hb.2.1⟩
    · simp at h

theorem add_cnf_clauses_congr (e1 e2 : ditt_maj_encoder) (sp : spec) (m : Nat)
    (h1 : e1.iVar = e2.iVar) (h2 : e1.varMarks = e2.varMarks) :
    add_cnf_clauses e1 sp m = add_cnf_clauses e2 sp m := by
  unfold add_cnf_clauses connectivity_clauses functionality_clauses
  rw [h1, h2]

theorem cegar_clauses_congr (e1 e2 : ditt_maj_encoder) (sp : spec) (M : List Nat)
    (h1 : e1.iVar = e2.iVar) (h2 : e1.varMarks = e2.varMarks) :
    cegar_clauses e1 sp M = cegar_clauses e2 sp M := by
  induction M generalizing e1 e2 with
  | nil => rfl
  | cons m ms ih =>
    rw [cegar_clauses, cegar_clauses, add_cnf_clauses_congr e1 e2 sp m h1 h2]
    congr 1
    exact ih _ _ (by simp only [h1]) h2

theorem cegar_clauses_append (e : ditt_maj_encoder) (sp : spec) (M : List Nat) (m : Nat) :
    cegar_clauses e sp (M ++ [m]) =
      cegar_clauses e sp M ++
        add_cnf_clauses { e with iVar := e.iVar + 4 * sp.nr_steps * M.length } sp m := by
  induction M generalizing e with
  | nil =>
    simp only [List.nil_append, cegar_clauses, List.append_nil, List.length_nil, Nat.mul_zero,
      Nat.add_zero]
  | cons a M ih =>
    rw [List.cons_append, cegar_clauses, cegar_clauses, ih, List.append_assoc]
    congr 2
    apply add_cnf_clauses_congr
    · simp only [List.length_cons, Nat.mul_add, Nat.mul_one]
      omega
    · rfl

/-- On a fence for which every clause set of the refinement loop is satisfiable, a
    truthful solver never makes the inner loop give the fence up. -/
theorem cegar_loop_not_abandoned (S : solver_wrapper) (hS : solver_correct S) (sp : spec)
    (E : ditt_maj_encoder)
    (hsat : ∀ M : List Nat, (∀ m ∈ M, m < 2 ^ sp.nr_in) →
      ∃ val, cnf_sat val (add_base_cnf_clauses E sp ++ cegar_clauses E sp M) = true)
    (fuel : Nat) (e : ditt_maj_encoder) (st : List (List Nat)) (iMint : Int) (i : Nat)
    (M : List Nat)
    (hvm : e.varMarks = E.varMarks) (hiv : e.iVar = E.iVar + 4 * sp.nr_steps * M.length)
    (hst : st = add_base_cnf_clauses E sp ++ cegar_clauses E sp M)
    (hM : ∀ m ∈ M, m < 2 ^ sp.nr_in)
    (hm : iMint = -1 ∨ ∃ m : Nat, iMint = (m : Int) ∧ m < 2 ^ sp.nr_in)
    (e2 : ditt_maj_encoder) :
    cegar_loop S sp fuel e st iMint i ≠ fence_outcome.next_fence e2 := by
  induction fuel generalizing e st iMint i M with
  | zero =>
    rw [cegar_loop]
    exact fun h => fence_outcome.noConfusion h
  | succ fuel ih =>
    rw [cegar_loop]
    by_cases h1 : iMint = -1
    · rw [if_pos h1]
      exact fun h => fence_outcome.noConfusion h
    · rw [if_neg h1]
      obtain ⟨m, rfl, hmlt⟩ : ∃ m : Nat, iMint = (m : Int) ∧ m < 2 ^ sp.nr_in := by
        rcases hm with h | h
        · exact absurd h h1
        · exact h
      rw [Int.toNat_ofNat]
      have hM2 : ∀ x ∈ M ++ [m], x < 2 ^ sp.nr_in := by
        intro x hx
        rcases List.mem_append.1 hx with h | h
        · exact hM x h
        · rw [List.mem_singleton.1 h]; exact hmlt
      have hcl : st ++ add_cnf_clauses e sp m =
          add_base_cnf_clauses E sp ++ cegar_clauses E sp (M ++ [m]) := by
        rw [hst, cegar_clauses_append, List.append_assoc]
        congr 2
        exact add_cnf_clauses_congr _ _ sp m hiv hvm
      have hacc : add_clauses S (add_cnf_clauses e sp m) st =
          (true, st ++ add_cnf_clauses e sp m) := by
        apply add_clauses_accept S hS
        rw [hcl]
        exact hsat _ hM2
      unfold add_cnf
      rw [hacc]
      simp only
      cases hsolve : S.solve (st ++ add_cnf_clauses e sp m) with
      | none =>
        exfalso
        apply hS.solve_complete _ hsolve
        rw [hcl]
        exact hsat _ hM2
      | some val =>
        simp only
        cases hsim : simulate { e with iVar := e.iVar + 4 * sp.nr_steps } sp val with
        | none =>
          simp only
          exact fun h => fence_outcome.noConfusion h
        | some p =>
          obtain ⟨m2, e3⟩ := p
          simp only
          obtain ⟨hfr, hrange⟩ := simulate_frame _ _ sp val m2 hsim
          apply ih e3 _ m2 (i + 1) (M ++ [m])
          · rw [hfr.1]
            exact hvm
          · rw [hfr.2.1]
            simp only [hiv, List.length_append, List.length_singleton, Nat.mul_add, Nat.mul_one]
            omega
          · exact hcl
          · exact hM2
          · exact hrange

/-- On such a fence the round of the driver does not end with the fence given up. -/
theorem try_fence_not_abandoned (S : solver_wrapper) (hS : solver_correct S) (nr_in : Nat)
    (target : truth_table) (e : ditt_maj_encoder) (f : fence) (fuel : Nat)
    (hsat : ∀ M : List Nat, (∀ m ∈ M, m < 2 ^ nr_in) →
      ∃ val, cnf_sat val
        (add_base_cnf_clauses (cegar_layout_fence e ⟨nr_in, f.nr_nodes, target⟩ f)
            ⟨nr_in, f.nr_nodes, target⟩ ++
          cegar_clauses (cegar_layout_fence e ⟨nr_in, f.nr_nodes, target⟩ f)
            ⟨nr_in, f.nr_nodes, target⟩ M) = true)
    (e2 : ditt_maj_encoder) :
    try_fence S nr_in target e f fuel ≠ fence_outcome.next_fence e2 := by
  unfold try_fence cegar_encode_fence add_base_cnf
  have hb : add_clauses S (add_base_cnf_clauses
      (cegar_layout_fence e ⟨nr_in, f.nr_nodes, target⟩ f) ⟨nr_in, f.nr_nodes, target⟩) [] =
      (true, [] ++ add_base_cnf_clauses
        (cegar_layout_fence e ⟨nr_in, f.nr_nodes, target⟩ f) ⟨nr_in, f.nr_nodes, target⟩) := by
    apply add_clauses_accept S hS
    obtain ⟨val, hv⟩ := hsat [] (by simp)
    exact ⟨val, by simpa [cegar_clauses] using hv⟩
  rw [hb]
  simp only [List.nil_append]
  exact cegar_loop_not_abandoned S hS ⟨nr_in, f.nr_nodes, target⟩
    (cegar_layout_fence e ⟨nr_in, f.nr_nodes, target⟩ f) hsat fuel
    (clear_out_lits (cegar_layout_fence e ⟨nr_in, f.nr_nodes, target⟩ f))
    (add_base_cnf_clauses (cegar_layout_fence e ⟨nr_in, f.nr_nodes, target⟩ f)
      ⟨nr_in, f.nr_nodes, target⟩) 0 0 []
    rfl (by simp [clear_out_lits]) (by simp [cegar_clauses]) (by simp)
    (Or.inr ⟨0, rfl, by positivity⟩) e2

/-- When the driver stops with "found solution" at the fence of index `t`, every fence
    of the stream from the starting index up to `t` was given up, and the inner loop
    ended with "found solution" on the fence of index `t`. -/
theorem synthesize_loop_found (S : solver_wrapper) (g : Nat → fence) (nr_in fuel : Nat)
    (rounds t0 : Nat) (e : ditt_maj_encoder) (t n : Nat) (e1 : ditt_maj_encoder)
    (h : synthesize_loop S g nr_in fuel rounds t0 e = synth_outcome.found t n e1) :
    t0 ≤ t ∧
    (∀ t2, t0 ≤ t2 → t2 < t →
      ∃ e2 e3, try_fence S nr_in (create_majority nr_in) e2 (g t2) fuel
        = fence_outcome.next_fence e3) ∧
    ∃ e0, try_fence S nr_in (create_majority nr_in) e0 (g t) fuel
      = fence_outcome.found n e1 := by
  induction rounds generalizing t0 e with
  | zero =>
    rw [synthesize_loop] at h
    exact synth_outcome.noConfusion h
  | succ rounds ih =>
    rw [synthesize_loop] at h
    cases hf : try_fence S nr_in (create_majority nr_in) e (g t0) fuel with
    | found n2 e2 =>
      rw [hf] at h
      simp only [synth_outcome.found.injEq] at h
      obtain ⟨rfl, rfl, rfl⟩ := h
      exact ⟨Nat.le_refl _, fun t2 h1 h2 => by omega, e, hf⟩
    | next_fence e2 =>
      rw [hf] at h
      simp only at h
      obtain ⟨h1, h2, h3⟩ := ih (t0 + 1) e2 h
      refine ⟨by omega, ?_, h3⟩
      intro t2 ht1 ht2
      by_cases heq : t2 = t0
      · subst heq
        exact ⟨e, e2, hf⟩
      · exact h2 t2 (by omega) ht2
    | assert_failed =>
      rw [hf] at h
      exact synth_outcome.noConfusion h
    | out_of_fuel =>
      rw [hf] at h
      exact synth_outcome.noConfusion h

/-! ## Smaller chains -/

/-- Two chains whose steps correspond under a map `φ` of indices have corresponding
    tables. -/
theorem chain_sim (n r2 : Nat) (fan2 : Nat → Nat → Nat) (T : Nat → truth_table)
    (φ : Nat → Nat)
    (hlt2 : ∀ i k, n ≤ i → i < n + r2 → k < 3 → fan2 i k < i)
    (hTin : ∀ x, x < n → T x = create_nth_var x)
    (hφin : ∀ x, x < n → φ x = x)
    (hφstep : ∀ i, n ≤ i → i < n + r2 →
      T (φ i) = ternary_majority (T (φ (fan2 i 0))) (T (φ (fan2 i 1))) (T (φ (fan2 i 2))))
    (j : Nat) (hj : j < n + r2) : chain_tts n r2 fan2 j = T (φ j) := by
  obtain ⟨c1, c2⟩ := chain_tts_spec n r2 fan2 hlt2
  induction j using Nat.strong_induction_on with
  | _ j ih =>
    by_cases h : j < n
    · rw [c1 j h, hφin j h, hTin j h]
    · have f0 := hlt2 j 0 (by omega) hj (by omega)
      have f1 := hlt2 j 1 (by omega) hj (by omega)
      have f2 := hlt2 j 2 (by omega) hj (by omega)
      rw [c2 j (by omega) hj, hφstep j (by omega) hj, ih _ f0 (by omega), ih _ f1 (by omega),
        ih _ f2 (by omega)]

/-- A step other than the last whose table equals that of an earlier index `a`, or which
    no step reads, can be taken out of the chain. -/
theorem remove_step (n r : Nat) (fan : Nat → Nat → Nat) (hc : computes_majority n r fan)
    (i a : Nat) (hi1 : n ≤ i) (hi2 : i < n + r - 1) (ha : a < i)
    (hsub : ∀ j k, n ≤ j → j < n + r → k < 3 → fan j k = i →
      chain_tts n r fan a = chain_tts n r fan i) :
    ∃ fan2, computes_majority n (r - 1) fan2 := by
  obtain ⟨hr, hlt, hmaj⟩ := hc
  obtain ⟨c1, c2⟩ := chain_tts_spec n r fan hlt
  refine ⟨fun j k =>
    (fun x => if x < i then x else x - 1)
      ((fun x => if x = i then a else x) (fan (if j < i then j else j + 1) k)), by omega, ?_, ?_⟩
  · intro j k hj1 hj2 hk
    simp only
    by_cases hji : j < i
    · have := hlt j k hj1 (by omega) hk
      rw [if_pos hji]
      split_ifs <;> omega
    · have := hlt (j + 1) k (by omega) (by omega) hk
      rw [if_neg hji]
      split_ifs <;> omega
  · intro m hm
    have hlt2 : ∀ j k, n ≤ j → j < n + (r - 1) → k < 3 →
        (fun x => if x < i then x else x - 1)
          ((fun x => if x = i then a else x) (fan (if j < i then j else j + 1) k)) < j := by
      intro j k hj1 hj2 hk
      simp only
      by_cases hji : j < i
      · have := hlt j k hj1 (by omega) hk
        rw [if_pos hji]
        split_ifs <;> omega
      · have := hlt (j + 1) k (by omega) (by omega) hk
        rw [if_neg hji]
        split_ifs <;> omega
    have key := chain_sim n (r - 1) _ (chain_tts n r fan) (fun j => if j < i then j else j + 1)
      hlt2 c1 (fun x hx => by simp only; rw [if_pos (by omega)]) ?_ (n + (r - 1) - 1) (by omega)
    · rw [key, ← hmaj m hm]
      simp only
      rw [if_neg (by omega)]
      congr 2
      omega
    · intro j hj1 hj2
      have hstep := c2 (if j < i then j else j + 1) (by split_ifs <;> omega)
        (by split_ifs <;> omega)
      have hfix : ∀ k, k < 3 →
          chain_tts n r fan ((fun j => if j < i then j else j + 1)
            ((fun x => if x < i then x else x - 1)
              ((fun x => if x = i then a else x) (fan (if j < i then j else j + 1) k)))) =
          chain_tts n r fan (fan (if j < i then j else j + 1) k) := by
        intro k hk
        simp only
        by_cases hx : fan (if j < i then j else j + 1) k = i
        · have hT := hsub _ k (by split_ifs <;> omega) (by split_ifs <;> omega) hk hx
          rw [hx, if_pos rfl, if_pos ha, if_pos ha, hT]
        · rw [if_neg hx]
          by_cases hlt3 : fan (if j < i then j else j + 1) k < i
          · rw [if_pos hlt3, if_pos hlt3]
          · have hx1 : fan (if j < i then j else j + 1) k - 1 + 1 =
                fan (if j < i then j else j + 1) k := by omega
            rw [if_neg hlt3, if_neg (by omega), hx1]
      rw [hfix 0 (by omega), hfix 1 (by omega), hfix 2 (by omega)]
      exact hstep

theorem majority_not_projection (n a : Nat) (hn : 3 ≤ n) (ha : a < n) :
    ∃ m, m < 2 ^ n ∧ create_nth_var a m ≠ create_majority n m := by
  refine ⟨0 ^^^ 2 ^ a, flip_lt 0 a n (by positivity) ha, ?_⟩
  have h1 := mint_bit_flip 0 a a
  rw [if_pos rfl, mint_bit_zero] at h1
  have h2 := count_bits_flip 0 a n
  rw [if_pos ha, if_pos ha, mint_bit_zero, count_bits_zero_mint] at h2
  have h3 : ¬ count_bits (0 ^^^ 2 ^ a) n > n / 2 := by omega
  unfold create_nth_var create_majority
  rw [h1, decide_eq_false h3]
  decide

/-- When the last step has the table of an earlier index, a shorter chain computes
    majority. -/
theorem shorten_at_root (n r : Nat) (fan : Nat → Nat → Nat) (hn : 3 ≤ n)
    (hc : computes_majority n r fan) (a : Nat) (ha : a < n + r - 1)
    (hT : chain_tts n r fan a = chain_tts n r fan (n + r - 1)) :
    ∃ r2 fan2, r2 < r ∧ computes_majority n r2 fan2 := by
  obtain ⟨hr, hlt, hmaj⟩ := hc
  obtain ⟨c1, c2⟩ := chain_tts_spec n r fan hlt
  by_cases han : a < n
  · exfalso
    obtain ⟨m, hm, hne⟩ := majority_not_projection n a hn han
    apply hne
    rw [← hmaj m hm, ← hT, c1 a han]
  · refine ⟨a - n + 1, fan, by omega, by omega, ?_, ?_⟩
    · intro i k h1 h2 hk
      exact hlt i k h1 (by omega) hk
    · intro m hm
      have key := chain_sim n (a - n + 1) fan (chain_tts n r fan) (fun j => j)
        (fun i k h1 h2 hk => hlt i k h1 (by omega) hk) c1 (fun _ _ => rfl)
        (fun i h1 h2 => c2 i h1 (by omega)) (n + (a - n + 1) - 1) (by omega)
      rw [key]
      simp only
      rw [show n + (a - n + 1) - 1 = a by omega, hT]
      exact hmaj m hm

theorem majority_dup (a b : truth_table) :
    ternary_majority a a b = a ∧ ternary_majority a b a = a ∧ ternary_majority b a a = a := by
  refine ⟨?_, ?_, ?_⟩ <;> funext m <;> unfold ternary_majority <;>
    cases a m <;> cases b m <;> rfl

/-- Every chain that computes majority can be replaced by one, not longer, in which all
    steps have distinct fanins and every step but the last is read. -/
theorem exists_nice (n : Nat) (hn : 3 ≤ n) (r : Nat) (fan : Nat → Nat → Nat)
    (hc : computes_majority n r fan) :
    ∃ r2 fan2, r2 ≤ r ∧ computes_majority n r2 fan2 ∧ chain_nice n r2 fan2 := by
  induction r using Nat.strong_induction_on generalizing fan with
  | _ r ih =>
    by_cases hnice : chain_nice n r fan
    · exact ⟨r, fan, Nat.le_refl _, hc, hnice⟩
    · have hsmaller : ∃ r2 fan2, r2 < r ∧ computes_majority n r2 fan2 := by
        obtain ⟨hr, hlt, hmaj⟩ := hc
        obtain ⟨c1, c2⟩ := chain_tts_spec n r fan hlt
        unfold chain_nice at hnice
        rw [not_and_or] at hnice
        rcases hnice with h | h
        · push_neg at h
          obtain ⟨i, hi1, hi2, hdup⟩ := h
          have f0 := hlt i 0 hi1 hi2 (by omega)
          have f1 := hlt i 1 hi1 hi2 (by omega)
          have f2 := hlt i 2 hi1 hi2 (by omega)
          have hTa : ∃ a, a < i ∧ chain_tts n r fan a = chain_tts n r fan i := by
            have hs := c2 i hi1 hi2
            obtain ⟨d1, d2, d3⟩ := majority_dup (chain_tts n r fan (fan i 0))
              (chain_tts n r fan (fan i 2))
            obtain ⟨d4, d5, d6⟩ := majority_dup (chain_tts n r fan (fan i 1))
              (chain_tts n r fan (fan i 0))
            by_cases e1 : fan i 0 = fan i 1
            · refine ⟨fan i 0, f0, ?_⟩
              rw [hs, ← e1, d1]
            · by_cases e2 : fan i 0 = fan i 2
              · refine ⟨fan i 0, f0, ?_⟩
                rw [hs, ← e2]
                obtain ⟨-, d7, -⟩ := majority_dup (chain_tts n r fan (fan i 0))
                  (chain_tts n r fan (fan i 1))
                rw [d7]
              · have e3 := hdup e1 e2
                refine ⟨fan i 1, f1, ?_⟩
                rw [hs, ← e3, d6]
          obtain ⟨a, ha, hT⟩ := hTa
          by_cases hroot : i = n + r - 1
          · subst hroot
            exact shorten_at_root n r fan hn ⟨hr, hlt, hmaj⟩ a ha hT
          · obtain ⟨fan2, h2⟩ := remove_step n r fan ⟨hr, hlt, hmaj⟩ i a hi1 (by omega) ha
              (fun _ _ _ _ _ _ => hT)
            exact ⟨r - 1, fan2, by omega, h2⟩
        · push_neg at h
          obtain ⟨i, hi1, hi2, hun⟩ := h
          obtain ⟨fan2, h2⟩ := remove_step n r fan ⟨hr, hlt, hmaj⟩ i 0 hi1 hi2 (by omega)
            (fun j k h1 h2 hk heq => absurd heq (hun j k h1 h2 hk))
          exact ⟨r - 1, fan2, by omega, h2⟩
      obtain ⟨r2, fan2, hlt2, hc2⟩ := hsmaller
      obtain ⟨r3, fan3, h3, hc3, hn3⟩ := ih r2 hlt2 fan2 hc2
      exact ⟨r3, fan3, by omega, hc3, hn3⟩

/-! ## Levels of a chain -/

theorem chain_levels_spec (n r : Nat) (fan : Nat → Nat → Nat)
    (hlt : ∀ i k, n ≤ i → i < n + r → k < 3 → fan i k < i) :
    (∀ x, x < n → chain_levels n r fan x = 0) ∧
    (∀ i, n ≤ i → i < n + r →
      chain_levels n r fan i =
        1 + max3 (chain_levels n r fan (fan i 0)) (chain_levels n r fan (fan i 1))
          (chain_levels n r fan (fan i 2))) := by
  have key := for_loop_induct
    (fun i (lv : Nat → Nat) =>
      (∀ x, ¬ (n ≤ x ∧ x < i) → lv x = 0) ∧
      (∀ j, n ≤ j → j < i → lv j = 1 + max3 (lv (fan j 0)) (lv (fan j 1)) (lv (fan j 2))))
    (fun lv i => set1 lv i (1 + max3 (lv (fan i 0)) (lv (fan i 1)) (lv (fan i 2))))
    n r (fun _ => 0)
    ⟨fun _ _ => rfl, fun j h1 h2 => by omega⟩
    (by
      rintro i lv h1 h2 ⟨hout, hin⟩
      have f0 := hlt i 0 h1 h2 (by omega)
      have f1 := hlt i 1 h1 h2 (by omega)
      have f2 := hlt i 2 h1 h2 (by omega)
      constructor
      · intro x hx
        simp only [set1]
        rw [if_neg (by omega)]
        exact hout x (by omega)
      · intro j hj1 hj2
        simp only [set1]
        by_cases hji : j = i
        · subst hji
          rw [if_pos rfl, if_neg (by omega), if_neg (by omega), if_neg (by omega)]
        · have g0 := hlt j 0 hj1 (by omega) (by omega)
          have g1 := hlt j 1 hj1 (by omega) (by omega)
          have g2 := hlt j 2 hj1 (by omega) (by omega)
          rw [if_neg hji, if_neg (by omega), if_neg (by omega), if_neg (by omega)]
          exact hin j hj1 (by omega))
  exact ⟨fun x hx => key.1 x (by omega), fun i h1 h2 => key.2 i h1 h2⟩

/-- A fanin lies on a lower level than its step. -/
theorem chain_levels_fanin (n r : Nat) (fan : Nat → Nat → Nat)
    (hlt : ∀ i k, n ≤ i → i < n + r → k < 3 → fan i k < i)
    (i k : Nat) (h1 : n ≤ i) (h2 : i < n + r) (hk : k < 3) :
    chain_levels n r fan (fan i k) < chain_levels n r fan i := by
  rw [(chain_levels_spec n r fan hlt).2 i h1 h2]
  obtain ⟨g0, g1, g2⟩ := max3_ge (chain_levels n r fan (fan i 0))
    (chain_levels n r fan (fan i 1)) (chain_levels n r fan (fan i 2))
  interval_cases k <;> omega

theorem max3_cases (a b c : Nat) : max3 a b c = a ∨ max3 a b c = b ∨ max3 a b c = c := by
  unfold max3
  omega

/-- Some fanin of a step lies on the level just below it. -/
theorem chain_levels_top (n r : Nat) (fan : Nat → Nat → Nat)
    (hlt : ∀ i k, n ≤ i → i < n + r → k < 3 → fan i k < i)
    (i : Nat) (h1 : n ≤ i) (h2 : i < n + r) :
    ∃ k, k < 3 ∧ chain_levels n r fan (fan i k) + 1 = chain_levels n r fan i := by
  have h := (chain_levels_spec n r fan hlt).2 i h1 h2
  rcases max3_cases (chain_levels n r fan (fan i 0))
    (chain_levels n r fan (fan i 1)) (chain_levels n r fan (fan i 2)) with c | c | c
  · exact ⟨0, by omega, by omega⟩
  · exact ⟨1, by omega, by omega⟩
  · exact ⟨2, by omega, by omega⟩

/-- In a chain whose steps are all read, the last step alone has the highest level. -/
theorem chain_levels_root (n r : Nat) (fan : Nat → Nat → Nat)
    (hlt : ∀ i k, n ≤ i → i < n + r → k < 3 → fan i k < i)
    (hused : ∀ i, n ≤ i → i < n + r - 1 → ∃ j k, n ≤ j ∧ j < n + r ∧ k < 3 ∧ fan j k = i)
    (i : Nat) (h1 : n ≤ i) (h2 : i < n + r - 1) :
    chain_levels n r fan i < chain_levels n r fan (n + r - 1) := by
  have key : ∀ d i, n ≤ i → i < n + r - 1 → n + r - 1 - i ≤ d →
      chain_levels n r fan i < chain_levels n r fan (n + r - 1) := by
    intro d
    induction d with
    | zero => intro i _ _ _; omega
    | succ d ih =>
      intro i hi1 hi2 hd
      obtain ⟨j, k, hj1, hj2, hk, hjk⟩ := hused i hi1 hi2
      have hji := hlt j k hj1 hj2 hk
      have hlv := chain_levels_fanin n r fan hlt j k hj1 hj2 hk
      rw [hjk] at hlv hji
      by_cases hroot : j = n + r - 1
      · rw [hroot] at hlv
        exact hlv
      · have := ih j hj1 (by omega) (by omega)
        omega
  exact key _ i h1 h2 (Nat.le_refl _)

/-- Every level from 1 up to that of a step holds a step. -/
theorem chain_levels_nonempty (n r : Nat) (fan : Nat → Nat → Nat)
    (hlt : ∀ i k, n ≤ i → i < n + r → k < 3 → fan i k < i)
    (i : Nat) (h1 : n ≤ i) (h2 : i < n + r) (t : Nat) (ht1 : 1 ≤ t)
    (ht2 : t ≤ chain_levels n r fan i) :
    ∃ x, n ≤ x ∧ x < n + r ∧ chain_levels n r fan x = t := by
  induction i using Nat.strong_induction_on with
  | _ i ih =>
    by_cases h : chain_levels n r fan i = t
    · exact ⟨i, h1, h2, h⟩
    · obtain ⟨k, hk, hl⟩ := chain_levels_top n r fan hlt i h1 h2
      have hf := hlt i k h1 h2 hk
      have hin : n ≤ fan i k := by
        by_contra hc
        have := (chain_levels_spec n r fan hlt).1 (fan i k) (by omega)
        omega
      exact ih (fan i k) hf hin (by omega) (by omega)

/-! ## Counting the steps of a level -/

theorem countP_lt_of {α : Type} (p q : α → Bool) (l : List α) (a : α)
    (hpq : ∀ y ∈ l, p y = true → q y = true) (ha : a ∈ l) (hq : q a = true)
    (hp : p a = false) : l.countP p < l.countP q := by
  induction l with
  | nil => cases ha
  | cons b l ih =>
    have hmono : l.countP p ≤ l.countP q :=
      List.countP_mono_left fun y hy h => hpq y (List.mem_cons_of_mem _ hy) h
    rw [List.countP_cons, List.countP_cons]
    rcases List.mem_cons.1 ha with rfl | hmem
    · rw [hq, hp]
      simp only [if_true]
      simp
      omega
    · have := ih (fun y hy h => hpq y (List.mem_cons_of_mem _ hy) h) hmem
      have hb := hpq b (List.mem_cons_self _ _)
      by_cases hpb : p b = true
      · rw [hpb, hb hpb]
        simp only [if_true]
        omega
      · rw [if_neg hpb]
        split_ifs <;> omega

theorem countP_level_split (lv : Nat → Nat) (t : Nat) (l : List Nat) :
    l.countP (fun y => decide (lv y ≤ t + 1)) =
      l.countP (fun y => decide (lv y ≤ t)) + l.countP (fun y => lv y == t + 1) := by
  induction l with
  | nil => rfl
  | cons b l ih =>
    rw [List.countP_cons, List.countP_cons, List.countP_cons, ih]
    by_cases h1 : lv b ≤ t
    · have h2 : lv b ≤ t + 1 := by omega
      have h3 : ¬ lv b = t + 1 := by omega
      simp [h1, h2, h3]
      omega
    · by_cases h3 : lv b = t + 1
      · have h2 : lv b ≤ t + 1 := by omega
        simp [h1, h2, h3]
        omega
      · have h2 : ¬ lv b ≤ t + 1 := by omega
        simp [h1, h2, h3]

theorem chain_fence_levels (n r : Nat) (fan : Nat → Nat → Nat) :
    (chain_fence n r fan).nr_levels = chain_levels n r fan (n + r - 1) := by
  simp [chain_fence, fence.nr_levels]

theorem chain_fence_at (n r : Nat) (fan : Nat → Nat → Nat) (t : Nat)
    (ht : t < chain_levels n r fan (n + r - 1)) :
    (chain_fence n r fan).at_level t = level_count n r (chain_levels n r fan) (t + 1) := by
  unfold fence.at_level chain_fence
  simp only
  rw [List.getD_eq_getElem _ _ (by simpa using ht)]
  simp [List.getElem_range']
  congr 1
  omega

/-- The upper end of level `t` of the fence of a chain counts the steps on levels up to
    `t`. -/
theorem chain_fence_dist (n r : Nat) (fan : Nat → Nat → Nat)
    (hlt : ∀ i k, n ≤ i → i < n + r → k < 3 → fan i k < i)
    (t : Nat) (ht : t ≤ chain_levels n r fan (n + r - 1)) :
    fence_dist (chain_fence n r fan) n t =
      n + (List.range' n r).countP (fun y => decide (chain_levels n r fan y ≤ t)) := by
  induction t with
  | zero =>
    rw [fence_dist_zero]
    have : (List.range' n r).countP (fun y => decide (chain_levels n r fan y ≤ 0)) = 0 := by
      rw [List.countP_eq_zero]
      intro y hy
      rw [List.mem_range'_1] at hy
      obtain ⟨k, hk, hl⟩ := chain_levels_top n r fan hlt y hy.1 hy.2
      simp only [decide_eq_true_eq]
      omega
    omega
  | succ t ih =>
    rw [fence_dist_succ _ _ _ (by rw [chain_fence_levels]; omega), ih (by omega),
      chain_fence_at n r fan t (by omega), countP_level_split]
    unfold level_count
    omega

/-- The fence of a chain whose steps are all read is valid, and its last level holds
    the last step alone. -/
theorem chain_fence_valid (n r : Nat) (fan : Nat → Nat → Nat) (hr : 1 ≤ r)
    (hlt : ∀ i k, n ≤ i → i < n + r → k < 3 → fan i k < i)
    (hused : ∀ i, n ≤ i → i < n + r - 1 → ∃ j k, n ≤ j ∧ j < n + r ∧ k < 3 ∧ fan j k = i)
    (tgt : truth_table) :
    fence_valid (chain_fence n r fan) ⟨n, r, tgt⟩ ∧
    1 ≤ (chain_fence n r fan).nr_levels ∧
    (chain_fence n r fan).at_level ((chain_fence n r fan).nr_levels - 1) = 1 := by
  have hle : ∀ y, n ≤ y → y < n + r →
      chain_levels n r fan y ≤ chain_levels n r fan (n + r - 1) := by
    intro y h1 h2
    by_cases h : y = n + r - 1
    · rw [h]
    · exact Nat.le_of_lt (chain_levels_root n r fan hlt hused y h1 (by omega))
  obtain ⟨k0, hk0, hl0⟩ := chain_levels_top n r fan hlt (n + r - 1) (by omega) (by omega)
  have hall : (List.range' n r).countP
      (fun y => decide (chain_levels n r fan y ≤ chain_levels n r fan (n + r - 1))) = r := by
    have : (List.range' n r).countP
        (fun y => decide (chain_levels n r fan y ≤ chain_levels n r fan (n + r - 1))) =
        (List.range' n r).length := by
      rw [List.countP_eq_length]
      intro y hy
      rw [List.mem_range'_1] at hy
      simp only [decide_eq_true_eq]
      exact hle y hy.1 hy.2
    rw [this, List.length_range']
  refine ⟨⟨?_, ?_⟩, by rw [chain_fence_levels]; omega, ?_⟩
  · intro l hl
    unfold chain_fence at hl
    simp only [List.mem_map, List.mem_range'_1] at hl
    obtain ⟨t, ⟨ht1, ht2⟩, rfl⟩ := hl
    obtain ⟨x, hx1, hx2, hx3⟩ := chain_levels_nonempty n r fan hlt (n + r - 1) (by omega)
      (by omega) t ht1 (by omega)
    unfold level_count
    rw [List.countP_pos_iff]
    exact ⟨x, List.mem_range'_1.2 ⟨hx1, hx2⟩, by simp [hx3]⟩
  · have h1 := chain_fence_dist n r fan hlt _ (Nat.le_refl _)
    rw [hall] at h1
    have h2 : fence_dist (chain_fence n r fan) n (chain_fence n r fan).nr_levels =
        n + (chain_fence n r fan).nr_nodes := by
      unfold fence_dist fence.nr_levels fence.nr_nodes
      rw [List.take_length]
    rw [chain_fence_levels, h1] at h2
    simp only
    omega
  · rw [chain_fence_levels, chain_fence_at n r fan _ (by omega)]
    have h1 := chain_fence_dist n r fan hlt (chain_levels n r fan (n + r - 1) - 1 + 1) (by omega)
    have h0 := chain_fence_dist n r fan hlt (chain_levels n r fan (n + r - 1) - 1) (by omega)
    rw [fence_dist_succ _ _ _ (by rw [chain_fence_levels]; omega),
      chain_fence_at n r fan _ (by omega), h0] at h1
    have e1 : chain_levels n r fan (n + r - 1) - 1 + 1 = chain_levels n r fan (n + r - 1) := by
      omega
    rw [e1] at h1 ⊢
    rw [hall] at h1
    have hlow : (List.range' n r).countP
        (fun y => decide (chain_levels n r fan y ≤ chain_levels n r fan (n + r - 1) - 1)) =
        r - 1 := by
      have hsplit : List.range' n r = List.range' n (r - 1) ++ [n + r - 1] := by
        have : r = r - 1 + 1 := by omega
        rw [this, List.range'_concat]
        simp
      rw [hsplit, List.countP_append]
      have ha : (List.range' n (r - 1)).countP
          (fun y => decide (chain_levels n r fan y ≤ chain_levels n r fan (n + r - 1) - 1)) =
          (List.range' n (r - 1)).length := by
        rw [List.countP_eq_length]
        intro y hy
        rw [List.mem_range'_1] at hy
        have := chain_levels_root n r fan hlt hused y hy.1 (by omega)
        simp only [decide_eq_true_eq]
        omega
      rw [ha, List.length_range']
      have : ¬ chain_levels n r fan (n + r - 1) ≤ chain_levels n r fan (n + r - 1) - 1 := by
        omega
      simp [this]
    rw [hlow] at h1
    omega

/-! ## Steps in order of level -/

theorem step_before_iff (lv : Nat → Nat) (y x : Nat) :
    step_before lv y x = true ↔ lv y < lv x ∨ (lv y = lv x ∧ y < x) := by
  simp [step_before]

theorem step_before_false (lv : Nat → Nat) (y x : Nat) :
    step_before lv y x = false ↔ ¬ (lv y < lv x ∨ (lv y = lv x ∧ y < x)) := by
  rw [← step_before_iff, Bool.not_eq_true]

/-- A step that comes before another has a smaller rank. -/
theorem step_rank_lt (n r : Nat) (lv : Nat → Nat) (x y : Nat) (hx1 : n ≤ x) (hx2 : x < n + r)
    (h : step_before lv x y = true) : step_rank n r lv x < step_rank n r lv y := by
  unfold step_rank
  rw [step_before_iff] at h
  refine countP_lt_of _ _ _ x ?_ (List.mem_range'_1.2 ⟨hx1, hx2⟩) ((step_before_iff _ _ _).2 h)
    ((step_before_false _ _ _).2 (by omega))
  intro z _ hz
  rw [step_before_iff] at hz ⊢
  omega

theorem step_rank_bound (n r : Nat) (lv : Nat → Nat) (x : Nat) (hx1 : n ≤ x) (hx2 : x < n + r) :
    step_rank n r lv x < r := by
  have h := countP_lt_of (fun y => step_before lv y x) (fun _ => true) (List.range' n r) x
    (fun _ _ _ => rfl) (List.mem_range'_1.2 ⟨hx1, hx2⟩) rfl
    ((step_before_false _ _ _).2 (by omega))
  have h2 : (List.range' n r).countP (fun _ => true) = (List.range' n r).length := by
    rw [List.countP_eq_length]
    intro _ _
    rfl
  rw [h2, List.length_range'] at h
  exact h

theorem step_rank_inj (n r : Nat) (lv : Nat → Nat) (x y : Nat) (hx1 : n ≤ x) (hx2 : x < n + r)
    (hy1 : n ≤ y) (hy2 : y < n + r) (h : step_rank n r lv x = step_rank n r lv y) : x = y := by
  by_contra hne
  by_cases hb : step_before lv x y = true
  · have := step_rank_lt n r lv x y hx1 hx2 hb
    omega
  · have hb2 : step_before lv y x = true := by
      rw [step_before_iff] at hb ⊢
      omega
    have := step_rank_lt n r lv y x hy1 hy2 hb2
    omega

/-- The rank of a step on level `t` lies between the number of steps below level `t`
    and the number of steps up to level `t`. -/
theorem step_rank_level (n r : Nat) (lv : Nat → Nat) (x : Nat) (hx1 : n ≤ x) (hx2 : x < n + r)
    (hl : 1 ≤ lv x) :
    (List.range' n r).countP (fun y => decide (lv y ≤ lv x - 1)) ≤ step_rank n r lv x ∧
    step_rank n r lv x < (List.range' n r).countP (fun y => decide (lv y ≤ lv x)) := by
  unfold step_rank
  constructor
  · apply List.countP_mono_left
    intro y _ hy
    simp only [decide_eq_true_eq] at hy
    rw [step_before_iff]
    omega
  · refine countP_lt_of _ _ _ x ?_ (List.mem_range'_1.2 ⟨hx1, hx2⟩) (by simp)
      ((step_before_false _ _ _).2 (by omega))
    intro y _ hy
    rw [step_before_iff] at hy
    simp only [decide_eq_true_eq]
    omega

/-- Every position among the steps is the rank of a step. -/
theorem step_rank_surj (n r : Nat) (lv : Nat → Nat) (p : Nat) (hp : p < r) :
    ∃ x, n ≤ x ∧ x < n + r ∧ step_rank n r lv x = p := by
  have hinj : Function.Injective (fun a : Fin r =>
      (⟨step_rank n r lv (n + a.val), step_rank_bound n r lv (n + a.val) (by omega)
        (by have := a.isLt; omega)⟩ : Fin r)) := by
    intro a b hab
    have h1 : step_rank n r lv (n + a.val) = step_rank n r lv (n + b.val) :=
      congrArg Fin.val hab
    have h2 := step_rank_inj n r lv _ _ (by omega) (by have := a.isLt; omega) (by omega)
      (by have := b.isLt; omega) h1
    exact Fin.ext (by omega)
  obtain ⟨a, ha⟩ := (Finite.injective_iff_surjective.1 hinj) ⟨p, hp⟩
  refine ⟨n + a.val, by omega, by have := a.isLt; omega, congrArg Fin.val ha⟩

/-- New indices are taken by exactly one old index. -/
theorem level_index_spec (n r : Nat) (lv : Nat → Nat) :
    (∀ x, x < n → level_index n r lv x = x) ∧
    (∀ x, n ≤ x → x < n + r → n ≤ level_index n r lv x ∧ level_index n r lv x < n + r) ∧
    (∀ x y, x < n + r → y < n + r → level_index n r lv x = level_index n r lv y → x = y) ∧
    ∃ φ : Nat → Nat, (∀ i, i < n → φ i = i) ∧
      (∀ i, n ≤ i → i < n + r → n ≤ φ i ∧ φ i < n + r) ∧
      (∀ i, i < n + r → level_index n r lv (φ i) = i) ∧
      (∀ x, x < n + r → φ (level_index n r lv x) = x) := by
  have h1 : ∀ x, x < n → level_index n r lv x = x := by
    intro x hx
    unfold level_index
    rw [if_neg (by omega)]
  have h2 : ∀ x, n ≤ x → x < n + r →
      n ≤ level_index n r lv x ∧ level_index n r lv x < n + r := by
    intro x hx1 hx2
    unfold level_index
    rw [if_pos ⟨hx1, hx2⟩]
    have := step_rank_bound n r lv x hx1 hx2
    omega
  have h3 : ∀ x y, x < n + r → y < n + r →
      level_index n r lv x = level_index n r lv y → x = y := by
    intro x y hx hy h
    by_cases hxn : x < n
    · by_cases hyn : y < n
      · rw [h1 x hxn, h1 y hyn] at h
        exact h
      · have := h2 y (by omega) hy
        rw [h1 x hxn] at h
        omega
    · by_cases hyn : y < n
      · have := h2 x (by omega) hx
        rw [h1 y hyn] at h
        omega
      · unfold level_index at h
        rw [if_pos ⟨by omega, hx⟩, if_pos ⟨by omega, hy⟩] at h
        exact step_rank_inj n r lv x y (by omega) hx (by omega) hy (by omega)
  have hex : ∀ i, ∃ x, (i < n → x = i) ∧
      (n ≤ i → i < n + r → n ≤ x ∧ x < n + r ∧ level_index n r lv x = i) := by
    intro i
    by_cases hi : n ≤ i ∧ i < n + r
    · obtain ⟨x, hx1, hx2, hx3⟩ := step_rank_surj n r lv (i - n) (by omega)
      refine ⟨x, fun h => by omega, fun _ _ => ⟨hx1, hx2, ?_⟩⟩
      unfold level_index
      rw [if_pos ⟨hx1, hx2⟩, hx3]
      omega
    · exact ⟨i, fun _ => rfl, fun a b => absurd ⟨a, b⟩ hi⟩
  choose φ hφ using hex
  have h4 : ∀ i, i < n + r → level_index n r lv (φ i) = i := by
    intro i hi
    by_cases hin : i < n
    · rw [(hφ i).1 hin, h1 i hin]
    · exact ((hφ i).2 (by omega) hi).2.2
  have h5 : ∀ i, i < n + r → φ i < n + r := by
    intro i hi
    by_cases hin : i < n
    · rw [(hφ i).1 hin]
      exact hi
    · exact ((hφ i).2 (by omega) hi).2.1
  refine ⟨h1, h2, h3, φ, fun i hi => (hφ i).1 hi,
    fun i a b => ⟨((hφ i).2 a b).1, ((hφ i).2 a b).2.1⟩, h4, ?_⟩
  intro x hx
  have hlx : level_index n r lv x < n + r := by
    by_cases hxn : x < n
    · rw [h1 x hxn]
      exact hx
    · exact (h2 x (by omega) hx).2
  exact h3 _ _ (h5 _ hlx) hx (h4 _ hlx)

/-- The new index of `x` lies on the level of `x` in the fence of the chain. -/
theorem level_index_on_level (n r : Nat) (fan : Nat → Nat → Nat)
    (hlt : ∀ i k, n ≤ i → i < n + r → k < 3 → fan i k < i)
    (hused : ∀ i, n ≤ i → i < n + r - 1 → ∃ j k, n ≤ j ∧ j < n + r ∧ k < 3 ∧ fan j k = i)
    (x : Nat) (hx : x < n + r) :
    chain_levels n r fan x ≤ chain_levels n r fan (n + r - 1) ∧
    on_level (chain_fence n r fan) n (chain_levels n r fan x)
      (level_index n r (chain_levels n r fan) x) := by
  by_cases hxn : x < n
  · have h0 := (chain_levels_spec n r fan hlt).1 x hxn
    rw [h0, (level_index_spec n r _).1 x hxn]
    refine ⟨Nat.zero_le _, ?_⟩
    unfold on_level
    rw [if_pos rfl, fence_dist_zero]
    omega
  · have hle : chain_levels n r fan x ≤ chain_levels n r fan (n + r - 1) := by
      by_cases h : x = n + r - 1
      · rw [h]
      · exact Nat.le_of_lt (chain_levels_root n r fan hlt hused x (by omega) (by omega))
    obtain ⟨k, hk, hl⟩ := chain_levels_top n r fan hlt x (by omega) hx
    obtain ⟨b1, b2⟩ := step_rank_level n r (chain_levels n r fan) x (by omega) hx (by omega)
    refine ⟨hle, ?_⟩
    unfold on_level level_index
    rw [if_neg (by omega), if_pos ⟨by omega, hx⟩, chain_fence_dist n r fan hlt _ (by omega),
      chain_fence_dist n r fan hlt _ hle]
    omega

/-- The steps of a chain in which every step has distinct fanins and is read can be put
    in order of level: the chain then follows the fence of its levels, whose last level
    holds one step, and computes the same function. -/
theorem nice_chain_fence (n r : Nat) (fan : Nat → Nat → Nat)
    (hc : computes_majority n r fan) (hnice : chain_nice n r fan) :
    ∃ f fan2, fence_valid f ⟨n, r, create_majority n⟩ ∧ 1 ≤ f.nr_levels ∧
      f.at_level (f.nr_levels - 1) = 1 ∧ follows_fence f n fan2 ∧
      ∀ m, m < 2 ^ n → chain_tts n r fan2 (n + r - 1) m = create_majority n m := by
  obtain ⟨hr, hlt, hmaj⟩ := hc
  obtain ⟨hdist, hused⟩ := hnice
  obtain ⟨hf, hL, hlast⟩ := chain_fence_valid n r fan hr hlt hused (create_majority n)
  obtain ⟨p1, p2, p3, φ, q1, q2, q3, q4⟩ := level_index_spec n r (chain_levels n r fan)
  obtain ⟨c1, c2⟩ := chain_tts_spec n r fan hlt
  have hon := level_index_on_level n r fan hlt hused
  have hLv := chain_fence_levels n r fan
  have hfol : follows_fence (chain_fence n r fan) n
      (fun i k => level_index n r (chain_levels n r fan) (fan (φ i) k)) := by
    intro t i ht1 ht2 hi
    have hi1 : n ≤ i := by
      have := hi.1
      rw [if_neg (by omega)] at this
      unfold fence_dist at this
      omega
    have hi2 : i < n + r := by
      have h1 := hi.2
      have h2 := fence_dist_le (chain_fence n r fan) ⟨n, r, create_majority n⟩ hf t _ ht2
        (Nat.le_refl _)
      have h3 := fence_dist_last (chain_fence n r fan) ⟨n, r, create_majority n⟩ hf
      simp only at h2 h3
      omega
    obtain ⟨hx1, hx2⟩ := q2 i hi1 hi2
    obtain ⟨hxle, hxon⟩ := hon (φ i) hx2
    rw [q3 i hi2] at hxon
    have hlev : chain_levels n r fan (φ i) = t := by
      obtain ⟨k, hk, hl⟩ := chain_levels_top n r fan hlt (φ i) hx1 hx2
      have a1 := hxon.1
      have a2 := hxon.2
      have b1 := hi.1
      have b2 := hi.2
      rw [if_neg (by omega)] at a1 b1
      by_contra hne
      rcases Nat.lt_or_gt_of_ne hne with h | h
      · have := fence_dist_le (chain_fence n r fan) ⟨n, r, create_majority n⟩ hf
          (chain_levels n r fan (φ i)) (t - 1) (by omega) (by omega)
        simp only at this
        omega
      · have := fence_dist_le (chain_fence n r fan) ⟨n, r, create_majority n⟩ hf
          t (chain_levels n r fan (φ i) - 1) (by omega) (by omega)
        simp only at this
        omega
    obtain ⟨d1, d2, d3⟩ := hdist (φ i) hx1 hx2
    have f0 := hlt (φ i) 0 hx1 hx2 (by omega)
    have f1 := hlt (φ i) 1 hx1 hx2 (by omega)
    have f2 := hlt (φ i) 2 hx1 hx2 (by omega)
    refine ⟨fun h => d1 (p3 _ _ (by omega) (by omega) h),
      fun h => d2 (p3 _ _ (by omega) (by omega) h),
      fun h => d3 (p3 _ _ (by omega) (by omega) h), ?_⟩
    beta_reduce
    have hup : ∀ k, k < 3 →
        level_index n r (chain_levels n r fan) (fan (φ i) k) <
          fence_dist (chain_fence n r fan) n (t - 1) := by
      intro k hk
      have hfk := hlt (φ i) k hx1 hx2 hk
      have hl := chain_levels_fanin n r fan hlt (φ i) k hx1 hx2 hk
      have a := (hon (fan (φ i) k) (by omega)).2.2
      have := fence_dist_le (chain_fence n r fan) ⟨n, r, create_majority n⟩ hf
        (chain_levels n r fan (fan (φ i) k)) (t - 1) (by omega) (by omega)
      simp only at this
      omega
    obtain ⟨k, hk, hl⟩ := chain_levels_top n r fan hlt (φ i) hx1 hx2
    have hlow := (hon (fan (φ i) k) (by have := hlt (φ i) k hx1 hx2 hk; omega)).2.1
    rw [show chain_levels n r fan (fan (φ i) k) = t - 1 by omega] at hlow
    obtain ⟨g0, g1, g2⟩ := max3_ge (level_index n r (chain_levels n r fan) (fan (φ i) 0))
      (level_index n r (chain_levels n r fan) (fan (φ i) 1))
      (level_index n r (chain_levels n r fan) (fan (φ i) 2))
    constructor
    · interval_cases k <;> omega
    · rcases max3_cases (level_index n r (chain_levels n r fan) (fan (φ i) 0))
        (level_index n r (chain_levels n r fan) (fan (φ i) 1))
        (level_index n r (chain_levels n r fan) (fan (φ i) 2)) with c | c | c
      · rw [c]; exact hup 0 (by omega)
      · rw [c]; exact hup 1 (by omega)
      · rw [c]; exact hup 2 (by omega)
  refine ⟨chain_fence n r fan,
    fun i k => level_index n r (chain_levels n r fan) (fan (φ i) k), hf, hL, hlast, hfol, ?_⟩
  have hlt2 := follows_fence_lt (chain_fence n r fan) ⟨n, r, create_majority n⟩ hf _ hfol
  have key := chain_sim n r _ (chain_tts n r fan) φ hlt2 c1 q1 (by
    intro i h1 h2
    obtain ⟨hx1, hx2⟩ := q2 i h1 h2
    have f0 := hlt (φ i) 0 hx1 hx2 (by omega)
    have f1 := hlt (φ i) 1 hx1 hx2 (by omega)
    have f2 := hlt (φ i) 2 hx1 hx2 (by omega)
    rw [q4 _ (by omega), q4 _ (by omega), q4 _ (by omega)]
    exact c2 (φ i) hx1 hx2) (n + r - 1) (by omega)
  have hroot : φ (n + r - 1) = n + r - 1 := by
    have hb := (p2 (n + r - 1) (by omega) (by omega)).2
    have : level_index n r (chain_levels n r fan) (n + r - 1) = n + r - 1 := by
      by_contra hne
      obtain ⟨hx1, hx2⟩ := q2 (n + r - 1) (by omega) (by omega)
      have hx3 := q3 (n + r - 1) (by omega)
      have hxr : φ (n + r - 1) ≠ n + r - 1 := by
        intro h
        rw [h] at hx3
        exact hne hx3
      have hlv := chain_levels_root n r fan hlt hused (φ (n + r - 1)) hx1 (by omega)
      have := step_rank_lt n r (chain_levels n r fan) (φ (n + r - 1)) (n + r - 1) hx1 hx2
        ((step_before_iff _ _ _).2 (Or.inl hlv))
      unfold level_index at hx3 hb
      rw [if_pos ⟨hx1, hx2⟩] at hx3
      rw [if_pos ⟨by omega, by omega⟩] at hb
      omega
    have h2 := q4 (n + r - 1) (by omega)
    rw [this] at h2
    exact h2
  intro m hm
  rw [key, hroot]
  exact hmaj m hm

/-! ## Fewer than three inputs -/

theorem no_chain_zero (r : Nat) (fan : Nat → Nat → Nat) : ¬ computes_majority 0 r fan := by
  rintro ⟨hr, hlt, -⟩
  have := hlt 0 0 (Nat.le_refl _) (by omega) (by omega)
  omega

/-- Over two inputs every table of a chain takes opposite values at the minterms 1 and
    2, which the majority function does not. -/
theorem no_chain_two (r : Nat) (fan : Nat → Nat → Nat) : ¬ computes_majority 2 r fan := by
  rintro ⟨hr, hlt, hmaj⟩
  obtain ⟨c1, c2⟩ := chain_tts_spec 2 r fan hlt
  have key : ∀ j, j < 2 + r → chain_tts 2 r fan j 1 = !(chain_tts 2 r fan j 2) := by
    intro j
    induction j using Nat.strong_induction_on with
    | _ j ih =>
      intro hj
      by_cases h : j < 2
      · rw [c1 j h]
        interval_cases j <;> decide
      · have f0 := hlt j 0 (by omega) hj (by omega)
        have f1 := hlt j 1 (by omega) hj (by omega)
        have f2 := hlt j 2 (by omega) hj (by omega)
        rw [c2 j (by omega) hj]
        unfold ternary_majority
        rw [ih _ f0 (by omega), ih _ f1 (by omega), ih _ f2 (by omega)]
        cases chain_tts 2 r fan (fan j 0) 2 <;> cases chain_tts 2 r fan (fan j 1) 2 <;>
          cases chain_tts 2 r fan (fan j 2) 2 <;> rfl
  have h1 := hmaj 1 (by decide)
  have h2 := hmaj 2 (by decide)
  have h3 := key (2 + r - 1) (by omega)
  rw [h1, h2] at h3
  revert h3
  decide

theorem add_clauses_state (S : solver_wrapper) (cs st st1 : List (List Nat))
    (h : add_clauses S cs st = (true, st1)) : st1 = st ++ cs := by
  induction cs generalizing st with
  | nil =>
    simp only [add_clauses, Prod.mk.injEq, true_and] at h
    rw [← h, List.append_nil]
  | cons c cs ih =>
    rw [add_clauses] at h
    by_cases hc : S.add_clause st c = true
    · rw [if_pos hc] at h
      rw [ih (st ++ [c]) h, List.append_assoc]
      rfl
    · rw [if_neg hc] at h
      simp at h

/-- When the round of the driver for a fence ends with "found solution", a sound solver
    has returned a model of the base CNF of that fence. -/
theorem try_fence_found_sat (S : solver_wrapper) (hS : solver_correct S) (nr_in : Nat)
    (target : truth_table) (e : ditt_maj_encoder) (f : fence) (fuel n : Nat)
    (e1 : ditt_maj_encoder)
    (h : try_fence S nr_in target e f fuel = fence_outcome.found n e1) :
    ∃ val, cnf_sat val
      (add_base_cnf_clauses (cegar_layout_fence e ⟨nr_in, f.nr_nodes, target⟩ f)
        ⟨nr_in, f.nr_nodes, target⟩) = true := by
  unfold try_fence cegar_encode_fence add_base_cnf at h
  rcases hb : add_clauses S (add_base_cnf_clauses
      (cegar_layout_fence e ⟨nr_in, f.nr_nodes, target⟩ f) ⟨nr_in, f.nr_nodes, target⟩) []
    with ⟨b, st1⟩
  rw [hb] at h
  cases b with
  | false => simp at h
  | true =>
    have hst1 := add_clauses_state S _ _ _ hb
    simp only at h
    cases fuel with
    | zero =>
      rw [cegar_loop] at h
      exact fence_outcome.noConfusion h
    | succ fuel =>
      rw [cegar_loop, if_neg (by decide)] at h
      unfold add_cnf at h
      rcases hc : add_clauses S (add_cnf_clauses
          (clear_out_lits (cegar_layout_fence e ⟨nr_in, f.nr_nodes, target⟩ f))
          ⟨nr_in, f.nr_nodes, target⟩ (0 : Int).toNat) st1 with ⟨b2, st2⟩
      rw [hc] at h
      cases b2 with
      | false => simp at h
      | true =>
        have hst2 := add_clauses_state S _ _ _ hc
        simp only at h
        cases hsolve : S.solve st2 with
        | none =>
          rw [hsolve] at h
          simp at h
        | some val =>
          have hv := hS.solve_sound _ _ hsolve
          rw [hst2, hst1, cnf_sat_append, cnf_sat_append] at hv
          exact ⟨val, hv.1.2⟩

/-- With one input the base CNF of a fence of two or more nodes has no model: slot 2 of
    step 2 has no selector. -/
theorem one_input_base_unsat (e : ditt_maj_encoder) (f : fence) (target : truth_table)
    (s : Nat) (hs : 2 ≤ s) (val : Nat → Bool) :
    cnf_sat val (add_base_cnf_clauses (cegar_layout_fence e ⟨1, s, target⟩ f) ⟨1, s, target⟩)
      ≠ true := by
  intro h
  have hslot := (add_base_cnf_clauses_sat val _ _).1 h 2 (by simp) (by simp; omega) 2 (by omega)
  obtain ⟨⟨j, -, hj, -⟩, -⟩ := hslot
  rw [(cegar_layout_fence_marks e ⟨1, s, target⟩ f 2 2 j).1, mem_layout_selectors_fence] at hj
  simp only at hj
  omega

/-! ## A stream of all fences -/

theorem fence_of_code_even (c : Nat) (hc : 1 ≤ c) :
    fence_of_code (2 * c) = bump_level (fence_of_code c) := by
  obtain ⟨d, rfl⟩ : ∃ d, c = d + 1 := ⟨c - 1, by omega⟩
  rw [show 2 * (d + 1) = 2 * d + 2 by omega, fence_of_code, if_pos (by omega)]
  congr 2
  omega

theorem fence_of_code_odd (c : Nat) (hc : 1 ≤ c) :
    fence_of_code (2 * c + 1) = 1 :: fence_of_code c := by
  obtain ⟨d, rfl⟩ : ∃ d, c = d + 1 := ⟨c - 1, by omega⟩
  rw [show 2 * (d + 1) + 1 = (2 * d + 1) + 2 by omega, fence_of_code, if_neg (by omega)]
  congr 2
  omega

theorem fence_of_code_spec (c : Nat) (hc : 1 ≤ c) :
    fence_of_code c ≠ [] ∧ (∀ l ∈ fence_of_code c, 0 < l) ∧
    (fence_of_code c).sum = Nat.log 2 c + 1 := by
  induction c using Nat.strong_induction_on with
  | _ c ih =>
    by_cases h1 : c = 1
    · subst h1
      rw [fence_of_code]
      simp
    · obtain ⟨a1, a2, a3⟩ := ih (c / 2) (by omega) (by omega)
      have hlog : Nat.log 2 c = Nat.log 2 (c / 2) + 1 :=
        Nat.log_of_one_lt_of_le (by omega) (by omega)
      rcases Nat.mod_two_eq_zero_or_one c with h | h
      · have hc2 : c = 2 * (c / 2) := by omega
        rw [hc2, fence_of_code_even _ (by omega), ← hc2, hlog]
        cases hl : fence_of_code (c / 2) with
        | nil => exact absurd hl a1
        | cons x xs =>
          rw [hl] at a2 a3
          simp only [bump_level]
          refine ⟨by simp, ?_, ?_⟩
          · intro l hl2
            rcases List.mem_cons.1 hl2 with rfl | h3
            · omega
            · exact a2 l (List.mem_cons_of_mem _ h3)
          · simp only [List.sum_cons] at a3 ⊢
            omega
      · have hc2 : c = 2 * (c / 2) + 1 := by omega
        rw [hc2, fence_of_code_odd _ (by omega), ← hc2, hlog]
        refine ⟨by simp, ?_, ?_⟩
        · intro l hl2
          rcases List.mem_cons.1 hl2 with rfl | h3
          · omega
          · exact a2 l h3
        · simp only [List.sum_cons]
          omega

/-- Every non-empty list of positive level sizes has a code. -/
theorem fence_of_code_surj (l : List Nat) (hne : l ≠ []) (hpos : ∀ x ∈ l, 0 < x) :
    ∃ c, 1 ≤ c ∧ fence_of_code c = l := by
  have key : ∀ s (l : List Nat), l.sum ≤ s → l ≠ [] → (∀ x ∈ l, 0 < x) →
      ∃ c, 1 ≤ c ∧ fence_of_code c = l := by
    intro s
    induction s with
    | zero =>
      intro l hs hne hpos
      cases l with
      | nil => exact absurd rfl hne
      | cons x xs =>
        have := hpos x (List.mem_cons_self _ _)
        simp only [List.sum_cons] at hs
        omega
    | succ s ih =>
      intro l hs hne hpos
      cases l with
      | nil => exact absurd rfl hne
      | cons x xs =>
        have hx := hpos x (List.mem_cons_self _ _)
        simp only [List.sum_cons] at hs
        by_cases hx1 : x = 1
        · subst hx1
          by_cases hxs : xs = []
          · subst hxs
            exact ⟨1, Nat.le_refl _, by rw [fence_of_code]⟩
          · obtain ⟨c, hc1, hc2⟩ := ih xs (by omega) hxs
              (fun y hy => hpos y (List.mem_cons_of_mem _ hy))
            exact ⟨2 * c + 1, by omega, by rw [fence_of_code_odd c hc1, hc2]⟩
        · obtain ⟨c, hc1, hc2⟩ := ih ((x - 1) :: xs) (by simp only [List.sum_cons]; omega)
            (by simp) (by
              intro y hy
              rcases List.mem_cons.1 hy with rfl | h3
              · omega
              · exact hpos y (List.mem_cons_of_mem _ h3))
          refine ⟨2 * c, by omega, ?_⟩
          rw [fence_of_code_even c hc1, hc2]
          simp only [bump_level]
          congr 1
          omega
  exact key l.sum l (Nat.le_refl _) hne hpos

/-- The stream `fence_stream` yields fences in non-decreasing node count and yields
    every fence with positive level sizes. -/
theorem fence_stream_spec :
    (∀ a b, a ≤ b → (fence_stream a).nr_nodes ≤ (fence_stream b).nr_nodes) ∧
    (∀ f : fence, f.levels ≠ [] → (∀ l ∈ f.levels, 0 < l) → ∃ a, fence_stream a = f) ∧
    fence_stream 0 = ⟨[1]⟩ := by
  refine ⟨?_, ?_, ?_⟩
  · intro a b hab
    unfold fence_stream fence.nr_nodes
    simp only
    rw [(fence_of_code_spec (a + 1) (by omega)).2.2, (fence_of_code_spec (b + 1) (by omega)).2.2]
    have := @Nat.log_mono_right 2 (a + 1) (b + 1) (by omega)
    omega
  · intro f hne hpos
    obtain ⟨c, hc1, hc2⟩ := fence_of_code_surj f.levels hne hpos
    refine ⟨c - 1, ?_⟩
    unfold fence_stream
    rw [show c - 1 + 1 = c by omega, hc2]
  · unfold fence_stream
    rw [fence_of_code]

/-! ## Minimality of the solution found by the driver -/

/-- C8. If `ditt_maj_synthesize(nr_in)` stops with "found solution" on the fence of
    index `t` of its generator's stream `g`, a fence of `s` nodes, then no chain of
    fewer than `s` three-input majority gates over the `nr_in` inputs computes the
    majority function of `nr_in` inputs. The hypotheses: the solver answers truthfully
    (sound and complete); the stream is in non-decreasing node count; it yields every
    fence with positive level sizes whose last level has 1 to 3 nodes, from the node
    count of its first fence on; and that first count is not above the number of gates
    of any chain computing the function. -/
theorem found_solution_is_minimum (S : solver_wrapper) (g : Nat → fence)
    (nr_in fuel rounds t n : Nat) (e1 : ditt_maj_encoder)
    (hS : solver_correct S)
    (hmono : ∀ a b, a ≤ b → (g a).nr_nodes ≤ (g b).nr_nodes)
    (hall : ∀ f : fence, f.levels ≠ [] → (∀ l ∈ f.levels, 0 < l) →
      f.at_level (f.nr_levels - 1) ≤ 3 → (g 0).nr_nodes ≤ f.nr_nodes → ∃ a, g a = f)
    (hstart : ∀ r fan, computes_majority nr_in r fan → (g 0).nr_nodes ≤ r)
    (hfound : ditt_maj_synthesize S g nr_in fuel rounds = synth_outcome.found t n e1) :
    ¬ ∃ r fan, r < (g t).nr_nodes ∧ computes_majority nr_in r fan := by
  rintro ⟨r, fan, hr, hc⟩
  unfold ditt_maj_synthesize at hfound
  obtain ⟨-, hprev, e0, hlast⟩ := synthesize_loop_found S g nr_in fuel rounds 0 _ t n e1 hfound
  by_cases hn : 3 ≤ nr_in
  · obtain ⟨r2, fan2, hr2, hc2, hnice⟩ := exists_nice nr_in hn r fan hc
    obtain ⟨f, fan3, hf, hL, hone, hfol, hmaj⟩ := nice_chain_fence nr_in r2 fan2 hc2 hnice
    have hnodes : f.nr_nodes = r2 := hf.2
    have hne : f.levels ≠ [] := by
      intro h
      unfold fence.nr_levels at hL
      rw [h] at hL
      simp at hL
    obtain ⟨a, ha⟩ := hall f hne hf.1 (by omega) (by rw [hnodes]; exact hstart r2 fan2 hc2)
    have hat : a < t := by
      by_contra h
      have := hmono t a (by omega)
      rw [ha, hnodes] at this
      omega
    obtain ⟨e2, e3, hnext⟩ := hprev a (Nat.zero_le _) hat
    refine try_fence_not_abandoned S hS nr_in (create_majority nr_in) e2 (g a) fuel ?_ e3 hnext
    intro M hM
    rw [ha]
    exact fence_chain_sat e2 ⟨nr_in, f.nr_nodes, create_majority nr_in⟩ f M hn ⟨hf.1, rfl⟩ hM
      fan3 hfol (by rw [hnodes]; exact hmaj)
  · have h3 : nr_in < 3 := by omega
    interval_cases nr_in
    · exact no_chain_zero r fan hc
    · obtain ⟨val, hval⟩ := try_fence_found_sat S hS 1 (create_majority 1) e0 (g t) fuel n e1
        hlast
      have hr1 := hc.1
      exact one_input_base_unsat e0 (g t) (create_majority 1) (g t).nr_nodes (by omega) val hval
    · exact no_chain_two r fan hc

/-- Instance of C8: three inputs, the reference solver and the stream of all fences; the
    driver stops on the first fence, of one node. -/
theorem found_solution_is_minimum_witness :
    ∃ e1, ditt_maj_synthesize brute_solver fence_stream 3 2 1 = synth_outcome.found 0 1 e1 ∧
      ¬ ∃ r fan, r < (fence_stream 0).nr_nodes ∧ computes_majority 3 r fan := by
  obtain ⟨e1, h1⟩ := maj3_try_fence brute_solver 2 brute_solver_correct (by decide)
  have hrun : ditt_maj_synthesize brute_solver fence_stream 3 2 1 =
      synth_outcome.found 0 1 e1 := by
    unfold ditt_maj_synthesize
    rw [synthesize_loop, fence_stream_spec.2.2, h1]
  exact ⟨e1, hrun, found_solution_is_minimum brute_solver fence_stream 3 2 1 0 1 e1
    brute_solver_correct fence_stream_spec.1
    (fun f hne hpos _ _ => fence_stream_spec.2.1 f hne hpos)
    (fun r fan hc => by rw [fence_stream_spec.2.2]; exact hc.1) hrun⟩

/-! ## The encoder state after `cegar_encode` -/

theorem add_clauses_brute (cs st : List (List Nat)) :
    add_clauses brute_solver cs st = (true, st ++ cs) := by
  induction cs generalizing st with
  | nil => simp [add_clauses]
  | cons c cs ih =>
    rw [add_clauses]
    have : brute_solver.add_clause st c = true := rfl
    rw [if_pos this, ih, List.append_assoc]
    rfl

/-- With the reference solver `cegar_encode(spec, fence)` succeeds. -/
theorem cegar_encode_fence_brute (st : List (List Nat)) (e : ditt_maj_encoder) (sp : spec)
    (f : fence) :
    cegar_encode_fence brute_solver st e sp f =
      some (true, clear_out_lits (cegar_layout_fence e sp f),
        st ++ add_base_cnf_clauses (cegar_layout_fence e sp f) sp) := by
  unfold cegar_encode_fence add_base_cnf
  rw [add_clauses_brute]

/-- With the reference solver `cegar_encode(spec)` succeeds. -/
theorem cegar_encode_brute (st : List (List Nat)) (e : ditt_maj_encoder) (sp : spec) :
    cegar_encode brute_solver st e sp =
      some (true, clear_out_lits (cegar_layout e sp),
        st ++ add_base_cnf_clauses (cegar_layout e sp) sp) := by
  unfold cegar_encode add_base_cnf
  rw [add_clauses_brute]

/-- When `cegar_encode(spec, fence)` returns, it returns true and leaves the encoder in
    the state of the layout with the lists `vOutLits` cleared. -/
theorem cegar_encode_fence_result (S : solver_wrapper) (st st1 : List (List Nat))
    (e e1 : ditt_maj_encoder) (sp : spec) (f : fence) (b : Bool)
    (h : cegar_encode_fence S st e sp f = some (b, e1, st1)) :
    b = true ∧ e1 = clear_out_lits (cegar_layout_fence e sp f) := by
  unfold cegar_encode_fence add_base_cnf at h
  rcases hb : add_clauses S (add_base_cnf_clauses (cegar_layout_fence e sp f) sp) st
    with ⟨b2, st2⟩
  rw [hb] at h
  cases b2 with
  | false => simp at h
  | true =>
    simp only [Option.some.injEq, Prod.mk.injEq] at h
    exact ⟨h.1.symm, h.2.1.symm⟩

/-- When `cegar_encode(spec)` returns, it returns true and leaves the encoder in the
    state of the layout with the lists `vOutLits` cleared. -/
theorem cegar_encode_result (S : solver_wrapper) (st st1 : List (List Nat))
    (e e1 : ditt_maj_encoder) (sp : spec) (b : Bool)
    (h : cegar_encode S st e sp = some (b, e1, st1)) :
    b = true ∧ e1 = clear_out_lits (cegar_layout e sp) := by
  unfold cegar_encode add_base_cnf at h
  rcases hb : add_clauses S (add_base_cnf_clauses (cegar_layout e sp) sp) st with ⟨b2, st2⟩
  rw [hb] at h
  cases b2 with
  | false => simp at h
  | true =>
    simp only [Option.some.injEq, Prod.mk.injEq] at h
    exact ⟨h.1.symm, h.2.1.symm⟩

/-- The level map that the layout under a fence leaves in the encoder. -/
theorem cegar_layout_fence_levels (e : ditt_maj_encoder) (sp : spec) (f : fence) :
    (clear_out_lits (cegar_layout_fence e sp f)).level_dist =
      (update_level_map (cegar_reset e sp) sp f).level_dist ∧
    (clear_out_lits (cegar_layout_fence e sp f)).nr_levels =
      (update_level_map (cegar_reset e sp) sp f).nr_levels := by
  unfold cegar_layout_fence
  rw [add_base_variables_fence_eq]
  obtain ⟨h1, h2, -, -⟩ := push_selectors_frame
    (layout_selectors_fence (update_level_map (cegar_reset e sp) sp f) sp)
    { clear_out_lits (update_level_map (cegar_reset e sp) sp f) with iVar := 1 }
  exact ⟨h1, h2⟩

/-- After `cegar_encode(spec, fence)` with a valid fence, `get_level` returns for every
    index below `nr_in + nr_steps` the level of the fence that the index lies on. -/
theorem get_level_on_level (e : ditt_maj_encoder) (sp : spec) (f : fence)
    (hf : fence_valid f sp) (i : Nat) (hi : i < sp.nr_in + sp.nr_steps) :
    get_level (clear_out_lits (cegar_layout_fence e sp f)) sp i ≤ f.nr_levels ∧
    on_level f sp.nr_in (get_level (clear_out_lits (cegar_layout_fence e sp f)) sp i) i := by
  obtain ⟨hd, hl⟩ := cegar_layout_fence_levels e sp f
  rw [get_level_congr _ _ sp i hd hl]
  by_cases h1 : i < sp.nr_in
  · have : get_level (update_level_map (cegar_reset e sp) sp f) sp i = 0 := by
      unfold get_level
      rw [if_pos h1]
    rw [this]
    refine ⟨Nat.zero_le _, ?_⟩
    unfold on_level
    rw [if_pos rfl, fence_dist_zero]
    omega
  · have hlev : 1 ≤ f.nr_levels := by
      by_contra hc
      have h0 : f.nr_levels = 0 := by omega
      have := fence_dist_last f sp hf
      rw [h0, fence_dist_zero] at this
      omega
    by_cases h2 : i = sp.nr_in
    · have : get_level (update_level_map (cegar_reset e sp) sp f) sp i = 1 := by
        unfold get_level
        rw [if_neg h1, if_pos h2]
      rw [this]
      refine ⟨hlev, ?_⟩
      unfold on_level
      rw [if_neg (by omega), fence_dist_zero]
      have := fence_dist_lt f sp hf 0 1 (by omega) hlev
      rw [fence_dist_zero] at this
      omega
    · obtain ⟨t, a, b, c⟩ := exists_level f sp hf i (by omega) hi
      rw [get_level_eq _ sp f hf t i a b (by omega) c]
      exact ⟨b, c⟩

/-- An index lies on one level only. -/
theorem on_level_unique (f : fence) (sp : spec) (hf : fence_valid f sp) (a b j : Nat)
    (ha : a ≤ f.nr_levels) (hb : b ≤ f.nr_levels)
    (h1 : on_level f sp.nr_in a j) (h2 : on_level f sp.nr_in b j) : a = b := by
  by_contra hne
  unfold on_level at h1 h2
  rcases Nat.lt_or_gt_of_ne hne with h | h
  · have := fence_dist_le f sp hf a (b - 1) (by omega) (by omega)
    rw [if_neg (by omega)] at h2
    omega
  · have := fence_dist_le f sp hf b (a - 1) (by omega) (by omega)
    rw [if_neg (by omega)] at h1
    omega

/-- Levels grow with the index. -/
theorem get_level_mono (e : ditt_maj_encoder) (sp : spec) (f : fence)
    (hf : fence_valid f sp) (j i : Nat) (hji : j ≤ i) (hi : i < sp.nr_in + sp.nr_steps) :
    get_level (clear_out_lits (cegar_layout_fence e sp f)) sp j ≤
      get_level (clear_out_lits (cegar_layout_fence e sp f)) sp i := by
  obtain ⟨a1, a2⟩ := get_level_on_level e sp f hf j (by omega)
  obtain ⟨b1, b2⟩ := get_level_on_level e sp f hf i hi
  by_contra hc
  unfold on_level at a2 b2
  have := fence_dist_le f sp hf (get_level (clear_out_lits (cegar_layout_fence e sp f)) sp i)
    (get_level (clear_out_lits (cegar_layout_fence e sp f)) sp j - 1) (by omega) (by omega)
  rw [if_neg (by omega)] at a2
  omega

/-- The selectors of a later step after `cegar_encode(spec, fence)`. -/
theorem fence_marks_later (e : ditt_maj_encoder) (sp : spec) (f : fence) (i k j : Nat)
    (hi : sp.nr_in < i) :
    (clear_out_lits (cegar_layout_fence e sp f)).varMarks i k j ≠ 0 ↔
      i < sp.nr_in + sp.nr_steps ∧
      ((k = 0 ∧
        first_step_on_level (clear_out_lits (cegar_layout_fence e sp f))
          (get_level (clear_out_lits (cegar_layout_fence e sp f)) sp i - 1) ≤ j ∧
        j < first_step_on_level (clear_out_lits (cegar_layout_fence e sp f))
          (get_level (clear_out_lits (cegar_layout_fence e sp f)) sp i)) ∨
       (1 ≤ k ∧ k < 3 ∧ j < i - k)) := by
  obtain ⟨hd, hl⟩ := cegar_layout_fence_levels e sp f
  rw [get_level_congr _ _ sp i hd hl, first_step_on_level_congr _ _ _ hd,
    first_step_on_level_congr _ _ _ hd]
  have : (clear_out_lits (cegar_layout_fence e sp f)).varMarks =
      (cegar_layout_fence e sp f).varMarks := rfl
  rw [this, (cegar_layout_fence_marks e sp f i k j).1, mem_layout_selectors_fence]
  constructor
  · rintro (h | ⟨-, h2, h3⟩)
    · omega
    · exact ⟨h2, h3⟩
  · rintro ⟨h2, h3⟩
    exact Or.inr ⟨hi, h2, h3⟩

/-! ## Levels of the allocated sources -/

/-- After the layout under a valid fence (three or more inputs) the source of an
    allocated selector of a step lies below the step, on no higher level, and on the
    level just below for slot 0 and for the first step. -/
theorem allocated_level (e : ditt_maj_encoder) (sp : spec) (f : fence) (hn : 3 ≤ sp.nr_in)
    (hf : fence_valid f sp) (i k j : Nat) (hi1 : sp.nr_in ≤ i)
    (hi2 : i < sp.nr_in + sp.nr_steps)
    (hm : (clear_out_lits (cegar_layout_fence e sp f)).varMarks i k j ≠ 0) :
    j < i ∧
    get_level (clear_out_lits (cegar_layout_fence e sp f)) sp j ≤
      get_level (clear_out_lits (cegar_layout_fence e sp f)) sp i ∧
    (k = 0 ∨ i = sp.nr_in →
      get_level (clear_out_lits (cegar_layout_fence e sp f)) sp j + 1 =
        get_level (clear_out_lits (cegar_layout_fence e sp f)) sp i) := by
  obtain ⟨b1, b2⟩ := get_level_on_level e sp f hf i hi2
  have hL : 1 ≤ get_level (clear_out_lits (cegar_layout_fence e sp f)) sp i := by
    by_contra hc
    have h0 : get_level (clear_out_lits (cegar_layout_fence e sp f)) sp i = 0 := by omega
    rw [h0] at b2
    have := b2.2
    rw [fence_dist_zero] at this
    omega
  by_cases hfirst : i = sp.nr_in
  · have hm2 : (cegar_layout_fence e sp f).varMarks i k j ≠ 0 := hm
    rw [(cegar_layout_fence_marks e sp f i k j).1, mem_layout_selectors_fence] at hm2
    have hj : j < sp.nr_in := by
      rcases hm2 with ⟨-, -, h⟩ | ⟨h, -⟩ <;> omega
    have g0 : get_level (clear_out_lits (cegar_layout_fence e sp f)) sp j = 0 := by
      unfold get_level
      rw [if_pos hj]
    have g1 : get_level (clear_out_lits (cegar_layout_fence e sp f)) sp i = 1 := by
      unfold get_level
      rw [if_neg (by omega), if_pos hfirst]
    rw [g0, g1]
    exact ⟨by omega, by omega, fun _ => rfl⟩
  · rw [fence_marks_later e sp f i k j (by omega)] at hm
    obtain ⟨-, hcase⟩ := hm
    obtain ⟨hd, hl⟩ := cegar_layout_fence_levels e sp f
    rcases hcase with ⟨hk, h1, h2⟩ | ⟨hk1, hk2, hj⟩
    · rw [first_step_on_level_congr _ _ _ hd,
        first_step_on_level_eq _ sp f _ (by omega)] at h1 h2
      rw [if_neg (by omega)] at h2
      have hon : on_level f sp.nr_in
          (get_level (clear_out_lits (cegar_layout_fence e sp f)) sp i - 1) j := ⟨h1, h2⟩
      have hji : j < i := by
        have := b2.1
        rw [if_neg (by omega)] at this
        omega
      obtain ⟨c1, c2⟩ := get_level_on_level e sp f hf j (by omega)
      have := on_level_unique f sp hf _ _ j c1 (by omega) c2 hon
      exact ⟨hji, by omega, fun _ => by omega⟩
    · exact ⟨by omega, get_level_mono e sp f hf j i (by omega) hi2, fun h => by omega⟩

/-- C13. After `cegar_encode(spec, fence)` with a fence of positive level sizes summing
    to `nr_steps`, for every step `i` after the first, on level `L = get_level(spec, i)`
    of the fence: a selector `S[i,0,j]` is allocated exactly for the indices `j` of
    level `L - 1`, that is `first_step_on_level(L-1) <= j < first_step_on_level(L)`; and
    for `k` in `{1, 2}` a selector `S[i,k,j]` is allocated exactly for `j < i - k`. This
    holds for every number of inputs. -/
theorem fence_selectors_allocated (S : solver_wrapper) (st st1 : List (List Nat))
    (e e1 : ditt_maj_encoder) (sp : spec) (f : fence) (b : Bool)
    (hf : fence_valid f sp)
    (henc : cegar_encode_fence S st e sp f = some (b, e1, st1))
    (i : Nat) (hi1 : sp.nr_in < i) (hi2 : i < sp.nr_in + sp.nr_steps) :
    1 ≤ get_level e1 sp i ∧ on_level f sp.nr_in (get_level e1 sp i) i ∧
    (∀ j, e1.varMarks i 0 j ≠ 0 ↔
      first_step_on_level e1 (get_level e1 sp i - 1) ≤ j ∧
      j < first_step_on_level e1 (get_level e1 sp i)) ∧
    (∀ j, e1.varMarks i 0 j ≠ 0 ↔ on_level f sp.nr_in (get_level e1 sp i - 1) j) ∧
    (∀ k j, k = 1 ∨ k = 2 → (e1.varMarks i k j ≠ 0 ↔ j < i - k)) := by
  obtain ⟨-, rfl⟩ := cegar_encode_fence_result S st st1 e e1 sp f b henc
  obtain ⟨b1, b2⟩ := get_level_on_level e sp f hf i hi2
  have hL : 1 ≤ get_level (clear_out_lits (cegar_layout_fence e sp f)) sp i := by
    by_contra hc
    have h0 : get_level (clear_out_lits (cegar_layout_fence e sp f)) sp i = 0 := by omega
    rw [h0] at b2
    have := b2.2
    rw [fence_dist_zero] at this
    omega
  have hslot0 : ∀ j, (clear_out_lits (cegar_layout_fence e sp f)).varMarks i 0 j ≠ 0 ↔
      first_step_on_level (clear_out_lits (cegar_layout_fence e sp f))
        (get_level (clear_out_lits (cegar_layout_fence e sp f)) sp i - 1) ≤ j ∧
      j < first_step_on_level (clear_out_lits (cegar_layout_fence e sp f))
        (get_level (clear_out_lits (cegar_layout_fence e sp f)) sp i) := by
    intro j
    rw [fence_marks_later e sp f i 0 j hi1]
    constructor
    · rintro ⟨-, ⟨-, h⟩ | ⟨h, -⟩⟩
      · exact h
      · omega
    · intro h
      exact ⟨hi2, Or.inl ⟨rfl, h⟩⟩
  refine ⟨hL, b2, hslot0, ?_, ?_⟩
  · intro j
    rw [hslot0 j]
    obtain ⟨hd, -⟩ := cegar_layout_fence_levels e sp f
    rw [first_step_on_level_congr _ _ _ hd, first_step_on_level_congr _ _ _ hd,
      first_step_on_level_eq _ sp f _ (by omega), first_step_on_level_eq _ sp f _ (by omega)]
    unfold on_level
    rw [if_neg (show ¬ get_level (clear_out_lits (cegar_layout_fence e sp f)) sp i = 0 by omega)]
  · intro k j hk
    rw [fence_marks_later e sp f i k j hi1]
    constructor
    · rintro ⟨-, ⟨h, -⟩ | ⟨-, -, h⟩⟩
      · omega
      · exact h
    · intro h
      exact ⟨hi2, Or.inr ⟨by omega, by omega, h⟩⟩

/-- Instance of C13: three inputs, fence (1,1), step 4 on level 2, with the reference
    solver. -/
theorem fence_selectors_allocated_witness :
    1 ≤ get_level (clear_out_lits (cegar_layout_fence fresh_encoder
        ⟨3, 2, create_majority 3⟩ ⟨[1, 1]⟩)) ⟨3, 2, create_majority 3⟩ 4 ∧
    on_level ⟨[1, 1]⟩ 3 (get_level (clear_out_lits (cegar_layout_fence fresh_encoder
        ⟨3, 2, create_majority 3⟩ ⟨[1, 1]⟩)) ⟨3, 2, create_majority 3⟩ 4) 4 ∧
    (∀ j, (clear_out_lits (cegar_layout_fence fresh_encoder
        ⟨3, 2, create_majority 3⟩ ⟨[1, 1]⟩)).varMarks 4 0 j ≠ 0 ↔
      first_step_on_level (clear_out_lits (cegar_layout_fence fresh_encoder
          ⟨3, 2, create_majority 3⟩ ⟨[1, 1]⟩))
        (get_level (clear_out_lits (cegar_layout_fence fresh_encoder
          ⟨3, 2, create_majority 3⟩ ⟨[1, 1]⟩)) ⟨3, 2, create_majority 3⟩ 4 - 1) ≤ j ∧
      j < first_step_on_level (clear_out_lits (cegar_layout_fence fresh_encoder
          ⟨3, 2, create_majority 3⟩ ⟨[1, 1]⟩))
        (get_level (clear_out_lits (cegar_layout_fence fresh_encoder
          ⟨3, 2, create_majority 3⟩ ⟨[1, 1]⟩)) ⟨3, 2, create_majority 3⟩ 4)) ∧
    (∀ j, (clear_out_lits (cegar_layout_fence fresh_encoder
        ⟨3, 2, create_majority 3⟩ ⟨[1, 1]⟩)).varMarks 4 0 j ≠ 0 ↔
      on_level ⟨[1, 1]⟩ 3 (get_level (clear_out_lits (cegar_layout_fence fresh_encoder
        ⟨3, 2, create_majority 3⟩ ⟨[1, 1]⟩)) ⟨3, 2, create_majority 3⟩ 4 - 1) j) ∧
    (∀ k j, k = 1 ∨ k = 2 → ((clear_out_lits (cegar_layout_fence fresh_encoder
        ⟨3, 2, create_majority 3⟩ ⟨[1, 1]⟩)).varMarks 4 k j ≠ 0 ↔ j < 4 - k)) :=
  fence_selectors_allocated brute_solver [] _ fresh_encoder _ ⟨3, 2, create_majority 3⟩
    ⟨[1, 1]⟩ true ⟨by decide, by decide⟩ (cegar_encode_fence_brute _ _ _ _) 4 (by decide)
    (by decide)

/-- Counterexample to C14 as stated: three inputs, fence (3). Steps 3, 4 and 5 all lie
    on level 1, and the selector `S[5,1,3]` is allocated: its source 3 is not on an
    earlier level than step 5. -/
theorem same_level_source_allocated :
    ∃ b e1 st1,
      cegar_encode_fence brute_solver [] fresh_encoder ⟨3, 3, create_majority 3⟩ ⟨[3]⟩
        = some (b, e1, st1) ∧
      e1.varMarks 5 1 3 ≠ 0 ∧
      ¬ (get_level e1 ⟨3, 3, create_majority 3⟩ 3 < get_level e1 ⟨3, 3, create_majority 3⟩ 5) :=
  ⟨true, _, _, cegar_encode_fence_brute _ _ _ _, by decide, by decide⟩

/-- C14, amended. After `cegar_encode(spec, fence)` with three or more inputs and a
    valid fence: when the selector `S[i,k,j]` of a step `i` is allocated, `j < i` and
    `j` lies on no higher level than `i`, `get_level(spec, j) <= get_level(spec, i)`;
    for slot 0, and for every slot of the first step, `j` lies on the level just below
    that of `i`. (For slots 1 and 2 every `j < i - k` is allocated, sources on the level
    of `i` included.) -/
theorem allocated_source_level (S : solver_wrapper) (st st1 : List (List Nat))
    (e e1 : ditt_maj_encoder) (sp : spec) (f : fence) (b : Bool)
    (hn : 3 ≤ sp.nr_in) (hf : fence_valid f sp)
    (henc : cegar_encode_fence S st e sp f = some (b, e1, st1))
    (i k j : Nat) (hi1 : sp.nr_in ≤ i) (hi2 : i < sp.nr_in + sp.nr_steps)
    (hm : e1.varMarks i k j ≠ 0) :
    j < i ∧ get_level e1 sp j ≤ get_level e1 sp i ∧
    (k = 0 ∨ i = sp.nr_in → get_level e1 sp j + 1 = get_level e1 sp i) := by
  obtain ⟨-, rfl⟩ := cegar_encode_fence_result S st st1 e e1 sp f b henc
  exact allocated_level e sp f hn hf i k j hi1 hi2 hm

/-- Instance of C14 amended: three inputs, fence (1,1), the selector `S[4,0,3]`. -/
theorem allocated_source_level_witness :
    3 < 4 ∧
    get_level (clear_out_lits (cegar_layout_fence fresh_encoder
        ⟨3, 2, create_majority 3⟩ ⟨[1, 1]⟩)) ⟨3, 2, create_majority 3⟩ 3 ≤
      get_level (clear_out_lits (cegar_layout_fence fresh_encoder
        ⟨3, 2, create_majority 3⟩ ⟨[1, 1]⟩)) ⟨3, 2, create_majority 3⟩ 4 ∧
    (0 = 0 ∨ 4 = (⟨3, 2, create_majority 3⟩ : spec).nr_in →
      get_level (clear_out_lits (cegar_layout_fence fresh_encoder
        ⟨3, 2, create_majority 3⟩ ⟨[1, 1]⟩)) ⟨3, 2, create_majority 3⟩ 3 + 1 =
      get_level (clear_out_lits (cegar_layout_fence fresh_encoder
        ⟨3, 2, create_majority 3⟩ ⟨[1, 1]⟩)) ⟨3, 2, create_majority 3⟩ 4) :=
  allocated_source_level brute_solver [] _ fresh_encoder _ ⟨3, 2, create_majority 3⟩
    ⟨[1, 1]⟩ true (by decide) ⟨by decide, by decide⟩ (cegar_encode_fence_brute _ _ _ _)
    4 0 3 (by decide) (by decide) (by decide)

/-- C15. For every model of the base CNF of `cegar_encode(spec, fence)` (three or more
    inputs, valid fence) and every step `i`, on level `L`: the three selected fanins
    lie below `i` on levels strictly below `L`, so each is a primary input or a step of
    a lower level, and fanin 0 lies on level `L - 1`. -/
theorem selected_fanins_on_lower_levels (S : solver_wrapper) (st st1 : List (List Nat))
    (e e1 : ditt_maj_encoder) (sp : spec) (f : fence) (b : Bool)
    (hn : 3 ≤ sp.nr_in) (hf : fence_valid f sp)
    (henc : cegar_encode_fence S st e sp f = some (b, e1, st1))
    (val : Nat → Bool)
    (hsat : cnf_sat val (add_base_cnf_clauses (cegar_layout_fence e sp f) sp) = true)
    (i : Nat) (hi1 : sp.nr_in ≤ i) (hi2 : i < sp.nr_in + sp.nr_steps) :
    ∃ f0 f1 f2, find_fanin e1 sp val i 0 = some f0 ∧ find_fanin e1 sp val i 1 = some f1 ∧
      find_fanin e1 sp val i 2 = some f2 ∧
      get_level e1 sp f0 + 1 = get_level e1 sp i ∧
      get_level e1 sp f1 < get_level e1 sp i ∧ get_level e1 sp f2 < get_level e1 sp i ∧
      (f0 < sp.nr_in ∨ (sp.nr_in ≤ f0 ∧ f0 < i)) ∧
      (f1 < sp.nr_in ∨ (sp.nr_in ≤ f1 ∧ f1 < i)) ∧
      (f2 < sp.nr_in ∨ (sp.nr_in ≤ f2 ∧ f2 < i)) := by
  obtain ⟨-, rfl⟩ := cegar_encode_fence_result S st st1 e e1 sp f b henc
  have hall := (add_base_cnf_clauses_sat val _ sp).1 hsat i hi1 hi2
  obtain ⟨f0, h0, hm0, hv0, -, -, hf0⟩ := find_fanin_of_slot_ok _ sp val i 0 (hall 0 (by omega))
  obtain ⟨f1, h1, hm1, hv1, -, -, hf1⟩ := find_fanin_of_slot_ok _ sp val i 1 (hall 1 (by omega))
  obtain ⟨f2, h2, hm2, hv2, -, -, hf2⟩ := find_fanin_of_slot_ok _ sp val i 2 (hall 2 (by omega))
  have a1 := selected_decreasing _ sp val i 0 f0 f1 (by omega) (hall 0 (by omega)) h1 hm0 hv0
    hm1 hv1
  have a2 := selected_decreasing _ sp val i 1 f1 f2 (by omega) (hall 1 (by omega)) h2 hm1 hv1
    hm2 hv2
  obtain ⟨b0, -, c0⟩ := allocated_level e sp f hn hf i 0 f0 hi1 hi2 hm0
  have l0 := c0 (Or.inl rfl)
  have l1 := get_level_mono e sp f hf f1 f0 (by omega) (by omega)
  have l2 := get_level_mono e sp f hf f2 f0 (by omega) (by omega)
  refine ⟨f0, f1, f2, ?_, ?_, ?_, l0, by omega, by omega, by omega, by omega, by omega⟩
  · exact (find_fanin_congr (cegar_layout_fence e sp f) _ sp val i 0 rfl).trans hf0
  · exact (find_fanin_congr (cegar_layout_fence e sp f) _ sp val i 1 rfl).trans hf1
  · exact (find_fanin_congr (cegar_layout_fence e sp f) _ sp val i 2 rfl).trans hf2

/-- Instance of C15: three inputs, fence (1,1), the model selecting (2,1,0) for step 3
    and (3,1,0) for step 4; step 4 lies on level 2. -/
theorem selected_fanins_on_lower_levels_witness :
    ∃ f0 f1 f2,
      find_fanin (clear_out_lits (cegar_layout_fence fresh_encoder
          ⟨3, 2, create_majority 3⟩ ⟨[1, 1]⟩)) ⟨3, 2, create_majority 3⟩
        (model_of [1, 2, 3, 4, 6, 8]) 4 0 = some f0 ∧
      find_fanin (clear_out_lits (cegar_layout_fence fresh_encoder
          ⟨3, 2, create_majority 3⟩ ⟨[1, 1]⟩)) ⟨3, 2, create_majority 3⟩
        (model_of [1, 2, 3, 4, 6, 8]) 4 1 = some f1 ∧
      find_fanin (clear_out_lits (cegar_layout_fence fresh_encoder
          ⟨3, 2, create_majority 3⟩ ⟨[1, 1]⟩)) ⟨3, 2, create_majority 3⟩
        (model_of [1, 2, 3, 4, 6, 8]) 4 2 = some f2 ∧
      get_level (clear_out_lits (cegar_layout_fence fresh_encoder
          ⟨3, 2, create_majority 3⟩ ⟨[1, 1]⟩)) ⟨3, 2, create_majority 3⟩ f0 + 1 =
        get_level (clear_out_lits (cegar_layout_fence fresh_encoder
          ⟨3, 2, create_majority 3⟩ ⟨[1, 1]⟩)) ⟨3, 2, create_majority 3⟩ 4 ∧
      get_level (clear_out_lits (cegar_layout_fence fresh_encoder
          ⟨3, 2, create_majority 3⟩ ⟨[1, 1]⟩)) ⟨3, 2, create_majority 3⟩ f1 <
        get_level (clear_out_lits (cegar_layout_fence fresh_encoder
          ⟨3, 2, create_majority 3⟩ ⟨[1, 1]⟩)) ⟨3, 2, create_majority 3⟩ 4 ∧
      get_level (clear_out_lits (cegar_layout_fence fresh_encoder
          ⟨3, 2, create_majority 3⟩ ⟨[1, 1]⟩)) ⟨3, 2, create_majority 3⟩ f2 <
        get_level (clear_out_lits (cegar_layout_fence fresh_encoder
          ⟨3, 2, create_majority 3⟩ ⟨[1, 1]⟩)) ⟨3, 2, create_majority 3⟩ 4 ∧
      (f0 < (⟨3, 2, create_majority 3⟩ : spec).nr_in ∨
        ((⟨3, 2, create_majority 3⟩ : spec).nr_in ≤ f0 ∧ f0 < 4)) ∧
      (f1 < (⟨3, 2, create_majority 3⟩ : spec).nr_in ∨
        ((⟨3, 2, create_majority 3⟩ : spec).nr_in ≤ f1 ∧ f1 < 4)) ∧
      (f2 < (⟨3, 2, create_majority 3⟩ : spec).nr_in ∨
        ((⟨3, 2, create_majority 3⟩ : spec).nr_in ≤ f2 ∧ f2 < 4)) :=
  selected_fanins_on_lower_levels brute_solver [] _ fresh_encoder _
    ⟨3, 2, create_majority 3⟩ ⟨[1, 1]⟩ true (by decide) ⟨by decide, by decide⟩
    (cegar_encode_fence_brute _ _ _ _) (model_of [1, 2, 3, 4, 6, 8]) (by decide) 4 (by decide)
    (by decide)

/-! ## The first step and the layout without a fence -/

theorem first_step_selectors_eq (sp : spec) :
    first_step_selectors sp = [(sp.nr_in, 0, 2), (sp.nr_in, 1, 1), (sp.nr_in, 2, 0)] := rfl

/-- The three selectors of the first step get the variable ids 1, 2, 3. -/
theorem first_step_ids (s0 : ditt_maj_encoder) (sp : spec) (rest : List (Nat × Nat × Nat))
    (h1 : s0.iVar = 1) (hrest : ∀ t ∈ rest, t.1 ≠ sp.nr_in) (k : Nat) (hk : k < 3) :
    (push_selectors s0 (first_step_selectors sp ++ rest)).varMarks sp.nr_in k (2 - k) =
      k + 1 := by
  rw [push_selectors_append, push_selectors_not_mem rest _ _ _ _
    (fun hm => hrest _ hm rfl), first_step_selectors_eq]
  simp only [push_selectors, List.foldl_cons, List.foldl_nil, push_selector, set3, h1]
  interval_cases k <;> simp

/-- In both layouts the selectors of the first step are `S[nr_in, k, 2 - k]` with the
    ids `k + 1`. -/
theorem has_layout_first_step (e : ditt_maj_encoder) (sp : spec) (hl : has_layout e sp)
    (k : Nat) (hk : k < 3) :
    (∀ j, e.varMarks sp.nr_in k j ≠ 0 ↔ j = 2 - k) ∧ e.varMarks sp.nr_in k (2 - k) = k + 1 := by
  obtain ⟨e0, h | ⟨f, h⟩⟩ := hl
  · rw [h]
    constructor
    · intro j
      rw [(cegar_layout_marks e0 sp sp.nr_in k j).1, mem_layout_selectors]
      constructor
      · rintro (⟨-, -, h3⟩ | ⟨h1, -⟩)
        · exact h3
        · omega
      · intro h3
        exact Or.inl ⟨rfl, hk, h3⟩
    · unfold cegar_layout
      rw [add_base_variables_eq]
      unfold layout_selectors
      apply first_step_ids _ sp _ rfl _ k hk
      intro t ht
      simp only [List.mem_flatMap, List.mem_range'] at ht
      obtain ⟨x, ⟨y, hy, rfl⟩, hm⟩ := ht
      unfold step_selectors at hm
      have := (mem_slots_from _ 0 t).1 hm
      omega
  · rw [h]
    constructor
    · intro j
      rw [(cegar_layout_fence_marks e0 sp f sp.nr_in k j).1, mem_layout_selectors_fence]
      constructor
      · rintro (⟨-, -, h3⟩ | ⟨h1, -⟩)
        · exact h3
        · omega
      · intro h3
        exact Or.inl ⟨rfl, hk, h3⟩
    · unfold cegar_layout_fence
      rw [add_base_variables_fence_eq]
      unfold layout_selectors_fence
      apply first_step_ids _ sp _ rfl _ k hk
      intro t ht
      simp only [List.mem_flatMap, List.mem_range'] at ht
      obtain ⟨x, ⟨y, hy, rfl⟩, hm⟩ := ht
      have := ((mem_step_selectors_fence _ sp _ t).1 hm).1
      omega

/-- C16. After `cegar_encode`, with or without a fence, for the first step `i = nr_in`
    and each slot `k` in `{0, 1, 2}`: the only allocated selector is `S[nr_in, k, 2-k]`;
    its variable id is `k + 1`; and when the step exists (`nr_steps >= 1`) it is true
    in every model of the base CNF, where `find_fanin` then returns `2 - k`: the first
    step has the fanins (2, 1, 0). -/
theorem first_step_wired (e : ditt_maj_encoder) (sp : spec) (hl : has_layout e sp)
    (k : Nat) (hk : k < 3) :
    (∀ j, e.varMarks sp.nr_in k j ≠ 0 ↔ j = 2 - k) ∧
    e.varMarks sp.nr_in k (2 - k) = k + 1 ∧
    ∀ val, 1 ≤ sp.nr_steps → cnf_sat val (add_base_cnf_clauses e sp) = true →
      val (k + 1) = true ∧ find_fanin e sp val sp.nr_in k = some (2 - k) := by
  obtain ⟨h1, h2⟩ := has_layout_first_step e sp hl k hk
  refine ⟨h1, h2, ?_⟩
  intro val hs hsat
  have hslot := (add_base_cnf_clauses_sat val e sp).1 hsat sp.nr_in (Nat.le_refl _) (by omega)
    k hk
  obtain ⟨j, -, hm, hv, -, -, hfind⟩ := find_fanin_of_slot_ok e sp val sp.nr_in k hslot
  have hj := (h1 j).1 hm
  subst hj
  rw [h2] at hv
  exact ⟨hv, hfind⟩

/-- Instance of C16: five inputs, fence (1,1), slot 1 of step 5. -/
theorem first_step_wired_witness :
    (∀ j, (cegar_layout_fence fresh_encoder ⟨5, 2, create_majority 5⟩ ⟨[1, 1]⟩).varMarks
        (⟨5, 2, create_majority 5⟩ : spec).nr_in 1 j ≠ 0 ↔ j = 2 - 1) ∧
    (cegar_layout_fence fresh_encoder ⟨5, 2, create_majority 5⟩ ⟨[1, 1]⟩).varMarks
        (⟨5, 2, create_majority 5⟩ : spec).nr_in 1 (2 - 1) = 1 + 1 ∧
    ∀ val, 1 ≤ (⟨5, 2, create_majority 5⟩ : spec).nr_steps →
      cnf_sat val (add_base_cnf_clauses
        (cegar_layout_fence fresh_encoder ⟨5, 2, create_majority 5⟩ ⟨[1, 1]⟩)
        ⟨5, 2, create_majority 5⟩) = true →
      val (1 + 1) = true ∧
      find_fanin (cegar_layout_fence fresh_encoder ⟨5, 2, create_majority 5⟩ ⟨[1, 1]⟩)
        ⟨5, 2, create_majority 5⟩ val (⟨5, 2, create_majority 5⟩ : spec).nr_in 1
        = some (2 - 1) :=
  first_step_wired (cegar_layout_fence fresh_encoder ⟨5, 2, create_majority 5⟩ ⟨[1, 1]⟩)
    ⟨5, 2, create_majority 5⟩ (has_layout_cegar_layout_fence _ _ _) 1 (by decide)

/-- C17. After `cegar_encode(spec)` without a fence, for every step `i` after the first
    and every slot `k` in `{0, 1, 2}`, the selector `S[i,k,j]` is allocated
    (`varMarks[i][k][j] != 0`) exactly when `j < i - k`. -/
theorem no_fence_selectors_allocated (S : solver_wrapper) (st st1 : List (List Nat))
    (e e1 : ditt_maj_encoder) (sp : spec) (b : Bool)
    (henc : cegar_encode S st e sp = some (b, e1, st1))
    (i k j : Nat) (hi1 : sp.nr_in < i) (hi2 : i < sp.nr_in + sp.nr_steps) (hk : k < 3) :
    e1.varMarks i k j ≠ 0 ↔ j < i - k := by
  obtain ⟨-, rfl⟩ := cegar_encode_result S st st1 e e1 sp b henc
  have : (clear_out_lits (cegar_layout e sp)).varMarks = (cegar_layout e sp).varMarks := rfl
  rw [this, (cegar_layout_marks e sp i k j).1, mem_layout_selectors]
  constructor
  · rintro (⟨h, -⟩ | ⟨-, -, -, h⟩)
    · omega
    · exact h
  · intro h
    exact Or.inr ⟨hi1, hi2, hk, h⟩

/-- Instance of C17: three inputs, three steps, slot 1 of step 5 and source 3. -/
theorem no_fence_selectors_allocated_witness :
    (clear_out_lits (cegar_layout fresh_encoder ⟨3, 3, create_majority 3⟩)).varMarks 5 1 3 ≠ 0
      ↔ 3 < 5 - 1 :=
  no_fence_selectors_allocated brute_solver [] _ fresh_encoder _ ⟨3, 3, create_majority 3⟩
    true (cegar_encode_brute _ _ _) 5 1 3 (by decide) (by decide) (by decide)

/-! ## The clauses of `add_cnf`, selector by selector and step by step -/

theorem connectivity_clauses_eq (e : ditt_maj_encoder) (sp : spec) (iMint i : Nat) :
    connectivity_clauses e sp iMint i =
      (List.range 3).flatMap fun k =>
        (List.range (sp.nr_in + sp.nr_steps)).flatMap fun j =>
          if e.varMarks i k j ≠ 0 then selector_clauses e sp iMint i k j else [] := rfl

theorem mem_add_cnf_connectivity (e : ditt_maj_encoder) (sp : spec) (iMint i : Nat)
    (hi1 : sp.nr_in ≤ i) (hi2 : i < sp.nr_in + sp.nr_steps) (c : List Nat)
    (hc : c ∈ connectivity_clauses e sp iMint i) : c ∈ add_cnf_clauses e sp iMint := by
  unfold add_cnf_clauses
  rw [List.mem_flatMap]
  exact ⟨i, List.mem_range'_1.2 ⟨hi1, hi2⟩, List.mem_append_left _ hc⟩

theorem mem_add_cnf_functionality (e : ditt_maj_encoder) (sp : spec) (iMint i : Nat)
    (hi1 : sp.nr_in ≤ i) (hi2 : i < sp.nr_in + sp.nr_steps) (c : List Nat)
    (hc : c ∈ functionality_clauses e sp iMint i) : c ∈ add_cnf_clauses e sp iMint := by
  unfold add_cnf_clauses
  rw [List.mem_flatMap]
  exact ⟨i, List.mem_range'_1.2 ⟨hi1, hi2⟩, List.mem_append_right _ hc⟩

theorem selector_clauses_length (e : ditt_maj_encoder) (sp : spec) (iMint i k j : Nat) :
    (selector_clauses e sp iMint i k j).length = if j < sp.nr_in then 1 else 2 := by
  unfold selector_clauses
  by_cases hj : j ≥ sp.nr_in
  · simp only [range_two, List.flatMap_cons, List.flatMap_nil, hj, if_true]
    rw [if_neg (by omega)]
    rfl
  · have hb := mint_bit_le_one iMint j
    rw [if_pos (by omega)]
    have hcases : mint_bit iMint j = 0 ∨ mint_bit iMint j = 1 := by omega
    rcases hcases with h | h <;>
      simp [range_two, List.flatMap_cons, List.flatMap_nil, hj, h]

/-- C18. For every allocated selector `S[i,k,j]` of a step `i` (slot `k < 3`, source
    `j < i`) and every minterm, the fanin-connectivity clauses that `add_cnf` adds for it
    hold exactly when: if `S[i,k,j]` is true, the fanin variable `F[i,k]` equals bit `j`
    of the minterm for `j < nr_in`, and equals the output variable `F[j,3]` of step `j`
    for `j >= nr_in`. One clause is emitted for a primary input, two for a step. -/
theorem connectivity_of_selector (e : ditt_maj_encoder) (sp : spec) (iMint i k j : Nat)
    (v : Nat → Bool) (hi1 : sp.nr_in ≤ i) (hi2 : i < sp.nr_in + sp.nr_steps) (hk : k < 3)
    (hj : j < i) (hm : e.varMarks i k j ≠ 0) :
    (∀ c ∈ selector_clauses e sp iMint i k j, c ∈ add_cnf_clauses e sp iMint) ∧
    (selector_clauses e sp iMint i k j).length = (if j < sp.nr_in then 1 else 2) ∧
    (cnf_sat v (selector_clauses e sp iMint i k j) = true ↔
      (v (e.varMarks i k j) = true →
        v (e.iVar + 4 * (i - sp.nr_in) + k) =
          if j < sp.nr_in then (mint_bit iMint j == 1)
          else v (e.iVar + 4 * (j - sp.nr_in) + 3))) := by
  refine ⟨?_, selector_clauses_length e sp iMint i k j, ?_⟩
  · intro c hc
    apply mem_add_cnf_connectivity e sp iMint i hi1 hi2
    rw [connectivity_clauses_eq, List.mem_flatMap]
    refine ⟨k, List.mem_range.2 hk, ?_⟩
    rw [List.mem_flatMap]
    refine ⟨j, List.mem_range.2 (by omega), ?_⟩
    rw [if_pos hm]
    exact hc
  · unfold selector_clauses
    rw [selector_clauses_sat]
    by_cases h : j < sp.nr_in
    · rw [if_neg (by omega), if_pos h]
    · rw [if_pos (by omega), if_neg h]

/-- Instance of C18: three inputs, two steps without a fence, the selector `S[4,0,3]`
    (a step as source) and the minterm 5. -/
theorem connectivity_of_selector_witness :
    (∀ c ∈ selector_clauses (cegar_layout fresh_encoder ⟨3, 2, create_majority 3⟩)
        ⟨3, 2, create_majority 3⟩ 5 4 0 3,
      c ∈ add_cnf_clauses (cegar_layout fresh_encoder ⟨3, 2, create_majority 3⟩)
        ⟨3, 2, create_majority 3⟩ 5) ∧
    (selector_clauses (cegar_layout fresh_encoder ⟨3, 2, create_majority 3⟩)
        ⟨3, 2, create_majority 3⟩ 5 4 0 3).length =
      (if 3 < (⟨3, 2, create_majority 3⟩ : spec).nr_in then 1 else 2) ∧
    (cnf_sat (model_of [1, 2, 3, 7, 9, 11])
        (selector_clauses (cegar_layout fresh_encoder ⟨3, 2, create_majority 3⟩)
          ⟨3, 2, create_majority 3⟩ 5 4 0 3) = true ↔
      (model_of [1, 2, 3, 7, 9, 11]
          ((cegar_layout fresh_encoder ⟨3, 2, create_majority 3⟩).varMarks 4 0 3) = true →
        model_of [1, 2, 3, 7, 9, 11]
          ((cegar_layout fresh_encoder ⟨3, 2, create_majority 3⟩).iVar +
            4 * (4 - (⟨3, 2, create_majority 3⟩ : spec).nr_in) + 0) =
          if 3 < (⟨3, 2, create_majority 3⟩ : spec).nr_in then (mint_bit 5 3 == 1)
          else model_of [1, 2, 3, 7, 9, 11]
            ((cegar_layout fresh_encoder ⟨3, 2, create_majority 3⟩).iVar +
              4 * (3 - (⟨3, 2, create_majority 3⟩ : spec).nr_in) + 3))) :=
  connectivity_of_selector (cegar_layout fresh_encoder ⟨3, 2, create_majority 3⟩)
    ⟨3, 2, create_majority 3⟩ 5 4 0 3 (model_of [1, 2, 3, 7, 9, 11]) (by decide) (by decide)
    (by decide) (by decide) (by decide)

/-- C19. For every step `i` other than the last and every minterm, `add_cnf` adds six
    node-functionality clauses for step `i`, and they hold exactly when
    `F[i,3] = MAJ3(F[i,0], F[i,1], F[i,2])`. -/
theorem functionality_is_majority (e : ditt_maj_encoder) (sp : spec) (iMint i : Nat)
    (v : Nat → Bool) (hi1 : sp.nr_in ≤ i) (hi2 : i < sp.nr_in + sp.nr_steps)
    (hi : i ≠ sp.nr_in + sp.nr_steps - 1) :
    (∀ c ∈ functionality_clauses e sp iMint i, c ∈ add_cnf_clauses e sp iMint) ∧
    (functionality_clauses e sp iMint i).length = 6 ∧
    (cnf_sat v (functionality_clauses e sp iMint i) = true ↔
      v (e.iVar + 4 * (i - sp.nr_in) + 3) =
        maj3 (v (e.iVar + 4 * (i - sp.nr_in) + 0)) (v (e.iVar + 4 * (i - sp.nr_in) + 1))
          (v (e.iVar + 4 * (i - sp.nr_in) + 2))) := by
  refine ⟨mem_add_cnf_functionality e sp iMint i hi1 hi2, ?_,
    functionality_sat e sp iMint i v hi⟩
  unfold functionality_clauses
  simp [range_two, range_three, hi]

/-- Instance of C19: three inputs, two steps, step 3 and the minterm 5. -/
theorem functionality_is_majority_witness :
    (∀ c ∈ functionality_clauses (cegar_layout fresh_encoder ⟨3, 2, create_majority 3⟩)
        ⟨3, 2, create_majority 3⟩ 5 3,
      c ∈ add_cnf_clauses (cegar_layout fresh_encoder ⟨3, 2, create_majority 3⟩)
        ⟨3, 2, create_majority 3⟩ 5) ∧
    (functionality_clauses (cegar_layout fresh_encoder ⟨3, 2, create_majority 3⟩)
        ⟨3, 2, create_majority 3⟩ 5 3).length = 6 ∧
    (cnf_sat (model_of [1, 2, 3, 7, 9, 11])
        (functionality_clauses (cegar_layout fresh_encoder ⟨3, 2, create_majority 3⟩)
          ⟨3, 2, create_majority 3⟩ 5 3) = true ↔
      model_of [1, 2, 3, 7, 9, 11]
          ((cegar_layout fresh_encoder ⟨3, 2, create_majority 3⟩).iVar +
            4 * (3 - (⟨3, 2, create_majority 3⟩ : spec).nr_in) + 3) =
        maj3
          (model_of [1, 2, 3, 7, 9, 11]
            ((cegar_layout fresh_encoder ⟨3, 2, create_majority 3⟩).iVar +
              4 * (3 - (⟨3, 2, create_majority 3⟩ : spec).nr_in) + 0))
          (model_of [1, 2, 3, 7, 9, 11]
            ((cegar_layout fresh_encoder ⟨3, 2, create_majority 3⟩).iVar +
              4 * (3 - (⟨3, 2, create_majority 3⟩ : spec).nr_in) + 1))
          (model_of [1, 2, 3, 7, 9, 11]
            ((cegar_layout fresh_encoder ⟨3, 2, create_majority 3⟩).iVar +
              4 * (3 - (⟨3, 2, create_majority 3⟩ : spec).nr_in) + 2))) :=
  functionality_is_majority (cegar_layout fresh_encoder ⟨3, 2, create_majority 3⟩)
    ⟨3, 2, create_majority 3⟩ 5 3 (model_of [1, 2, 3, 7, 9, 11]) (by decide) (by decide)
    (by decide)

/-- The loop of `Maj_ManValue` counts the set bits among the `n` low bits. -/
theorem count_bits_eq_filter (m n : Nat) :
    count_bits m n = ((List.range n).filter fun k => m.testBit k).length := by
  induction n with
  | zero => rfl
  | succ n ih =>
    rw [count_bits_succ, ih, List.range_succ, List.filter_append, List.length_append,
      mint_bit_eq]
    cases h : m.testBit n <;> simp [h]

/-- C20. For the last step `root = nr_in + nr_steps - 1` and every minterm `m`,
    `add_cnf(spec, m)` emits exactly three clauses of two literals for the
    functionality of the root, over the fanin variables `F[root,0..2]`; they hold
    exactly when `MAJ3(F[root,0], F[root,1], F[root,2])` is the target bit
    `Maj_ManValue(m, nr_in)`; and `Maj_ManValue(m, n)` is 1 exactly when more than
    `n / 2` of the `n` low bits of `m` are set, else 0. -/
theorem root_functionality_is_target (e : ditt_maj_encoder) (sp : spec) (iMint : Nat)
    (v : Nat → Bool) :
    (1 ≤ sp.nr_steps → ∀ c ∈ functionality_clauses e sp iMint (sp.nr_in + sp.nr_steps - 1),
      c ∈ add_cnf_clauses e sp iMint) ∧
    (functionality_clauses e sp iMint (sp.nr_in + sp.nr_steps - 1)).length = 3 ∧
    (∀ c ∈ functionality_clauses e sp iMint (sp.nr_in + sp.nr_steps - 1),
      c.length = 2 ∧ ∀ l ∈ c, ∃ k, k < 3 ∧
        Abc_Lit2Var l = e.iVar + 4 * (sp.nr_in + sp.nr_steps - 1 - sp.nr_in) + k) ∧
    (cnf_sat v (functionality_clauses e sp iMint (sp.nr_in + sp.nr_steps - 1)) = true ↔
      maj3 (v (e.iVar + 4 * (sp.nr_in + sp.nr_steps - 1 - sp.nr_in) + 0))
        (v (e.iVar + 4 * (sp.nr_in + sp.nr_steps - 1 - sp.nr_in) + 1))
        (v (e.iVar + 4 * (sp.nr_in + sp.nr_steps - 1 - sp.nr_in) + 2)) =
      decide (Maj_ManValue iMint sp.nr_in = 1)) ∧
    (∀ m n, (Maj_ManValue m n = 1 ↔
        n / 2 < ((List.range n).filter fun k => m.testBit k).length) ∧
      (Maj_ManValue m n = 0 ∨ Maj_ManValue m n = 1)) := by
  have hv := Maj_ManValue_le_one iMint sp.nr_in
  have hcases : Maj_ManValue iMint sp.nr_in = 0 ∨ Maj_ManValue iMint sp.nr_in = 1 := by omega
  refine ⟨?_, ?_, ?_, functionality_sat_last e sp iMint _ v rfl, ?_⟩
  · intro hs
    exact mem_add_cnf_functionality e sp iMint _ (by omega) (by omega)
  · unfold functionality_clauses
    rcases hcases with h | h <;> simp [range_two, range_three, h]
  · intro c hc
    unfold functionality_clauses at hc
    rcases hcases with h | h
    · simp only [range_two, range_three, List.flatMap_cons, List.flatMap_nil, h, true_and,
        if_true, if_false, zero_ne_one, one_ne_zero, List.map_cons, List.map_nil, ne_eq,
        not_true_eq_false, not_false_eq_true, List.append_nil, List.nil_append,
        OfNat.ofNat_ne_zero, OfNat.zero_ne_ofNat, OfNat.ofNat_ne_one, OfNat.one_ne_ofNat,
        List.cons_append, List.mem_cons, List.mem_singleton, List.not_mem_nil, or_false] at hc
      rcases hc with rfl | rfl | rfl
      · refine ⟨rfl, ?_⟩
        intro l hl
        simp only [List.mem_cons, List.mem_singleton, List.not_mem_nil, or_false] at hl
        rcases hl with rfl | rfl
        · exact ⟨1, by omega, lit2var_var2lit _ _ (by omega)⟩
        · exact ⟨2, by omega, lit2var_var2lit _ _ (by omega)⟩
      · refine ⟨rfl, ?_⟩
        intro l hl
        simp only [List.mem_cons, List.mem_singleton, List.not_mem_nil, or_false] at hl
        rcases hl with rfl | rfl
        · exact ⟨0, by omega, lit2var_var2lit _ _ (by omega)⟩
        · exact ⟨2, by omega, lit2var_var2lit _ _ (by omega)⟩
      · refine ⟨rfl, ?_⟩
        intro l hl
        simp only [List.mem_cons, List.mem_singleton, List.not_mem_nil, or_false] at hl
        rcases hl with rfl | rfl
        · exact ⟨0, by omega, lit2var_var2lit _ _ (by omega)⟩
        · exact ⟨1, by omega, lit2var_var2lit _ _ (by omega)⟩
    · simp only [range_two, range_three, List.flatMap_cons, List.flatMap_nil, h, true_and,
        if_true, if_false, zero_ne_one, one_ne_zero, List.map_cons, List.map_nil, ne_eq,
        not_true_eq_false, not_false_eq_true, List.append_nil, List.nil_append,
        OfNat.ofNat_ne_zero, OfNat.zero_ne_ofNat, OfNat.ofNat_ne_one, OfNat.one_ne_ofNat,
        List.cons_append, List.mem_cons, List.mem_singleton, List.not_mem_nil, or_false] at hc
      rcases hc with rfl | rfl | rfl
      · refine ⟨rfl, ?_⟩
        intro l hl
        simp only [List.mem_cons, List.mem_singleton, List.not_mem_nil, or_false] at hl
        rcases hl with rfl | rfl
        · exact ⟨1, by omega, lit2var_var2lit _ _ (by omega)⟩
        · exact ⟨2, by omega, lit2var_var2lit _ _ (by omega)⟩
      · refine ⟨rfl, ?_⟩
        intro l hl
        simp only [List.mem_cons, List.mem_singleton, List.not_mem_nil, or_false] at hl
        rcases hl with rfl | rfl
        · exact ⟨0, by omega, lit2var_var2lit _ _ (by omega)⟩
        · exact ⟨2, by omega, lit2var_var2lit _ _ (by omega)⟩
      · refine ⟨rfl, ?_⟩
        intro l hl
        simp only [List.mem_cons, List.mem_singleton, List.not_mem_nil, or_false] at hl
        rcases hl with rfl | rfl
        · exact ⟨0, by omega, lit2var_var2lit _ _ (by omega)⟩
        · exact ⟨1, by omega, lit2var_var2lit _ _ (by omega)⟩
  · intro m n
    have := Maj_ManValue_le_one m n
    refine ⟨?_, by omega⟩
    unfold Maj_ManValue
    rw [count_bits_eq_filter]
    split <;> simp <;> omega

/-! ## Synthesis of and-inverter chains for up to three inputs -/

theorem contains_iff (l : List Nat) (a : Nat) : l.contains a = true ↔ a ∈ l := List.elem_iff

theorem mem_step_choices (nr_in p : Nat) (st : aig_step) :
    st ∈ step_choices nr_in p ↔
      st.fn ∈ aig_fns ∧ st.fanin1 < nr_in + p ∧ st.fanin2 < nr_in + p := by
  unfold step_choices
  simp only [List.mem_flatMap, List.mem_map, List.mem_range]
  constructor
  · rintro ⟨fn, hfn, a, ha, b, hb, rfl⟩
    exact ⟨hfn, ha, hb⟩
  · rintro ⟨h1, h2, h3⟩
    exact ⟨st.fn, h1, st.fanin1, h2, st.fanin2, h3, rfl⟩

theorem mem_step_lists (nr_in : Nat) (s p : Nat) (l : List aig_step) :
    l ∈ step_lists nr_in p s ↔ l.length = s ∧ steps_ok nr_in p l = true := by
  induction s generalizing p l with
  | zero =>
    simp only [step_lists, List.mem_singleton]
    constructor
    · rintro rfl
      exact ⟨rfl, rfl⟩
    · rintro ⟨h, -⟩
      exact List.length_eq_zero.1 h
  | succ s ih =>
    simp only [step_lists, List.mem_flatMap, List.mem_map, mem_step_choices]
    constructor
    · rintro ⟨st, ⟨h1, h2, h3⟩, l2, hl2, rfl⟩
      obtain ⟨a, b⟩ := (ih (p + 1) l2).1 hl2
      refine ⟨by simp [a], ?_⟩
      simp only [steps_ok, Bool.and_eq_true, decide_eq_true_eq, contains_iff]
      exact ⟨⟨⟨h1, h2⟩, h3⟩, b⟩
    · rintro ⟨hlen, hok⟩
      cases l with
      | nil => simp at hlen
      | cons st l2 =>
        simp only [steps_ok, Bool.and_eq_true, decide_eq_true_eq, contains_iff] at hok
        obtain ⟨⟨⟨h1, h2⟩, h3⟩, b⟩ := hok
        exact ⟨st, ⟨h1, h2, h3⟩, l2, (ih (p + 1) l2).2 ⟨by simpa using hlen, b⟩, rfl⟩

/-- The candidates for the step count `s` are the well-formed chains of `s` steps. -/
theorem mem_candidates (nr_in s : Nat) (c : chain) :
    c ∈ candidates nr_in s ↔
      c.nr_in = nr_in ∧ c.steps.length = s ∧ c.well_formed = true := by
  obtain ⟨n, steps, triv, neg⟩ := c
  unfold candidates chain.well_formed
  by_cases hs : s = 0
  · subst hs
    simp only [if_true, List.mem_flatMap, List.mem_range, List.mem_cons, List.mem_singleton,
      chain.mk.injEq, List.not_mem_nil, or_false]
    constructor
    · rintro ⟨t, ht, ⟨rfl, rfl, rfl, rfl⟩ | ⟨rfl, rfl, rfl, rfl⟩⟩
      · exact ⟨rfl, rfl, by simp; omega⟩
      · exact ⟨rfl, rfl, by simp; omega⟩
    · rintro ⟨rfl, hlen, hwf⟩
      have hnil : steps = [] := List.length_eq_zero.1 hlen
      subst hnil
      simp only [decide_eq_true_eq] at hwf
      refine ⟨triv, by omega, ?_⟩
      cases neg
      · exact Or.inl ⟨rfl, rfl, rfl, rfl⟩
      · exact Or.inr ⟨rfl, rfl, rfl, rfl⟩
  · rw [if_neg hs]
    simp only [List.mem_map, mem_step_lists, chain.mk.injEq]
    constructor
    · rintro ⟨l, ⟨hlen, hok⟩, rfl, rfl, rfl, rfl⟩
      refine ⟨rfl, hlen, ?_⟩
      cases l with
      | nil => exact absurd hlen.symm hs
      | cons st l2 => simp [hok]
    · rintro ⟨rfl, hlen, hwf⟩
      cases steps with
      | nil => exact absurd hlen.symm hs
      | cons st l2 =>
        simp only [Bool.and_eq_true, beq_iff_eq, Bool.not_eq_true'] at hwf
        obtain ⟨⟨hok, ht⟩, hneg⟩ := hwf
        exact ⟨st :: l2, ⟨hlen, hok⟩, rfl, rfl, ht.symm, hneg.symm⟩

theorem steps_ok_is_aig (nr_in p : Nat) (l : List aig_step) (h : steps_ok nr_in p l = true) :
    (l.all fun st => aig_fns.contains st.fn) = true := by
  induction l generalizing p with
  | nil => rfl
  | cons st l ih =>
    simp only [steps_ok, Bool.and_eq_true] at h
    simp only [List.all_cons, Bool.and_eq_true]
    exact ⟨h.1.1.1, ih (p + 1) h.2⟩

theorem well_formed_is_aig (c : chain) (h : c.well_formed = true) : c.is_aig = true := by
  obtain ⟨n, steps, triv, neg⟩ := c
  unfold chain.well_formed at h
  unfold chain.is_aig
  cases steps with
  | nil => rfl
  | cons st l =>
    simp only [Bool.and_eq_true] at h
    exact steps_ok_is_aig n 0 (st :: l) h.1.1

/-- What `synthesize` returns is a well-formed chain of at most `max_steps` gates of the
    AIG primitive that simulates to the target. -/
theorem synthesize_sound (nr_in : Nat) (target : truth_table) (max_steps : Nat) (c : chain)
    (h : synthesize nr_in target max_steps = synth_result.success c) :
    c.nr_in = nr_in ∧ c.steps.length ≤ max_steps ∧ c.well_formed = true ∧ c.is_aig = true ∧
    ∀ m, m < 2 ^ nr_in → c.simulate m = target m := by
  unfold synthesize at h
  cases hf : (List.range (max_steps + 1)).findSome? fun s =>
      (candidates nr_in s).find? (meets_target nr_in target) with
  | none =>
    rw [hf] at h
    exact synth_result.noConfusion h
  | some c2 =>
    rw [hf] at h
    simp only [synth_result.success.injEq] at h
    subst h
    obtain ⟨s, hs, hfind⟩ := List.exists_of_findSome?_eq_some hf
    have hmem := List.mem_of_find?_eq_some hfind
    have hp := List.find?_some hfind
    obtain ⟨h1, h2, h3⟩ := (mem_candidates nr_in s c2).1 hmem
    rw [List.mem_range] at hs
    refine ⟨h1, by omega, h3, well_formed_is_aig c2 h3, ?_⟩
    intro m hm
    unfold meets_target at hp
    rw [List.all_eq_true] at hp
    have := hp m (List.mem_range.2 hm)
    simpa using this

/-- When some well-formed chain of at most `max_steps` steps simulates to the target,
    `synthesize` succeeds. -/
theorem synthesize_complete (nr_in : Nat) (target : truth_table) (max_steps : Nat)
    (c0 : chain) (h1 : c0.nr_in = nr_in) (h2 : c0.steps.length ≤ max_steps)
    (h3 : c0.well_formed = true) (h4 : meets_target nr_in target c0 = true) :
    ∃ c, synthesize nr_in target max_steps = synth_result.success c := by
  have hsome : ((List.range (max_steps + 1)).findSome? fun s =>
      (candidates nr_in s).find? (meets_target nr_in target)).isSome = true := by
    rw [List.findSome?_isSome_iff]
    refine ⟨c0.steps.length, List.mem_range.2 (by omega), ?_⟩
    rw [List.find?_isSome]
    exact ⟨c0, (mem_candidates nr_in _ c0).2 ⟨h1, rfl, h3⟩, h4⟩
  obtain ⟨c, hc⟩ := Option.isSome_iff_exists.1 hsome
  refine ⟨c, ?_⟩
  unfold synthesize
  rw [hc]

set_option maxRecDepth 100000 in
theorem table_ok_small : ∀ n, n < 3 → ∀ w, w < 2 ^ 2 ^ n → table_entry_ok n w = true := by
  decide

set_option maxRecDepth 100000 in
set_option maxHeartbeats 4000000 in
theorem table_ok_three : ∀ w, w < 256 → table_entry_ok 3 w = true := by
  decide

theorem table_entry_spec (nr_in w : Nat) (h : table_entry_ok nr_in w = true) :
    ∃ c0 : chain, c0.nr_in = nr_in ∧ c0.steps.length ≤ 6 ∧ c0.well_formed = true ∧
      meets_target nr_in (table_of_word w) c0 = true := by
  unfold table_entry_ok at h
  cases hc : (aig_chain_table nr_in)[w]? with
  | none =>
    rw [hc] at h
    exact absurd h Bool.false_ne_true
  | some c0 =>
    rw [hc] at h
    simp only [Bool.and_eq_true, beq_iff_eq, decide_eq_true_eq] at h
    exact ⟨c0, h.1.1.1, h.1.1.2, h.1.2, h.2⟩

/-- C11. For every target table over at most three inputs, given by its word `w` as the
    test builds it (all 256 functions of three inputs among them), `synthesize` with the
    AIG primitive returns success when it may use six steps or more, and the chain it
    returns is an AIG whose simulation equals the target on every minterm. -/
theorem aig_synthesis_succeeds (nr_in w max_steps : Nat) (hn : nr_in ≤ 3)
    (hw : w < 2 ^ 2 ^ nr_in) (hmax : 6 ≤ max_steps) :
    ∃ c, synthesize nr_in (table_of_word w) max_steps = synth_result.success c ∧
      c.is_aig = true ∧ c.nr_in = nr_in ∧ c.well_formed = true ∧
      ∀ m, m < 2 ^ nr_in → c.simulate m = table_of_word w m := by
  have hok : table_entry_ok nr_in w = true := by
    by_cases h3 : nr_in = 3
    · subst h3
      exact table_ok_three w hw
    · exact table_ok_small nr_in (by omega) w hw
  obtain ⟨c0, h1, h2, h3, h4⟩ := table_entry_spec nr_in w hok
  obtain ⟨c, hc⟩ := synthesize_complete nr_in (table_of_word w) max_steps c0 h1 (by omega) h3 h4
  obtain ⟨a1, -, a3, a4, a5⟩ := synthesize_sound nr_in (table_of_word w) max_steps c hc
  exact ⟨c, hc, a4, a1, a3, a5⟩

/-- Instance of C11: the parity of three inputs (word 150) with six steps allowed. -/
theorem aig_synthesis_succeeds_witness :
    ∃ c, synthesize 3 (table_of_word 150) 6 = synth_result.success c ∧
      c.is_aig = true ∧ c.nr_in = 3 ∧ c.well_formed = true ∧
      ∀ m, m < 2 ^ 3 → c.simulate m = table_of_word 150 m :=
  aig_synthesis_succeeds 3 150 6 (by decide) (by decide) (by decide)

/-! ## The value returned by `simulate` -/

/-- C21. For every spec and every structure that decodes (each slot of each step gives
    one source below the step), `simulate` returns: its final assertion holds, the
    result is below `2^nr_in`; the tables it leaves give every step the majority of its
    decoded fanins; the result is -1 exactly when no minterm `m` with
    `1 <= m < 2^nr_in`, weight between `nr_in / 2` and `nr_in / 2 + 1`, has the table of
    the last step differ from `spec[0]`; otherwise it is the smallest such minterm. -/
theorem simulate_returns_first_balanced_difference (e : ditt_maj_encoder) (sp : spec)
    (val : Nat → Bool) (hd : decodes e sp val) :
    ∃ r e2, simulate e sp val = some (r, e2) ∧ r < 2 ^ sp.nr_in ∧
      (∀ i, sp.nr_in ≤ i → i < sp.nr_in + sp.nr_steps →
        e2.sim_tts i = ternary_majority (e2.sim_tts (fanin_of e sp val i 0))
          (e2.sim_tts (fanin_of e sp val i 1)) (e2.sim_tts (fanin_of e sp val i 2))) ∧
      (r = -1 ↔ ∀ m, ¬ balanced_difference e2 sp m) ∧
      (r ≠ -1 → ∃ m : Nat, r = (m : Int) ∧ balanced_difference e2 sp m ∧
        ∀ m2, balanced_difference e2 sp m2 → m ≤ m2) := by
  obtain ⟨e1, h1, -, -, hstep⟩ := simulate_tts_spec e sp val hd
  have hlt : first_difference e1 sp < 2 ^ sp.nr_in := by
    by_cases hr : first_difference e1 sp = -1
    · rw [hr]
      exact lt_of_lt_of_le (by decide : (-1 : Int) < 0) (by positivity)
    · obtain ⟨m, hm, hb, -⟩ := first_difference_some e1 sp _ rfl hr
      rw [hm]
      exact_mod_cast hb.2.1
  refine ⟨first_difference e1 sp, e1, ?_, hlt, hstep, first_difference_none e1 sp,
    fun hne => first_difference_some e1 sp _ rfl hne⟩
  unfold simulate
  rw [h1]
  simp only
  rw [if_pos hlt]

/-- Instance of C21: three inputs, the one-node fence, the model selecting (2,1,0). -/
theorem simulate_returns_first_balanced_difference_witness :
    ∃ r e2, simulate (cegar_layout_fence fresh_encoder ⟨3, 1, create_majority 3⟩ ⟨[1]⟩)
        ⟨3, 1, create_majority 3⟩ (model_of [1, 2, 3]) = some (r, e2) ∧
      r < 2 ^ (⟨3, 1, create_majority 3⟩ : spec).nr_in ∧
      (∀ i, (⟨3, 1, create_majority 3⟩ : spec).nr_in ≤ i →
        i < (⟨3, 1, create_majority 3⟩ : spec).nr_in +
          (⟨3, 1, create_majority 3⟩ : spec).nr_steps →
        e2.sim_tts i = ternary_majority
          (e2.sim_tts (fanin_of (cegar_layout_fence fresh_encoder ⟨3, 1, create_majority 3⟩
            ⟨[1]⟩) ⟨3, 1, create_majority 3⟩ (model_of [1, 2, 3]) i 0))
          (e2.sim_tts (fanin_of (cegar_layout_fence fresh_encoder ⟨3, 1, create_majority 3⟩
            ⟨[1]⟩) ⟨3, 1, create_majority 3⟩ (model_of [1, 2, 3]) i 1))
          (e2.sim_tts (fanin_of (cegar_layout_fence fresh_encoder ⟨3, 1, create_majority 3⟩
            ⟨[1]⟩) ⟨3, 1, create_majority 3⟩ (model_of [1, 2, 3]) i 2))) ∧
      (r = -1 ↔ ∀ m, ¬ balanced_difference e2 ⟨3, 1, create_majority 3⟩ m) ∧
      (r ≠ -1 → ∃ m : Nat, r = (m : Int) ∧
        balanced_difference e2 ⟨3, 1, create_majority 3⟩ m ∧
        ∀ m2, balanced_difference e2 ⟨3, 1, create_majority 3⟩ m2 → m ≤ m2) :=
  simulate_returns_first_balanced_difference
    (cegar_layout_fence fresh_encoder ⟨3, 1, create_majority 3⟩ ⟨[1]⟩)
    ⟨3, 1, create_majority 3⟩ (model_of [1, 2, 3])
    (decodes_of_base _ _ _ (has_layout_cegar_layout_fence _ _ _) (by decide) (by decide))

/-! ## The level map -/

/-- The level of a step index on a fence of positive level sizes: `get_level` returns
    the level between 1 and the number of levels holding the index. -/
theorem get_level_of_valid (e : ditt_maj_encoder) (sp : spec) (f : fence)
    (hf : fence_valid f sp) (s : Nat) (h1 : sp.nr_in ≤ s) (h2 : s < sp.nr_in + sp.nr_steps) :
    1 ≤ get_level (update_level_map e sp f) sp s ∧
    get_level (update_level_map e sp f) sp s ≤ f.nr_levels ∧
    on_level f sp.nr_in (get_level (update_level_map e sp f) sp s) s := by
  obtain ⟨t, ht1, ht2, hon⟩ := exists_level f sp hf s h1 h2
  have hgl : get_level (update_level_map e sp f) sp s = t := by
    by_cases hs : s = sp.nr_in
    · have ht : t = 1 := by
        by_contra hne
        have := fence_dist_lt f sp hf 0 (t - 1) (by omega) (by omega)
        rw [fence_dist_zero] at this
        unfold on_level at hon
        rw [if_neg (by omega)] at hon
        omega
      unfold get_level
      rw [if_neg (by omega), if_pos hs, ht]
    · exact get_level_eq e sp f hf t s ht1 ht2 (by omega) hon
  rw [hgl]
  exact ⟨ht1, ht2, hon⟩

/-- C23. After `update_level_map(spec, f)` for a fence `f = (l_1 .. l_L)` of positive
    sizes: `level_dist[i] = nr_in + l_1 + ... + l_i` for `0 <= i <= L`; `get_level`
    returns 0 below `nr_in`; for a step index `s` with
    `nr_in <= s < nr_in + l_1 + ... + l_L` it returns a level `t` in `[1, L]` with
    `level_dist[t-1] <= s < level_dist[t]`, and `t` is the only such level;
    `first_step_on_level(t)` is `level_dist[t-1]`, lies on level `t`, and no index that
    `get_level` puts on level `t` is smaller. -/
theorem level_map_after_update (e : ditt_maj_encoder) (sp : spec) (f : fence)
    (hpos : ∀ l ∈ f.levels, 0 < l) :
    (∀ i, i ≤ f.nr_levels →
      (update_level_map e sp f).level_dist i = sp.nr_in + (f.levels.take i).sum) ∧
    (∀ s, s < sp.nr_in → get_level (update_level_map e sp f) sp s = 0) ∧
    (∀ s, sp.nr_in ≤ s → s < sp.nr_in + f.levels.sum →
      1 ≤ get_level (update_level_map e sp f) sp s ∧
      get_level (update_level_map e sp f) sp s ≤ f.nr_levels ∧
      (update_level_map e sp f).level_dist (get_level (update_level_map e sp f) sp s - 1) ≤ s ∧
      s < (update_level_map e sp f).level_dist (get_level (update_level_map e sp f) sp s) ∧
      ∀ t, 1 ≤ t → t ≤ f.nr_levels → (update_level_map e sp f).level_dist (t - 1) ≤ s →
        s < (update_level_map e sp f).level_dist t →
        t = get_level (update_level_map e sp f) sp s) ∧
    (∀ t, 1 ≤ t → t ≤ f.nr_levels →
      first_step_on_level (update_level_map e sp f) t =
        (update_level_map e sp f).level_dist (t - 1) ∧
      get_level (update_level_map e sp f) sp
        (first_step_on_level (update_level_map e sp f) t) = t ∧
      ∀ s, get_level (update_level_map e sp f) sp s = t →
        first_step_on_level (update_level_map e sp f) t ≤ s) := by
  have hf : fence_valid f ⟨sp.nr_in, f.nr_nodes, sp.out0⟩ := ⟨hpos, rfl⟩
  have hdist : ∀ i, i ≤ f.nr_levels →
      (update_level_map e sp f).level_dist i = fence_dist f sp.nr_in i :=
    fun i hi => update_level_map_dist e sp f i hi
  have hstep : ∀ s, sp.nr_in ≤ s → s < sp.nr_in + f.levels.sum →
      1 ≤ get_level (update_level_map e sp f) sp s ∧
      get_level (update_level_map e sp f) sp s ≤ f.nr_levels ∧
      on_level f sp.nr_in (get_level (update_level_map e sp f) sp s) s :=
    fun s h1 h2 => get_level_of_valid e ⟨sp.nr_in, f.nr_nodes, sp.out0⟩ f hf s h1 h2
  refine ⟨hdist, ?_, ?_, ?_⟩
  · intro s hs
    unfold get_level
    rw [if_pos hs]
  · intro s h1 h2
    obtain ⟨a1, a2, a3⟩ := hstep s h1 h2
    have a4 := a3
    unfold on_level at a4
    rw [if_neg (by omega)] at a4
    refine ⟨a1, a2, ?_, ?_, ?_⟩
    · rw [hdist _ (by omega)]
      exact a4.1
    · rw [hdist _ a2]
      exact a4.2
    · intro t ht1 ht2 hlo hhi
      rw [hdist _ (by omega)] at hlo
      rw [hdist _ ht2] at hhi
      have hon : on_level f sp.nr_in t s := by
        unfold on_level
        rw [if_neg (by omega)]
        exact ⟨hlo, hhi⟩
      exact on_level_unique f ⟨sp.nr_in, f.nr_nodes, sp.out0⟩ hf t _ s ht2 a2 hon a3
  · intro t ht1 ht2
    have hfs : first_step_on_level (update_level_map e sp f) t =
        (update_level_map e sp f).level_dist (t - 1) := by
      unfold first_step_on_level
      rw [if_neg (by omega)]
    have hlo : sp.nr_in ≤ fence_dist f sp.nr_in (t - 1) := by
      unfold fence_dist
      omega
    have hlt : fence_dist f sp.nr_in (t - 1) < fence_dist f sp.nr_in t :=
      fence_dist_lt f ⟨sp.nr_in, f.nr_nodes, sp.out0⟩ hf (t - 1) t (by omega) ht2
    have hhi : fence_dist f sp.nr_in t ≤ sp.nr_in + f.levels.sum := by
      have h1 := fence_dist_le f ⟨sp.nr_in, f.nr_nodes, sp.out0⟩ hf t f.nr_levels ht2
        (Nat.le_refl _)
      have h2 := fence_dist_last f ⟨sp.nr_in, f.nr_nodes, sp.out0⟩ hf
      have h3 : (⟨sp.nr_in, f.nr_nodes, sp.out0⟩ : spec).nr_in +
          (⟨sp.nr_in, f.nr_nodes, sp.out0⟩ : spec).nr_steps = sp.nr_in + f.levels.sum := rfl
      rw [h3] at h2
      have h4 : fence_dist f (⟨sp.nr_in, f.nr_nodes, sp.out0⟩ : spec).nr_in t =
          fence_dist f sp.nr_in t := rfl
      have h5 : fence_dist f (⟨sp.nr_in, f.nr_nodes, sp.out0⟩ : spec).nr_in f.nr_levels =
          fence_dist f sp.nr_in f.nr_levels := rfl
      omega
    refine ⟨hfs, ?_, ?_⟩
    · rw [hfs, hdist _ (by omega)]
      obtain ⟨a1, a2, a3⟩ := hstep (fence_dist f sp.nr_in (t - 1)) hlo (by omega)
      have hon : on_level f sp.nr_in t (fence_dist f sp.nr_in (t - 1)) := by
        unfold on_level
        rw [if_neg (by omega)]
        exact ⟨Nat.le_refl _, hlt⟩
      exact on_level_unique f ⟨sp.nr_in, f.nr_nodes, sp.out0⟩ hf _ t _ a2 ht2 a3 hon
    · intro s hs
      rw [hfs]
      by_cases h0 : s < sp.nr_in
      · have : get_level (update_level_map e sp f) sp s = 0 := by
          unfold get_level
          rw [if_pos h0]
        omega
      · by_cases h1 : s = sp.nr_in
        · have : get_level (update_level_map e sp f) sp s = 1 := by
            unfold get_level
            rw [if_neg h0, if_pos h1]
          have ht : t = 1 := by omega
          rw [ht, hdist 0 (by omega), fence_dist_zero]
          omega
        · have := (get_level_pos (update_level_map e sp f) sp s (by omega)
            (update_level_map_spec e sp f).2.2.2.2.2).2
          rw [hs] at this
          exact this

/-- Instance of C23: the fence (2, 1) over three inputs. -/
theorem level_map_after_update_witness :
    (∀ l ∈ (⟨[2, 1]⟩ : fence).levels, 0 < l) ∧
    (update_level_map fresh_encoder ⟨3, 3, create_majority 3⟩ ⟨[2, 1]⟩).level_dist 2 = 6 ∧
    get_level (update_level_map fresh_encoder ⟨3, 3, create_majority 3⟩ ⟨[2, 1]⟩)
      ⟨3, 3, create_majority 3⟩ 4 = 1 ∧
    first_step_on_level (update_level_map fresh_encoder ⟨3, 3, create_majority 3⟩ ⟨[2, 1]⟩) 2
      = 5 ∧
    ((∀ i, i ≤ (⟨[2, 1]⟩ : fence).nr_levels →
      (update_level_map fresh_encoder ⟨3, 3, create_majority 3⟩ ⟨[2, 1]⟩).level_dist i =
        (⟨3, 3, create_majority 3⟩ : spec).nr_in + ((⟨[2, 1]⟩ : fence).levels.take i).sum) ∧
    (∀ s, s < (⟨3, 3, create_majority 3⟩ : spec).nr_in →
      get_level (update_level_map fresh_encoder ⟨3, 3, create_majority 3⟩ ⟨[2, 1]⟩)
        ⟨3, 3, create_majority 3⟩ s = 0)) := by
  have h := level_map_after_update fresh_encoder ⟨3, 3, create_majority 3⟩ ⟨[2, 1]⟩
    (by decide)
  exact ⟨by decide, by decide, by decide, by decide, h.1, h.2.1⟩
/-! ## Monotone and self-dual step tables -/

theorem mint_bit_complement (n x k : Nat) (hx : x < 2 ^ n) (hk : k < n) :
    mint_bit (mint_complement n x) k = 1 - mint_bit x k := by
  rw [mint_bit_eq, mint_bit_eq]
  unfold mint_complement
  have h : 2 ^ n - 1 - x = 2 ^ n - (x + 1) := by omega
  rw [h, Nat.testBit_two_pow_sub_succ hx]
  cases x.testBit k <;> simp [hk]

theorem mint_complement_lt (n x : Nat) : mint_complement n x < 2 ^ n := by
  unfold mint_complement
  have := Nat.two_pow_pos n
  omega

theorem sub_mint_zero (y : Nat) : sub_mint 0 y := by
  intro k
  rw [mint_bit_zero]
  exact Nat.zero_le _

theorem tt_self_dual_nth_var (n i : Nat) (hi : i < n) : tt_self_dual n (create_nth_var i) := by
  intro x hx
  unfold create_nth_var
  rw [mint_bit_complement n x i hx hi]
  have := mint_bit_le_one x i
  rcases Nat.eq_zero_or_pos (mint_bit x i) with h | h
  · rw [h]; decide
  · have h1 : mint_bit x i = 1 := by omega
    rw [h1]; decide

theorem tt_self_dual_majority (n : Nat) (a b c : truth_table) (ha : tt_self_dual n a)
    (hb : tt_self_dual n b) (hc : tt_self_dual n c) :
    tt_self_dual n (ternary_majority a b c) := by
  intro x hx
  unfold ternary_majority
  rw [ha x hx, hb x hx, hc x hx]
  cases a x <;> cases b x <;> cases c x <;> rfl

/-- A monotone self-dual table is 0 at minterm 0. -/
theorem tt_zero_of_monotone_self_dual (n : Nat) (t : truth_table) (hm : tt_monotone t)
    (hs : tt_self_dual n t) : t 0 = false := by
  by_contra h
  have h1 : t 0 = true := by simpa using h
  have h2 := hm 0 (mint_complement n 0) (sub_mint_zero _) h1
  have h3 := hs 0 (Nat.two_pow_pos n)
  rw [h1, h2] at h3
  exact absurd h3 (by decide)

/-- The tables computed by the first loop of `simulate` are self-dual when those of the
    inputs are. -/
theorem simulate_tts_self_dual (e e2 : ditt_maj_encoder) (sp : spec) (val : Nat → Bool)
    (hd : decodes e sp val)
    (hin : ∀ x, x < sp.nr_in → tt_self_dual sp.nr_in (e2.sim_tts x))
    (hstep : ∀ i, sp.nr_in ≤ i → i < sp.nr_in + sp.nr_steps →
      e2.sim_tts i = ternary_majority (e2.sim_tts (fanin_of e sp val i 0))
        (e2.sim_tts (fanin_of e sp val i 1)) (e2.sim_tts (fanin_of e sp val i 2)))
    (i : Nat) (hi : i < sp.nr_in + sp.nr_steps) : tt_self_dual sp.nr_in (e2.sim_tts i) := by
  induction i using Nat.strong_induction_on with
  | _ i ih =>
    by_cases h : i < sp.nr_in
    · exact hin i h
    · have hf := fun k hk => (fanin_of_lt e sp val hd i k (by omega) hi hk).2
      rw [hstep i (by omega) hi]
      exact tt_self_dual_majority _ _ _ _
        (ih _ (hf 0 (by omega)) (by have := hf 0 (by omega); omega))
        (ih _ (hf 1 (by omega)) (by have := hf 1 (by omega); omega))
        (ih _ (hf 2 (by omega)) (by have := hf 2 (by omega); omega))

/-- C25. For a structure given by a satisfying assignment of the base CNF, with at least
    three inputs and the input tables set to the projections as `cegar_encode` leaves
    them, `simulate` returns, and the table it computes for every step (and holds for
    every input) is monotone, self-dual within `nr_in` bits, and 0 at minterm 0. -/
theorem step_tables_monotone_self_dual (e : ditt_maj_encoder) (sp : spec) (val : Nat → Bool)
    (hl : has_layout e sp) (hn : 3 ≤ sp.nr_in)
    (hin : ∀ x, x < sp.nr_in → e.sim_tts x = create_nth_var x)
    (hsat : cnf_sat val (add_base_cnf_clauses e sp) = true) :
    ∃ r e2, simulate e sp val = some (r, e2) ∧
      ∀ i, i < sp.nr_in + sp.nr_steps →
        (∀ x y, (∀ k, mint_bit x k ≤ mint_bit y k) →
          e2.sim_tts i x = true → e2.sim_tts i y = true) ∧
        (∀ x, x < 2 ^ sp.nr_in → e2.sim_tts i (2 ^ sp.nr_in - 1 - x) = !e2.sim_tts i x) ∧
        e2.sim_tts i 0 = false := by
  have hd := decodes_of_base e sp val hl hn hsat
  obtain ⟨e1, h1, -, hout, hstep⟩ := simulate_tts_spec e sp val hd
  have hlt : first_difference e1 sp < 2 ^ sp.nr_in := by
    by_cases hr : first_difference e1 sp = -1
    · rw [hr]
      exact lt_of_lt_of_le (by decide : (-1 : Int) < 0) (by positivity)
    · obtain ⟨m, hm, hb, -⟩ := first_difference_some e1 sp _ rfl hr
      rw [hm]
      exact_mod_cast hb.2.1
  refine ⟨first_difference e1 sp, e1, ?_, ?_⟩
  · unfold simulate
    rw [h1]
    simp only
    rw [if_pos hlt]
  · intro i hi
    have hin1 : ∀ x, x < sp.nr_in → e1.sim_tts x = create_nth_var x := by
      intro x hx
      rw [hout x (by omega)]
      exact hin x hx
    have hmono := simulate_tts_monotone e e1 sp val hd
      (fun x hx => by rw [hin1 x hx]; exact tt_monotone_nth_var x) hstep i hi
    have hsd := simulate_tts_self_dual e e1 sp val hd
      (fun x hx => by rw [hin1 x hx]; exact tt_self_dual_nth_var sp.nr_in x hx) hstep i hi
    exact ⟨hmono, hsd, tt_zero_of_monotone_self_dual sp.nr_in _ hmono hsd⟩

/-- Instance of C25: three inputs, the one-node fence, the model selecting (2,1,0). -/
theorem step_tables_monotone_self_dual_witness :
    ∃ r e2, simulate (cegar_layout_fence fresh_encoder ⟨3, 1, create_majority 3⟩ ⟨[1]⟩)
        ⟨3, 1, create_majority 3⟩ (model_of [1, 2, 3]) = some (r, e2) ∧
      ∀ i, i < (⟨3, 1, create_majority 3⟩ : spec).nr_in +
          (⟨3, 1, create_majority 3⟩ : spec).nr_steps →
        (∀ x y, (∀ k, mint_bit x k ≤ mint_bit y k) →
          e2.sim_tts i x = true → e2.sim_tts i y = true) ∧
        (∀ x, x < 2 ^ (⟨3, 1, create_majority 3⟩ : spec).nr_in →
          e2.sim_tts i (2 ^ (⟨3, 1, create_majority 3⟩ : spec).nr_in - 1 - x) =
            !e2.sim_tts i x) ∧
        e2.sim_tts i 0 = false :=
  step_tables_monotone_self_dual
    (cegar_layout_fence fresh_encoder ⟨3, 1, create_majority 3⟩ ⟨[1]⟩)
    ⟨3, 1, create_majority 3⟩ (model_of [1, 2, 3])
    (has_layout_cegar_layout_fence _ _ _) (by decide)
    (fun x hx => cegar_layout_fence_inputs _ _ _ x hx) (by decide)
/-! ## The per-source literal lists after `add_base_variables(spec, fence)` -/

/-- Entry `j` of `vOutLits` is empty after a run of allocations exactly when it was
    empty before and no allocated selector has source `j`. -/
theorem push_selectors_out_lits (ts : List (Nat × Nat × Nat)) (e : ditt_maj_encoder) (j : Nat) :
    (push_selectors e ts).vOutLits j = [] ↔ e.vOutLits j = [] ∧ ∀ t ∈ ts, t.2.2 ≠ j := by
  induction ts generalizing e with
  | nil => simp [push_selectors_nil]
  | cons t ts ih =>
    rw [push_selectors_cons, ih]
    simp only [push_selector, set1, List.mem_cons, forall_eq_or_imp]
    by_cases h : j = t.2.2
    · subst h
      simp
    · rw [if_neg h]
      constructor
      · rintro ⟨h1, h2⟩
        exact ⟨h1, fun hc => h hc.symm, h2⟩
      · rintro ⟨h1, -, h2⟩
        exact ⟨h1, h2⟩

/-- After `add_base_variables(spec, fence)`, entry `j` of `vOutLits` is non-empty exactly
    when some allocated selector has source `j`. -/
theorem out_lits_fence_nonempty (e : ditt_maj_encoder) (sp : spec) (j : Nat) :
    (add_base_variables_fence e sp).vOutLits j ≠ [] ↔
      ∃ i k, (i, k, j) ∈ layout_selectors_fence e sp := by
  rw [add_base_variables_fence_eq, Ne, push_selectors_out_lits]
  constructor
  · intro h
    by_contra hc
    apply h
    refine ⟨rfl, ?_⟩
    rintro ⟨a, b, c⟩ ht hj
    simp only at hj
    subst hj
    exact hc ⟨a, b, ht⟩
  · rintro ⟨i, k, hm⟩ ⟨-, h⟩
    exact h (i, k, j) hm rfl

/-- Counterexample to C22: three inputs and the fence (2), which has positive level
    sizes summing to `nr_steps = 2` and a last level of two nodes; step 3 is an internal
    step other than the last, and its literal list `L[3]` is empty after
    `add_base_variables(spec, fence)`. -/
theorem out_lits_empty_below_root :
    fence_valid ⟨[2]⟩ ⟨3, 2, create_majority 3⟩ ∧
    1 ≤ (⟨[2]⟩ : fence).at_level ((⟨[2]⟩ : fence).nr_levels - 1) ∧
    (⟨[2]⟩ : fence).at_level ((⟨[2]⟩ : fence).nr_levels - 1) ≤ 3 ∧
    (⟨3, 2, create_majority 3⟩ : spec).nr_in ≤ 3 ∧
    3 < (⟨3, 2, create_majority 3⟩ : spec).nr_in +
      (⟨3, 2, create_majority 3⟩ : spec).nr_steps - 1 ∧
    (add_base_variables_fence
      (update_level_map fresh_encoder ⟨3, 2, create_majority 3⟩ ⟨[2]⟩)
      ⟨3, 2, create_majority 3⟩).vOutLits 3 = [] := by
  refine ⟨⟨by decide, by decide⟩, by decide, by decide, by decide, by decide, by decide⟩

/-- C22, amended. After `add_base_variables(spec, fence)` for a fence of positive level
    sizes summing to `nr_steps` (at least three inputs): the literal list `L[j]` is
    non-empty for every internal step `j` below `nr_in + nr_steps - 2`; for the step
    `nr_in + nr_steps - 2` just below the last one it is non-empty exactly when the last
    level of the fence has one node. So with a last level of one node every internal
    step except the last has a non-empty list, and with a last level of two or three
    nodes the step just below the last has an empty one. -/
theorem out_lits_nonempty_iff (e : ditt_maj_encoder) (sp : spec) (f : fence)
    (hf : fence_valid f sp) (hn : 3 ≤ sp.nr_in) :
    (∀ j, sp.nr_in ≤ j → j + 2 < sp.nr_in + sp.nr_steps →
      (add_base_variables_fence (update_level_map e sp f) sp).vOutLits j ≠ []) ∧
    (2 ≤ sp.nr_steps →
      ((add_base_variables_fence (update_level_map e sp f) sp).vOutLits
          (sp.nr_in + sp.nr_steps - 2) ≠ [] ↔
        f.at_level (f.nr_levels - 1) = 1)) ∧
    (f.at_level (f.nr_levels - 1) = 1 → ∀ j, sp.nr_in ≤ j → j < sp.nr_in + sp.nr_steps - 1 →
      (add_base_variables_fence (update_level_map e sp f) sp).vOutLits j ≠ []) := by
  have hlow : ∀ j, sp.nr_in ≤ j → j + 2 < sp.nr_in + sp.nr_steps →
      (add_base_variables_fence (update_level_map e sp f) sp).vOutLits j ≠ [] := by
    intro j h1 h2
    rw [out_lits_fence_nonempty]
    refine ⟨sp.nr_in + sp.nr_steps - 1, 1, ?_⟩
    rw [mem_layout_selectors_fence]
    exact Or.inr ⟨by omega, by omega, Or.inr ⟨by omega, by omega, by omega⟩⟩
  have hiff : 2 ≤ sp.nr_steps →
      ((add_base_variables_fence (update_level_map e sp f) sp).vOutLits
          (sp.nr_in + sp.nr_steps - 2) ≠ [] ↔
        f.at_level (f.nr_levels - 1) = 1) := by
    intro hs
    have hL : 1 ≤ f.nr_levels := by
      by_contra hc
      have h0 : f.levels = [] := List.length_eq_zero.1 (by unfold fence.nr_levels at hc; omega)
      have := hf.2
      unfold fence.nr_nodes at this
      rw [h0] at this
      simp at this
      omega
    have hlast := fence_dist_last f sp hf
    have hsucc := fence_dist_succ f sp.nr_in (f.nr_levels - 1) (by omega)
    have hL1 : f.nr_levels - 1 + 1 = f.nr_levels := by omega
    rw [hL1, hlast] at hsucc
    have hpos := at_level_pos f sp hf (f.nr_levels - 1) (by omega)
    have hdist : ∀ t, t ≤ f.nr_levels →
        (update_level_map e sp f).level_dist t = fence_dist f sp.nr_in t :=
      fun t ht => update_level_map_dist e sp f t ht
    rw [out_lits_fence_nonempty]
    constructor
    · rintro ⟨i, k, hm⟩
      rw [mem_layout_selectors_fence] at hm
      rcases hm with ⟨-, hk, hj⟩ | ⟨hi1, hi2, hm⟩
      · omega
      · rcases hm with ⟨-, -, hz⟩ | ⟨hk1, hk2, hj⟩
        · by_contra hne
          obtain ⟨a1, a2, -⟩ := get_level_of_valid e sp f hf i (by omega) hi2
          unfold first_step_on_level at hz
          rw [if_neg (by omega), hdist _ (by omega)] at hz
          have := fence_dist_le f sp hf (get_level (update_level_map e sp f) sp i - 1)
            (f.nr_levels - 1) (by omega) (by omega)
          omega
        · omega
    · intro h1
      have hL2 : 2 ≤ f.nr_levels := by
        by_contra hc
        have h1L : f.nr_levels - 1 = 0 := by omega
        rw [h1L] at h1
        rw [h1L, fence_dist_zero] at hsucc
        omega
      have hon : on_level f sp.nr_in f.nr_levels (sp.nr_in + sp.nr_steps - 1) := by
        unfold on_level
        rw [if_neg (by omega), hlast]
        omega
      have hgl := get_level_eq e sp f hf f.nr_levels (sp.nr_in + sp.nr_steps - 1) hL
        (Nat.le_refl _) (by omega) hon
      have hlt := fence_dist_lt f sp hf (f.nr_levels - 2) (f.nr_levels - 1) (by omega) (by omega)
      refine ⟨sp.nr_in + sp.nr_steps - 1, 0, ?_⟩
      rw [mem_layout_selectors_fence]
      refine Or.inr ⟨by omega, by omega, Or.inl ⟨rfl, ?_, ?_⟩⟩
      · rw [hgl]
        unfold first_step_on_level
        rw [if_neg (by omega), hdist _ (by omega)]
        have : f.nr_levels - 1 - 1 = f.nr_levels - 2 := by omega
        rw [this]
        omega
      · rw [hgl]
        unfold first_step_on_level
        rw [if_neg (by omega), hdist _ (by omega)]
        omega
  refine ⟨hlow, hiff, ?_⟩
  intro h1 j hj1 hj2
  by_cases hj : j + 2 < sp.nr_in + sp.nr_steps
  · exact hlow j hj1 hj
  · have hje : j = sp.nr_in + sp.nr_steps - 2 := by omega
    rw [hje]
    exact (hiff (by omega)).2 h1

/-- Instance of C22 amended: three inputs and the fence (1, 1, 1); the lists of the
    steps 3 and 4 are non-empty. -/
theorem out_lits_nonempty_iff_witness :
    fence_valid ⟨[1, 1, 1]⟩ ⟨3, 3, create_majority 3⟩ ∧
    (add_base_variables_fence
      (update_level_map fresh_encoder ⟨3, 3, create_majority 3⟩ ⟨[1, 1, 1]⟩)
      ⟨3, 3, create_majority 3⟩).vOutLits 3 ≠ [] ∧
    (add_base_variables_fence
      (update_level_map fresh_encoder ⟨3, 3, create_majority 3⟩ ⟨[1, 1, 1]⟩)
      ⟨3, 3, create_majority 3⟩).vOutLits 4 ≠ [] := by
  have hf : fence_valid ⟨[1, 1, 1]⟩ ⟨3, 3, create_majority 3⟩ := ⟨by decide, by decide⟩
  have h := out_lits_nonempty_iff fresh_encoder ⟨3, 3, create_majority 3⟩ ⟨[1, 1, 1]⟩ hf
    (by decide)
  exact ⟨hf, h.1 3 (by decide) (by decide), h.2.2 (by decide) 4 (by decide) (by decide)⟩
/-! ## The variable ids of the selectors and of the simulation variables -/

theorem nodup_flatMap_of_key {α β : Type} (l : List α) (f : α → List β) (key : β → α)
    (hl : l.Nodup) (hf : ∀ x ∈ l, (f x).Nodup) (hk : ∀ x ∈ l, ∀ t ∈ f x, key t = x) :
    (l.flatMap f).Nodup := by
  rw [List.nodup_flatMap]
  refine ⟨hf, ?_⟩
  refine List.Pairwise.imp_of_mem ?_ hl
  intro a b ha hb hab
  show List.Disjoint (f a) (f b)
  intro t hta htb
  exact hab ((hk a ha t hta).symm.trans (hk b hb t htb))

theorem first_step_selectors_nodup (sp : spec) : (first_step_selectors sp).Nodup := by
  unfold first_step_selectors
  refine List.Nodup.map ?_ (List.nodup_range' _ _)
  intro a b h
  simp only [Prod.mk.injEq] at h
  exact h.2.1

theorem slot_selectors_nodup (i k : Nat) : (slot_selectors i k).Nodup := by
  unfold slot_selectors
  refine List.Nodup.map ?_ (List.nodup_range' _ _)
  intro a b h
  simp only [Prod.mk.injEq] at h
  exact h.2.2

theorem slots_from_nodup (i lo : Nat) :
    ((List.range' lo (3 - lo)).flatMap fun k => slot_selectors i k).Nodup := by
  refine nodup_flatMap_of_key _ _ (fun t => t.2.1) (List.nodup_range' _ _)
    (fun k _ => slot_selectors_nodup i k) ?_
  intro k _ t ht
  exact ((mem_slot_selectors i k t).1 ht).2.1

theorem step_selectors_fence_nodup (e : ditt_maj_encoder) (sp : spec) (i : Nat) :
    (step_selectors_fence e sp i).Nodup := by
  unfold step_selectors_fence
  refine List.Nodup.append ?_ (slots_from_nodup i 1) ?_
  · refine List.Nodup.map ?_ (List.nodup_range' _ _)
    intro a b h
    simp only [Prod.mk.injEq] at h
    exact h.2.2
  · intro t h1 h2
    rw [mem_slots_from] at h2
    rw [List.mem_map] at h1
    obtain ⟨z, -, rfl⟩ := h1
    simp only at h2
    omega

theorem layout_selectors_nodup (sp : spec) : (layout_selectors sp).Nodup := by
  unfold layout_selectors
  refine List.Nodup.append (first_step_selectors_nodup sp) ?_ ?_
  · refine nodup_flatMap_of_key _ _ (fun t => t.1) (List.nodup_range' _ _)
      (fun i _ => slots_from_nodup i 0) ?_
    intro i _ t ht
    exact ((mem_slots_from i 0 t).1 ht).1
  · rintro ⟨a, b, c⟩ h1 h2
    rw [mem_first_step_selectors] at h1
    rw [List.mem_flatMap] at h2
    obtain ⟨i, hi, ht⟩ := h2
    have := ((mem_slots_from i 0 (a, b, c)).1 ht).1
    obtain ⟨y, hy, rfl⟩ := List.mem_range'.1 hi
    simp only at this
    omega

theorem layout_selectors_fence_nodup (e : ditt_maj_encoder) (sp : spec) :
    (layout_selectors_fence e sp).Nodup := by
  unfold layout_selectors_fence
  refine List.Nodup.append (first_step_selectors_nodup sp) ?_ ?_
  · refine nodup_flatMap_of_key _ _ (fun t => t.1) (List.nodup_range' _ _)
      (fun i _ => step_selectors_fence_nodup e sp i) ?_
    intro i _ t ht
    exact ((mem_step_selectors_fence e sp i t).1 ht).1
  · rintro ⟨a, b, c⟩ h1 h2
    rw [mem_first_step_selectors] at h1
    rw [List.mem_flatMap] at h2
    obtain ⟨i, hi, ht⟩ := h2
    have := ((mem_step_selectors_fence e sp i (a, b, c)).1 ht).1
    obtain ⟨y, hy, rfl⟩ := List.mem_range'.1 hi
    simp only at this
    omega

/-- Allocating a list of distinct selectors uses every id from `iVar` up to, not
    including, `iVar` plus the length of the list. -/
theorem push_selectors_surj (ts : List (Nat × Nat × Nat)) (e : ditt_maj_encoder)
    (hnd : ts.Nodup) (v : Nat) (h1 : e.iVar ≤ v) (h2 : v < e.iVar + ts.length) :
    ∃ t ∈ ts, (push_selectors e ts).varMarks t.1 t.2.1 t.2.2 = v := by
  induction ts generalizing e with
  | nil => simp at h2; omega
  | cons a ts ih =>
    rw [List.nodup_cons] at hnd
    rw [push_selectors_cons]
    by_cases hv : v = e.iVar
    · refine ⟨a, List.mem_cons_self _ _, ?_⟩
      rw [push_selectors_not_mem ts _ _ _ _ hnd.1, hv]
      simp [push_selector, set3]
    · obtain ⟨t, ht, h⟩ := ih (push_selector e a.1 a.2.1 a.2.2) hnd.2
        (by simp only [push_selector]; omega)
        (by simp only [push_selector, List.length_cons] at h2 ⊢; omega)
      exact ⟨t, List.mem_cons_of_mem _ ht, h⟩

/-- The selector ids of the layout without a fence are pairwise distinct. -/
theorem cegar_layout_inj (e0 : ditt_maj_encoder) (sp : spec) (i k j i2 k2 j2 : Nat)
    (h1 : (cegar_layout e0 sp).varMarks i k j ≠ 0)
    (h2 : (cegar_layout e0 sp).varMarks i2 k2 j2 ≠ 0)
    (h : (cegar_layout e0 sp).varMarks i k j = (cegar_layout e0 sp).varMarks i2 k2 j2) :
    i = i2 ∧ k = k2 ∧ j = j2 := by
  rw [(cegar_layout_marks e0 sp i k j).1] at h1
  rw [(cegar_layout_marks e0 sp i2 k2 j2).1] at h2
  unfold cegar_layout at h
  rw [add_base_variables_eq] at h
  have := push_selectors_inj_all _ _ (i, k, j) (i2, k2, j2) h1 h2 h
  simp only [Prod.mk.injEq] at this
  exact this

/-- The layout without a fence uses every id from 1 up to `iVar - 1`. -/
theorem cegar_layout_surj (e0 : ditt_maj_encoder) (sp : spec) (v : Nat) (h1 : 1 ≤ v)
    (h2 : v < (cegar_layout e0 sp).iVar) :
    ∃ i k j, (i, k, j) ∈ layout_selectors sp ∧ (cegar_layout e0 sp).varMarks i k j = v := by
  unfold cegar_layout at h2 ⊢
  rw [add_base_variables_eq] at h2 ⊢
  rw [(push_selectors_frame _ _).2.2.2] at h2
  obtain ⟨t, ht, h⟩ := push_selectors_surj _ { cegar_reset e0 sp with iVar := 1 }
    (layout_selectors_nodup sp) v h1 h2
  exact ⟨t.1, t.2.1, t.2.2, ht, h⟩

/-- The layout under a fence uses every id from 1 up to `iVar - 1`. -/
theorem cegar_layout_fence_surj (e0 : ditt_maj_encoder) (sp : spec) (f : fence) (v : Nat)
    (h1 : 1 ≤ v) (h2 : v < (cegar_layout_fence e0 sp f).iVar) :
    ∃ i k j, (i, k, j) ∈ layout_selectors_fence (update_level_map (cegar_reset e0 sp) sp f) sp ∧
      (cegar_layout_fence e0 sp f).varMarks i k j = v := by
  unfold cegar_layout_fence at h2 ⊢
  rw [add_base_variables_fence_eq] at h2 ⊢
  rw [(push_selectors_frame _ _).2.2.2] at h2
  obtain ⟨t, ht, h⟩ := push_selectors_surj _
    { clear_out_lits (update_level_map (cegar_reset e0 sp) sp f) with iVar := 1 }
    (layout_selectors_fence_nodup _ sp) v h1 h2
  exact ⟨t.1, t.2.1, t.2.2, ht, h⟩

/-- Every variable of a clause of `add_cnf` is the id of an allocated selector or one of
    the four simulation variables of a step. -/
theorem add_cnf_clause_vars (e : ditt_maj_encoder) (sp : spec) (iMint : Nat) (c : List Nat)
    (hc : c ∈ add_cnf_clauses e sp iMint) (l : Nat) (hl : l ∈ c) :
    (∃ i k j, e.varMarks i k j ≠ 0 ∧ Abc_Lit2Var l = e.varMarks i k j) ∨
    (∃ i q, sp.nr_in ≤ i ∧ i < sp.nr_in + sp.nr_steps ∧ q < 4 ∧
      Abc_Lit2Var l = e.iVar + 4 * (i - sp.nr_in) + q) := by
  unfold add_cnf_clauses at hc
  rw [List.mem_flatMap] at hc
  obtain ⟨i, hi, hc⟩ := hc
  obtain ⟨hi1, hi2⟩ := List.mem_range'_1.1 hi
  rcases List.mem_append.1 hc with hc | hc
  · rw [connectivity_clauses_eq] at hc
    simp only [List.mem_flatMap, List.mem_range] at hc
    obtain ⟨k, hk, j, hj, hc⟩ := hc
    by_cases hm : e.varMarks i k j ≠ 0
    · rw [if_pos hm] at hc
      unfold selector_clauses at hc
      simp only [List.mem_flatMap, List.mem_range] at hc
      obtain ⟨n, hn, hc⟩ := hc
      by_cases hjn : j ≥ sp.nr_in
      · rw [if_pos hjn] at hc
        simp only [List.mem_singleton] at hc
        subst hc
        simp only [List.mem_cons, List.mem_singleton, List.not_mem_nil, or_false] at hl
        rcases hl with rfl | rfl | rfl
        · exact Or.inl ⟨i, k, j, hm, lit2var_var2lit _ _ (by omega)⟩
        · exact Or.inr ⟨i, k, hi1, hi2, by omega, lit2var_var2lit _ _ (by omega)⟩
        · exact Or.inr ⟨j, 3, hjn, hj, by omega, lit2var_var2lit _ _ (by omega)⟩
      · rw [if_neg hjn] at hc
        by_cases hb : mint_bit iMint j = n
        · rw [if_pos hb] at hc
          simp at hc
        · rw [if_neg hb] at hc
          simp only [List.mem_singleton] at hc
          subst hc
          simp only [List.mem_cons, List.mem_singleton, List.not_mem_nil, or_false] at hl
          rcases hl with rfl | rfl
          · exact Or.inl ⟨i, k, j, hm, lit2var_var2lit _ _ (by omega)⟩
          · exact Or.inr ⟨i, k, hi1, hi2, by omega, lit2var_var2lit _ _ (by omega)⟩
    · rw [if_neg hm] at hc
      simp at hc
  · unfold functionality_clauses at hc
    simp only [List.mem_flatMap, List.mem_range] at hc
    obtain ⟨n, hn, hc⟩ := hc
    split at hc
    · simp at hc
    · simp only [List.mem_map, List.mem_range] at hc
      obtain ⟨k, hk, rfl⟩ := hc
      simp only [List.mem_append] at hl
      right
      rcases hl with ((hl | hl) | hl) | hl
      · split at hl
        · simp only [List.mem_singleton] at hl
          subst hl
          exact ⟨i, 0, hi1, hi2, by omega, lit2var_var2lit _ _ (by omega)⟩
        · simp at hl
      · split at hl
        · simp only [List.mem_singleton] at hl
          subst hl
          exact ⟨i, 1, hi1, hi2, by omega, lit2var_var2lit _ _ (by omega)⟩
        · simp at hl
      · split at hl
        · simp only [List.mem_singleton] at hl
          subst hl
          exact ⟨i, 2, hi1, hi2, by omega, lit2var_var2lit _ _ (by omega)⟩
        · simp at hl
      · split at hl
        · simp only [List.mem_singleton] at hl
          subst hl
          exact ⟨i, 3, hi1, hi2, by omega, lit2var_var2lit _ _ (by omega)⟩
        · simp at hl
/-- C27. After `cegar_encode` (with or without a fence; `ts` is the list of selectors
    its allocation loops allocate) `varMarks` is non-zero exactly for the allocated
    triples, their ids are pairwise distinct, and they are exactly the ids
    `1 .. get_nr_vars() - 1` (id 0 is not used). In every later state `e` (same
    selectors, `get_nr_vars()` not smaller), every variable of a clause of `add_cnf` is
    a selector id or one of the ids `iVar + 4 * (i - nr_in) + 0 .. 3` of a step `i`,
    with `iVar = get_nr_vars()` before the call; these ids are not below `iVar`, so
    above every selector id, pairwise distinct, and below `iVar + 4 * nr_steps`, the
    count given to `set_nr_vars`; a call returning true raises `get_nr_vars()` by
    exactly `4 * nr_steps` and leaves the selectors as they are. -/
theorem variable_ids_fresh (S : solver_wrapper) (st st1 : List (List Nat))
    (e0 E : ditt_maj_encoder) (sp : spec) (b : Bool) (ts : List (Nat × Nat × Nat))
    (henc : (cegar_encode S st e0 sp = some (b, E, st1) ∧ ts = layout_selectors sp) ∨
      ∃ f, cegar_encode_fence S st e0 sp f = some (b, E, st1) ∧
        ts = layout_selectors_fence (update_level_map (cegar_reset e0 sp) sp f) sp) :
    (∀ i k j, E.varMarks i k j ≠ 0 ↔ (i, k, j) ∈ ts) ∧
    (∀ i k j i2 k2 j2, (i, k, j) ∈ ts → (i2, k2, j2) ∈ ts →
      E.varMarks i k j = E.varMarks i2 k2 j2 → i = i2 ∧ k = k2 ∧ j = j2) ∧
    (∀ i k j, (i, k, j) ∈ ts → 1 ≤ E.varMarks i k j ∧ E.varMarks i k j < E.iVar) ∧
    (∀ v, 1 ≤ v → v < E.iVar → ∃ i k j, (i, k, j) ∈ ts ∧ E.varMarks i k j = v) ∧
    (∀ e : ditt_maj_encoder, e.varMarks = E.varMarks → E.iVar ≤ e.iVar → ∀ m,
      (∀ c ∈ add_cnf_clauses e sp m, ∀ l ∈ c,
        (∃ i k j, (i, k, j) ∈ ts ∧ Abc_Lit2Var l = E.varMarks i k j) ∨
        (∃ i q, sp.nr_in ≤ i ∧ i < sp.nr_in + sp.nr_steps ∧ q < 4 ∧
          Abc_Lit2Var l = e.iVar + 4 * (i - sp.nr_in) + q)) ∧
      (∀ i q, sp.nr_in ≤ i → i < sp.nr_in + sp.nr_steps → q < 4 →
        e.iVar ≤ e.iVar + 4 * (i - sp.nr_in) + q ∧
        (∀ i2 k2 j2, E.varMarks i2 k2 j2 < e.iVar + 4 * (i - sp.nr_in) + q) ∧
        e.iVar + 4 * (i - sp.nr_in) + q < e.iVar + 4 * sp.nr_steps ∧
        ∀ i2 q2, sp.nr_in ≤ i2 → i2 < sp.nr_in + sp.nr_steps → q2 < 4 →
          e.iVar + 4 * (i - sp.nr_in) + q = e.iVar + 4 * (i2 - sp.nr_in) + q2 →
          i = i2 ∧ q = q2) ∧
      (∀ (S2 : solver_wrapper) (st2 st3 : List (List Nat)) (e1 : ditt_maj_encoder),
        add_cnf S2 st2 e sp m = (true, e1, st3) →
        e1.iVar = e.iVar + 4 * sp.nr_steps ∧ e1.varMarks = E.varMarks)) := by
  have key : (∀ i k j, (E.varMarks i k j ≠ 0 ↔ (i, k, j) ∈ ts) ∧ E.varMarks i k j < E.iVar) ∧
      (∀ i k j i2 k2 j2, E.varMarks i k j ≠ 0 → E.varMarks i2 k2 j2 ≠ 0 →
        E.varMarks i k j = E.varMarks i2 k2 j2 → i = i2 ∧ k = k2 ∧ j = j2) ∧
      (∀ v, 1 ≤ v → v < E.iVar → ∃ i k j, (i, k, j) ∈ ts ∧ E.varMarks i k j = v) := by
    rcases henc with ⟨h, rfl⟩ | ⟨f, h, rfl⟩
    · obtain ⟨-, rfl⟩ := cegar_encode_result S st st1 e0 E sp b h
      exact ⟨fun i k j => cegar_layout_marks e0 sp i k j,
        fun i k j i2 k2 j2 => cegar_layout_inj e0 sp i k j i2 k2 j2,
        fun v h1 h2 => cegar_layout_surj e0 sp v h1 h2⟩
    · obtain ⟨-, rfl⟩ := cegar_encode_fence_result S st st1 e0 E sp f b h
      exact ⟨fun i k j => cegar_layout_fence_marks e0 sp f i k j,
        fun i k j i2 k2 j2 => cegar_layout_fence_inj e0 sp f i k j i2 k2 j2,
        fun v h1 h2 => cegar_layout_fence_surj e0 sp f v h1 h2⟩
  obtain ⟨hmarks, hinj, hsurj⟩ := key
  refine ⟨fun i k j => (hmarks i k j).1, ?_, ?_, hsurj, ?_⟩
  · intro i k j i2 k2 j2 h1 h2 h
    exact hinj i k j i2 k2 j2 ((hmarks i k j).1.2 h1) ((hmarks i2 k2 j2).1.2 h2) h
  · intro i k j h
    have := (hmarks i k j).1.2 h
    exact ⟨by omega, (hmarks i k j).2⟩
  · intro e hvm hiv m
    refine ⟨?_, ?_, ?_⟩
    · intro c hc l hl
      rcases add_cnf_clause_vars e sp m c hc l hl with ⟨i, k, j, h1, h2⟩ | h
      · rw [hvm] at h1 h2
        exact Or.inl ⟨i, k, j, (hmarks i k j).1.1 h1, h2⟩
      · exact Or.inr h
    · intro i q hi1 hi2 hq
      refine ⟨by omega, ?_, by omega, ?_⟩
      · intro i2 k2 j2
        have := (hmarks i2 k2 j2).2
        omega
      · intro i2 q2 h1 h2 h3 h
        omega
    · intro S2 st2 st3 e1 h
      unfold add_cnf at h
      rcases hb : add_clauses S2 (add_cnf_clauses e sp m) st2 with ⟨b2, st4⟩
      rw [hb] at h
      cases b2 with
      | false => simp at h
      | true =>
        simp only [Prod.mk.injEq, true_and] at h
        rw [← h.1]
        exact ⟨rfl, hvm⟩

/-- Instance of C27: three inputs and the fence (1, 1) with the reference solver; the
    nine selectors allocated have the ids 1 .. 9 and `get_nr_vars()` is 10. -/
theorem variable_ids_fresh_witness :
    (clear_out_lits (cegar_layout_fence fresh_encoder ⟨3, 2, create_majority 3⟩ ⟨[1, 1]⟩)).iVar
      = 10 ∧
    (∀ i k j, (clear_out_lits (cegar_layout_fence fresh_encoder ⟨3, 2, create_majority 3⟩
        ⟨[1, 1]⟩)).varMarks i k j ≠ 0 ↔
      (i, k, j) ∈ layout_selectors_fence
        (update_level_map (cegar_reset fresh_encoder ⟨3, 2, create_majority 3⟩)
          ⟨3, 2, create_majority 3⟩ ⟨[1, 1]⟩) ⟨3, 2, create_majority 3⟩) ∧
    (∀ v, 1 ≤ v →
      v < (clear_out_lits (cegar_layout_fence fresh_encoder ⟨3, 2, create_majority 3⟩
        ⟨[1, 1]⟩)).iVar →
      ∃ i k j, (i, k, j) ∈ layout_selectors_fence
        (update_level_map (cegar_reset fresh_encoder ⟨3, 2, create_majority 3⟩)
          ⟨3, 2, create_majority 3⟩ ⟨[1, 1]⟩) ⟨3, 2, create_majority 3⟩ ∧
        (clear_out_lits (cegar_layout_fence fresh_encoder ⟨3, 2, create_majority 3⟩
          ⟨[1, 1]⟩)).varMarks i k j = v) := by
  have h := variable_ids_fresh brute_solver [] _ fresh_encoder _ ⟨3, 2, create_majority 3⟩ true
    _ (Or.inr ⟨⟨[1, 1]⟩, cegar_encode_fence_brute [] fresh_encoder ⟨3, 2, create_majority 3⟩
      ⟨[1, 1]⟩, rfl⟩)
  exact ⟨by decide, h.1, h.2.2.2.1⟩
/-! ## The base CNF is satisfiable -/

/-- A solver that refuses a clause only when the clauses become unsatisfiable accepts
    every clause of a satisfiable list. -/
theorem add_clauses_accept_sound (S : solver_wrapper)
    (hS : ∀ cs c, S.add_clause cs c = false → ¬ ∃ val, cnf_sat val (cs ++ [c]) = true)
    (cs st : List (List Nat)) (hsat : ∃ val, cnf_sat val (st ++ cs) = true) :
    add_clauses S cs st = (true, st ++ cs) := by
  induction cs generalizing st with
  | nil => simp [add_clauses]
  | cons c cs ih =>
    have hacc : S.add_clause st c = true := by
      cases h : S.add_clause st c
      · exfalso
        apply hS st c h
        obtain ⟨val, hv⟩ := hsat
        refine ⟨val, ?_⟩
        rw [cnf_sat_append] at hv ⊢
        rw [cnf_sat_cons, Bool.and_eq_true] at hv
        exact ⟨hv.1, by rw [cnf_sat_cons, hv.2.1]; rfl⟩
      · rfl
    rw [add_clauses, if_pos hacc]
    have : st ++ c :: cs = st ++ [c] ++ cs := by simp
    rw [this]
    apply ih
    rw [← this]
    exact hsat

/-- A choice of one allocated source per slot, decreasing over the slots of each step,
    gives a model of the base CNF, when the selector ids are pairwise distinct. -/
theorem base_sat_of_fanins (E : ditt_maj_encoder) (sp : spec) (fan : Nat → Nat → Nat)
    (hvars : ∀ i k j, E.varMarks i k j < E.iVar)
    (hinj : ∀ i k j i2 k2 j2, E.varMarks i k j ≠ 0 → E.varMarks i2 k2 j2 ≠ 0 →
      E.varMarks i k j = E.varMarks i2 k2 j2 → i = i2 ∧ k = k2 ∧ j = j2)
    (halloc : ∀ i k, sp.nr_in ≤ i → i < sp.nr_in + sp.nr_steps → k < 3 →
      E.varMarks i k (fan i k) ≠ 0)
    (hlt : ∀ i k, sp.nr_in ≤ i → i < sp.nr_in + sp.nr_steps → k < 3 →
      fan i k < sp.nr_in + sp.nr_steps)
    (hsorted : ∀ i, sp.nr_in ≤ i → i < sp.nr_in + sp.nr_steps →
      fan i 1 < fan i 0 ∧ fan i 2 < fan i 1) :
    cnf_sat (chain_model E sp fan (fun _ _ => false) []) (add_base_cnf_clauses E sp) = true := by
  have hsel : ∀ i k j, sp.nr_in ≤ i → i < sp.nr_in + sp.nr_steps → k < 3 →
      E.varMarks i k j ≠ 0 →
      (chain_model E sp fan (fun _ _ => false) [] (E.varMarks i k j) = true ↔ j = fan i k) := by
    intro i k j hi1 hi2 hk hm
    unfold chain_model
    rw [if_pos (hvars i k j)]
    simp only [List.any_eq_true, List.mem_range', List.mem_range, beq_iff_eq]
    constructor
    · rintro ⟨i2, ⟨x, hx, rfl⟩, k2, hk2, heq⟩
      have := hinj _ _ _ _ _ _ (halloc (sp.nr_in + 1 * x) k2 (by omega) (by omega) hk2) hm heq
      obtain ⟨a, b, c⟩ := this
      subst a b
      exact c.symm
    · intro hj
      exact ⟨i, ⟨i - sp.nr_in, by omega, by omega⟩, k, hk, by rw [hj]⟩
  rw [add_base_cnf_clauses_sat]
  intro i hi1 hi2 k hk
  refine ⟨⟨fan i k, hlt i k hi1 hi2 hk, halloc i k hi1 hi2 hk,
    (hsel i k _ hi1 hi2 hk (halloc i k hi1 hi2 hk)).2 rfl⟩, ?_, ?_⟩
  · rintro a b hab hb ha0 hb0 ⟨hva, hvb⟩
    have e1 := (hsel i k a hi1 hi2 hk ha0).1 hva
    have e2 := (hsel i k b hi1 hi2 hk hb0).1 hvb
    omega
  · rintro hk2 j n hjn hn hj0 hn0 ⟨hvj, hvn⟩
    have e1 := (hsel i k j hi1 hi2 hk hj0).1 hvj
    have e2 := (hsel i (k + 1) n hi1 hi2 (by omega) hn0).1 hvn
    obtain ⟨s1, s2⟩ := hsorted i hi1 hi2
    have : k = 0 ∨ k = 1 := by omega
    rcases this with rfl | rfl
    · simp only [Nat.zero_add] at e2
      omega
    · simp only [Nat.reduceAdd] at e2
      omega

/-- No clause of the base CNF is empty when every slot has an allocated selector. -/
theorem base_clauses_nonempty (E : ditt_maj_encoder) (sp : spec)
    (hslot : ∀ i k, sp.nr_in ≤ i → i < sp.nr_in + sp.nr_steps → k < 3 →
      ∃ j, j < sp.nr_in + sp.nr_steps ∧ E.varMarks i k j ≠ 0)
    (c : List Nat) (hc : c ∈ add_base_cnf_clauses E sp) : c ≠ [] := by
  rw [add_base_cnf_clauses_eq] at hc
  simp only [List.mem_flatMap, List.mem_range', List.mem_range] at hc
  obtain ⟨i, ⟨x, hx, rfl⟩, k, hk, hc⟩ := hc
  unfold slot_clauses at hc
  simp only [List.mem_append, List.mem_singleton] at hc
  rcases hc with (rfl | hc) | hc
  · obtain ⟨j, hj, hm⟩ := hslot (sp.nr_in + 1 * x) k (by omega) (by omega) hk
    intro h0
    have hmem : Abc_Var2Lit (E.varMarks (sp.nr_in + 1 * x) k j) 0 ∈
        slot_lits E sp (sp.nr_in + 1 * x) k := by
      unfold slot_lits
      rw [List.mem_flatMap]
      refine ⟨j, List.mem_range.2 hj, ?_⟩
      rw [if_pos hm]
      exact List.mem_singleton.2 rfl
    rw [h0] at hmem
    simp at hmem
  · unfold at_most_one at hc
    simp only [List.mem_flatMap, List.mem_map] at hc
    obtain ⟨n, -, m, -, rfl⟩ := hc
    simp
  · split at hc
    · simp at hc
    · unfold symmetry_breaking at hc
      simp only [List.mem_flatMap] at hc
      obtain ⟨j, -, hc⟩ := hc
      split at hc
      · simp only [List.mem_flatMap] at hc
        obtain ⟨n, -, hc⟩ := hc
        split at hc
        · simp only [List.mem_singleton] at hc
          rw [hc]
          simp
        · simp at hc
      · simp at hc

/-- C26. For at least three inputs, with the layout of `cegar_encode` without a fence or
    under a fence of positive level sizes summing to `nr_steps` (no bound on
    `nr_in + nr_steps` is needed): every slot of every step has an allocated selector, no
    clause of the base CNF is empty, the base CNF is satisfiable, and with a solver that
    refuses a clause only when the clauses become unsatisfiable `add_base_cnf`, called
    on the restarted solver, hits no `assert(false)` and returns. -/
theorem base_cnf_satisfiable (e0 E : ditt_maj_encoder) (sp : spec) (hn : 3 ≤ sp.nr_in)
    (hE : E = cegar_layout e0 sp ∨ ∃ f, fence_valid f sp ∧ E = cegar_layout_fence e0 sp f) :
    (∀ i k, sp.nr_in ≤ i → i < sp.nr_in + sp.nr_steps → k < 3 →
      ∃ j, j < sp.nr_in + sp.nr_steps ∧ E.varMarks i k j ≠ 0) ∧
    (∀ c ∈ add_base_cnf_clauses E sp, c ≠ []) ∧
    (∃ val, cnf_sat val (add_base_cnf_clauses E sp) = true) ∧
    (∀ S : solver_wrapper,
      (∀ cs c, S.add_clause cs c = false → ¬ ∃ val, cnf_sat val (cs ++ [c]) = true) →
      add_base_cnf S [] E sp = some (clear_out_lits E, add_base_cnf_clauses E sp)) := by
  have key : ∃ fan : Nat → Nat → Nat,
      (∀ i k, sp.nr_in ≤ i → i < sp.nr_in + sp.nr_steps → k < 3 →
        E.varMarks i k (fan i k) ≠ 0) ∧
      (∀ i k, sp.nr_in ≤ i → i < sp.nr_in + sp.nr_steps → k < 3 →
        fan i k < sp.nr_in + sp.nr_steps) ∧
      (∀ i, sp.nr_in ≤ i → i < sp.nr_in + sp.nr_steps →
        fan i 1 < fan i 0 ∧ fan i 2 < fan i 1) ∧
      (∀ i k j, E.varMarks i k j < E.iVar) ∧
      (∀ i k j i2 k2 j2, E.varMarks i k j ≠ 0 → E.varMarks i2 k2 j2 ≠ 0 →
        E.varMarks i k j = E.varMarks i2 k2 j2 → i = i2 ∧ k = k2 ∧ j = j2) := by
    rcases hE with rfl | ⟨f, hf, rfl⟩
    · refine ⟨fun _ k => 2 - k, ?_, ?_, ?_, fun i k j => (cegar_layout_marks e0 sp i k j).2,
        fun i k j i2 k2 j2 => cegar_layout_inj e0 sp i k j i2 k2 j2⟩
      · intro i k hi1 hi2 hk
        rw [(cegar_layout_marks e0 sp i k _).1, mem_layout_selectors]
        by_cases hi : i = sp.nr_in
        · exact Or.inl ⟨hi, hk, rfl⟩
        · exact Or.inr ⟨by omega, hi2, hk, by beta_reduce; omega⟩
      · intro i k hi1 hi2 hk
        beta_reduce
        omega
      · intro i hi1 hi2
        beta_reduce
        omega
    · have hfirst : ∀ i, sp.nr_in < i → i < sp.nr_in + sp.nr_steps →
          first_step_on_level (update_level_map (cegar_reset e0 sp) sp f)
            (get_level (update_level_map (cegar_reset e0 sp) sp f) sp i - 1) <
          first_step_on_level (update_level_map (cegar_reset e0 sp) sp f)
            (get_level (update_level_map (cegar_reset e0 sp) sp f) sp i) ∧
          3 ≤ first_step_on_level (update_level_map (cegar_reset e0 sp) sp f)
            (get_level (update_level_map (cegar_reset e0 sp) sp f) sp i) ∧
          first_step_on_level (update_level_map (cegar_reset e0 sp) sp f)
            (get_level (update_level_map (cegar_reset e0 sp) sp f) sp i) ≤ i := by
        intro i hi1 hi2
        obtain ⟨a1, a2, a3⟩ := get_level_of_valid (cegar_reset e0 sp) sp f hf i (by omega) hi2
        generalize get_level (update_level_map (cegar_reset e0 sp) sp f) sp i = t at a1 a2 a3 ⊢
        rw [first_step_on_level_eq _ sp f (t - 1) (by omega),
          first_step_on_level_eq _ sp f t (by omega), if_neg (by omega : ¬ t = 0)]
        unfold on_level at a3
        rw [if_neg (by omega)] at a3
        have hge : sp.nr_in ≤ fence_dist f sp.nr_in (t - 1) := by
          unfold fence_dist
          omega
        refine ⟨?_, by omega, a3.1⟩
        split
        · omega
        · exact fence_dist_lt f sp hf _ _ (by omega) (by omega)
      have hfan : ∃ fan : Nat → Nat → Nat, ∀ i k, fan i k = if k = 0 then
          max 2 (first_step_on_level (update_level_map (cegar_reset e0 sp) sp f)
            (get_level (update_level_map (cegar_reset e0 sp) sp f) sp i - 1))
          else 2 - k := ⟨_, fun _ _ => rfl⟩
      obtain ⟨fan, hfan⟩ := hfan
      have hlevel : get_level (update_level_map (cegar_reset e0 sp) sp f) sp sp.nr_in = 1 := by
        unfold get_level
        rw [if_neg (by omega), if_pos rfl]
      have hfan0 : fan sp.nr_in 0 = 2 := by
        rw [hfan, if_pos rfl, hlevel]
        simp [first_step_on_level]
      refine ⟨fan, ?_, ?_, ?_,
        fun i k j => (cegar_layout_fence_marks e0 sp f i k j).2,
        fun i k j i2 k2 j2 => cegar_layout_fence_inj e0 sp f i k j i2 k2 j2⟩
      · intro i k hi1 hi2 hk
        rw [(cegar_layout_fence_marks e0 sp f i k _).1, mem_layout_selectors_fence]
        by_cases hi : i = sp.nr_in
        · left
          refine ⟨hi, hk, ?_⟩
          by_cases hk0 : k = 0
          · rw [hk0, hi, hfan0]
          · rw [hfan, if_neg hk0]
        · right
          obtain ⟨b1, b2, b3⟩ := hfirst i (by omega) hi2
          refine ⟨by omega, hi2, ?_⟩
          by_cases hk0 : k = 0
          · left
            rw [hfan, if_pos hk0]
            refine ⟨hk0, le_max_right _ _, ?_⟩
            rw [max_lt_iff]
            exact ⟨by omega, b1⟩
          · right
            rw [hfan, if_neg hk0]
            exact ⟨by omega, hk, by omega⟩
      · intro i k hi1 hi2 hk
        by_cases hk0 : k = 0
        · by_cases hi : i = sp.nr_in
          · rw [hk0, hi, hfan0]
            omega
          · rw [hfan, if_pos hk0, max_lt_iff]
            obtain ⟨b1, b2, b3⟩ := hfirst i (by omega) hi2
            omega
        · rw [hfan, if_neg hk0]
          omega
      · intro i hi1 hi2
        have h0 := hfan i 0
        have h1 := hfan i 1
        have h2 := hfan i 2
        rw [if_pos rfl] at h0
        rw [if_neg (by decide)] at h1 h2
        have := le_max_left 2 (first_step_on_level (update_level_map (cegar_reset e0 sp) sp f)
          (get_level (update_level_map (cegar_reset e0 sp) sp f) sp i - 1))
        omega
  obtain ⟨fan, halloc, hlt, hsorted, hvars, hinj⟩ := key
  have hslot : ∀ i k, sp.nr_in ≤ i → i < sp.nr_in + sp.nr_steps → k < 3 →
      ∃ j, j < sp.nr_in + sp.nr_steps ∧ E.varMarks i k j ≠ 0 :=
    fun i k hi1 hi2 hk => ⟨fan i k, hlt i k hi1 hi2 hk, halloc i k hi1 hi2 hk⟩
  have hsat := base_sat_of_fanins E sp fan hvars hinj halloc hlt hsorted
  refine ⟨hslot, base_clauses_nonempty E sp hslot, ⟨_, hsat⟩, ?_⟩
  intro S hS
  unfold add_base_cnf
  rw [add_clauses_accept_sound S hS _ [] ⟨_, by rw [List.nil_append]; exact hsat⟩]
  rfl

/-- Instance of C26: three inputs and the fence (2, 1) with the reference solver. -/
theorem base_cnf_satisfiable_witness :
    fence_valid ⟨[2, 1]⟩ ⟨3, 3, create_majority 3⟩ ∧
    (∀ c ∈ add_base_cnf_clauses
      (cegar_layout_fence fresh_encoder ⟨3, 3, create_majority 3⟩ ⟨[2, 1]⟩)
      ⟨3, 3, create_majority 3⟩, c ≠ []) ∧
    (∃ val, cnf_sat val (add_base_cnf_clauses
      (cegar_layout_fence fresh_encoder ⟨3, 3, create_majority 3⟩ ⟨[2, 1]⟩)
      ⟨3, 3, create_majority 3⟩) = true) ∧
    add_base_cnf brute_solver []
      (cegar_layout_fence fresh_encoder ⟨3, 3, create_majority 3⟩ ⟨[2, 1]⟩)
      ⟨3, 3, create_majority 3⟩ =
      some (clear_out_lits (cegar_layout_fence fresh_encoder ⟨3, 3, create_majority 3⟩ ⟨[2, 1]⟩),
        add_base_cnf_clauses
          (cegar_layout_fence fresh_encoder ⟨3, 3, create_majority 3⟩ ⟨[2, 1]⟩)
          ⟨3, 3, create_majority 3⟩) := by
  have hf : fence_valid ⟨[2, 1]⟩ ⟨3, 3, create_majority 3⟩ := ⟨by decide, by decide⟩
  have h := base_cnf_satisfiable fresh_encoder
    (cegar_layout_fence fresh_encoder ⟨3, 3, create_majority 3⟩ ⟨[2, 1]⟩)
    ⟨3, 3, create_majority 3⟩ (by decide) (Or.inr ⟨⟨[2, 1]⟩, hf, rfl⟩)
  exact ⟨hf, h.2.1, h.2.2.1, h.2.2.2 brute_solver
    (fun cs c hc => absurd (hc : true = false) Bool.noConfusion)⟩
/-! ## The minterms of one fence are pairwise distinct -/

/-- Unwinding a successful call of `simulate`. -/
theorem simulate_split (e e2 : ditt_maj_encoder) (sp : spec) (val : Nat → Bool) (r : Int)
    (h : simulate e sp val = some (r, e2)) :
    simulate_tts e sp val = some e2 ∧ r = first_difference e2 sp := by
  unfold simulate at h
  cases hs : simulate_tts e sp val with
  | none => rw [hs] at h; simp at h
  | some e1 =>
    rw [hs] at h
    simp only at h
    split at h
    · simp only [Option.some.injEq, Prod.mk.injEq] at h
      obtain ⟨h1, rfl⟩ := h
      exact ⟨rfl, h1.symm⟩
    · simp at h

/-- What `simulate` returns is -1 or a minterm in `[1, 2^nr_in)` at which the table of
    the last step differs from `spec[0]`. -/
theorem simulate_result (e e2 : ditt_maj_encoder) (sp : spec) (val : Nat → Bool) (r : Int)
    (h : simulate e sp val = some (r, e2)) :
    r = -1 ∨ ∃ m : Nat, r = (m : Int) ∧ 1 ≤ m ∧ m < 2 ^ sp.nr_in ∧
      e2.sim_tts (sp.nr_in + sp.nr_steps - 1) m ≠ sp.out0 m := by
  obtain ⟨-, hr⟩ := simulate_split e e2 sp val r h
  by_cases hne : r = -1
  · exact Or.inl hne
  · obtain ⟨m, hm, hb, -⟩ := first_difference_some e2 sp r hr.symm hne
    exact Or.inr ⟨m, hm, hb.1, hb.2.1, hb.2.2.2.2⟩

/-- The number of calls of `add_cnf` the inner loop reports, and the length of the
    trace when the fuel runs out. -/
theorem cegar_loop_trace (S : solver_wrapper) (sp : spec) (fuel : Nat) (e : ditt_maj_encoder)
    (st : List (List Nat)) (iMint : Int) (i : Nat) :
    (∀ n e1, cegar_loop S sp fuel e st iMint i = fence_outcome.found n e1 →
      n = i + (cegar_trace S sp fuel e st iMint).length) ∧
    (cegar_loop S sp fuel e st iMint i = fence_outcome.out_of_fuel →
      (cegar_trace S sp fuel e st iMint).length = fuel) := by
  induction fuel generalizing e st iMint i with
  | zero =>
    rw [cegar_loop, cegar_trace]
    exact ⟨fun n e1 h => fence_outcome.noConfusion h, fun _ => rfl⟩
  | succ fuel ih =>
    rw [cegar_loop, cegar_trace]
    by_cases h1 : iMint = -1
    · rw [if_pos h1, if_pos h1]
      refine ⟨?_, fun h => fence_outcome.noConfusion h⟩
      intro n e1 h
      simp only [fence_outcome.found.injEq] at h
      simp only [List.length_nil]
      omega
    · rw [if_neg h1, if_neg h1]
      rcases hadd : add_cnf S st e sp iMint.toNat with ⟨b, e1, st1⟩
      cases b with
      | false =>
        simp only
        exact ⟨fun n e1 h => fence_outcome.noConfusion h, fun h => fence_outcome.noConfusion h⟩
      | true =>
        simp only
        cases hsolve : S.solve st1 with
        | none =>
          simp only
          exact ⟨fun n e1 h => fence_outcome.noConfusion h,
            fun h => fence_outcome.noConfusion h⟩
        | some val =>
          simp only
          cases hsim : simulate e1 sp val with
          | none =>
            simp only
            exact ⟨fun n e1 h => fence_outcome.noConfusion h,
              fun h => fence_outcome.noConfusion h⟩
          | some p =>
            obtain ⟨m2, e2⟩ := p
            simp only [List.length_cons]
            obtain ⟨a, b⟩ := ih e2 st1 m2 (i + 1)
            refine ⟨?_, ?_⟩
            · intro n e3 h
              have := a n e3 h
              omega
            · intro h
              have := b h
              omega

/-- A model of the clauses of successive calls of `add_cnf` is a model of the clauses of
    each call. -/
theorem cegar_clauses_sat_mem (e : ditt_maj_encoder) (sp : spec) (v : Nat → Bool) (M : List Nat)
    (h : cnf_sat v (cegar_clauses e sp M) = true) (d : Nat) (hd : d ∈ M) :
    ∃ c, cnf_sat v (add_cnf_clauses { e with iVar := e.iVar + 4 * sp.nr_steps * c } sp d) = true := by
  induction M generalizing e with
  | nil => simp at hd
  | cons m ms ih =>
    rw [cegar_clauses, cnf_sat_append] at h
    rcases List.mem_cons.1 hd with rfl | hd
    · exact ⟨0, h.1⟩
    · obtain ⟨c, hc⟩ := ih _ h.2 hd
      refine ⟨c + 1, ?_⟩
      refine Eq.trans (congrArg (cnf_sat v) (add_cnf_clauses_congr _ _ sp d ?_ ?_)) hc
      · show e.iVar + 4 * sp.nr_steps * (c + 1) = e.iVar + 4 * sp.nr_steps + 4 * sp.nr_steps * c
        rw [Nat.mul_add, Nat.mul_one]
        omega
      · rfl

/-- In a model of the base CNF and of the clauses `add_cnf` added for minterm `d`, the
    chain that `simulate` decodes has the majority value at `d` in its last step. -/
theorem sim_root_value (E e1 e2 : ditt_maj_encoder) (sp : spec) (val : Nat → Bool)
    (off d : Nat) (m2 : Int) (hn : 3 ≤ sp.nr_in) (hs : 1 ≤ sp.nr_steps) (hl : has_layout E sp)
    (hvars : ∀ i k j, E.varMarks i k j < E.iVar)
    (hvm : e1.varMarks = E.varMarks)
    (hin : ∀ x, x < sp.nr_in → e1.sim_tts x = create_nth_var x)
    (hbase : cnf_sat val (add_base_cnf_clauses E sp) = true)
    (hd : cnf_sat val (add_cnf_clauses { E with iVar := E.iVar + off } sp d) = true)
    (hsim : simulate e1 sp val = some (m2, e2)) :
    e2.sim_tts (sp.nr_in + sp.nr_steps - 1) d = decide (Maj_ManValue d sp.nr_in = 1) := by
  have hdec : decodes E sp val := decodes_of_base E sp val hl hn hbase
  have hff : ∀ i k, find_fanin e1 sp val i k = find_fanin E sp val i k :=
    fun i k => find_fanin_congr E e1 sp val i k hvm
  have hdec1 : decodes e1 sp val := by
    intro i hi1 hi2 k hk
    rw [hff]
    exact hdec i hi1 hi2 k hk
  have hfo : ∀ i k, fanin_of e1 sp val i k =
      fanin_of { E with iVar := E.iVar + off } sp val i k := by
    intro i k
    unfold fanin_of
    rw [hff]
    rfl
  obtain ⟨e3, h1, -, hout, hstep⟩ := simulate_tts_spec e1 sp val hdec1
  obtain ⟨h2, -⟩ := simulate_split e1 e2 sp val m2 hsim
  rw [h1] at h2
  obtain rfl : e3 = e2 := Option.some.inj h2
  have hin2 : ∀ x, x < sp.nr_in → e3.sim_tts x = create_nth_var x := by
    intro x hx
    rw [hout x (by omega), hin x hx]
  have hall : ∀ i, sp.nr_in ≤ i → i < sp.nr_in + sp.nr_steps → ∀ k, k < 3 →
      slot_ok { E with iVar := E.iVar + off } sp val i k :=
    (add_base_cnf_clauses_sat val E sp).1 hbase
  have hstep2 : ∀ i, sp.nr_in ≤ i → i < sp.nr_in + sp.nr_steps →
      e3.sim_tts i = ternary_majority
        (e3.sim_tts (fanin_of { E with iVar := E.iVar + off } sp val i 0))
        (e3.sim_tts (fanin_of { E with iVar := E.iVar + off } sp val i 1))
        (e3.sim_tts (fanin_of { E with iVar := E.iVar + off } sp val i 2)) := by
    intro i hi1 hi2
    rw [← hfo, ← hfo, ← hfo]
    exact hstep i hi1 hi2
  have hi1 : sp.nr_in ≤ sp.nr_in + sp.nr_steps - 1 := by omega
  have hi2 : sp.nr_in + sp.nr_steps - 1 < sp.nr_in + sp.nr_steps := by omega
  have hA := (sat_follows_chain { E with iVar := E.iVar + off } sp val val e3.sim_tts d hall
    (fun i k a b c => by rw [← hfo]; exact (fanin_of_lt e1 sp val hdec1 i k a b c).2)
    (fun i k j => Nat.lt_of_lt_of_le (hvars i k j) (Nat.le_add_right _ _)) hin2 hstep2
    (fun x _ => rfl) hd _ hi1 hi2).1
  have hf := ((add_cnf_clauses_sat _ sp d val).1 hd _ hi1 hi2).2
  rw [functionality_sat_last _ sp d _ val rfl, hA 0 (by omega), hA 1 (by omega),
    hA 2 (by omega)] at hf
  rw [← hf, congrFun (hstep2 _ hi1 hi2) d]
  rfl

theorem maj_value_eq (d n : Nat) : decide (Maj_ManValue d n = 1) = create_majority n d := by
  unfold Maj_ManValue create_majority
  by_cases h : count_bits d n > n / 2 <;> simp [h]

/-- The invariant of the inner loop, three inputs or more: the minterms passed to
    `add_cnf` so far and from now on are pairwise distinct and below `2^nr_in`. -/
theorem cegar_trace_fresh (S : solver_wrapper)
    (hsound : ∀ cs val, S.solve cs = some val → cnf_sat val cs = true)
    (sp : spec) (E : ditt_maj_encoder) (hn : 3 ≤ sp.nr_in) (hs : 1 ≤ sp.nr_steps)
    (hl : has_layout E sp) (hvars : ∀ i k j, E.varMarks i k j < E.iVar)
    (hmaj : sp.out0 = create_majority sp.nr_in)
    (fuel : Nat) (e : ditt_maj_encoder) (st : List (List Nat)) (iMint : Int) (M : List Nat)
    (hvm : e.varMarks = E.varMarks) (hiv : e.iVar = E.iVar + 4 * sp.nr_steps * M.length)
    (hin : ∀ x, x < sp.nr_in → e.sim_tts x = create_nth_var x)
    (hst : st = add_base_cnf_clauses E sp ++ cegar_clauses E sp M)
    (hM : M.Nodup) (hMlt : ∀ m ∈ M, m < 2 ^ sp.nr_in)
    (hm : iMint = -1 ∨ ∃ m : Nat, iMint = (m : Int) ∧ m < 2 ^ sp.nr_in ∧ m ∉ M) :
    (M ++ cegar_trace S sp fuel e st iMint).Nodup ∧
    ∀ m ∈ M ++ cegar_trace S sp fuel e st iMint, m < 2 ^ sp.nr_in := by
  induction fuel generalizing e st iMint M with
  | zero =>
    rw [cegar_trace, List.append_nil]
    exact ⟨hM, hMlt⟩
  | succ fuel ih =>
    rw [cegar_trace]
    by_cases h1 : iMint = -1
    · rw [if_pos h1, List.append_nil]
      exact ⟨hM, hMlt⟩
    · rw [if_neg h1]
      obtain ⟨m, rfl, hmlt, hmM⟩ :
          ∃ m : Nat, iMint = (m : Int) ∧ m < 2 ^ sp.nr_in ∧ m ∉ M := by
        rcases hm with h | h
        · exact absurd h h1
        · exact h
      rw [Int.toNat_ofNat]
      have hM2 : (M ++ [m]).Nodup := by
        rw [List.nodup_append]
        refine ⟨hM, List.nodup_singleton m, ?_⟩
        intro x hx hx2
        rw [List.mem_singleton] at hx2
        subst hx2
        exact hmM hx
      have hMlt2 : ∀ x ∈ M ++ [m], x < 2 ^ sp.nr_in := by
        intro x hx
        rcases List.mem_append.1 hx with h | h
        · exact hMlt x h
        · rw [List.mem_singleton.1 h]; exact hmlt
      have hbasecase : (M ++ [m]).Nodup ∧ ∀ x ∈ M ++ [m], x < 2 ^ sp.nr_in := ⟨hM2, hMlt2⟩
      have happ : ∀ l : List Nat, M ++ m :: l = (M ++ [m]) ++ l := by
        intro l
        simp
      unfold add_cnf
      rcases hadd : add_clauses S (add_cnf_clauses e sp m) st with ⟨b, st1⟩
      cases b with
      | false =>
        simp only
        exact hbasecase
      | true =>
        simp only
        have hst1 := add_clauses_state S _ st st1 hadd
        have hcl : st1 = add_base_cnf_clauses E sp ++ cegar_clauses E sp (M ++ [m]) := by
          rw [hst1, hst, cegar_clauses_append, List.append_assoc]
          congr 2
          exact add_cnf_clauses_congr _ _ sp m hiv hvm
        cases hsolve : S.solve st1 with
        | none =>
          simp only
          exact hbasecase
        | some val =>
          simp only
          cases hsim : simulate { e with iVar := e.iVar + 4 * sp.nr_steps } sp val with
          | none =>
            simp only
            exact hbasecase
          | some p =>
            obtain ⟨m2, e2⟩ := p
            simp only
            rw [happ]
            obtain ⟨hfr, -⟩ := simulate_frame _ _ sp val m2 hsim
            have hval := hsound _ _ hsolve
            rw [hcl, cnf_sat_append] at hval
            have hout : ∀ x, ¬ (sp.nr_in ≤ x ∧ x < sp.nr_in + sp.nr_steps) →
                e2.sim_tts x = e.sim_tts x := by
              have hdec : decodes { e with iVar := e.iVar + 4 * sp.nr_steps } sp val := by
                intro i hi1 hi2 k hk
                rw [find_fanin_congr E { e with iVar := e.iVar + 4 * sp.nr_steps } sp val i k hvm]
                exact decodes_of_base E sp val hl hn hval.1 i hi1 hi2 k hk
              obtain ⟨e3, h1, -, hout, -⟩ := simulate_tts_spec _ sp val hdec
              obtain ⟨h2, -⟩ := simulate_split _ e2 sp val m2 hsim
              rw [h1] at h2
              obtain rfl : e3 = e2 := Option.some.inj h2
              exact hout
            apply ih e2 st1 m2 (M ++ [m])
            · rw [hfr.1]
              exact hvm
            · rw [hfr.2.1]
              simp only [hiv, List.length_append, List.length_singleton, Nat.mul_add, Nat.mul_one]
              omega
            · intro x hx
              rw [hout x (by omega)]
              exact hin x hx
            · exact hcl
            · exact hM2
            · exact hMlt2
            · rcases simulate_result _ e2 sp val m2 hsim with h | ⟨m3, h3, h4, h5, h6⟩
              · exact Or.inl h
              · refine Or.inr ⟨m3, h3, h5, ?_⟩
                intro hmem
                obtain ⟨c, hc⟩ := cegar_clauses_sat_mem E sp val _ hval.2 m3 hmem
                have := sim_root_value E { e with iVar := e.iVar + 4 * sp.nr_steps } e2 sp val
                  (4 * sp.nr_steps * c) m3 m2 hn hs hl hvars hvm hin hval.1 hc hsim
                rw [maj_value_eq, ← hmaj] at this
                exact h6 this
theorem cegar_trace_stop (S : solver_wrapper) (sp : spec) (fuel : Nat) (e : ditt_maj_encoder)
    (st : List (List Nat)) : cegar_trace S sp fuel e st (-1) = [] := by
  cases fuel with
  | zero => rw [cegar_trace]
  | succ fuel => rw [cegar_trace, if_pos rfl]

/-- The trace of a fence is empty or starts with minterm 0. -/
theorem fence_trace_head (S : solver_wrapper) (nr_in : Nat) (target : truth_table)
    (e : ditt_maj_encoder) (f : fence) (fuel : Nat) :
    fence_trace S nr_in target e f fuel = [] ∨
      ∃ r, fence_trace S nr_in target e f fuel = 0 :: r := by
  unfold fence_trace
  rcases hb : cegar_encode_fence S [] e ⟨nr_in, f.nr_nodes, target⟩ f with _ | ⟨b, e1, st1⟩
  · exact Or.inl rfl
  · cases b with
    | false => exact Or.inl rfl
    | true =>
      simp only
      cases fuel with
      | zero => left; rw [cegar_trace]
      | succ fuel =>
        right
        rw [cegar_trace, if_neg (by decide)]
        exact ⟨_, rfl⟩

/-- When the first call of `simulate` on a fence can only return -1, `add_cnf` is called
    at most once, with minterm 0. -/
theorem fence_trace_single (S : solver_wrapper)
    (hsound : ∀ cs val, S.solve cs = some val → cnf_sat val cs = true)
    (nr_in : Nat) (target : truth_table) (e : ditt_maj_encoder) (f : fence) (fuel : Nat)
    (h : ∀ (val : Nat → Bool) (m2 : Int) (e2 : ditt_maj_encoder),
      cnf_sat val (add_base_cnf_clauses (cegar_layout_fence e ⟨nr_in, f.nr_nodes, target⟩ f)
        ⟨nr_in, f.nr_nodes, target⟩) = true →
      simulate { clear_out_lits (cegar_layout_fence e ⟨nr_in, f.nr_nodes, target⟩ f) with
          iVar := (cegar_layout_fence e ⟨nr_in, f.nr_nodes, target⟩ f).iVar + 4 * f.nr_nodes }
        ⟨nr_in, f.nr_nodes, target⟩ val = some (m2, e2) → m2 = -1) :
    fence_trace S nr_in target e f fuel = [] ∨ fence_trace S nr_in target e f fuel = [0] := by
  unfold fence_trace cegar_encode_fence add_base_cnf
  rcases hb : add_clauses S (add_base_cnf_clauses
      (cegar_layout_fence e ⟨nr_in, f.nr_nodes, target⟩ f) ⟨nr_in, f.nr_nodes, target⟩) []
    with ⟨b, st1⟩
  cases b with
  | false => exact Or.inl rfl
  | true =>
    have hst1 := add_clauses_state S _ _ _ hb
    simp only
    cases fuel with
    | zero => left; rw [cegar_trace]
    | succ fuel =>
      right
      rw [cegar_trace, if_neg (by decide)]
      unfold add_cnf
      rcases hc : add_clauses S (add_cnf_clauses
          (clear_out_lits (cegar_layout_fence e ⟨nr_in, f.nr_nodes, target⟩ f))
          ⟨nr_in, f.nr_nodes, target⟩ (0 : Int).toNat) st1 with ⟨b2, st2⟩
      cases b2 with
      | false => rfl
      | true =>
        have hst2 := add_clauses_state S _ _ _ hc
        simp only
        cases hsolve : S.solve st2 with
        | none => rfl
        | some val =>
          have hv := hsound _ _ hsolve
          rw [hst2, hst1, cnf_sat_append, cnf_sat_append] at hv
          simp only
          cases hsim : simulate { clear_out_lits
              (cegar_layout_fence e ⟨nr_in, f.nr_nodes, target⟩ f) with
              iVar := (clear_out_lits (cegar_layout_fence e ⟨nr_in, f.nr_nodes, target⟩ f)).iVar
                + 4 * (⟨nr_in, f.nr_nodes, target⟩ : spec).nr_steps }
              ⟨nr_in, f.nr_nodes, target⟩ val with
          | none => rfl
          | some p =>
            obtain ⟨m2, e2⟩ := p
            simp only
            have := h val m2 e2 hv.1.2 hsim
            rw [this, cegar_trace_stop]
            rfl

/-- Zero inputs: `simulate` can only return -1. -/
theorem simulate_zero_inputs (e e2 : ditt_maj_encoder) (sp : spec) (val : Nat → Bool) (r : Int)
    (hn : sp.nr_in = 0) (h : simulate e sp val = some (r, e2)) : r = -1 := by
  rcases simulate_result e e2 sp val r h with h1 | ⟨m, -, h2, h3, -⟩
  · exact h1
  · rw [hn] at h3
    simp at h3
    omega

/-- With one input the base CNF under a fence has no model: step 1 has no source for
    slot 0 when it is the only step, and step 2 has none for slot 2 otherwise. -/
theorem one_input_unsat (e : ditt_maj_encoder) (f : fence) (target : truth_table)
    (s : Nat) (hs : 1 ≤ s) (val : Nat → Bool) :
    cnf_sat val (add_base_cnf_clauses (cegar_layout_fence e ⟨1, s, target⟩ f) ⟨1, s, target⟩)
      ≠ true := by
  by_cases h2 : 2 ≤ s
  · exact one_input_base_unsat e f target s h2 val
  · intro h
    have hslot := (add_base_cnf_clauses_sat val _ _).1 h 1 (by simp) (by simp; omega) 0 (by omega)
    obtain ⟨⟨j, hj1, hj, -⟩, -⟩ := hslot
    rw [(cegar_layout_fence_marks e ⟨1, s, target⟩ f 1 0 j).1, mem_layout_selectors_fence] at hj
    simp only at hj hj1
    omega
/-! ## Two inputs: every step computes the conjunction -/

/-- The tables of the steps are zero after the reset in `cegar_encode`. -/
theorem cegar_reset_steps (e : ditt_maj_encoder) (sp : spec) (x : Nat) (h1 : sp.nr_in ≤ x)
    (h2 : x < sp.nr_in + sp.nr_steps) : (cegar_reset e sp).sim_tts x = fun _ => false := by
  obtain ⟨-, -, -, -, -, h6⟩ := foldl_sim_tts
    (fun i => if i < sp.nr_in then create_nth_var i else fun _ => false)
    (List.range' 0 (sp.nr_in + sp.nr_steps - 0)) { e with varMarks := fun _ _ _ => 0 }
  have := h6 x
  rw [if_pos (List.mem_range'.2 ⟨x, by omega, by omega⟩), if_neg (by omega)] at this
  exact this

theorem cegar_layout_fence_steps (e0 : ditt_maj_encoder) (sp : spec) (f : fence) (x : Nat)
    (h1 : sp.nr_in ≤ x) (h2 : x < sp.nr_in + sp.nr_steps) :
    (cegar_layout_fence e0 sp f).sim_tts x = fun _ => false := by
  unfold cegar_layout_fence
  rw [add_base_variables_fence_eq, (push_selectors_frame _ _).2.2.1]
  show (update_level_map (cegar_reset e0 sp) sp f).sim_tts x = _
  rw [(update_level_map_spec _ sp f).2.2.2.2.1]
  exact cegar_reset_steps e0 sp x h1 h2

/-- Under a fence an allocated selector of a step after the first has its source below
    the step; those of the first step have the sources 2, 1, 0. -/
theorem cegar_layout_fence_sources (e : ditt_maj_encoder) (sp : spec) (f : fence)
    (i k j : Nat) (h : (cegar_layout_fence e sp f).varMarks i k j ≠ 0) :
    (i = sp.nr_in ∧ k < 3 ∧ j = 2 - k) ∨ (sp.nr_in < i ∧ j < i) := by
  rw [(cegar_layout_fence_marks e sp f i k j).1, mem_layout_selectors_fence] at h
  rcases h with h | ⟨h1, h2, h3 | h3⟩
  · exact Or.inl h
  · right
    have hl := get_level_pos (update_level_map (cegar_reset e sp) sp f) sp i h1
      (update_level_map_spec _ sp f).2.2.2.2.2
    obtain ⟨hk, h4, h5⟩ := h3
    unfold first_step_on_level at h5
    rw [if_neg (by omega)] at h5
    exact ⟨h1, by omega⟩
  · exact Or.inr ⟨h1, by omega⟩

theorem and_tt_first :
    ternary_majority (fun _ => false) (create_nth_var 1) (create_nth_var 0) =
      fun m => create_nth_var 1 m && create_nth_var 0 m := by
  funext m
  unfold ternary_majority
  simp

theorem and_tt_inputs :
    ternary_majority (fun m => create_nth_var 1 m && create_nth_var 0 m) (create_nth_var 1)
      (create_nth_var 0) = fun m => create_nth_var 1 m && create_nth_var 0 m := by
  funext m
  unfold ternary_majority
  beta_reduce
  cases create_nth_var 1 m <;> cases create_nth_var 0 m <;> rfl

/-- One round of the first loop of `simulate` in a model of the base CNF. -/
theorem simulate_step_ok (E e : ditt_maj_encoder) (sp : spec) (val : Nat → Bool)
    (hvm : e.varMarks = E.varMarks) (i : Nat)
    (hall : ∀ k, k < 3 → slot_ok E sp val i k) :
    simulate_step sp val e i = some { e with sim_tts := (set1 e.sim_tts i
      (ternary_majority (e.sim_tts (fanin_of E sp val i 0)) (e.sim_tts (fanin_of E sp val i 1))
        (e.sim_tts (fanin_of E sp val i 2)))) } := by
  have hf : ∀ k, k < 3 → find_fanin e sp val i k = some (fanin_of E sp val i k) := by
    intro k hk
    rw [find_fanin_congr E e sp val i k hvm]
    obtain ⟨j, -, -, -, -, -, h2⟩ := find_fanin_of_slot_ok E sp val i k (hall k hk)
    unfold fanin_of
    rw [h2]
    rfl
  unfold simulate_step
  rw [hf 0 (by omega), hf 1 (by omega), hf 2 (by omega)]

/-- With two inputs the first loop of `simulate`, started on the tables that
    `cegar_encode` leaves, gives every step the conjunction of the two inputs. -/
theorem two_inputs_and (E e : ditt_maj_encoder) (sp : spec) (val : Nat → Bool)
    (hn : sp.nr_in = 2)
    (hsrc : ∀ i k j, E.varMarks i k j ≠ 0 →
      (i = sp.nr_in ∧ k < 3 ∧ j = 2 - k) ∨ (sp.nr_in < i ∧ j < i))
    (hall : ∀ i, sp.nr_in ≤ i → i < sp.nr_in + sp.nr_steps → ∀ k, k < 3 → slot_ok E sp val i k)
    (hvm : e.varMarks = E.varMarks)
    (hin : ∀ x, x < sp.nr_in → e.sim_tts x = create_nth_var x)
    (hzero : ∀ x, sp.nr_in ≤ x → x < sp.nr_in + sp.nr_steps → e.sim_tts x = fun _ => false)
    (t : Nat) (ht : t ≤ sp.nr_steps) :
    ∃ e2, (List.range' sp.nr_in t).foldlM (simulate_step sp val) e = some e2 ∧
      e2.varMarks = E.varMarks ∧
      (∀ x, ¬ (sp.nr_in ≤ x ∧ x < sp.nr_in + t) → e2.sim_tts x = e.sim_tts x) ∧
      (∀ i, sp.nr_in ≤ i → i < sp.nr_in + t →
        e2.sim_tts i = fun m => create_nth_var 1 m && create_nth_var 0 m) := by
  induction t with
  | zero =>
    exact ⟨e, rfl, hvm, fun _ _ => rfl, fun i h1 h2 => by omega⟩
  | succ t ih =>
    obtain ⟨e1, h1, hv1, hout, hand⟩ := ih (by omega)
    have hs := hall (sp.nr_in + 1 * t) (by omega) (by omega)
    have hstep := simulate_step_ok E e1 sp val hv1 (sp.nr_in + 1 * t) hs
    rw [List.range'_concat, List.foldlM_append, h1]
    simp only [Option.bind_eq_bind, Option.some_bind, List.foldlM_cons, List.foldlM_nil, hstep]
    refine ⟨_, rfl, hv1, ?_, ?_⟩
    · intro x hx
      simp only [set1]
      rw [if_neg (by omega)]
      exact hout x (by omega)
    · intro i hi1 hi2
      simp only [set1]
      by_cases hi : i = sp.nr_in + 1 * t
      · rw [if_pos hi]
        obtain ⟨-, a0, b0, -⟩ := fanin_of_selected E sp val _ 0 (hs 0 (by omega))
        obtain ⟨a1l, a1, b1, -⟩ := fanin_of_selected E sp val _ 1 (hs 1 (by omega))
        obtain ⟨a2l, a2, b2, -⟩ := fanin_of_selected E sp val _ 2 (hs 2 (by omega))
        have d1 := selected_decreasing E sp val _ 0 _ _ (by omega) (hs 0 (by omega)) a1l a0 b0 a1 b1
        have d2 := selected_decreasing E sp val _ 1 _ _ (by omega) (hs 1 (by omega)) a2l a1 b1 a2 b2
        have s0 := hsrc _ _ _ a0
        have s1 := hsrc _ _ _ a1
        have s2 := hsrc _ _ _ a2
        generalize fanin_of E sp val (sp.nr_in + 1 * t) 0 = f0 at *
        generalize fanin_of E sp val (sp.nr_in + 1 * t) 1 = f1 at *
        generalize fanin_of E sp val (sp.nr_in + 1 * t) 2 = f2 at *
        have hval : ∀ x, x < sp.nr_in + 1 * t →
            e1.sim_tts x = if x < 2 then create_nth_var x
              else fun m => create_nth_var 1 m && create_nth_var 0 m := by
          intro x hx
          by_cases hx2 : x < 2
          · rw [if_pos hx2, hout x (by omega), hin x (by omega)]
          · rw [if_neg hx2]
            exact hand x (by omega) (by omega)
        by_cases ht0 : t = 0
        · subst ht0
          have e0 : f0 = 2 := by omega
          have e1' : f1 = 1 := by omega
          have e2' : f2 = 0 := by omega
          rw [e0, e1', e2', hout 2 (by omega), hzero 2 (by omega) (by omega),
            hout 1 (by omega), hin 1 (by omega), hout 0 (by omega), hin 0 (by omega)]
          exact and_tt_first
        · have l0 : f0 < sp.nr_in + 1 * t := by omega
          rw [hval f0 l0, hval f1 (by omega), hval f2 (by omega)]
          by_cases c2 : f2 < 2
          · by_cases c1 : f1 < 2
            · have e1' : f1 = 1 := by omega
              have e2' : f2 = 0 := by omega
              rw [if_neg (by omega), if_pos c1, if_pos c2, e1', e2']
              exact and_tt_inputs
            · rw [if_neg (by omega), if_neg c1]
              exact (majority_dup _ _).1
          · rw [if_neg (by omega), if_neg (by omega), if_neg c2]
            exact (majority_dup _ _).1
      · rw [if_neg hi]
        exact hand i hi1 (by omega)

/-- With two inputs and the majority target, the first call of `simulate` on a fence
    returns -1 if it returns. -/
theorem simulate_two_inputs (e0 e2 : ditt_maj_encoder) (f : fence) (val : Nat → Bool) (r : Int)
    (off : Nat) (hf : 1 ≤ f.nr_nodes)
    (hbase : cnf_sat val (add_base_cnf_clauses
      (cegar_layout_fence e0 ⟨2, f.nr_nodes, create_majority 2⟩ f)
      ⟨2, f.nr_nodes, create_majority 2⟩) = true)
    (hsim : simulate { clear_out_lits (cegar_layout_fence e0 ⟨2, f.nr_nodes, create_majority 2⟩ f)
        with iVar := off } ⟨2, f.nr_nodes, create_majority 2⟩ val = some (r, e2)) :
    r = -1 := by
  obtain ⟨h1, h2⟩ := simulate_split _ e2 _ val r hsim
  obtain ⟨e3, h3, -, -, hand⟩ := two_inputs_and
    (cegar_layout_fence e0 ⟨2, f.nr_nodes, create_majority 2⟩ f)
    { clear_out_lits (cegar_layout_fence e0 ⟨2, f.nr_nodes, create_majority 2⟩ f)
        with iVar := off }
    ⟨2, f.nr_nodes, create_majority 2⟩ val rfl
    (fun i k j h => cegar_layout_fence_sources e0 _ f i k j h)
    ((add_base_cnf_clauses_sat val _ _).1 hbase) rfl
    (fun x hx => cegar_layout_fence_inputs e0 _ f x hx)
    (fun x hx1 hx2 => cegar_layout_fence_steps e0 _ f x hx1 hx2)
    f.nr_nodes (Nat.le_refl _)
  unfold simulate_tts at h1
  rw [h3] at h1
  obtain rfl : e3 = e2 := Option.some.inj h1
  rw [h2, first_difference_none]
  intro m hm
  obtain ⟨m1, m2, -, -, hne⟩ := hm
  apply hne
  have hroot := hand (2 + f.nr_nodes - 1) (by show 2 ≤ _; omega) (by show _ < 2 + f.nr_nodes; omega)
  show e3.sim_tts (2 + f.nr_nodes - 1) m = create_majority 2 m
  rw [hroot]
  have hm4 : m < 4 := m2
  interval_cases m <;> decide
theorem nodup_bounded_length (l : List Nat) (N : Nat) (hnd : l.Nodup)
    (hlt : ∀ m ∈ l, m < N) : l.length ≤ N := by
  have hsub : l.toFinset ⊆ Finset.range N := by
    intro x hx
    rw [List.mem_toFinset] at hx
    exact Finset.mem_range.2 (hlt x hx)
  have := Finset.card_le_card hsub
  rw [List.toFinset_card_of_nodup hnd, Finset.card_range] at this
  exact this

/-- The count reported by a round of the driver is the number of minterms passed to
    `add_cnf`; when the fuel runs out, that number is the fuel. -/
theorem try_fence_trace (S : solver_wrapper) (nr_in : Nat) (target : truth_table)
    (e : ditt_maj_encoder) (f : fence) (fuel : Nat) :
    (∀ n e1, try_fence S nr_in target e f fuel = fence_outcome.found n e1 →
      n = (fence_trace S nr_in target e f fuel).length) ∧
    (try_fence S nr_in target e f fuel = fence_outcome.out_of_fuel →
      (fence_trace S nr_in target e f fuel).length = fuel) := by
  unfold try_fence fence_trace
  rcases hb : cegar_encode_fence S [] e ⟨nr_in, f.nr_nodes, target⟩ f with _ | ⟨b, e1, st1⟩
  · exact ⟨fun n e1 h => fence_outcome.noConfusion h, fun h => fence_outcome.noConfusion h⟩
  · cases b with
    | false =>
      exact ⟨fun n e1 h => fence_outcome.noConfusion h, fun h => fence_outcome.noConfusion h⟩
    | true =>
      simp only
      obtain ⟨a, b⟩ := cegar_loop_trace S ⟨nr_in, f.nr_nodes, target⟩ fuel e1 st1 0 0
      refine ⟨?_, b⟩
      intro n e2 h
      have := a n e2 h
      omega

/-- The minterms passed to `add_cnf` on one fence are pairwise distinct and below
    `2^nr_in`. -/
theorem fence_trace_nodup (S : solver_wrapper) (nr_in : Nat) (e0 : ditt_maj_encoder) (f : fence)
    (fuel : Nat) (hsound : ∀ cs val, S.solve cs = some val → cnf_sat val cs = true)
    (hf : 1 ≤ f.nr_nodes) :
    (fence_trace S nr_in (create_majority nr_in) e0 f fuel).Nodup ∧
    ∀ m ∈ fence_trace S nr_in (create_majority nr_in) e0 f fuel, m < 2 ^ nr_in := by
  by_cases hn : 3 ≤ nr_in
  · unfold fence_trace cegar_encode_fence add_base_cnf
    rcases hb : add_clauses S (add_base_cnf_clauses
        (cegar_layout_fence e0 ⟨nr_in, f.nr_nodes, create_majority nr_in⟩ f)
        ⟨nr_in, f.nr_nodes, create_majority nr_in⟩) [] with ⟨b, st1⟩
    cases b with
    | false => exact ⟨List.nodup_nil, fun m hm => by simp at hm⟩
    | true =>
      have hst1 := add_clauses_state S _ _ _ hb
      simp only
      have := cegar_trace_fresh S hsound ⟨nr_in, f.nr_nodes, create_majority nr_in⟩
        (cegar_layout_fence e0 ⟨nr_in, f.nr_nodes, create_majority nr_in⟩ f) hn hf
        (has_layout_cegar_layout_fence _ _ _)
        (fun i k j => (cegar_layout_fence_marks _ _ _ i k j).2) rfl fuel
        (clear_out_lits (cegar_layout_fence e0 ⟨nr_in, f.nr_nodes, create_majority nr_in⟩ f))
        st1 0 [] rfl (by simp [clear_out_lits])
        (fun x hx => cegar_layout_fence_inputs e0 _ f x hx)
        (by rw [hst1]; simp [cegar_clauses]) List.nodup_nil (fun m hm => by simp at hm)
        (Or.inr ⟨0, rfl, by positivity, by simp⟩)
      simpa using this
  · have hsingle : fence_trace S nr_in (create_majority nr_in) e0 f fuel = [] ∨
        fence_trace S nr_in (create_majority nr_in) e0 f fuel = [0] := by
      apply fence_trace_single S hsound
      intro val m2 e2 hbase hsim
      have hcases : nr_in = 0 ∨ nr_in = 1 ∨ nr_in = 2 := by omega
      rcases hcases with rfl | rfl | rfl
      · exact simulate_zero_inputs _ e2 _ val m2 rfl hsim
      · exact absurd hbase (one_input_unsat e0 f _ f.nr_nodes hf val)
      · exact simulate_two_inputs e0 e2 f val m2 _ hf hbase hsim
    rcases hsingle with h | h
    · rw [h]
      exact ⟨List.nodup_nil, fun m hm => by simp at hm⟩
    · rw [h]
      refine ⟨List.nodup_singleton 0, ?_⟩
      intro m hm
      rw [List.mem_singleton.1 hm]
      positivity

/-- C24. Within one fence of `ditt_maj_synthesize` (target the majority function, a
    fence with at least one node) and with a solver whose models satisfy all clauses
    added so far: the minterms passed to `add_cnf`, which are 0 followed by the minterms
    other than -1 that `simulate` returns, are pairwise distinct, so each returned
    minterm differs from 0 and from all minterms passed before; they lie below
    `2^nr_in`; hence there are at most `2^nr_in` of them, the count of a round that ends
    with "found solution" is at most `2^nr_in`, and the inner loop ends within
    `2^nr_in + 1` evaluations of its condition. -/
theorem cegar_minterms_distinct (S : solver_wrapper) (nr_in : Nat) (e0 : ditt_maj_encoder)
    (f : fence) (fuel : Nat)
    (hsound : ∀ cs val, S.solve cs = some val → cnf_sat val cs = true)
    (hf : 1 ≤ f.nr_nodes) :
    (fence_trace S nr_in (create_majority nr_in) e0 f fuel).Nodup ∧
    (∀ m ∈ fence_trace S nr_in (create_majority nr_in) e0 f fuel, m < 2 ^ nr_in) ∧
    (fence_trace S nr_in (create_majority nr_in) e0 f fuel = [] ∨
      ∃ r, fence_trace S nr_in (create_majority nr_in) e0 f fuel = 0 :: r ∧ ∀ m ∈ r, m ≠ 0) ∧
    (fence_trace S nr_in (create_majority nr_in) e0 f fuel).length ≤ 2 ^ nr_in ∧
    (∀ n e1, try_fence S nr_in (create_majority nr_in) e0 f fuel = fence_outcome.found n e1 →
      n = (fence_trace S nr_in (create_majority nr_in) e0 f fuel).length ∧ n ≤ 2 ^ nr_in) ∧
    (2 ^ nr_in < fuel →
      try_fence S nr_in (create_majority nr_in) e0 f fuel ≠ fence_outcome.out_of_fuel) := by
  obtain ⟨hnd, hlt⟩ := fence_trace_nodup S nr_in e0 f fuel hsound hf
  have hlen := nodup_bounded_length _ _ hnd hlt
  obtain ⟨ha, hb⟩ := try_fence_trace S nr_in (create_majority nr_in) e0 f fuel
  refine ⟨hnd, hlt, ?_, hlen, ?_, ?_⟩
  · rcases fence_trace_head S nr_in (create_majority nr_in) e0 f fuel with h | ⟨r, h⟩
    · exact Or.inl h
    · refine Or.inr ⟨r, h, ?_⟩
      intro m hm hm0
      rw [h, List.nodup_cons] at hnd
      rw [hm0] at hm
      exact hnd.1 hm
  · intro n e1 h
    have := ha n e1 h
    exact ⟨this, by omega⟩
  · intro hfuel h
    have := hb h
    omega

/-- Instance of C24: three inputs, the fence (1, 1), the reference solver, fuel 9. -/
theorem cegar_minterms_distinct_witness :
    (fence_trace brute_solver 3 (create_majority 3) fresh_encoder ⟨[1, 1]⟩ 9).Nodup ∧
    (fence_trace brute_solver 3 (create_majority 3) fresh_encoder ⟨[1, 1]⟩ 9).length ≤ 2 ^ 3 ∧
    try_fence brute_solver 3 (create_majority 3) fresh_encoder ⟨[1, 1]⟩ 9 ≠
      fence_outcome.out_of_fuel := by
  have h := cegar_minterms_distinct brute_solver 3 fresh_encoder ⟨[1, 1]⟩ 9
    brute_solver_correct.solve_sound (by decide)
  exact ⟨h.1, h.2.2.2.1, h.2.2.2.2.2 (by decide)⟩
/-! ## A refused clause in the base encoding -/

/-- The strict reference solver answers truthfully. -/
theorem strict_solver_correct : solver_correct strict_solver := by
  refine ⟨?_, ?_, ?_⟩
  · intro cs c h
    simp only [strict_solver] at h
    rintro ⟨val, hv⟩
    obtain ⟨a, ha, hav, -⟩ := all_models_complete (vars_bound (cs ++ [c])) val
    have hsat : cnf_sat a (cs ++ [c]) = true := by
      rw [cnf_sat_congr (cs ++ [c]) a val hav]
      exact hv
    have hany : ((all_models (vars_bound (cs ++ [c]))).any fun a => cnf_sat a (cs ++ [c]))
        = true := List.any_eq_true.2 ⟨a, ha, hsat⟩
    rw [h] at hany
    exact Bool.false_ne_true hany
  · intro cs val h
    simp only [strict_solver] at h
    exact @List.find?_some _ (fun a => cnf_sat a cs) val _ h
  · intro cs h
    simp only [strict_solver] at h
    rw [List.find?_eq_none] at h
    rintro ⟨val, hv⟩
    obtain ⟨a, ha, hav, -⟩ := all_models_complete (vars_bound cs) val
    apply h a ha
    rw [cnf_sat_congr cs a val hav]
    exact hv

theorem add_clauses_refused (S : solver_wrapper) (cs st : List (List Nat))
    (h : (add_clauses S cs st).1 = false) : ∃ st1, add_clauses S cs st = (false, st1) := by
  rcases hc : add_clauses S cs st with ⟨b, st1⟩
  rw [hc] at h
  simp only at h
  subst h
  exact ⟨st1, rfl⟩

/-- C9, the defect in the base encoding. Whenever `add_clause` answers false for a
    clause of the base CNF of the fence with index `t`, `add_base_cnf` runs into its
    `assert(false)`: `cegar_encode(spec, fence)` does not return, the round of the
    driver on this fence ends in the abort, and so does the driver, which does not go on
    with the next fence. A call of `cegar_encode` that returns always returns true, so
    the branch `if (!encoder.cegar_encode(spec, f)) continue;` of the driver is never
    taken. -/
theorem base_refusal_aborts_driver (S : solver_wrapper) (g : Nat → fence)
    (nr_in fuel rounds t : Nat) (e : ditt_maj_encoder)
    (hrefused : (add_clauses S (add_base_cnf_clauses
      (cegar_layout_fence e ⟨nr_in, (g t).nr_nodes, create_majority nr_in⟩ (g t))
      ⟨nr_in, (g t).nr_nodes, create_majority nr_in⟩) []).1 = false) :
    cegar_encode_fence S [] e ⟨nr_in, (g t).nr_nodes, create_majority nr_in⟩ (g t) = none ∧
    try_fence S nr_in (create_majority nr_in) e (g t) fuel = fence_outcome.assert_failed ∧
    synthesize_loop S g nr_in fuel (rounds + 1) t e = synth_outcome.aborted ∧
    (∀ e2, try_fence S nr_in (create_majority nr_in) e (g t) fuel ≠
      fence_outcome.next_fence e2) ∧
    (∀ (st st1 : List (List Nat)) (e0 e1 : ditt_maj_encoder) (sp : spec) (f : fence) (b : Bool),
      cegar_encode_fence S st e0 sp f = some (b, e1, st1) → b = true) := by
  obtain ⟨st1, h⟩ := add_clauses_refused S _ _ hrefused
  have henc : cegar_encode_fence S [] e ⟨nr_in, (g t).nr_nodes, create_majority nr_in⟩ (g t)
      = none := by
    unfold cegar_encode_fence add_base_cnf
    rw [h]
  have htry : try_fence S nr_in (create_majority nr_in) e (g t) fuel =
      fence_outcome.assert_failed := by
    unfold try_fence
    rw [henc]
  refine ⟨henc, htry, ?_, ?_, ?_⟩
  · rw [synthesize_loop, htry]
  · intro e2
    rw [htry]
    exact fun hc => fence_outcome.noConfusion hc
  · intro st st1 e0 e1 sp f b hb
    exact (cegar_encode_fence_result S st st1 e0 e1 sp f b hb).1

theorem fence_stream_zero : fence_stream 0 = ⟨[1]⟩ := by
  unfold fence_stream
  rw [fence_of_code]

/-- Failing input of C9: one input, a truthful solver, the stream of all fences. The
    first fence is (1); the first clause of its base CNF is empty (slot 0 of step 1 has
    no selector with a source below `nr_in + nr_steps`), the solver refuses it, and
    `ditt_maj_synthesize(1)` aborts on this fence instead of going on with the next. -/
theorem base_refusal_aborts_driver_witness :
    solver_correct strict_solver ∧
    (add_base_cnf_clauses
      (cegar_layout_fence fresh_encoder ⟨1, 1, create_majority 1⟩ ⟨[1]⟩)
      ⟨1, 1, create_majority 1⟩).head? = some [] ∧
    strict_solver.add_clause [] [] = false ∧
    try_fence strict_solver 1 (create_majority 1) fresh_encoder (fence_stream 0) 5 =
      fence_outcome.assert_failed ∧
    ditt_maj_synthesize strict_solver fence_stream 1 5 (4 + 1) = synth_outcome.aborted := by
  have h := base_refusal_aborts_driver strict_solver fence_stream 1 5 4 0 fresh_encoder
    (by rw [fence_stream_zero]; decide)
  exact ⟨strict_solver_correct, by decide, by decide, h.2.1, h.2.2.1⟩
end percy
